import Mathlib

/-!
# Compressed Continuous Computation (C3): piecewise polynomials, generic functions,
# qmarrays and function trains

A shallow embedding of the routines of `lib_funcs/piecewisepoly.c`,
`lib_funcs/functions.c` and `lib_clinalg/elements.c`, with the properties the
specification states about them.

Conventions of the embedding.

* `size_t` values are natural numbers below `SIZE_MOD = 2^64`; every `size_t`
  addition of the C code is written with an explicit `% SIZE_MOD`.
* A C function that reads through a NULL pointer or outside an allocated block
  has no defined result: the embedding returns `none` there.
* `double` values are kept abstract (a type `R`); the routines treated here only
  copy and compare them.
-/

namespace C3

/-- Number of values of the C type `size_t` (64-bit targets). -/
def SIZE_MOD : Nat := 2 ^ 64

/-! ## Piecewise polynomial trees (`piecewisepoly.h`, `piecewisepoly.c`) -/

/-- Fields of `struct OrthPolyExpansion` that the tree code reads
(`num_poly`, `lower_bound`, `upper_bound`, `coeff`, and the `ptype` of its
basis `p`).  The structure itself is declared by the polynomial backend. -/
structure OrthPolyExpansion (R : Type) where
  ptype : Int
  num_poly : Nat
  lower_bound : R
  upper_bound : R
  coeff : List R
deriving DecidableEq, Repr

/-- The tree `struct PiecewisePoly`.  A node with `leaf == 1` owns a polynomial
`ope` and has `branches == NULL`; a node with `leaf == 0` has `ope == NULL` and
owns `nbranches` children, here the list `branches` (so `nbranches` is its
length).  The payload type `O` is `OrthPolyExpansion R` in the numerical code. -/
inductive PiecewisePoly (O : Type) where
  | leaf (ope : O) : PiecewisePoly O
  | node (branches : List (PiecewisePoly O)) : PiecewisePoly O

namespace PiecewisePoly

variable {O : Type}

/-- The field `a->ope`: NULL (here `none`) on an interior node. -/
def ope : PiecewisePoly O → Option O
  | leaf o => some o
  | node _ => none

/-- The test `a->leaf == 1`. -/
def isLeaf : PiecewisePoly O → Bool
  | leaf _ => true
  | node _ => false

mutual
/-- The polynomials at the leaves, left to right. -/
def leaves : PiecewisePoly O → List O
  | leaf o => [o]
  | node bs => leavesList bs
/-- The leaves of a list of trees, left to right. -/
def leavesList : List (PiecewisePoly O) → List O
  | [] => []
  | b :: rest => leaves b ++ leavesList rest
end

/-- Number of leaves of a tree. -/
def nleaves (p : PiecewisePoly O) : Nat := (leaves p).length

mutual
/-- Every interior node has at least one child. -/
def nonemptyInterior : PiecewisePoly O → Bool
  | leaf _ => true
  | node bs => !bs.isEmpty && nonemptyInteriorList bs
/-- Every tree of the list has only non-empty interior nodes. -/
def nonemptyInteriorList : List (PiecewisePoly O) → Bool
  | [] => true
  | b :: rest => nonemptyInterior b && nonemptyInteriorList rest
end

end PiecewisePoly

open PiecewisePoly

section Regions

variable {O : Type}

mutual
/-- The C routine `piecewise_poly_nregions(size_t * N, a)`: the counter `*N` on
entry is the argument `N`, the result is the counter on return. -/
def piecewise_poly_nregions (N : Nat) : PiecewisePoly O → Nat
  | leaf _ => (N + 1) % SIZE_MOD
  | node bs => piecewise_poly_nregions_loop N bs
/-- The loop `for (ii = 0; ii < a->nbranches; ii++)` of
`piecewise_poly_nregions`. -/
def piecewise_poly_nregions_loop (N : Nat) : List (PiecewisePoly O) → Nat
  | [] => N
  | b :: rest => piecewise_poly_nregions_loop (piecewise_poly_nregions N b) rest
end

end Regions

section Bounds

variable {R : Type}

/-- The C routine `piecewise_poly_lb`: the lower bound of the leaf reached by
following `branches[0]`.  An interior node without children has no
`branches[0]`. -/
def piecewise_poly_lb : PiecewisePoly (OrthPolyExpansion R) → Option R
  | leaf o => some o.lower_bound
  | node [] => none
  | node (b :: _) => piecewise_poly_lb b

mutual
/-- The C routine `piecewise_poly_ub`: the upper bound of the leaf reached by
following `branches[nbranches-1]`. -/
def piecewise_poly_ub : PiecewisePoly (OrthPolyExpansion R) → Option R
  | leaf o => some o.upper_bound
  | node bs => piecewise_poly_ub_last bs
/-- The access `a->branches[a->nbranches-1]` of `piecewise_poly_ub`, followed
by the recursive call. -/
def piecewise_poly_ub_last : List (PiecewisePoly (OrthPolyExpansion R)) → Option R
  | [] => none
  | [b] => piecewise_poly_ub b
  | _ :: c :: rest => piecewise_poly_ub_last (c :: rest)
end

/-- The store `(*nodes)[k] = v` into an allocated block of `nodes.length`
doubles; outside the block there is no defined result. -/
def storeNode (nodes : List R) (k : Nat) (v : R) : Option (List R) :=
  if k < nodes.length then some (nodes.set k v) else none

mutual
/-- The branch `*onNum != 0` of `piecewise_poly_boundaries` (node array already
allocated): a leaf stores its upper bound at `*onNum` and advances `*onNum`, an
interior node calls `piecewise_poly_boundaries` on every child. -/
def piecewise_poly_boundaries_fill :
    PiecewisePoly (OrthPolyExpansion R) → List R → Nat → Option (List R × Nat)
  | leaf o, nodes, onNum =>
      (storeNode nodes onNum o.upper_bound).map fun nodes1 => (nodes1, (onNum + 1) % SIZE_MOD)
  | node bs, nodes, onNum => piecewise_poly_boundaries_loop bs nodes onNum
/-- The loop over `a->branches` in `piecewise_poly_boundaries`.  Each child is
entered through the test `*onNum == 0` of the routine. -/
def piecewise_poly_boundaries_loop :
    List (PiecewisePoly (OrthPolyExpansion R)) → List R → Nat → Option (List R × Nat)
  | [], nodes, onNum => some (nodes, onNum)
  | b :: rest, nodes, onNum =>
      (if onNum = 0 then
        (piecewise_poly_lb b).bind fun l =>
          (storeNode nodes 0 l).bind fun nodes1 => piecewise_poly_boundaries_fill b nodes1 1
      else piecewise_poly_boundaries_fill b nodes onNum).bind fun r =>
        piecewise_poly_boundaries_loop rest r.1 r.2
end

/-- The branch `*nodes != NULL` of `piecewise_poly_boundaries`: with
`*onNum == 0` the lower bound is stored at index 0 and the routine re-enters
itself with `*onNum = 1`. -/
def piecewise_poly_boundaries_alloc (a : PiecewisePoly (OrthPolyExpansion R))
    (nodes : List R) (onNum : Nat) : Option (List R × Nat) :=
  if onNum = 0 then
    (piecewise_poly_lb a).bind fun l =>
      (storeNode nodes 0 l).bind fun nodes1 => piecewise_poly_boundaries_fill a nodes1 1
  else piecewise_poly_boundaries_fill a nodes onNum

/-- The C routine `piecewise_poly_boundaries(a, &N, &nodes, onNum)`.  The
argument `nodes` is `none` for `*nodes == NULL` and `onNum` is `none` for a
NULL `onNum`; the result is the pair `(*N, *nodes)` on return.  With
`*nodes == NULL` the routine counts the regions, allocates `*N = nregions + 1`
zeroed doubles and, when `*N == 2`, reads the two bounds from `a->ope`. -/
def piecewise_poly_boundaries [Zero R] (a : PiecewisePoly (OrthPolyExpansion R))
    (N : Nat) (nodes : Option (List R)) (onNum : Option Nat) : Option (Nat × List R) :=
  match nodes with
  | none =>
      let nregions := piecewise_poly_nregions 0 a
      let N1 := (nregions + 1) % SIZE_MOD
      let nodes0 : List R := List.replicate N1 0
      if N1 = 2 then
        a.ope.bind fun o =>
          (storeNode nodes0 0 o.lower_bound).bind fun nodes1 =>
            (storeNode nodes1 1 o.upper_bound).map fun nodes2 => (N1, nodes2)
      else
        (piecewise_poly_boundaries_alloc a nodes0 0).map fun r => (N1, r.1)
  | some nodes0 =>
      match onNum with
      | none => none
      | some k => (piecewise_poly_boundaries_alloc a nodes0 k).map fun r => (N, r.1)

end Bounds

/-! ## Properties of the region count and of the boundary nodes -/

section RegionProofs

variable {O : Type}

theorem SIZE_MOD_pos : 0 < SIZE_MOD := by decide

theorem SIZE_MOD_eq : SIZE_MOD = 18446744073709551616 := by decide

@[simp] theorem leaves_leaf (o : O) : leaves (leaf o) = [o] := by
  simp [leaves]

@[simp] theorem leaves_node (bs : List (PiecewisePoly O)) :
    leaves (node bs) = leavesList bs := by
  simp [leaves]

@[simp] theorem leavesList_nil : leavesList ([] : List (PiecewisePoly O)) = [] := by
  simp [leavesList]

@[simp] theorem leavesList_cons (b : PiecewisePoly O) (rest : List (PiecewisePoly O)) :
    leavesList (b :: rest) = leaves b ++ leavesList rest := by
  simp [leavesList]

@[simp] theorem nleaves_leaf (o : O) : nleaves (leaf o) = 1 := by
  simp [nleaves]

mutual
theorem nregions_mod : (p : PiecewisePoly O) → ∀ N : Nat, N < SIZE_MOD →
    piecewise_poly_nregions N p = (N + nleaves p) % SIZE_MOD
  | leaf o => by
      intro N _
      simp [piecewise_poly_nregions]
  | node bs => by
      intro N hN
      have h := nregions_loop_mod bs N hN
      simpa [piecewise_poly_nregions, nleaves] using h
theorem nregions_loop_mod : (bs : List (PiecewisePoly O)) → ∀ N : Nat, N < SIZE_MOD →
    piecewise_poly_nregions_loop N bs = (N + (leavesList bs).length) % SIZE_MOD
  | [] => by
      intro N hN
      simp [piecewise_poly_nregions_loop, Nat.mod_eq_of_lt hN]
  | b :: rest => by
      intro N hN
      have h1 := nregions_mod b N hN
      have h2 := nregions_loop_mod rest (piecewise_poly_nregions N b)
        (by rw [h1]; exact Nat.mod_lt _ SIZE_MOD_pos)
      rw [piecewise_poly_nregions_loop, h2, h1]
      simp only [leavesList_cons, List.length_append, nleaves]
      rw [Nat.mod_add_mod]
      congr 1
      omega
end

end RegionProofs

section BoundaryProofs

variable {R : Type}

/-- The node array `nodes` with the block starting at index `k` overwritten by
the values `vs`. -/
def splice (nodes : List R) (k : Nat) (vs : List R) : List R :=
  nodes.take k ++ vs ++ nodes.drop (k + vs.length)

theorem splice_length (nodes : List R) (k : Nat) (vs : List R)
    (h : k + vs.length ≤ nodes.length) : (splice nodes k vs).length = nodes.length := by
  simp only [splice, List.length_append, List.length_take, List.length_drop]
  omega

theorem splice_nil (nodes : List R) (k : Nat) : splice nodes k [] = nodes := by
  simp [splice]

theorem splice_splice (nodes : List R) (k : Nat) (vs ws : List R)
    (h : k + vs.length ≤ nodes.length) :
    splice (splice nodes k vs) (k + vs.length) ws = splice nodes k (vs ++ ws) := by
  have hlen : (nodes.take k ++ vs).length = k + vs.length := by
    simp only [List.length_append, List.length_take]
    omega
  have h1 : (splice nodes k vs).take (k + vs.length) = nodes.take k ++ vs := by
    unfold splice
    exact List.take_left' hlen
  have h2 : (splice nodes k vs).drop (k + vs.length + ws.length)
      = nodes.drop (k + (vs ++ ws).length) := by
    unfold splice
    rw [← hlen, List.drop_append, List.drop_drop, hlen, List.length_append]
    congr 1
    omega
  calc splice (splice nodes k vs) (k + vs.length) ws
      = (splice nodes k vs).take (k + vs.length) ++ ws
          ++ (splice nodes k vs).drop (k + vs.length + ws.length) := rfl
    _ = nodes.take k ++ vs ++ ws ++ nodes.drop (k + (vs ++ ws).length) := by rw [h1, h2]
    _ = splice nodes k (vs ++ ws) := by simp [splice, List.append_assoc]

theorem storeNode_eq (nodes : List R) (k : Nat) (v : R) :
    storeNode nodes k v = if k < nodes.length then some (splice nodes k [v]) else none := by
  unfold storeNode
  split
  · next h =>
    rw [List.set_eq_take_append_cons_drop, if_pos h]
    simp [splice]
  · rfl

/-- The upper bounds of the leaves, left to right. -/
def leafUbs (p : PiecewisePoly (OrthPolyExpansion R)) : List R :=
  (leaves p).map fun o => o.upper_bound

mutual
theorem boundaries_fill_eq : (p : PiecewisePoly (OrthPolyExpansion R)) →
    ∀ (nodes : List R) (k : Nat), 0 < k → k ≤ nodes.length → nodes.length < SIZE_MOD →
    piecewise_poly_boundaries_fill p nodes k =
      if k + nleaves p ≤ nodes.length then
        some (splice nodes k (leafUbs p), k + nleaves p)
      else none
  | leaf o => by
      intro nodes k _ _ hlen
      rw [piecewise_poly_boundaries_fill, storeNode_eq]
      by_cases h : k < nodes.length
      · have h2 : (k + 1) % SIZE_MOD = k + 1 := Nat.mod_eq_of_lt (by omega)
        have h3 : k + 1 ≤ nodes.length := h
        simp [h, h2, h3, leafUbs]
      · have h3 : ¬ (k + 1 ≤ nodes.length) := by omega
        simp [h, h3]
  | node bs => by
      intro nodes k hk hk2 hlen
      have h := boundaries_loop_eq bs nodes k hk hk2 hlen
      simpa [piecewise_poly_boundaries_fill, nleaves, leafUbs] using h
theorem boundaries_loop_eq : (bs : List (PiecewisePoly (OrthPolyExpansion R))) →
    ∀ (nodes : List R) (k : Nat), 0 < k → k ≤ nodes.length → nodes.length < SIZE_MOD →
    piecewise_poly_boundaries_loop bs nodes k =
      if k + (leavesList bs).length ≤ nodes.length then
        some (splice nodes k ((leavesList bs).map fun o => o.upper_bound),
          k + (leavesList bs).length)
      else none
  | [] => by
      intro nodes k _ h _
      simp [piecewise_poly_boundaries_loop, h, splice_nil]
  | b :: rest => by
      intro nodes k hk hk2 hlen
      have hb := boundaries_fill_eq b nodes k hk hk2 hlen
      rw [piecewise_poly_boundaries_loop, if_neg (by omega), hb]
      by_cases h1 : k + nleaves b ≤ nodes.length
      · have hl : (leafUbs b).length = nleaves b := by simp [leafUbs, nleaves]
        have hlen2 : (splice nodes k (leafUbs b)).length = nodes.length :=
          splice_length nodes k (leafUbs b) (by omega)
        have hr := boundaries_loop_eq rest (splice nodes k (leafUbs b)) (k + nleaves b)
          (by omega) (by omega) (by omega)
        rw [if_pos h1, Option.some_bind, hr, hlen2]
        have hsp := splice_splice nodes k (leafUbs b)
          ((leavesList rest).map fun o => o.upper_bound) (by omega)
        rw [hl] at hsp
        rw [hsp]
        have e : k + nleaves b + (leavesList rest).length
            = k + (leavesList (b :: rest)).length := by
          simp [nleaves, Nat.add_assoc]
        have e2 : leafUbs b ++ (leavesList rest).map (fun o => o.upper_bound)
            = (leavesList (b :: rest)).map fun o => o.upper_bound := by
          simp [leafUbs]
        rw [e, e2]
      · have h3 : ¬ (k + (leavesList (b :: rest)).length ≤ nodes.length) := by
          simp only [leavesList_cons, List.length_append]
          simp only [nleaves] at h1
          omega
        rw [if_neg h1, if_neg h3]
        rfl
end

theorem ope_eq_some {O : Type} (p : PiecewisePoly O) (o : O) (h : p.ope = some o) :
    p = leaf o := by
  cases p with
  | leaf o1 => simp [PiecewisePoly.ope] at h; rw [h]
  | node bs => simp [PiecewisePoly.ope] at h

theorem lb_some_head : (p : PiecewisePoly (OrthPolyExpansion R)) → ∀ l : R,
    piecewise_poly_lb p = some l → ∃ o os, leaves p = o :: os ∧ o.lower_bound = l
  | leaf o => by
      intro l h
      simp only [piecewise_poly_lb, Option.some.injEq] at h
      exact ⟨o, [], by simp, h⟩
  | node [] => by
      intro l h
      simp [piecewise_poly_lb] at h
  | node (b :: rest) => by
      intro l h
      rw [piecewise_poly_lb] at h
      obtain ⟨o, os, h1, h2⟩ := lb_some_head b l h
      exact ⟨o, os ++ leavesList rest, by simp [h1], h2⟩

theorem lb_isSome_of_nonemptyInterior : (p : PiecewisePoly (OrthPolyExpansion R)) →
    nonemptyInterior p = true → (piecewise_poly_lb p).isSome = true
  | leaf o => by
      intro _
      simp [piecewise_poly_lb]
  | node [] => by
      intro h
      simp [nonemptyInterior] at h
  | node (b :: rest) => by
      intro h
      rw [piecewise_poly_lb]
      apply lb_isSome_of_nonemptyInterior b
      simp [nonemptyInterior, nonemptyInteriorList] at h
      exact h.1

theorem boundaries_first_pass [Zero R] (p : PiecewisePoly (OrthPolyExpansion R)) (N : Nat)
    (onNum : Option Nat) :
    piecewise_poly_boundaries p N none onNum =
      if nleaves p + 1 < SIZE_MOD then
        if nleaves p = 1 then
          p.ope.map fun o => (2, [o.lower_bound, o.upper_bound])
        else
          (piecewise_poly_lb p).map fun l => (nleaves p + 1, l :: leafUbs p)
      else none := by
  have hreg : piecewise_poly_nregions 0 p = nleaves p % SIZE_MOD := by
    have h := nregions_mod p 0 SIZE_MOD_pos
    simpa using h
  simp only [piecewise_poly_boundaries, hreg]
  by_cases hfit : nleaves p + 1 < SIZE_MOD
  · have e1 : nleaves p % SIZE_MOD = nleaves p := Nat.mod_eq_of_lt (by omega)
    have e2 : (nleaves p + 1) % SIZE_MOD = nleaves p + 1 := Nat.mod_eq_of_lt hfit
    rw [if_pos hfit, e1, e2]
    by_cases h1 : nleaves p = 1
    · rw [if_pos h1, if_pos (by omega)]
      cases hope : p.ope with
      | none => rfl
      | some o => simp [h1, storeNode, List.replicate]
    · rw [if_neg h1, if_neg (by omega)]
      unfold piecewise_poly_boundaries_alloc
      rw [if_pos rfl]
      cases hlb : piecewise_poly_lb p with
      | none => rfl
      | some l =>
        have hst : storeNode (List.replicate (nleaves p + 1) (0 : R)) 0 l
            = some (l :: List.replicate (nleaves p) 0) := by
          simp [storeNode, List.replicate_succ]
        have hfill := boundaries_fill_eq p (l :: List.replicate (nleaves p) 0) 1
          (by omega) (by simp) (by simp; omega)
        have hcond : 1 + nleaves p ≤ (l :: List.replicate (nleaves p) (0 : R)).length := by
          simp; omega
        rw [if_pos hcond] at hfill
        have hl : (leafUbs p).length = nleaves p := by simp [leafUbs, nleaves]
        have hsp : splice (l :: List.replicate (nleaves p) (0 : R)) 1 (leafUbs p)
            = l :: leafUbs p := by
          have hd : List.drop (nleaves p) (List.replicate (nleaves p) (0 : R)) = [] :=
            List.drop_eq_nil_of_le (by simp)
          simp [splice, hl, Nat.add_comm 1, hd]
        simp [hst, hfill, hsp]
  · rw [if_neg hfit]
    have hKlt : (nleaves p % SIZE_MOD + 1) % SIZE_MOD < SIZE_MOD := Nat.mod_lt _ SIZE_MOD_pos
    generalize (nleaves p % SIZE_MOD + 1) % SIZE_MOD = K at hKlt
    by_cases h2 : K = 2
    · rw [if_pos h2]
      cases hope : p.ope with
      | none => rfl
      | some o =>
        exfalso
        have hp := ope_eq_some p o hope
        rw [hp] at hfit
        simp [SIZE_MOD] at hfit
    · rw [if_neg h2]
      unfold piecewise_poly_boundaries_alloc
      rw [if_pos rfl]
      cases hlb : piecewise_poly_lb p with
      | none => rfl
      | some l =>
        simp only [Option.some_bind]
        by_cases h0 : K = 0
        · simp [storeNode, h0]
        · have hst : storeNode (List.replicate K (0 : R)) 0 l
              = some ((List.replicate K (0 : R)).set 0 l) := by
            simp [storeNode]
            omega
          have hfill := boundaries_fill_eq p ((List.replicate K (0 : R)).set 0 l) 1
            (by omega) (by simp; omega) (by simpa using hKlt)
          have hcond : ¬ (1 + nleaves p ≤ ((List.replicate K (0 : R)).set 0 l).length) := by
            simp; omega
          rw [if_neg hcond] at hfill
          simp [hst, hfill]

end BoundaryProofs

section BoundaryClaims

variable {R : Type}

/-- A tree on `[0,3]` with the leaves `[0,1]` and `[1,3]`, the second one
wrapped in an interior node. -/
def sampleTree : PiecewisePoly (OrthPolyExpansion Int) :=
  node [leaf ⟨0, 1, 0, 1, []⟩, node [leaf ⟨0, 1, 1, 3, []⟩]]

/-- Consecutive polynomials share their boundary: the upper bound of each is
the lower bound of the next. -/
def sharedBoundaries : List (OrthPolyExpansion R) → Prop
  | [] => True
  | [_] => True
  | a :: b :: rest => a.upper_bound = b.lower_bound ∧ sharedBoundaries (b :: rest)

theorem chain_upper_bounds [Preorder R] : (ls : List (OrthPolyExpansion R)) →
    ∀ o : OrthPolyExpansion R, (∀ q ∈ ls, q.lower_bound < q.upper_bound) →
    sharedBoundaries (o :: ls) →
    List.Chain (· < ·) o.upper_bound (ls.map fun q => q.upper_bound)
  | [] => by
      intro o _ _
      exact List.Chain.nil
  | q :: qs => by
      intro o hlt hsh
      simp only [sharedBoundaries] at hsh
      have hq : q.lower_bound < q.upper_bound := hlt q (by simp)
      have ih := chain_upper_bounds qs q (fun r hr => hlt r (by simp [hr])) hsh.2
      simp only [List.map_cons]
      exact List.Chain.cons (by rw [hsh.1]; exact hq) ih

theorem boundary_nodes_increasing [Preorder R] (o : OrthPolyExpansion R)
    (os : List (OrthPolyExpansion R))
    (hlt : ∀ q ∈ o :: os, q.lower_bound < q.upper_bound)
    (hsh : sharedBoundaries (o :: os)) :
    List.Pairwise (· < ·) (o.lower_bound :: (o :: os).map fun q => q.upper_bound) := by
  rw [← List.chain_iff_pairwise]
  simp only [List.map_cons]
  refine List.Chain.cons (hlt o (by simp)) ?_
  exact chain_upper_bounds os o (fun r hr => hlt r (by simp [hr])) hsh

/-- C1: `piecewise_poly_nregions` adds the number of leaves of `p` to the
counter (in `size_t` arithmetic, exactly when the sum is representable), and
started from 0 it yields the number of leaves. -/
theorem piecewise_poly_nregions_counts_leaves {O : Type} (p : PiecewisePoly O) (N0 : Nat)
    (hN0 : N0 < SIZE_MOD) :
    piecewise_poly_nregions N0 p = (N0 + nleaves p) % SIZE_MOD ∧
    (N0 + nleaves p < SIZE_MOD → piecewise_poly_nregions N0 p = N0 + nleaves p) ∧
    (nleaves p < SIZE_MOD → piecewise_poly_nregions 0 p = nleaves p) := by
  refine ⟨nregions_mod p N0 hN0, ?_, ?_⟩
  · intro h
    rw [nregions_mod p N0 hN0, Nat.mod_eq_of_lt h]
  · intro h
    rw [nregions_mod p 0 SIZE_MOD_pos, Nat.zero_add, Nat.mod_eq_of_lt h]

theorem piecewise_poly_nregions_counts_leaves_witness :
    (5 : Nat) < SIZE_MOD ∧
    (piecewise_poly_nregions 5 (node [leaf (), node [leaf (), leaf ()], node []])
        = (5 + nleaves (node [leaf (), node [leaf (), leaf ()], node []])) % SIZE_MOD ∧
      (5 + nleaves (node [leaf (), node [leaf (), leaf ()], node []]) < SIZE_MOD →
        piecewise_poly_nregions 5 (node [leaf (), node [leaf (), leaf ()], node []])
          = 5 + nleaves (node [leaf (), node [leaf (), leaf ()], node []])) ∧
      (nleaves (node [leaf (), node [leaf (), leaf ()], node []]) < SIZE_MOD →
        piecewise_poly_nregions 0 (node [leaf (), node [leaf (), leaf ()], node []])
          = nleaves (node [leaf (), node [leaf (), leaf ()], node []]))) :=
  ⟨by decide,
    piecewise_poly_nregions_counts_leaves
      (node [leaf (), node [leaf (), leaf ()], node []]) 5 (by decide)⟩

/-- C2: at an interior node that wraps a single leaf, `piecewise_poly_boundaries`
called with an unallocated node array counts one region, takes the shortcut for
`*N == 2` and reads the bounds through `a->ope`, which is NULL on an interior
node: no node array is produced, although the lower and the upper bound of the
tree are those of the leaf. -/
theorem piecewise_poly_boundaries_interior_single_leaf [Zero R] (o : OrthPolyExpansion R)
    (N : Nat) (onNum : Option Nat) :
    nonemptyInterior (node [leaf o]) = true ∧
    piecewise_poly_nregions 0 (node [leaf o]) = 1 ∧
    piecewise_poly_lb (node [leaf o]) = some o.lower_bound ∧
    piecewise_poly_ub (node [leaf o]) = some o.upper_bound ∧
    piecewise_poly_boundaries (node [leaf o]) N none onNum = none := by
  refine ⟨rfl, rfl, rfl, rfl, rfl⟩

/-- C3: when every leaf has `lower_bound < upper_bound` and consecutive leaves
share their boundary, every node array produced by `piecewise_poly_boundaries`
(called with an unallocated array) has `nregions + 1` entries and is strictly
increasing; an array is produced for every tree with non-empty interior nodes
that is a leaf or has at least two leaves. -/
theorem piecewise_poly_boundaries_strictly_increasing [Zero R] [Preorder R]
    (p : PiecewisePoly (OrthPolyExpansion R)) (N : Nat) (onNum : Option Nat)
    (hlt : ∀ o ∈ leaves p, o.lower_bound < o.upper_bound)
    (hsh : sharedBoundaries (leaves p)) :
    (∀ N1 nodes, piecewise_poly_boundaries p N none onNum = some (N1, nodes) →
        List.Pairwise (· < ·) nodes ∧ N1 = nleaves p + 1 ∧ nodes.length = N1) ∧
    (nonemptyInterior p = true → (p.isLeaf = true ∨ 2 ≤ nleaves p) →
        nleaves p + 1 < SIZE_MOD →
        (piecewise_poly_boundaries p N none onNum).isSome = true) := by
  have hmain : ∀ l : R, piecewise_poly_lb p = some l →
      List.Pairwise (· < ·) (l :: leafUbs p) := by
    intro l hl
    obtain ⟨o, os, h1, h2⟩ := lb_some_head p l hl
    rw [h1] at hlt hsh
    have := boundary_nodes_increasing o os hlt hsh
    rw [← h2]
    simpa [leafUbs, h1] using this
  constructor
  · intro N1 nodes h
    rw [boundaries_first_pass] at h
    by_cases hfit : nleaves p + 1 < SIZE_MOD
    · rw [if_pos hfit] at h
      by_cases h1 : nleaves p = 1
      · rw [if_pos h1] at h
        cases hope : p.ope with
        | none => simp [hope] at h
        | some o =>
          have hp := ope_eq_some p o hope
          simp only [hope, Option.map_some', Option.some.injEq, Prod.mk.injEq] at h
          have hs := hmain o.lower_bound (by rw [hp]; rfl)
          rw [hp] at hs
          simp only [leafUbs, leaves_leaf, List.map_cons, List.map_nil] at hs
          rw [← h.2, ← h.1, h1]
          exact ⟨hs, rfl, rfl⟩
      · rw [if_neg h1] at h
        cases hlb : piecewise_poly_lb p with
        | none => simp [hlb] at h
        | some l =>
          simp only [hlb, Option.map_some', Option.some.injEq, Prod.mk.injEq] at h
          rw [← h.2, ← h.1]
          exact ⟨hmain l hlb, rfl, by simp [leafUbs, nleaves]⟩
    · rw [if_neg hfit] at h
      simp at h
  · intro hne hshape hfit
    rw [boundaries_first_pass, if_pos hfit]
    have hlbs := lb_isSome_of_nonemptyInterior p hne
    by_cases h1 : nleaves p = 1
    · rw [if_pos h1]
      rcases hshape with hleaf | h2
      · cases p with
        | leaf o => rfl
        | node bs => simp [PiecewisePoly.isLeaf] at hleaf
      · omega
    · rw [if_neg h1]
      simpa using hlbs

theorem piecewise_poly_boundaries_strictly_increasing_witness :
    (∀ o ∈ leaves sampleTree, o.lower_bound < o.upper_bound) ∧
    sharedBoundaries (leaves sampleTree) ∧
    ((∀ N1 nodes, piecewise_poly_boundaries sampleTree 0 none none = some (N1, nodes) →
        List.Pairwise (· < ·) nodes ∧ N1 = nleaves sampleTree + 1 ∧ nodes.length = N1) ∧
      (nonemptyInterior sampleTree = true →
        (sampleTree.isLeaf = true ∨ 2 ≤ nleaves sampleTree) →
        nleaves sampleTree + 1 < SIZE_MOD →
        (piecewise_poly_boundaries sampleTree 0 none none).isSome = true)) :=
  ⟨by simp [sampleTree], ⟨rfl, trivial⟩,
    piecewise_poly_boundaries_strictly_increasing sampleTree 0 none
      (by simp [sampleTree]) ⟨rfl, trivial⟩⟩

end BoundaryClaims

/-! ## Byte streams (`stringmanip.h`) -/

/-- One `unsigned char` of a serialization buffer. -/
abbrev Byte := Fin 256

/-- The C constant `sizeof(int)`. -/
def sizeof_int : Nat := 4

/-- The C constant `sizeof(size_t)`. -/
def sizeof_size_t : Nat := 8

/-- Number of values of the C type `int`. -/
def INT_MOD : Nat := 2 ^ 32

/-- The `w` low-order bytes of `v`, least significant first: the object
representation that `memcpy` copies out of an unsigned integer of `w` bytes. -/
def le_bytes : Nat → Nat → List Byte
  | 0, _ => []
  | w + 1, v => ⟨v % 256, Nat.mod_lt v (by decide)⟩ :: le_bytes w (v / 256)

/-- The unsigned integer whose object representation is the given bytes. -/
def le_value : List Byte → Nat
  | [] => 0
  | b :: bs => b.val + 256 * le_value bs

/-- Modelled from the spec: `serialize_size_t` of `stringmanip.c`, which is not
among the sources.  The spec gives every `size_t` field `sizeof(size_t)` bytes
of the stream; the routine appends the object representation of `v` at the
write pointer (the end of `ser`) and returns the advanced pointer. -/
def serialize_size_t (ser : List Byte) (v : Nat) : List Byte :=
  ser ++ le_bytes sizeof_size_t v

/-- Modelled from the spec: `deserialize_size_t` of `stringmanip.c`.  It reads
`sizeof(size_t)` bytes at the read pointer and returns the value with the
advanced pointer (the bytes that remain); fewer bytes than that is a read
outside the buffer. -/
def deserialize_size_t (ser : List Byte) : Option (Nat × List Byte) :=
  if sizeof_size_t ≤ ser.length then
    some (le_value (ser.take sizeof_size_t), ser.drop sizeof_size_t)
  else none

/-- Modelled from the spec: `serialize_int` of `stringmanip.c`: the
two's-complement object representation of `v` on `sizeof(int)` bytes. -/
def serialize_int (ser : List Byte) (v : Int) : List Byte :=
  ser ++ le_bytes sizeof_int (v % (INT_MOD : Int)).toNat

/-- Modelled from the spec: `deserialize_int` of `stringmanip.c`. -/
def deserialize_int (ser : List Byte) : Option (Int × List Byte) :=
  if sizeof_int ≤ ser.length then
    let u := le_value (ser.take sizeof_int)
    some (if u < INT_MOD / 2 then (u : Int) else (u : Int) - (INT_MOD : Int), ser.drop sizeof_int)
  else none

/-- The test "`v` is a value of the C type `int`". -/
def isInt (v : Int) : Bool := decide (-(2 ^ 31 : Int) ≤ v) && decide (v < (2 ^ 31 : Int))

/-- The serialization routines of an external backend for payloads of type `T`
(`serialize_orth_poly_expansion` / `deserialize_orth_poly_expansion` for the
polynomial backend, `serialize_lin_elem_exp` / `deserialize_lin_elem_exp` for
the linear-element backend).  `bytes x` is what write mode stores at the write
pointer, `size x` is what size-query mode stores in `*totSizeIn`, and `read`
is the deserializer: the payload with the advanced read pointer. -/
structure BackendCodec (T : Type) where
  bytes : T → List Byte
  size : T → Nat
  read : List Byte → Option (T × List Byte)

/-- The backend's deserializer inverts its serializer and consumes exactly the
bytes it wrote. -/
def BackendCodec.RoundTrip {T : Type} (c : BackendCodec T) : Prop :=
  ∀ (x : T) (rest : List Byte), c.read (c.bytes x ++ rest) = some (x, rest)

/-- The size the backend reports is the number of bytes it writes. -/
def BackendCodec.SizeExact {T : Type} (c : BackendCodec T) : Prop :=
  ∀ x : T, c.size x = (c.bytes x).length

/-- Reads `n` consecutive items with the reader `rd`, as the deserialization
loops `for (ii = 0; ii < n; ii++) ptr = deserialize(ptr, &item[ii])` do. -/
def readMany {α : Type} (rd : List Byte → Option (α × List Byte)) :
    Nat → List Byte → Option (List α × List Byte)
  | 0, ptr => some ([], ptr)
  | n + 1, ptr =>
      (rd ptr).bind fun r =>
        (readMany rd n r.2).bind fun rs => some (r.1 :: rs.1, rs.2)

/-- The elements `arr[0..n-1]` of an allocated block of `arr.length` elements;
no defined result when the block is shorter. -/
def firstN {α : Type} (arr : List α) (n : Nat) : Option (List α) :=
  if n ≤ arr.length then some (arr.take n) else none

section PwSerialize

variable {O : Type}

mutual
/-- The write mode (`totSizeIn == NULL`) of `serialize_piecewise_poly`: the leaf
flag as an `int`, then either the backend bytes of the leaf polynomial or
`nbranches` as a `size_t` followed by the children in order.  The result is
the buffer up to the returned pointer. -/
def serialize_piecewise_poly (cod : BackendCodec O) (ser : List Byte) :
    PiecewisePoly O → List Byte
  | leaf o => serialize_int ser 1 ++ cod.bytes o
  | node bs =>
      serialize_piecewise_poly_loop cod (serialize_size_t (serialize_int ser 0) bs.length) bs
/-- The loop over the children in the write mode of `serialize_piecewise_poly`. -/
def serialize_piecewise_poly_loop (cod : BackendCodec O) (ptr : List Byte) :
    List (PiecewisePoly O) → List Byte
  | [] => ptr
  | b :: rest => serialize_piecewise_poly_loop cod (serialize_piecewise_poly cod ptr b) rest
end

mutual
/-- The size-query mode (`totSizeIn != NULL`) of `serialize_piecewise_poly`: the
value stored in `*totSizeIn`.  An interior node starts from the size of
`branches[0]`, which does not exist when `nbranches == 0`. -/
def serialize_piecewise_poly_size (cod : BackendCodec O) : PiecewisePoly O → Option Nat
  | leaf o => some ((cod.size o + sizeof_int) % SIZE_MOD)
  | node [] => none
  | node (b :: rest) =>
      (serialize_piecewise_poly_size cod b).bind fun totsize =>
        (serialize_piecewise_poly_size_loop cod totsize rest).bind fun totsize1 =>
          some (((totsize1 + sizeof_size_t) % SIZE_MOD + sizeof_int) % SIZE_MOD)
/-- The loop `for (ii = 1; ii < p->nbranches; ii++)` of the size-query mode. -/
def serialize_piecewise_poly_size_loop (cod : BackendCodec O) (totsize : Nat) :
    List (PiecewisePoly O) → Option Nat
  | [] => some totsize
  | b :: rest =>
      (serialize_piecewise_poly_size cod b).bind fun tsize =>
        serialize_piecewise_poly_size_loop cod ((totsize + tsize) % SIZE_MOD) rest
end

/-- The body of `deserialize_piecewise_poly`, with the depth of recursion
bounded by `fuel`. -/
def deserialize_piecewise_poly_fuel (cod : BackendCodec O) :
    Nat → List Byte → Option (PiecewisePoly O × List Byte)
  | 0, _ => none
  | fuel + 1, ser =>
      (deserialize_int ser).bind fun r =>
        if r.1 = 1 then
          (cod.read r.2).bind fun o => some (leaf o.1, o.2)
        else
          (deserialize_size_t r.2).bind fun nb =>
            (readMany (deserialize_piecewise_poly_fuel cod fuel) nb.1 nb.2).bind fun bs =>
              some (node bs.1, bs.2)

/-- The C routine `deserialize_piecewise_poly(ser, &poly)`: the tree with the
advanced read pointer.  Every level of the recursion consumes at least the
`int` leaf flag, so the length of the input bounds the depth. -/
def deserialize_piecewise_poly (cod : BackendCodec O) (ser : List Byte) :
    Option (PiecewisePoly O × List Byte) :=
  deserialize_piecewise_poly_fuel cod (ser.length + 1) ser

mutual
/-- Every `nbranches` of the tree is a `size_t` value. -/
def branchesFit : PiecewisePoly O → Bool
  | leaf _ => true
  | node bs => decide (bs.length < SIZE_MOD) && branchesFitList bs
/-- Every tree of the list satisfies `branchesFit`. -/
def branchesFitList : List (PiecewisePoly O) → Bool
  | [] => true
  | b :: rest => branchesFit b && branchesFitList rest
end

end PwSerialize

/-- A one-byte backend for payloads of type `Bool`, used to exercise the
routines. -/
def boolCodec : BackendCodec Bool where
  bytes := fun b => [if b then 1 else 0]
  size := fun _ => 1
  read := fun ser =>
    match ser with
    | [] => none
    | b :: rest => some (decide (b = 1), rest)

/-! ## Round trip of the primitive fields -/

theorem le_bytes_length : ∀ (w v : Nat), (le_bytes w v).length = w
  | 0, _ => rfl
  | w + 1, v => by simp [le_bytes, le_bytes_length w]

theorem le_value_le_bytes : ∀ (w v : Nat), le_value (le_bytes w v) = v % 256 ^ w
  | 0, v => by simp [le_bytes, le_value, Nat.mod_one]
  | w + 1, v => by
      simp only [le_bytes, le_value, le_value_le_bytes w]
      rw [pow_succ, Nat.mul_comm (256 ^ w) 256, Nat.mod_mul]

theorem serialize_size_t_eq (ser : List Byte) (v : Nat) :
    serialize_size_t ser v = ser ++ serialize_size_t [] v := by
  simp [serialize_size_t]

theorem serialize_int_eq (ser : List Byte) (v : Int) :
    serialize_int ser v = ser ++ serialize_int [] v := by
  simp [serialize_int]

theorem serialize_size_t_length (v : Nat) : (serialize_size_t [] v).length = sizeof_size_t := by
  simp [serialize_size_t, le_bytes_length]

theorem serialize_int_length (v : Int) : (serialize_int [] v).length = sizeof_int := by
  simp [serialize_int, le_bytes_length]

theorem deserialize_size_t_serialize (v : Nat) (hv : v < SIZE_MOD) (rest : List Byte) :
    deserialize_size_t (serialize_size_t [] v ++ rest) = some (v, rest) := by
  have hlen : (le_bytes sizeof_size_t v).length = sizeof_size_t := le_bytes_length _ _
  have hval : le_value (le_bytes sizeof_size_t v) = v := by
    rw [le_value_le_bytes]
    exact Nat.mod_eq_of_lt hv
  simp only [deserialize_size_t, serialize_size_t, List.nil_append]
  rw [if_pos (by simp [hlen]), List.take_left' hlen, List.drop_left' hlen, hval]

theorem deserialize_int_serialize (v : Int) (hv : isInt v = true) (rest : List Byte) :
    deserialize_int (serialize_int [] v ++ rest) = some (v, rest) := by
  have hlen : (le_bytes sizeof_int (v % (INT_MOD : Int)).toNat).length = sizeof_int :=
    le_bytes_length _ _
  simp only [isInt, Bool.and_eq_true, decide_eq_true_eq] at hv
  have hmod : (256 : Nat) ^ sizeof_int = 4294967296 := by decide
  have hM : (INT_MOD : Int) = 4294967296 := by decide
  have hM2 : INT_MOD / 2 = 2147483648 := by decide
  have hval : le_value (le_bytes sizeof_int (v % (INT_MOD : Int)).toNat)
      = (v % (INT_MOD : Int)).toNat := by
    rw [le_value_le_bytes, hmod, hM]
    apply Nat.mod_eq_of_lt
    omega
  simp only [deserialize_int, serialize_int, List.nil_append]
  rw [if_pos (by simp [hlen]), List.take_left' hlen, List.drop_left' hlen, hval, hM, hM2]
  congr 2
  split <;> omega

theorem readMany_roundtrip {α : Type} (rd : List Byte → Option (α × List Byte))
    (enc : α → List Byte) :
    ∀ (xs : List α), (∀ x ∈ xs, ∀ rest, rd (enc x ++ rest) = some (x, rest)) →
    ∀ rest, readMany rd xs.length ((xs.map enc).flatten ++ rest) = some (xs, rest)
  | [], _, rest => by simp [readMany]
  | x :: xs, h, rest => by
      have hx := h x (by simp) ((xs.map enc).flatten ++ rest)
      have ih := readMany_roundtrip rd enc xs (fun y hy => h y (by simp [hy])) rest
      simp [readMany, List.append_assoc, hx, ih]

/-! ## Round trip of piecewise polynomial trees -/

section PwRoundTrip

variable {O : Type}

mutual
/-- Number of nested calls `deserialize_piecewise_poly` makes to rebuild the
tree. -/
def depth : PiecewisePoly O → Nat
  | leaf _ => 1
  | node bs => depthList bs + 1
/-- The largest depth in a list of trees. -/
def depthList : List (PiecewisePoly O) → Nat
  | [] => 0
  | b :: rest => max (depth b) (depthList rest)
end

mutual
theorem serialize_piecewise_poly_append (cod : BackendCodec O) :
    (p : PiecewisePoly O) → ∀ ser : List Byte,
    serialize_piecewise_poly cod ser p = ser ++ serialize_piecewise_poly cod [] p
  | leaf o => by
      intro ser
      simp only [serialize_piecewise_poly]
      rw [serialize_int_eq ser]
      simp
  | node bs => by
      intro ser
      simp only [serialize_piecewise_poly]
      rw [serialize_piecewise_poly_loop_append cod bs
            (serialize_size_t (serialize_int ser 0) bs.length),
          serialize_piecewise_poly_loop_append cod bs
            (serialize_size_t (serialize_int [] 0) bs.length),
          serialize_size_t_eq (serialize_int ser 0), serialize_int_eq ser,
          serialize_size_t_eq (serialize_int [] 0)]
      simp [List.append_assoc]
theorem serialize_piecewise_poly_loop_append (cod : BackendCodec O) :
    (bs : List (PiecewisePoly O)) → ∀ ptr : List Byte,
    serialize_piecewise_poly_loop cod ptr bs
      = ptr ++ (bs.map (serialize_piecewise_poly cod [])).flatten
  | [] => by
      intro ptr
      simp [serialize_piecewise_poly_loop]
  | b :: rest => by
      intro ptr
      simp only [serialize_piecewise_poly_loop]
      rw [serialize_piecewise_poly_loop_append cod rest (serialize_piecewise_poly cod ptr b),
          serialize_piecewise_poly_append cod b ptr]
      simp [List.append_assoc]
end

theorem serialize_piecewise_poly_leaf (cod : BackendCodec O) (o : O) :
    serialize_piecewise_poly cod [] (leaf o) = serialize_int [] 1 ++ cod.bytes o := by
  simp [serialize_piecewise_poly]

theorem serialize_piecewise_poly_node (cod : BackendCodec O) (bs : List (PiecewisePoly O)) :
    serialize_piecewise_poly cod [] (node bs)
      = serialize_int [] 0 ++ (serialize_size_t [] bs.length
          ++ (bs.map (serialize_piecewise_poly cod [])).flatten) := by
  simp only [serialize_piecewise_poly]
  rw [serialize_piecewise_poly_loop_append, serialize_size_t_eq]
  simp [List.append_assoc]

mutual
theorem depth_le_length (cod : BackendCodec O) : (p : PiecewisePoly O) →
    depth p ≤ (serialize_piecewise_poly cod [] p).length
  | leaf o => by
      rw [serialize_piecewise_poly_leaf]
      simp [depth, serialize_int_length, sizeof_int]
      omega
  | node bs => by
      have h := depthList_le_length cod bs
      rw [serialize_piecewise_poly_node]
      simp only [depth, List.length_append, serialize_int_length, serialize_size_t_length,
        sizeof_int, sizeof_size_t]
      omega
theorem depthList_le_length (cod : BackendCodec O) : (bs : List (PiecewisePoly O)) →
    depthList bs ≤ ((bs.map (serialize_piecewise_poly cod [])).flatten).length
  | [] => by simp [depthList]
  | b :: rest => by
      have h1 := depth_le_length cod b
      have h2 := depthList_le_length cod rest
      simp only [depthList, List.map_cons, List.flatten_cons, List.length_append]
      omega
end

mutual
theorem deserialize_fuel_roundtrip (cod : BackendCodec O) (hrt : cod.RoundTrip) :
    (p : PiecewisePoly O) → branchesFit p = true →
    ∀ (fuel : Nat), depth p ≤ fuel → ∀ rest : List Byte,
    deserialize_piecewise_poly_fuel cod fuel (serialize_piecewise_poly cod [] p ++ rest)
      = some (p, rest)
  | leaf o => by
      intro _ fuel hfuel rest
      cases fuel with
      | zero => simp [depth] at hfuel
      | succ f =>
        rw [serialize_piecewise_poly_leaf, List.append_assoc]
        simp only [deserialize_piecewise_poly_fuel]
        rw [deserialize_int_serialize 1 (by decide)]
        simp [hrt o rest]
  | node bs => by
      intro hfit fuel hfuel rest
      cases fuel with
      | zero => simp [depth] at hfuel
      | succ f =>
        simp only [branchesFit, Bool.and_eq_true, decide_eq_true_eq] at hfit
        simp only [depth] at hfuel
        have hl := deserialize_fuel_roundtrip_list cod hrt bs hfit.2 f (by omega) rest
        rw [serialize_piecewise_poly_node, List.append_assoc, List.append_assoc]
        simp only [deserialize_piecewise_poly_fuel]
        rw [deserialize_int_serialize 0 (by decide)]
        simp only [Option.some_bind]
        rw [if_neg (by decide), deserialize_size_t_serialize bs.length hfit.1]
        simp [hl]
theorem deserialize_fuel_roundtrip_list (cod : BackendCodec O) (hrt : cod.RoundTrip) :
    (bs : List (PiecewisePoly O)) → branchesFitList bs = true →
    ∀ (fuel : Nat), depthList bs ≤ fuel → ∀ rest : List Byte,
    readMany (deserialize_piecewise_poly_fuel cod fuel) bs.length
      ((bs.map (serialize_piecewise_poly cod [])).flatten ++ rest) = some (bs, rest)
  | [] => by
      intro _ fuel _ rest
      simp [readMany]
  | b :: bs => by
      intro hfit fuel hfuel rest
      simp only [branchesFitList, Bool.and_eq_true] at hfit
      simp only [depthList] at hfuel
      have hb := deserialize_fuel_roundtrip cod hrt b hfit.1 fuel (by omega)
        ((bs.map (serialize_piecewise_poly cod [])).flatten ++ rest)
      have hbs := deserialize_fuel_roundtrip_list cod hrt bs hfit.2 fuel (by omega) rest
      simp [readMany, List.append_assoc, hb, hbs]
end

theorem deserialize_piecewise_poly_roundtrip (cod : BackendCodec O) (hrt : cod.RoundTrip)
    (p : PiecewisePoly O) (hfit : branchesFit p = true) (rest : List Byte) :
    deserialize_piecewise_poly cod (serialize_piecewise_poly cod [] p ++ rest)
      = some (p, rest) := by
  unfold deserialize_piecewise_poly
  apply deserialize_fuel_roundtrip cod hrt p hfit
  have := depth_le_length cod p
  simp only [List.length_append]
  omega

end PwRoundTrip

theorem boolCodec_roundTrip : boolCodec.RoundTrip := by
  intro x rest
  cases x <;> simp [boolCodec]

theorem boolCodec_sizeExact : boolCodec.SizeExact := by
  intro x
  simp [boolCodec]

/-- C4: with a backend whose deserializer inverts its serializer,
`deserialize_piecewise_poly` applied to the bytes `serialize_piecewise_poly`
writes for `p` returns the tree `p` itself (same shape, same children in the
same order, same leaf payloads) and a read pointer advanced past exactly the
bytes written: whatever follows them in the buffer is what remains. -/
theorem deserialize_serialize_piecewise_poly {O : Type} (cod : BackendCodec O)
    (hrt : cod.RoundTrip) (p : PiecewisePoly O) (hfit : branchesFit p = true)
    (ser rest : List Byte) :
    serialize_piecewise_poly cod ser p = ser ++ serialize_piecewise_poly cod [] p ∧
    deserialize_piecewise_poly cod (serialize_piecewise_poly cod [] p ++ rest)
      = some (p, rest) :=
  ⟨serialize_piecewise_poly_append cod p ser,
    deserialize_piecewise_poly_roundtrip cod hrt p hfit rest⟩

theorem deserialize_serialize_piecewise_poly_witness :
    boolCodec.RoundTrip ∧
    branchesFit (node [leaf true, node [leaf false], node []]) = true ∧
    (serialize_piecewise_poly boolCodec [3] (node [leaf true, node [leaf false], node []])
        = [3] ++ serialize_piecewise_poly boolCodec []
            (node [leaf true, node [leaf false], node []]) ∧
      deserialize_piecewise_poly boolCodec
          (serialize_piecewise_poly boolCodec []
            (node [leaf true, node [leaf false], node []]) ++ [7])
        = some (node [leaf true, node [leaf false], node []], [7])) :=
  ⟨boolCodec_roundTrip, by decide,
    deserialize_serialize_piecewise_poly boolCodec boolCodec_roundTrip
      (node [leaf true, node [leaf false], node []]) (by decide) [3] [7]⟩

/-! ## Generic functions (`functions.h`, `functions.c`) -/

/-- The C type `enum function_class`. -/
inductive function_class where
  | PIECEWISE
  | POLYNOMIAL
  | LINELM
  | RATIONAL
  | KERNEL
deriving DecidableEq, Repr

/-- Modelled from the spec: the numbering of `enum function_class`, whose
declaration (`functions.h`) is not among the sources.  The classes are numbered
as the diagnostic of `generic_function_weighted_sum_pa` gives them
(`0:PIECEWISE,1:POLYNOMIAL`), the other three in the order of the `switch`
statements. -/
def function_class.toInt : function_class → Int
  | .PIECEWISE => 0
  | .POLYNOMIAL => 1
  | .LINELM => 2
  | .RATIONAL => 3
  | .KERNEL => 4

/-- The cast `(enum function_class) fci` followed by `switch (fc)`: the case
that is selected, if any. -/
def function_class.ofInt (fci : Int) : Option function_class :=
  if fci = 0 then some .PIECEWISE
  else if fci = 1 then some .POLYNOMIAL
  else if fci = 2 then some .LINELM
  else if fci = 3 then some .RATIONAL
  else if fci = 4 then some .KERNEL
  else none

/-- What the pointer `void * f` of a generic function points to: nothing
(NULL), an `OrthPolyExpansion`, a `PiecewisePoly` or a `LinElemExp`. -/
inductive Payload (O L : Type) where
  | null : Payload O L
  | ope (o : O) : Payload O L
  | pw (p : PiecewisePoly O) : Payload O L
  | lexp (l : L) : Payload O L

/-- The C type `struct GenericFunction`: `dim`, the class `fc`, the sub-type
`sub_type.ptype` and the payload `f`.  The pointer `fargs` is never read by
the routines treated here and is left out. -/
structure GenericFunction (O L : Type) where
  dim : Nat
  fc : function_class
  sub_type : Int
  f : Payload O L

section GenericDefs

variable {O L : Type}

/-- The class is one of the three implemented ones and the payload is of the
type the class announces. -/
def GenericFunction.tagged (g : GenericFunction O L) : Bool :=
  match g.fc, g.f with
  | .PIECEWISE, .pw _ => true
  | .POLYNOMIAL, .ope _ => true
  | .LINELM, .lexp _ => true
  | _, _ => false

/-- The C routine `generic_function_alloc(dim, fc, sub_type)`: the sub-type is
taken from the argument for `PIECEWISE` and `POLYNOMIAL` and is 0 for `LINELM`;
the payload is NULL.  (For `RATIONAL` and `KERNEL` the C code leaves the
sub-type unset; 0 stands for it here.) -/
def generic_function_alloc (dim : Nat) (fc : function_class) (sub_type : Int) :
    GenericFunction O L :=
  match fc with
  | .PIECEWISE => ⟨dim, fc, sub_type, .null⟩
  | .POLYNOMIAL => ⟨dim, fc, sub_type, .null⟩
  | .LINELM => ⟨dim, fc, 0, .null⟩
  | .RATIONAL => ⟨dim, fc, 0, .null⟩
  | .KERNEL => ⟨dim, fc, 0, .null⟩

/-- The assignment `gf->f = payload`. -/
def GenericFunction.setF (g : GenericFunction O L) (payload : Payload O L) :
    GenericFunction O L :=
  ⟨g.dim, g.fc, g.sub_type, payload⟩

/-- The three header fields every implemented class writes: `dim` as a
`size_t`, then the class and the sub-type as `int`s. -/
def serialize_generic_header (ser : List Byte) (gf : GenericFunction O L) : List Byte :=
  serialize_int (serialize_int (serialize_size_t ser gf.dim) gf.fc.toInt) gf.sub_type

/-- The write mode (`totSizeIn == NULL`) of `serialize_generic_function`.  The
routine first queries the size of the payload, then writes the header and the
payload; `RATIONAL` and `KERNEL` write nothing.  A payload that is not of the
announced type gives no defined result. -/
def serialize_generic_function (codO : BackendCodec O) (codL : BackendCodec L)
    (ser : List Byte) (gf : GenericFunction O L) : Option (List Byte) :=
  match gf.fc with
  | .PIECEWISE =>
      match gf.f with
      | .pw pw =>
          (serialize_piecewise_poly_size codO pw).bind fun _ =>
            some (serialize_piecewise_poly codO (serialize_generic_header ser gf) pw)
      | _ => none
  | .POLYNOMIAL =>
      match gf.f with
      | .ope ft => some (serialize_generic_header ser gf ++ codO.bytes ft)
      | _ => none
  | .LINELM =>
      match gf.f with
      | .lexp lexp => some (serialize_generic_header ser gf ++ codL.bytes lexp)
      | _ => none
  | .RATIONAL => some ser
  | .KERNEL => some ser

/-- The size-query mode (`totSizeIn != NULL`) of `serialize_generic_function`:
`some (some n)` when `n` is stored in `*totSizeIn`, `some none` when the class
is `RATIONAL` or `KERNEL` and `*totSizeIn` is left as it was. -/
def serialize_generic_function_size (codO : BackendCodec O) (codL : BackendCodec L)
    (gf : GenericFunction O L) : Option (Option Nat) :=
  let totSize := (sizeof_int + sizeof_size_t) % SIZE_MOD
  match gf.fc with
  | .PIECEWISE =>
      match gf.f with
      | .pw pw =>
          (serialize_piecewise_poly_size codO pw).map fun sizef =>
            some (((totSize + sizeof_int) % SIZE_MOD + sizef) % SIZE_MOD)
      | _ => none
  | .POLYNOMIAL =>
      match gf.f with
      | .ope ft => some (some (((totSize + sizeof_int) % SIZE_MOD + codO.size ft) % SIZE_MOD))
      | _ => none
  | .LINELM =>
      match gf.f with
      | .lexp lexp =>
          some (some (((totSize + sizeof_int) % SIZE_MOD + codL.size lexp) % SIZE_MOD))
      | _ => none
  | .RATIONAL => some none
  | .KERNEL => some none

/-- The C routine `deserialize_generic_function(ser, &gf)`: what `*gf` is set
to (`none` when the class read is not an implemented one and `*gf` is left
untouched) with the advanced read pointer. -/
def deserialize_generic_function (codO : BackendCodec O) (codL : BackendCodec L)
    (ser : List Byte) : Option (Option (GenericFunction O L) × List Byte) :=
  (deserialize_size_t ser).bind fun d =>
    (deserialize_int d.2).bind fun c =>
      match function_class.ofInt c.1 with
      | some .PIECEWISE =>
          (deserialize_int c.2).bind fun pt =>
            (deserialize_piecewise_poly codO pt.2).bind fun pw =>
              some (some ((generic_function_alloc d.1 .PIECEWISE pt.1).setF (.pw pw.1)), pw.2)
      | some .POLYNOMIAL =>
          (deserialize_int c.2).bind fun pt =>
            (codO.read pt.2).bind fun ope =>
              some (some ((generic_function_alloc d.1 .POLYNOMIAL pt.1).setF (.ope ope.1)), ope.2)
      | some .LINELM =>
          (deserialize_int c.2).bind fun pt =>
            (codL.read pt.2).bind fun lexp =>
              some (some ((generic_function_alloc d.1 .LINELM pt.1).setF (.lexp lexp.1)), lexp.2)
      | _ => some (none, c.2)

/-- The generic function is one the serializer can write and a stream can
carry: implemented class, payload of the announced type, `dim` a `size_t`
value, sub-type an `int` value, and for a piecewise payload every `nbranches` a
`size_t` value and no interior node without children. -/
def GenericFunction.storable (g : GenericFunction O L) : Bool :=
  decide (g.dim < SIZE_MOD) && isInt g.sub_type &&
    match g.fc, g.f with
    | .PIECEWISE, .pw p => branchesFit p && nonemptyInterior p
    | .POLYNOMIAL, .ope _ => true
    | .LINELM, .lexp _ => true
    | _, _ => false

/-- The bytes of the payload of a generic function, as its backend writes
them. -/
def payloadBytes (codO : BackendCodec O) (codL : BackendCodec L) :
    Payload O L → List Byte
  | .null => []
  | .ope o => codO.bytes o
  | .pw p => serialize_piecewise_poly codO [] p
  | .lexp l => codL.bytes l

/-- The byte stream of a generic function: `dim`, class, sub-type, payload. -/
def genericBytes (codO : BackendCodec O) (codL : BackendCodec L)
    (g : GenericFunction O L) : List Byte :=
  serialize_size_t [] g.dim ++ (serialize_int [] g.fc.toInt ++
    (serialize_int [] g.sub_type ++ payloadBytes codO codL g.f))

end GenericDefs

/-! ## Sizes and round trip of generic functions -/

section GenericProofs

variable {O L : Type}

mutual
theorem pw_size_isSome (cod : BackendCodec O) : (p : PiecewisePoly O) →
    nonemptyInterior p = true → ∃ n, serialize_piecewise_poly_size cod p = some n
  | leaf o => by
      intro _
      simp only [serialize_piecewise_poly_size]
      exact ⟨_, rfl⟩
  | node [] => by
      intro h
      simp [nonemptyInterior] at h
  | node (b :: rest) => by
      intro h
      simp only [nonemptyInterior, nonemptyInteriorList, List.isEmpty_cons, Bool.not_false,
        Bool.true_and, Bool.and_eq_true] at h
      obtain ⟨n, hn⟩ := pw_size_isSome cod b h.1
      obtain ⟨m, hm⟩ := pw_size_loop_isSome cod rest h.2 n
      simp only [serialize_piecewise_poly_size, hn, hm, Option.some_bind]
      exact ⟨_, rfl⟩
theorem pw_size_loop_isSome (cod : BackendCodec O) : (bs : List (PiecewisePoly O)) →
    nonemptyInteriorList bs = true →
    ∀ t : Nat, ∃ n, serialize_piecewise_poly_size_loop cod t bs = some n
  | [] => by
      intro _ t
      exact ⟨t, by simp [serialize_piecewise_poly_size_loop]⟩
  | b :: rest => by
      intro h t
      simp only [nonemptyInteriorList, Bool.and_eq_true] at h
      obtain ⟨n, hn⟩ := pw_size_isSome cod b h.1
      obtain ⟨m, hm⟩ := pw_size_loop_isSome cod rest h.2 ((t + n) % SIZE_MOD)
      exact ⟨m, by simp [serialize_piecewise_poly_size_loop, hn, hm]⟩
end

mutual
theorem pw_size_exact (cod : BackendCodec O) (hse : cod.SizeExact) :
    (p : PiecewisePoly O) → nonemptyInterior p = true →
    (serialize_piecewise_poly cod [] p).length < SIZE_MOD →
    serialize_piecewise_poly_size cod p = some (serialize_piecewise_poly cod [] p).length
  | leaf o => by
      intro _ hlen
      rw [serialize_piecewise_poly_leaf] at hlen ⊢
      simp only [List.length_append, serialize_int_length] at hlen ⊢
      simp only [serialize_piecewise_poly_size, hse o, Option.some.injEq]
      simp only [sizeof_int, SIZE_MOD_eq] at hlen ⊢
      omega
  | node [] => by
      intro h
      simp [nonemptyInterior] at h
  | node (b :: rest) => by
      intro h hlen
      simp only [nonemptyInterior, nonemptyInteriorList, List.isEmpty_cons, Bool.not_false,
        Bool.true_and, Bool.and_eq_true] at h
      rw [serialize_piecewise_poly_node] at hlen ⊢
      simp only [List.length_append, serialize_int_length, serialize_size_t_length,
        List.map_cons, List.flatten_cons, List.length_cons] at hlen ⊢
      have hb := pw_size_exact cod hse b h.1 (by omega)
      have hl := pw_size_loop_exact cod hse rest h.2
        (serialize_piecewise_poly cod [] b).length (by omega)
      simp only [serialize_piecewise_poly_size, hb, hl, Option.some_bind, Option.some.injEq]
      simp only [sizeof_int, sizeof_size_t, SIZE_MOD_eq] at hlen ⊢
      omega
theorem pw_size_loop_exact (cod : BackendCodec O) (hse : cod.SizeExact) :
    (bs : List (PiecewisePoly O)) → nonemptyInteriorList bs = true →
    ∀ t : Nat, t + ((bs.map (serialize_piecewise_poly cod [])).flatten).length < SIZE_MOD →
    serialize_piecewise_poly_size_loop cod t bs
      = some (t + ((bs.map (serialize_piecewise_poly cod [])).flatten).length)
  | [] => by
      intro _ t _
      simp [serialize_piecewise_poly_size_loop]
  | b :: rest => by
      intro h t hlen
      simp only [nonemptyInteriorList, Bool.and_eq_true] at h
      simp only [List.map_cons, List.flatten_cons, List.length_append] at hlen ⊢
      have hb := pw_size_exact cod hse b h.1 (by omega)
      have hl := pw_size_loop_exact cod hse rest h.2
        ((t + (serialize_piecewise_poly cod [] b).length) % SIZE_MOD)
        (by rw [Nat.mod_eq_of_lt (by omega)]; omega)
      simp only [serialize_piecewise_poly_size_loop, hb, hl, Option.some_bind,
        Option.some.injEq]
      simp only [SIZE_MOD_eq] at hlen ⊢
      omega
end

theorem function_class_ofInt_toInt (c : function_class) :
    function_class.ofInt c.toInt = some c := by
  cases c <;> rfl

theorem function_class_toInt_isInt (c : function_class) : isInt c.toInt = true := by
  cases c <;> decide

theorem serialize_generic_header_eq (ser : List Byte) (g : GenericFunction O L) :
    serialize_generic_header ser g = ser ++ (serialize_size_t [] g.dim ++
      (serialize_int [] g.fc.toInt ++ serialize_int [] g.sub_type)) := by
  unfold serialize_generic_header
  rw [serialize_int_eq, serialize_int_eq (serialize_size_t ser g.dim), serialize_size_t_eq]
  simp [List.append_assoc]

theorem serialize_generic_function_eq (codO : BackendCodec O) (codL : BackendCodec L)
    (ser : List Byte) (g : GenericFunction O L) (hg : g.storable = true) :
    serialize_generic_function codO codL ser g = some (ser ++ genericBytes codO codL g) := by
  obtain ⟨dim, fc, st, f⟩ := g
  cases fc <;> cases f <;>
    simp [GenericFunction.storable] at hg <;>
    simp [serialize_generic_function, genericBytes, payloadBytes, serialize_generic_header_eq,
      List.append_assoc]
  next p =>
    obtain ⟨n, hn⟩ := pw_size_isSome codO p hg.2.2
    rw [hn]
    simp only [Option.some_bind, Option.some.injEq]
    rw [serialize_piecewise_poly_append]
    simp [List.append_assoc]

theorem deserialize_generic_function_roundtrip (codO : BackendCodec O) (codL : BackendCodec L)
    (hO : codO.RoundTrip) (hL : codL.RoundTrip) (g : GenericFunction O L)
    (hg : g.storable = true) (rest : List Byte) :
    deserialize_generic_function codO codL (genericBytes codO codL g ++ rest)
      = some (some ((generic_function_alloc g.dim g.fc g.sub_type).setF g.f), rest) := by
  obtain ⟨dim, fc, st, f⟩ := g
  simp only [GenericFunction.storable, Bool.and_eq_true, decide_eq_true_eq] at hg
  obtain ⟨⟨hdim, hst⟩, hpay⟩ := hg
  simp only [deserialize_generic_function, genericBytes, List.append_assoc]
  rw [deserialize_size_t_serialize dim hdim]
  simp only [Option.some_bind]
  rw [deserialize_int_serialize _ (function_class_toInt_isInt fc)]
  simp only [Option.some_bind, function_class_ofInt_toInt]
  cases fc <;> cases f <;> simp at hpay <;>
    simp only [deserialize_int_serialize st hst, Option.some_bind, payloadBytes]
  · next p =>
    rw [deserialize_piecewise_poly_roundtrip codO hO p hpay.1]
    rfl
  · next o =>
    rw [hO o rest]
    rfl
  · next l =>
    rw [hL l rest]
    rfl

theorem genericBytes_length (codO : BackendCodec O) (codL : BackendCodec L)
    (g : GenericFunction O L) :
    (genericBytes codO codL g).length
      = sizeof_size_t + 2 * sizeof_int + (payloadBytes codO codL g.f).length := by
  simp only [genericBytes, List.length_append, serialize_int_length, serialize_size_t_length]
  omega

theorem serialize_generic_function_size_eq (codO : BackendCodec O) (codL : BackendCodec L)
    (hO : codO.SizeExact) (hL : codL.SizeExact) (g : GenericFunction O L)
    (hg : g.storable = true) (hlen : (genericBytes codO codL g).length < SIZE_MOD) :
    serialize_generic_function_size codO codL g
      = some (some (genericBytes codO codL g).length) := by
  rw [genericBytes_length] at hlen ⊢
  obtain ⟨dim, fc, st, f⟩ := g
  have h12 : (sizeof_int + sizeof_size_t) % SIZE_MOD = 12 := by decide
  have h16 : (12 + sizeof_int) % SIZE_MOD = 16 := by decide
  have hs : sizeof_size_t + 2 * sizeof_int = 16 := by decide
  rw [hs] at hlen ⊢
  cases fc <;> cases f <;>
    simp [GenericFunction.storable] at hg <;>
    simp only [payloadBytes] at hlen ⊢ <;>
    simp only [serialize_generic_function_size, h12, h16]
  · next p =>
    rw [pw_size_exact codO hO p hg.2.2 (by omega)]
    simp only [Option.map_some', Option.some.injEq]
    exact Nat.mod_eq_of_lt hlen
  · next o =>
    rw [hO o]
    simp only [Option.some.injEq]
    exact Nat.mod_eq_of_lt hlen
  · next l =>
    rw [hL l]
    simp only [Option.some.injEq]
    exact Nat.mod_eq_of_lt hlen

end GenericProofs

section GenericClaims

variable {O L : Type}

/-- A linear-element function whose sub-type field holds 1. -/
def linelmSample : GenericFunction Bool Bool := ⟨1, .LINELM, 1, .lexp true⟩

/-- A polynomial function of sub-type 3. -/
def polySample : GenericFunction Bool Bool := ⟨1, .POLYNOMIAL, 3, .ope true⟩

/-- A piecewise function of sub-type 2 on a tree with two leaves. -/
def pwSample : GenericFunction Bool Bool :=
  ⟨1, .PIECEWISE, 2, .pw (node [leaf true, node [leaf false]])⟩

/-- A `LINELM` struct whose sub-type field is 1, which no routine of the
sources builds (`generic_function_alloc` stores 0 for every `LINELM`
function), is written with sub-type 1 and read back with sub-type 0. -/
theorem serialize_generic_function_linelm_subtype_reset :
    linelmSample.storable = true ∧
    serialize_generic_function boolCodec boolCodec [] linelmSample
      = some [1,0,0,0,0,0,0,0, 2,0,0,0, 1,0,0,0, 1] ∧
    deserialize_generic_function boolCodec boolCodec [1,0,0,0,0,0,0,0, 2,0,0,0, 1,0,0,0, 1]
      = some (some ⟨1, .LINELM, 0, .lexp true⟩, []) ∧
    (⟨1, .LINELM, 0, .lexp true⟩ : GenericFunction Bool Bool).sub_type
      ≠ linelmSample.sub_type := by
  refine ⟨rfl, rfl, rfl, ?_⟩
  decide

/-- For a storable function of class `POLYNOMIAL`, `PIECEWISE` or `LINELM`,
whatever its sub-type field, write mode appends `dim` (`size_t`), the class
(`int`), the sub-type (`int`) and the backend payload, in that order;
`deserialize_generic_function`
on those bytes rebuilds a function with the same `dim`, class and payload, with
the same sub-type for `POLYNOMIAL` and `PIECEWISE` and with sub-type 0 for
`LINELM`, and returns the read pointer just past them; and the size reported in
size-query mode is `sizeof(size_t) + 2*sizeof(int)` plus the payload size, the
number of bytes written. -/
theorem serialize_generic_function_roundtrip (codO : BackendCodec O) (codL : BackendCodec L)
    (hO : codO.RoundTrip) (hL : codL.RoundTrip) (hOs : codO.SizeExact) (hLs : codL.SizeExact)
    (g : GenericFunction O L) (hg : g.storable = true) (ser rest : List Byte) :
    serialize_generic_function codO codL ser g
      = some (ser ++ (serialize_size_t [] g.dim ++ (serialize_int [] g.fc.toInt ++
          (serialize_int [] g.sub_type ++ payloadBytes codO codL g.f)))) ∧
    (∃ g1 : GenericFunction O L,
      deserialize_generic_function codO codL (genericBytes codO codL g ++ rest)
        = some (some g1, rest) ∧
      g1.dim = g.dim ∧ g1.fc = g.fc ∧ g1.f = g.f ∧
      g1.sub_type = if g.fc = .LINELM then 0 else g.sub_type) ∧
    ((genericBytes codO codL g).length < SIZE_MOD →
      serialize_generic_function_size codO codL g
        = some (some (genericBytes codO codL g).length)) ∧
    (genericBytes codO codL g).length
      = sizeof_size_t + 2 * sizeof_int + (payloadBytes codO codL g.f).length := by
  refine ⟨serialize_generic_function_eq codO codL ser g hg, ?_, ?_,
    genericBytes_length codO codL g⟩
  · refine ⟨_, deserialize_generic_function_roundtrip codO codL hO hL g hg rest, ?_⟩
    obtain ⟨dim, fc, st, f⟩ := g
    cases fc <;> simp [GenericFunction.storable] at hg <;>
      simp [generic_function_alloc, GenericFunction.setF]
  · intro hlen
    exact serialize_generic_function_size_eq codO codL hOs hLs g hg hlen

theorem serialize_generic_function_roundtrip_witness :
    boolCodec.RoundTrip ∧ boolCodec.SizeExact ∧ pwSample.storable = true ∧
    (serialize_generic_function boolCodec boolCodec [9] pwSample
        = some ([9] ++ (serialize_size_t [] pwSample.dim ++ (serialize_int [] pwSample.fc.toInt ++
            (serialize_int [] pwSample.sub_type ++ payloadBytes boolCodec boolCodec pwSample.f)))) ∧
      (∃ g1 : GenericFunction Bool Bool,
        deserialize_generic_function boolCodec boolCodec
            (genericBytes boolCodec boolCodec pwSample ++ [7]) = some (some g1, [7]) ∧
        g1.dim = pwSample.dim ∧ g1.fc = pwSample.fc ∧ g1.f = pwSample.f ∧
        g1.sub_type = if pwSample.fc = .LINELM then 0 else pwSample.sub_type) ∧
      ((genericBytes boolCodec boolCodec pwSample).length < SIZE_MOD →
        serialize_generic_function_size boolCodec boolCodec pwSample
          = some (some (genericBytes boolCodec boolCodec pwSample).length)) ∧
      (genericBytes boolCodec boolCodec pwSample).length
        = sizeof_size_t + 2 * sizeof_int
            + (payloadBytes boolCodec boolCodec pwSample.f).length) :=
  ⟨boolCodec_roundTrip, boolCodec_sizeExact, by decide,
    serialize_generic_function_roundtrip boolCodec boolCodec boolCodec_roundTrip
      boolCodec_roundTrip boolCodec_sizeExact boolCodec_sizeExact pwSample (by decide) [9] [7]⟩

end GenericClaims

/-! ## Qmarrays and function trains (`elements.c`) -/

/-- The C type `struct Qmarray`: an `nrows` by `ncols` array of pointers to
generic functions, stored column-major in `funcs`; a NULL pointer is `none`. -/
structure Qmarray (O L : Type) where
  nrows : Nat
  ncols : Nat
  funcs : List (Option (GenericFunction O L))

/-- The C type `struct FunctionTrain`: `dim`, the `dim + 1` ranks and the `dim`
cores (pointers to qmarrays; a NULL pointer is `none`).  The evaluation
scratch space is left out. -/
structure FunctionTrain (O L : Type) where
  dim : Nat
  ranks : List Nat
  cores : List (Option (Qmarray O L))

section ContainerDefs

variable {O L : Type}

/-- The C routine `qmarray_alloc(nrows, ncols)`: `nrows*ncols` NULL entries. -/
def qmarray_alloc (nrows ncols : Nat) : Qmarray O L :=
  ⟨nrows, ncols, List.replicate ((nrows * ncols) % SIZE_MOD) none⟩

/-- The size loop of `qmarray_serialize`: every entry is queried with
`serialize_generic_function(NULL, funcs[ii], &size_temp)` and `size_temp` is
added to `totSize`.  The state is `totSize` and `size_temp` (`none` while it
has never been written). -/
def qmarray_serialize_size_loop (codO : BackendCodec O) (codL : BackendCodec L) :
    List (Option (GenericFunction O L)) → Nat → Option Nat → Option (Nat × Option Nat)
  | [], totSize, size_temp => some (totSize, size_temp)
  | none :: _, _, _ => none
  | some g :: rest, totSize, size_temp =>
      (serialize_generic_function_size codO codL g).bind fun r =>
        match (match r with
               | some n => some n
               | none => size_temp) with
        | none => none
        | some t =>
            qmarray_serialize_size_loop codO codL rest ((totSize + t) % SIZE_MOD) (some t)

/-- The size-query mode (`totSizeIn != NULL`) of `qmarray_serialize`: the value
stored in `*totSizeIn`. -/
def qmarray_serialize_size (codO : BackendCodec O) (codL : BackendCodec L)
    (qma : Qmarray O L) : Option Nat :=
  (firstN qma.funcs ((qma.nrows * qma.ncols) % SIZE_MOD)).bind fun fs =>
    (qmarray_serialize_size_loop codO codL fs ((2 * sizeof_size_t) % SIZE_MOD) none).map
      fun r => r.1

/-- The write loop of `qmarray_serialize`. -/
def qmarray_serialize_loop (codO : BackendCodec O) (codL : BackendCodec L) :
    List (Option (GenericFunction O L)) → List Byte → Option (List Byte)
  | [], ptr => some ptr
  | none :: _, _ => none
  | some g :: rest, ptr =>
      (serialize_generic_function codO codL ptr g).bind fun ptr1 =>
        qmarray_serialize_loop codO codL rest ptr1

/-- The write mode (`totSizeIn == NULL`) of `qmarray_serialize`: after the size
loop, `nrows` and `ncols` as `size_t`s, then the entries in storage
(column-major) order. -/
def qmarray_serialize (codO : BackendCodec O) (codL : BackendCodec L)
    (ser : List Byte) (qma : Qmarray O L) : Option (List Byte) :=
  (qmarray_serialize_size codO codL qma).bind fun _ =>
    (firstN qma.funcs ((qma.nrows * qma.ncols) % SIZE_MOD)).bind fun fs =>
      qmarray_serialize_loop codO codL fs
        (serialize_size_t (serialize_size_t ser qma.nrows) qma.ncols)

/-- The C routine `qmarray_deserialize(ser, &qma)`: `nrows`, `ncols`, then
`nrows*ncols` generic functions read into the entries of a freshly allocated
qmarray. -/
def qmarray_deserialize (codO : BackendCodec O) (codL : BackendCodec L)
    (ser : List Byte) : Option (Qmarray O L × List Byte) :=
  (deserialize_size_t ser).bind fun r =>
    (deserialize_size_t r.2).bind fun c =>
      (readMany (deserialize_generic_function codO codL)
          ((qmarray_alloc (O := O) (L := L) r.1 c.1).funcs.length) c.2).map fun fs =>
        (⟨r.1, c.1, fs.1⟩, fs.2)

/-- The C routine `function_train_alloc(dim)`: `dim + 1` zero ranks and `dim`
NULL cores. -/
def function_train_alloc (dim : Nat) : FunctionTrain O L :=
  ⟨dim, List.replicate ((dim + 1) % SIZE_MOD) 0, List.replicate dim none⟩

/-- The size loop of `function_train_serialize`. -/
def function_train_serialize_size_loop (codO : BackendCodec O) (codL : BackendCodec L) :
    List (Option (Qmarray O L)) → Nat → Option Nat
  | [], totSize => some totSize
  | none :: _, _ => none
  | some core :: rest, totSize =>
      (qmarray_serialize_size codO codL core).bind fun size_temp =>
        function_train_serialize_size_loop codO codL rest ((totSize + size_temp) % SIZE_MOD)

/-- The size-query mode (`totSizeIn != NULL`) of `function_train_serialize`. -/
def function_train_serialize_size (codO : BackendCodec O) (codL : BackendCodec L)
    (ft : FunctionTrain O L) : Option Nat :=
  (firstN ft.cores ft.dim).bind fun cs =>
    function_train_serialize_size_loop codO codL cs
      ((sizeof_size_t + (((ft.dim + 1) % SIZE_MOD) * sizeof_size_t) % SIZE_MOD) % SIZE_MOD)

/-- The loop of `function_train_serialize` that writes the ranks. -/
def function_train_serialize_ranks : List Nat → List Byte → List Byte
  | [], ptr => ptr
  | r :: rest, ptr => function_train_serialize_ranks rest (serialize_size_t ptr r)

/-- The loop of `function_train_serialize` that writes the cores. -/
def function_train_serialize_cores (codO : BackendCodec O) (codL : BackendCodec L) :
    List (Option (Qmarray O L)) → List Byte → Option (List Byte)
  | [], ptr => some ptr
  | none :: _, _ => none
  | some core :: rest, ptr =>
      (qmarray_serialize codO codL ptr core).bind fun ptr1 =>
        function_train_serialize_cores codO codL rest ptr1

/-- The write mode (`totSizeIn == NULL`) of `function_train_serialize`: after
the size loop, `dim`, then `ranks[0..dim]`, then the cores in order. -/
def function_train_serialize (codO : BackendCodec O) (codL : BackendCodec L)
    (ser : List Byte) (ft : FunctionTrain O L) : Option (List Byte) :=
  (function_train_serialize_size codO codL ft).bind fun _ =>
    (firstN ft.ranks ((ft.dim + 1) % SIZE_MOD)).bind fun rs =>
      (firstN ft.cores ft.dim).bind fun cs =>
        function_train_serialize_cores codO codL cs
          (function_train_serialize_ranks rs (serialize_size_t ser ft.dim))

/-- The C routine `function_train_deserialize(ser, &ft)`: `dim`, then `dim + 1`
ranks, then `dim` qmarrays read into a freshly allocated train. -/
def function_train_deserialize (codO : BackendCodec O) (codL : BackendCodec L)
    (ser : List Byte) : Option (FunctionTrain O L × List Byte) :=
  (deserialize_size_t ser).bind fun d =>
    (readMany deserialize_size_t ((d.1 + 1) % SIZE_MOD) d.2).bind fun rs =>
      (readMany (fun ptr => (qmarray_deserialize codO codL ptr).map fun q => (some q.1, q.2))
          d.1 rs.2).map fun cs =>
        (⟨d.1, rs.1, cs.1⟩, cs.2)

/-- A storable generic function whose sub-type is the one
`generic_function_alloc` stores for its class (0 for `LINELM`), as every
function built through the allocator has. -/
def GenericFunction.canonical (g : GenericFunction O L) : Bool :=
  g.storable && decide (g.sub_type = (generic_function_alloc (O := O) (L := L)
    g.dim g.fc g.sub_type).sub_type)

/-- The qmarray has `size_t` dimensions, exactly `nrows*ncols` entries, and
every entry is a canonical generic function of an implemented class. -/
def Qmarray.wellFormed (qma : Qmarray O L) : Bool :=
  decide (qma.nrows < SIZE_MOD) && decide (qma.ncols < SIZE_MOD) &&
    decide (qma.nrows * qma.ncols < SIZE_MOD) &&
    decide (qma.funcs.length = qma.nrows * qma.ncols) &&
    qma.funcs.all fun e =>
      match e with
      | some g => g.canonical
      | none => false

/-- The train has `dim + 1` ranks, all `size_t` values, and `dim` cores, all
well-formed qmarrays. -/
def FunctionTrain.wellFormed (ft : FunctionTrain O L) : Bool :=
  decide (ft.dim + 1 < SIZE_MOD) && decide (ft.ranks.length = ft.dim + 1) &&
    decide (ft.cores.length = ft.dim) &&
    ft.ranks.all (fun r => decide (r < SIZE_MOD)) &&
    ft.cores.all fun c =>
      match c with
      | some q => q.wellFormed
      | none => false

/-- The bytes of one qmarray entry. -/
def entryBytes (codO : BackendCodec O) (codL : BackendCodec L) :
    Option (GenericFunction O L) → List Byte
  | none => []
  | some g => genericBytes codO codL g

/-- The byte stream of a qmarray: `nrows`, `ncols`, then the entries. -/
def qmarrayBytes (codO : BackendCodec O) (codL : BackendCodec L) (qma : Qmarray O L) :
    List Byte :=
  serialize_size_t [] qma.nrows ++ (serialize_size_t [] qma.ncols ++
    (qma.funcs.map (entryBytes codO codL)).flatten)

/-- The bytes of one core of a train. -/
def coreBytes (codO : BackendCodec O) (codL : BackendCodec L) :
    Option (Qmarray O L) → List Byte
  | none => []
  | some q => qmarrayBytes codO codL q

/-- The byte stream of a function train: `dim`, the ranks, then the cores. -/
def functionTrainBytes (codO : BackendCodec O) (codL : BackendCodec L)
    (ft : FunctionTrain O L) : List Byte :=
  serialize_size_t [] ft.dim ++ ((ft.ranks.map (serialize_size_t [])).flatten ++
    (ft.cores.map (coreBytes codO codL)).flatten)

end ContainerDefs

/-! ## Round trip and sizes of qmarrays -/

section QmarrayProofs

variable {O L : Type}

theorem firstN_length {α : Type} (xs : List α) : firstN xs xs.length = some xs := by
  simp [firstN]

theorem canonical_storable (g : GenericFunction O L) (h : g.canonical = true) :
    g.storable = true := by
  simp only [GenericFunction.canonical, Bool.and_eq_true] at h
  exact h.1

theorem canonical_realloc (g : GenericFunction O L) (h : g.canonical = true) :
    (generic_function_alloc g.dim g.fc g.sub_type).setF g.f = g := by
  obtain ⟨dim, fc, st, f⟩ := g
  simp only [GenericFunction.canonical, Bool.and_eq_true, decide_eq_true_eq] at h
  obtain ⟨_, h2⟩ := h
  cases fc <;> simp only [generic_function_alloc, GenericFunction.setF] at h2 ⊢ <;> rw [← h2]

/-- Every entry is a non-NULL canonical generic function. -/
def entriesCanonical (fs : List (Option (GenericFunction O L))) : Prop :=
  ∀ e ∈ fs, ∃ g, e = some g ∧ g.canonical = true

theorem entriesCanonical_cons (e : Option (GenericFunction O L))
    (fs : List (Option (GenericFunction O L))) (h : entriesCanonical (e :: fs)) :
    (∃ g, e = some g ∧ g.canonical = true) ∧ entriesCanonical fs :=
  ⟨h e (by simp), fun x hx => h x (by simp [hx])⟩

theorem entriesCanonical_of_all (fs : List (Option (GenericFunction O L)))
    (h : (fs.all fun e =>
      match e with
      | some g => g.canonical
      | none => false) = true) : entriesCanonical fs := by
  intro e he
  rw [List.all_eq_true] at h
  have := h e he
  cases e with
  | none => simp at this
  | some g => exact ⟨g, rfl, this⟩

theorem entry_roundtrip (codO : BackendCodec O) (codL : BackendCodec L)
    (hO : codO.RoundTrip) (hL : codL.RoundTrip) (fs : List (Option (GenericFunction O L)))
    (h : entriesCanonical fs) :
    ∀ e ∈ fs, ∀ rest, deserialize_generic_function codO codL (entryBytes codO codL e ++ rest)
      = some (e, rest) := by
  intro e he rest
  obtain ⟨g, rfl, hg⟩ := h e he
  simp only [entryBytes]
  rw [deserialize_generic_function_roundtrip codO codL hO hL g (canonical_storable g hg),
    canonical_realloc g hg]

theorem qmarray_serialize_loop_eq (codO : BackendCodec O) (codL : BackendCodec L) :
    ∀ (fs : List (Option (GenericFunction O L))), entriesCanonical fs →
    ∀ ptr : List Byte, qmarray_serialize_loop codO codL fs ptr
      = some (ptr ++ (fs.map (entryBytes codO codL)).flatten)
  | [], _, ptr => by simp [qmarray_serialize_loop]
  | e :: fs, h, ptr => by
      obtain ⟨⟨g, rfl, hg⟩, hfs⟩ := entriesCanonical_cons e fs h
      simp only [qmarray_serialize_loop]
      rw [serialize_generic_function_eq codO codL ptr g (canonical_storable g hg)]
      simp only [Option.some_bind]
      rw [qmarray_serialize_loop_eq codO codL fs hfs]
      simp [entryBytes, List.append_assoc]

theorem generic_size_isSome (codO : BackendCodec O) (codL : BackendCodec L)
    (g : GenericFunction O L) (hg : g.storable = true) :
    ∃ n, serialize_generic_function_size codO codL g = some (some n) := by
  obtain ⟨dim, fc, st, f⟩ := g
  cases fc <;> cases f <;> simp [GenericFunction.storable] at hg <;>
    simp only [serialize_generic_function_size]
  · next p =>
    obtain ⟨n, hn⟩ := pw_size_isSome codO p hg.2.2
    rw [hn]
    exact ⟨_, rfl⟩
  · exact ⟨_, rfl⟩
  · exact ⟨_, rfl⟩

theorem qmarray_size_loop_isSome (codO : BackendCodec O) (codL : BackendCodec L) :
    ∀ (fs : List (Option (GenericFunction O L))), entriesCanonical fs →
    ∀ (t : Nat) (st : Option Nat), ∃ r, qmarray_serialize_size_loop codO codL fs t st = some r
  | [], _, t, st => ⟨(t, st), by simp [qmarray_serialize_size_loop]⟩
  | e :: fs, h, t, st => by
      obtain ⟨⟨g, rfl, hg⟩, hfs⟩ := entriesCanonical_cons e fs h
      obtain ⟨n, hn⟩ := generic_size_isSome codO codL g (canonical_storable g hg)
      simp only [qmarray_serialize_size_loop, hn, Option.some_bind]
      exact qmarray_size_loop_isSome codO codL fs hfs _ _

theorem qmarray_size_loop_exact (codO : BackendCodec O) (codL : BackendCodec L)
    (hO : codO.SizeExact) (hL : codL.SizeExact) :
    ∀ (fs : List (Option (GenericFunction O L))), entriesCanonical fs →
    ∀ (t : Nat) (st : Option Nat),
    t + ((fs.map (entryBytes codO codL)).flatten).length < SIZE_MOD →
    ∃ st1, qmarray_serialize_size_loop codO codL fs t st
      = some (t + ((fs.map (entryBytes codO codL)).flatten).length, st1)
  | [], _, t, st, _ => ⟨st, by simp [qmarray_serialize_size_loop]⟩
  | e :: fs, h, t, st, hlen => by
      obtain ⟨⟨g, rfl, hg⟩, hfs⟩ := entriesCanonical_cons e fs h
      simp only [List.map_cons, List.flatten_cons, List.length_append, entryBytes] at hlen ⊢
      have hn := serialize_generic_function_size_eq codO codL hO hL g
        (canonical_storable g hg) (by omega)
      simp only [qmarray_serialize_size_loop, hn, Option.some_bind]
      have hmod : (t + (genericBytes codO codL g).length) % SIZE_MOD
          = t + (genericBytes codO codL g).length := Nat.mod_eq_of_lt (by omega)
      rw [hmod]
      obtain ⟨st1, h1⟩ := qmarray_size_loop_exact codO codL hO hL fs hfs
        (t + (genericBytes codO codL g).length) (some (genericBytes codO codL g).length)
        (by omega)
      refine ⟨st1, ?_⟩
      rw [h1, Nat.add_assoc]

theorem qmarray_wellFormed_iff (qma : Qmarray O L) (h : qma.wellFormed = true) :
    qma.nrows < SIZE_MOD ∧ qma.ncols < SIZE_MOD ∧ qma.nrows * qma.ncols < SIZE_MOD ∧
    qma.funcs.length = qma.nrows * qma.ncols ∧ entriesCanonical qma.funcs := by
  simp only [Qmarray.wellFormed, Bool.and_eq_true, decide_eq_true_eq] at h
  exact ⟨h.1.1.1.1, h.1.1.1.2, h.1.1.2, h.1.2, entriesCanonical_of_all _ h.2⟩

theorem qmarray_firstN (qma : Qmarray O L) (h : qma.wellFormed = true) :
    firstN qma.funcs ((qma.nrows * qma.ncols) % SIZE_MOD) = some qma.funcs := by
  obtain ⟨_, _, h3, h4, _⟩ := qmarray_wellFormed_iff qma h
  rw [Nat.mod_eq_of_lt h3, ← h4]
  exact firstN_length _

theorem qmarray_serialize_size_isSome (codO : BackendCodec O) (codL : BackendCodec L)
    (qma : Qmarray O L) (h : qma.wellFormed = true) :
    ∃ n, qmarray_serialize_size codO codL qma = some n := by
  obtain ⟨_, _, _, _, h5⟩ := qmarray_wellFormed_iff qma h
  obtain ⟨r, hr⟩ := qmarray_size_loop_isSome codO codL qma.funcs h5
    ((2 * sizeof_size_t) % SIZE_MOD) none
  exact ⟨r.1, by simp [qmarray_serialize_size, qmarray_firstN qma h, hr]⟩

theorem qmarrayBytes_length (codO : BackendCodec O) (codL : BackendCodec L)
    (qma : Qmarray O L) :
    (qmarrayBytes codO codL qma).length
      = 2 * sizeof_size_t + ((qma.funcs.map (entryBytes codO codL)).flatten).length := by
  simp only [qmarrayBytes, List.length_append, serialize_size_t_length]
  omega

theorem qmarray_serialize_size_eq (codO : BackendCodec O) (codL : BackendCodec L)
    (hO : codO.SizeExact) (hL : codL.SizeExact) (qma : Qmarray O L)
    (h : qma.wellFormed = true) (hlen : (qmarrayBytes codO codL qma).length < SIZE_MOD) :
    qmarray_serialize_size codO codL qma = some (qmarrayBytes codO codL qma).length := by
  obtain ⟨_, _, _, _, h5⟩ := qmarray_wellFormed_iff qma h
  rw [qmarrayBytes_length] at hlen ⊢
  have h16 : (2 * sizeof_size_t) % SIZE_MOD = 2 * sizeof_size_t := by decide
  obtain ⟨st1, h1⟩ := qmarray_size_loop_exact codO codL hO hL qma.funcs h5
    (2 * sizeof_size_t) none hlen
  simp [qmarray_serialize_size, qmarray_firstN qma h, h16, h1]

theorem qmarray_serialize_eq (codO : BackendCodec O) (codL : BackendCodec L)
    (ser : List Byte) (qma : Qmarray O L) (h : qma.wellFormed = true) :
    qmarray_serialize codO codL ser qma = some (ser ++ qmarrayBytes codO codL qma) := by
  obtain ⟨_, _, _, _, h5⟩ := qmarray_wellFormed_iff qma h
  obtain ⟨n, hn⟩ := qmarray_serialize_size_isSome codO codL qma h
  simp only [qmarray_serialize, hn, Option.some_bind, qmarray_firstN qma h]
  rw [qmarray_serialize_loop_eq codO codL qma.funcs h5, serialize_size_t_eq,
    serialize_size_t_eq ser]
  simp [qmarrayBytes, List.append_assoc]

theorem qmarray_deserialize_roundtrip (codO : BackendCodec O) (codL : BackendCodec L)
    (hO : codO.RoundTrip) (hL : codL.RoundTrip) (qma : Qmarray O L)
    (h : qma.wellFormed = true) (rest : List Byte) :
    qmarray_deserialize codO codL (qmarrayBytes codO codL qma ++ rest) = some (qma, rest) := by
  obtain ⟨h1, h2, h3, h4, h5⟩ := qmarray_wellFormed_iff qma h
  simp only [qmarray_deserialize, qmarrayBytes, List.append_assoc]
  rw [deserialize_size_t_serialize qma.nrows h1]
  simp only [Option.some_bind]
  rw [deserialize_size_t_serialize qma.ncols h2]
  simp only [Option.some_bind, qmarray_alloc, List.length_replicate]
  rw [Nat.mod_eq_of_lt h3, ← h4,
    readMany_roundtrip (deserialize_generic_function codO codL) (entryBytes codO codL)
      qma.funcs (entry_roundtrip codO codL hO hL qma.funcs h5) rest]
  rfl

end QmarrayProofs

section QmarrayClaims

variable {O L : Type}

/-- A 3 by 2 qmarray of polynomial entries of mixed sub-types. -/
def qmarraySample : Qmarray Bool Bool :=
  ⟨3, 2, [some ⟨1, .POLYNOMIAL, 0, .ope true⟩, some ⟨1, .POLYNOMIAL, 1, .ope false⟩,
    some ⟨1, .POLYNOMIAL, 0, .ope false⟩, some ⟨1, .POLYNOMIAL, 2, .ope true⟩,
    some ⟨1, .POLYNOMIAL, 0, .ope true⟩, some ⟨1, .POLYNOMIAL, 1, .ope true⟩]⟩

/-- C6: for a well-formed qmarray `A` (its `nrows*ncols` entries canonical
functions of implemented classes), write mode appends `nrows`, `ncols` and the
entries in column-major order; `qmarray_deserialize` on those bytes yields `B`
with `B.nrows = A.nrows`, `B.ncols = A.ncols` and `B.funcs[i] = A.funcs[i]` for
every index `i < nrows*ncols`, with the read pointer just past them; and the
size reported in size-query mode is `2*sizeof(size_t)` plus the sum of the
entries' serialized sizes, the number of bytes written. -/
theorem qmarray_serialize_roundtrip (codO : BackendCodec O) (codL : BackendCodec L)
    (hO : codO.RoundTrip) (hL : codL.RoundTrip) (hOs : codO.SizeExact) (hLs : codL.SizeExact)
    (A : Qmarray O L) (hA : A.wellFormed = true) (ser rest : List Byte) :
    qmarray_serialize codO codL ser A = some (ser ++ qmarrayBytes codO codL A) ∧
    (∃ B : Qmarray O L,
      qmarray_deserialize codO codL (qmarrayBytes codO codL A ++ rest) = some (B, rest) ∧
      B.nrows = A.nrows ∧ B.ncols = A.ncols ∧ B.funcs.length = A.nrows * A.ncols ∧
      ∀ i, i < A.nrows * A.ncols → B.funcs[i]? = A.funcs[i]?) ∧
    ((qmarrayBytes codO codL A).length < SIZE_MOD →
      qmarray_serialize_size codO codL A = some (qmarrayBytes codO codL A).length) ∧
    (qmarrayBytes codO codL A).length
      = 2 * sizeof_size_t + (A.funcs.map fun e => (entryBytes codO codL e).length).sum := by
  refine ⟨qmarray_serialize_eq codO codL ser A hA, ?_, ?_, ?_⟩
  · refine ⟨A, qmarray_deserialize_roundtrip codO codL hO hL A hA rest, rfl, rfl, ?_, ?_⟩
    · exact (qmarray_wellFormed_iff A hA).2.2.2.1
    · intro i _
      rfl
  · intro hlen
    exact qmarray_serialize_size_eq codO codL hOs hLs A hA hlen
  · rw [qmarrayBytes_length, List.length_flatten, List.map_map]
    rfl

theorem qmarray_serialize_roundtrip_witness :
    boolCodec.RoundTrip ∧ boolCodec.SizeExact ∧ qmarraySample.wellFormed = true ∧
    (qmarray_serialize boolCodec boolCodec [] qmarraySample
        = some ([] ++ qmarrayBytes boolCodec boolCodec qmarraySample) ∧
      (∃ B : Qmarray Bool Bool,
        qmarray_deserialize boolCodec boolCodec
            (qmarrayBytes boolCodec boolCodec qmarraySample ++ [5])
          = some (B, [5]) ∧
        B.nrows = qmarraySample.nrows ∧ B.ncols = qmarraySample.ncols ∧
        B.funcs.length = qmarraySample.nrows * qmarraySample.ncols ∧
        ∀ i, i < qmarraySample.nrows * qmarraySample.ncols →
          B.funcs[i]? = qmarraySample.funcs[i]?) ∧
      ((qmarrayBytes boolCodec boolCodec qmarraySample).length < SIZE_MOD →
        qmarray_serialize_size boolCodec boolCodec qmarraySample
          = some (qmarrayBytes boolCodec boolCodec qmarraySample).length) ∧
      (qmarrayBytes boolCodec boolCodec qmarraySample).length
        = 2 * sizeof_size_t
            + (qmarraySample.funcs.map fun e => (entryBytes boolCodec boolCodec e).length).sum) :=
  ⟨boolCodec_roundTrip, boolCodec_sizeExact, by decide,
    qmarray_serialize_roundtrip boolCodec boolCodec boolCodec_roundTrip boolCodec_roundTrip
      boolCodec_sizeExact boolCodec_sizeExact qmarraySample (by decide) [] [5]⟩

end QmarrayClaims

/-! ## Round trip and sizes of function trains -/

section TrainProofs

variable {O L : Type}

/-- Every core is a non-NULL well-formed qmarray. -/
def coresWellFormed (cs : List (Option (Qmarray O L))) : Prop :=
  ∀ c ∈ cs, ∃ q, c = some q ∧ q.wellFormed = true

theorem coresWellFormed_cons (c : Option (Qmarray O L)) (cs : List (Option (Qmarray O L)))
    (h : coresWellFormed (c :: cs)) :
    (∃ q, c = some q ∧ q.wellFormed = true) ∧ coresWellFormed cs :=
  ⟨h c (by simp), fun x hx => h x (by simp [hx])⟩

theorem coresWellFormed_of_all (cs : List (Option (Qmarray O L)))
    (h : (cs.all fun c =>
      match c with
      | some q => q.wellFormed
      | none => false) = true) : coresWellFormed cs := by
  intro c hc
  rw [List.all_eq_true] at h
  have := h c hc
  cases c with
  | none => simp at this
  | some q => exact ⟨q, rfl, this⟩

theorem function_train_serialize_ranks_eq :
    ∀ (rs : List Nat) (ptr : List Byte),
    function_train_serialize_ranks rs ptr = ptr ++ (rs.map (serialize_size_t [])).flatten
  | [], ptr => by simp [function_train_serialize_ranks]
  | r :: rs, ptr => by
      simp only [function_train_serialize_ranks]
      rw [function_train_serialize_ranks_eq rs, serialize_size_t_eq]
      simp [List.append_assoc]

theorem ranks_bytes_length :
    ∀ rs : List Nat, ((rs.map (serialize_size_t [])).flatten).length = rs.length * sizeof_size_t
  | [] => by simp
  | r :: rs => by
      simp only [List.map_cons, List.flatten_cons, List.length_append, serialize_size_t_length,
        ranks_bytes_length rs, List.length_cons]
      rw [Nat.add_mul]
      omega

theorem function_train_serialize_cores_eq (codO : BackendCodec O) (codL : BackendCodec L) :
    ∀ (cs : List (Option (Qmarray O L))), coresWellFormed cs →
    ∀ ptr : List Byte, function_train_serialize_cores codO codL cs ptr
      = some (ptr ++ (cs.map (coreBytes codO codL)).flatten)
  | [], _, ptr => by simp [function_train_serialize_cores]
  | c :: cs, h, ptr => by
      obtain ⟨⟨q, rfl, hq⟩, hcs⟩ := coresWellFormed_cons c cs h
      simp only [function_train_serialize_cores]
      rw [qmarray_serialize_eq codO codL ptr q hq]
      simp only [Option.some_bind]
      rw [function_train_serialize_cores_eq codO codL cs hcs]
      simp [coreBytes, List.append_assoc]

theorem function_train_size_loop_isSome (codO : BackendCodec O) (codL : BackendCodec L) :
    ∀ (cs : List (Option (Qmarray O L))), coresWellFormed cs →
    ∀ t : Nat, ∃ n, function_train_serialize_size_loop codO codL cs t = some n
  | [], _, t => ⟨t, by simp [function_train_serialize_size_loop]⟩
  | c :: cs, h, t => by
      obtain ⟨⟨q, rfl, hq⟩, hcs⟩ := coresWellFormed_cons c cs h
      obtain ⟨n, hn⟩ := qmarray_serialize_size_isSome codO codL q hq
      simp only [function_train_serialize_size_loop, hn, Option.some_bind]
      exact function_train_size_loop_isSome codO codL cs hcs _

theorem function_train_size_loop_exact (codO : BackendCodec O) (codL : BackendCodec L)
    (hO : codO.SizeExact) (hL : codL.SizeExact) :
    ∀ (cs : List (Option (Qmarray O L))), coresWellFormed cs →
    ∀ t : Nat, t + ((cs.map (coreBytes codO codL)).flatten).length < SIZE_MOD →
    function_train_serialize_size_loop codO codL cs t
      = some (t + ((cs.map (coreBytes codO codL)).flatten).length)
  | [], _, t, _ => by simp [function_train_serialize_size_loop]
  | c :: cs, h, t, hlen => by
      obtain ⟨⟨q, rfl, hq⟩, hcs⟩ := coresWellFormed_cons c cs h
      simp only [List.map_cons, List.flatten_cons, List.length_append, coreBytes] at hlen ⊢
      have hn := qmarray_serialize_size_eq codO codL hO hL q hq (by omega)
      simp only [function_train_serialize_size_loop, hn, Option.some_bind]
      have hmod : (t + (qmarrayBytes codO codL q).length) % SIZE_MOD
          = t + (qmarrayBytes codO codL q).length := Nat.mod_eq_of_lt (by omega)
      rw [hmod, function_train_size_loop_exact codO codL hO hL cs hcs _ (by omega),
        Nat.add_assoc]

theorem core_roundtrip (codO : BackendCodec O) (codL : BackendCodec L)
    (hO : codO.RoundTrip) (hL : codL.RoundTrip) (cs : List (Option (Qmarray O L)))
    (h : coresWellFormed cs) :
    ∀ c ∈ cs, ∀ rest,
      (fun ptr => (qmarray_deserialize codO codL ptr).map fun q => (some q.1, q.2))
        (coreBytes codO codL c ++ rest) = some (c, rest) := by
  intro c hc rest
  obtain ⟨q, rfl, hq⟩ := h c hc
  simp only [coreBytes]
  rw [qmarray_deserialize_roundtrip codO codL hO hL q hq]
  rfl

theorem train_wellFormed_iff (ft : FunctionTrain O L) (h : ft.wellFormed = true) :
    ft.dim + 1 < SIZE_MOD ∧ ft.ranks.length = ft.dim + 1 ∧ ft.cores.length = ft.dim ∧
    (∀ r ∈ ft.ranks, r < SIZE_MOD) ∧ coresWellFormed ft.cores := by
  simp only [FunctionTrain.wellFormed, Bool.and_eq_true, decide_eq_true_eq] at h
  refine ⟨h.1.1.1.1, h.1.1.1.2, h.1.1.2, ?_, coresWellFormed_of_all _ h.2⟩
  intro r hr
  have := h.1.2
  rw [List.all_eq_true] at this
  simpa using this r hr

theorem train_firstN (ft : FunctionTrain O L) (h : ft.wellFormed = true) :
    firstN ft.ranks ((ft.dim + 1) % SIZE_MOD) = some ft.ranks ∧
    firstN ft.cores ft.dim = some ft.cores := by
  obtain ⟨h1, h2, h3, _, _⟩ := train_wellFormed_iff ft h
  constructor
  · rw [Nat.mod_eq_of_lt h1, ← h2]
    exact firstN_length _
  · conv_lhs => rw [← h3]
    exact firstN_length _

theorem function_train_serialize_size_isSome (codO : BackendCodec O) (codL : BackendCodec L)
    (ft : FunctionTrain O L) (h : ft.wellFormed = true) :
    ∃ n, function_train_serialize_size codO codL ft = some n := by
  obtain ⟨_, _, _, _, h5⟩ := train_wellFormed_iff ft h
  obtain ⟨n, hn⟩ := function_train_size_loop_isSome codO codL ft.cores h5
    ((sizeof_size_t + (((ft.dim + 1) % SIZE_MOD) * sizeof_size_t) % SIZE_MOD) % SIZE_MOD)
  exact ⟨n, by simp only [function_train_serialize_size, (train_firstN ft h).2,
    Option.some_bind, hn]⟩

theorem functionTrainBytes_length (codO : BackendCodec O) (codL : BackendCodec L)
    (ft : FunctionTrain O L) (h : ft.wellFormed = true) :
    (functionTrainBytes codO codL ft).length
      = (ft.dim + 2) * sizeof_size_t + ((ft.cores.map (coreBytes codO codL)).flatten).length := by
  obtain ⟨_, h2, _, _, _⟩ := train_wellFormed_iff ft h
  simp only [functionTrainBytes, List.length_append, serialize_size_t_length,
    ranks_bytes_length, h2, sizeof_size_t]
  omega

theorem function_train_serialize_size_eq (codO : BackendCodec O) (codL : BackendCodec L)
    (hO : codO.SizeExact) (hL : codL.SizeExact) (ft : FunctionTrain O L)
    (h : ft.wellFormed = true) (hlen : (functionTrainBytes codO codL ft).length < SIZE_MOD) :
    function_train_serialize_size codO codL ft
      = some (functionTrainBytes codO codL ft).length := by
  obtain ⟨h1, _, _, _, h5⟩ := train_wellFormed_iff ft h
  rw [functionTrainBytes_length codO codL ft h] at hlen ⊢
  have hinit : (sizeof_size_t + (((ft.dim + 1) % SIZE_MOD) * sizeof_size_t) % SIZE_MOD)
      % SIZE_MOD = (ft.dim + 2) * sizeof_size_t := by
    simp only [sizeof_size_t, SIZE_MOD_eq] at hlen h1 ⊢
    omega
  simp only [function_train_serialize_size, (train_firstN ft h).2, Option.some_bind, hinit]
  exact function_train_size_loop_exact codO codL hO hL ft.cores h5 _ hlen

theorem function_train_serialize_eq (codO : BackendCodec O) (codL : BackendCodec L)
    (ser : List Byte) (ft : FunctionTrain O L) (h : ft.wellFormed = true) :
    function_train_serialize codO codL ser ft
      = some (ser ++ functionTrainBytes codO codL ft) := by
  obtain ⟨_, _, _, _, h5⟩ := train_wellFormed_iff ft h
  obtain ⟨n, hn⟩ := function_train_serialize_size_isSome codO codL ft h
  simp only [function_train_serialize, hn, Option.some_bind, (train_firstN ft h).1,
    (train_firstN ft h).2]
  rw [function_train_serialize_cores_eq codO codL ft.cores h5,
    function_train_serialize_ranks_eq, serialize_size_t_eq]
  simp [functionTrainBytes, List.append_assoc]

theorem function_train_deserialize_roundtrip (codO : BackendCodec O) (codL : BackendCodec L)
    (hO : codO.RoundTrip) (hL : codL.RoundTrip) (ft : FunctionTrain O L)
    (h : ft.wellFormed = true) (rest : List Byte) :
    function_train_deserialize codO codL (functionTrainBytes codO codL ft ++ rest)
      = some (ft, rest) := by
  obtain ⟨h1, h2, h3, h4, h5⟩ := train_wellFormed_iff ft h
  simp only [function_train_deserialize, functionTrainBytes, List.append_assoc]
  rw [deserialize_size_t_serialize ft.dim (by omega)]
  simp only [Option.some_bind]
  rw [Nat.mod_eq_of_lt h1, ← h2,
    readMany_roundtrip deserialize_size_t (serialize_size_t []) ft.ranks
      (fun r hr rest1 => deserialize_size_t_serialize r (h4 r hr) rest1)]
  simp only [Option.some_bind]
  conv_lhs => rw [← h3]
  rw [readMany_roundtrip _ (coreBytes codO codL) ft.cores
    (core_roundtrip codO codL hO hL ft.cores h5) rest]
  simp only [Option.map_some', h3]

end TrainProofs

section TrainClaims

variable {O L : Type}

/-- A train of dimension 2 with ranks (1,2,1): a 1 by 2 and a 2 by 1 core. -/
def trainSample : FunctionTrain Bool Bool :=
  ⟨2, [1, 2, 1],
    [some ⟨1, 2, [some ⟨1, .POLYNOMIAL, 0, .ope true⟩, some ⟨1, .LINELM, 0, .lexp false⟩]⟩,
     some ⟨2, 1, [some ⟨1, .PIECEWISE, 1, .pw (node [leaf true, leaf false])⟩,
       some ⟨1, .POLYNOMIAL, 0, .ope true⟩]⟩]⟩

/-- C7: for a well-formed train, write mode appends `dim`, then
`ranks[0..dim]`, then the `dim` cores in order; `function_train_deserialize` on
those bytes yields a train with the same `dim`, the same `dim + 1` ranks in
order and the same cores, with the read pointer just past them; and the size
reported in size-query mode, `(dim+2)*sizeof(size_t)` plus the cores' sizes, is
the number of bytes written. -/
theorem function_train_serialize_roundtrip (codO : BackendCodec O) (codL : BackendCodec L)
    (hO : codO.RoundTrip) (hL : codL.RoundTrip) (hOs : codO.SizeExact) (hLs : codL.SizeExact)
    (ft : FunctionTrain O L) (hft : ft.wellFormed = true) (ser rest : List Byte) :
    function_train_serialize codO codL ser ft
      = some (ser ++ (serialize_size_t [] ft.dim ++
          ((ft.ranks.map (serialize_size_t [])).flatten ++
            (ft.cores.map (coreBytes codO codL)).flatten))) ∧
    (∃ ft1 : FunctionTrain O L,
      function_train_deserialize codO codL (functionTrainBytes codO codL ft ++ rest)
        = some (ft1, rest) ∧
      ft1.dim = ft.dim ∧ ft1.ranks = ft.ranks ∧ ft1.ranks.length = ft.dim + 1 ∧
      ft1.cores = ft.cores ∧ ft1.cores.length = ft.dim) ∧
    ((functionTrainBytes codO codL ft).length < SIZE_MOD →
      function_train_serialize_size codO codL ft
        = some (functionTrainBytes codO codL ft).length) ∧
    (functionTrainBytes codO codL ft).length
      = (ft.dim + 2) * sizeof_size_t
          + (ft.cores.map fun c => (coreBytes codO codL c).length).sum := by
  obtain ⟨_, h2, h3, _, _⟩ := train_wellFormed_iff ft hft
  refine ⟨function_train_serialize_eq codO codL ser ft hft, ?_, ?_, ?_⟩
  · exact ⟨ft, function_train_deserialize_roundtrip codO codL hO hL ft hft rest,
      rfl, rfl, h2, rfl, h3⟩
  · intro hlen
    exact function_train_serialize_size_eq codO codL hOs hLs ft hft hlen
  · rw [functionTrainBytes_length codO codL ft hft, List.length_flatten, List.map_map]
    rfl

theorem function_train_serialize_roundtrip_witness :
    boolCodec.RoundTrip ∧ boolCodec.SizeExact ∧ trainSample.wellFormed = true ∧
    (function_train_serialize boolCodec boolCodec [] trainSample
        = some ([] ++ (serialize_size_t [] trainSample.dim ++
            ((trainSample.ranks.map (serialize_size_t [])).flatten ++
              (trainSample.cores.map (coreBytes boolCodec boolCodec)).flatten))) ∧
      (∃ ft1 : FunctionTrain Bool Bool,
        function_train_deserialize boolCodec boolCodec
            (functionTrainBytes boolCodec boolCodec trainSample ++ [4])
          = some (ft1, [4]) ∧
        ft1.dim = trainSample.dim ∧ ft1.ranks = trainSample.ranks ∧
        ft1.ranks.length = trainSample.dim + 1 ∧
        ft1.cores = trainSample.cores ∧ ft1.cores.length = trainSample.dim) ∧
      ((functionTrainBytes boolCodec boolCodec trainSample).length < SIZE_MOD →
        function_train_serialize_size boolCodec boolCodec trainSample
          = some (functionTrainBytes boolCodec boolCodec trainSample).length) ∧
      (functionTrainBytes boolCodec boolCodec trainSample).length
        = (trainSample.dim + 2) * sizeof_size_t
            + (trainSample.cores.map fun c => (coreBytes boolCodec boolCodec c).length).sum) :=
  ⟨boolCodec_roundTrip, boolCodec_sizeExact, by decide,
    function_train_serialize_roundtrip boolCodec boolCodec boolCodec_roundTrip
      boolCodec_roundTrip boolCodec_sizeExact boolCodec_sizeExact trainSample (by decide) [] [4]⟩

end TrainClaims

/-! ## The combinators `generic_function_daxpby` and `generic_function_prod` -/

/-- The backend routines the combinators call. -/
inductive BackendRoutine where
  | piecewise_poly_copy
  | piecewise_poly_scale
  | piecewise_poly_daxpby
  | piecewise_poly_prod
  | orth_poly_expansion_copy
  | orth_poly_expansion_scale
  | orth_poly_expansion_daxpby
  | orth_poly_expansion_prod
  | lin_elem_exp_copy
  | lin_elem_exp_scale
  | lin_elem_exp_axpy
  | lin_elem_exp_prod
  | piecewise_poly_inner
  | orth_poly_expansion_inner
  | lin_elem_exp_inner
  | orth_poly_expansion_axpy
  | piecewise_poly_eval
  | orth_poly_expansion_eval
  | lin_elem_exp_eval
deriving DecidableEq, Repr

/-- How a call ends: it returns a value; the process is terminated by
`exit(status)` after a diagnostic; an `assert` fails; a backend routine is
handed a pointer `arg` to something that is not of the type it takes (the
`void *` payload converted without a check), after which nothing is defined; or
a NULL pointer is dereferenced or memory outside an allocated block is
accessed (`undefined`). -/
inductive Outcome (P α : Type) where
  | ret (v : α) : Outcome P α
  | exit (status : Nat) : Outcome P α
  | assertion : Outcome P α
  | handed (routine : BackendRoutine) (arg : P) : Outcome P α
  | undefined : Outcome P α

/-- Sequencing of calls: what follows runs only when the call returns. -/
def Outcome.bind {P α β : Type} (x : Outcome P α) (k : α → Outcome P β) : Outcome P β :=
  match x with
  | .ret v => k v
  | .exit status => .exit status
  | .assertion => .assertion
  | .handed routine arg => .handed routine arg
  | .undefined => .undefined

/-- The external and numerical routines the combinators call, each taken to
return its result: the polynomial backend (`orth_poly_expansion_*`, with
`orth_poly_expansion_ptype p` the field `p->p->ptype`), the linear-element
backend (`lin_elem_exp_*`; `lin_elem_exp_axpy a x y` gives its status and the
updated `y`), and the adaptive refits `piecewise_poly_daxpby` and
`piecewise_poly_prod` of `piecewisepoly.c` together with
`piecewise_poly_scale`.  Scalars are of type `R`. -/
structure Backends (O L R : Type) where
  orth_poly_expansion_copy : O → O
  orth_poly_expansion_scale : R → O → O
  orth_poly_expansion_ptype : O → Int
  orth_poly_expansion_daxpby : R → Option O → R → Option O → O
  orth_poly_expansion_prod : O → O → O
  lin_elem_exp_copy : L → L
  lin_elem_exp_scale : R → L → L
  lin_elem_exp_axpy : R → L → L → Int × L
  lin_elem_exp_prod : L → L → L
  piecewise_poly_scale : R → PiecewisePoly O → PiecewisePoly O
  piecewise_poly_daxpby :
    R → Option (PiecewisePoly O) → R → Option (PiecewisePoly O) → PiecewisePoly O
  piecewise_poly_prod : PiecewisePoly O → PiecewisePoly O → PiecewisePoly O

section Combinators

variable {O L R : Type}

mutual
/-- The C routine `piecewise_poly_copy` on a non-NULL tree: leaves are copied
by the backend, interior nodes child by child. -/
def piecewise_poly_copy (copy : O → O) : PiecewisePoly O → PiecewisePoly O
  | leaf o => leaf (copy o)
  | node bs => node (piecewise_poly_copy_loop copy bs)
/-- The loop over the children in `piecewise_poly_copy`. -/
def piecewise_poly_copy_loop (copy : O → O) : List (PiecewisePoly O) → List (PiecewisePoly O)
  | [] => []
  | b :: rest => piecewise_poly_copy copy b :: piecewise_poly_copy_loop copy rest
end

/-- The conversion of the payload pointer to `struct PiecewisePoly *` at a call
of `routine`. -/
def asPiecewise (routine : BackendRoutine) (f : Payload O L) :
    Outcome (Payload O L) (PiecewisePoly O) :=
  match f with
  | .pw p => .ret p
  | other => .handed routine other

/-- The conversion of the payload pointer to `struct OrthPolyExpansion *` at a
call of `routine`. -/
def asPolynomial (routine : BackendRoutine) (f : Payload O L) : Outcome (Payload O L) O :=
  match f with
  | .ope o => .ret o
  | other => .handed routine other

/-- The conversion of the payload pointer to `struct LinElemExp *` at a call of
`routine`. -/
def asLinElem (routine : BackendRoutine) (f : Payload O L) : Outcome (Payload O L) L :=
  match f with
  | .lexp l => .ret l
  | other => .handed routine other

/-- The C routine `generic_function_copy`: `none` is the NULL it returns for
`RATIONAL` and `KERNEL`.  `piecewise_poly_copy` returns NULL on a NULL tree. -/
def generic_function_copy (B : Backends O L R) (gf : GenericFunction O L) :
    Outcome (Payload O L) (Option (GenericFunction O L)) :=
  match gf.fc with
  | .PIECEWISE =>
      match gf.f with
      | .null => .ret (some ((generic_function_alloc gf.dim gf.fc gf.sub_type).setF .null))
      | .pw p =>
          .ret (some ((generic_function_alloc gf.dim gf.fc gf.sub_type).setF
            (.pw (piecewise_poly_copy B.orth_poly_expansion_copy p))))
      | other => .handed .piecewise_poly_copy other
  | .POLYNOMIAL =>
      (asPolynomial .orth_poly_expansion_copy gf.f).bind fun o =>
        .ret (some ((generic_function_alloc gf.dim gf.fc gf.sub_type).setF
          (.ope (B.orth_poly_expansion_copy o))))
  | .LINELM =>
      (asLinElem .lin_elem_exp_copy gf.f).bind fun l =>
        .ret (some ((generic_function_alloc gf.dim gf.fc gf.sub_type).setF
          (.lexp (B.lin_elem_exp_copy l))))
  | .RATIONAL => .ret none
  | .KERNEL => .ret none

/-- The C routine `generic_function_scale(a, gf)`: the function after the
in-place scaling. -/
def generic_function_scale (B : Backends O L R) (a : R) (gf : GenericFunction O L) :
    Outcome (Payload O L) (GenericFunction O L) :=
  match gf.fc with
  | .PIECEWISE =>
      (asPiecewise .piecewise_poly_scale gf.f).bind fun p =>
        .ret (gf.setF (.pw (B.piecewise_poly_scale a p)))
  | .POLYNOMIAL =>
      (asPolynomial .orth_poly_expansion_scale gf.f).bind fun o =>
        .ret (gf.setF (.ope (B.orth_poly_expansion_scale a o)))
  | .LINELM =>
      (asLinElem .lin_elem_exp_scale gf.f).bind fun l =>
        .ret (gf.setF (.lexp (B.lin_elem_exp_scale a l)))
  | .RATIONAL => .ret gf
  | .KERNEL => .ret gf

/-- The branch of `generic_function_daxpby` for one NULL operand: `g` is the
other operand and `c` its coefficient; `first` tells whether `g` is `x`. -/
def generic_function_daxpby_single (B : Backends O L R) (a b : R) (first : Bool)
    (g : GenericFunction O L) : Outcome (Payload O L) (Option (GenericFunction O L)) :=
  match g.fc with
  | .PIECEWISE =>
      (asPiecewise .piecewise_poly_daxpby g.f).bind fun pwtemp =>
        .ret (some ((generic_function_alloc g.dim g.fc g.sub_type).setF
          (.pw (if first then B.piecewise_poly_daxpby a (some pwtemp) b none
                else B.piecewise_poly_daxpby a none b (some pwtemp)))))
  | .POLYNOMIAL =>
      (asPolynomial .orth_poly_expansion_daxpby g.f).bind fun opetemp =>
        let p := if first then B.orth_poly_expansion_daxpby a (some opetemp) b none
                 else B.orth_poly_expansion_daxpby a none b (some opetemp)
        .ret (some ((generic_function_alloc g.dim g.fc
          (B.orth_poly_expansion_ptype p)).setF (.ope p)))
  | .LINELM =>
      (generic_function_copy B g).bind fun out =>
        match out with
        | none => .ret none
        | some o => (generic_function_scale B (if first then a else b) o).bind fun o1 =>
            .ret (some o1)
  | .RATIONAL => .ret none
  | .KERNEL => .ret none

/-- The promotion of an operand to a piecewise polynomial in the mixed-class
branches: a `POLYNOMIAL` payload is wrapped as the single leaf of a fresh tree
(`ap = piecewise_poly_alloc(); ap->ope = x->f`), any other payload pointer is
used as it is (`ap = x->f`). -/
def promote (g : GenericFunction O L) : Payload O L :=
  if g.fc = .POLYNOMIAL then
    match g.f with
    | .ope o => .pw (leaf o)
    | other => other
  else g.f

/-- The C routine `generic_function_daxpby(a, x, b, y)`; `none` stands for a
NULL operand and for a NULL result. -/
def generic_function_daxpby (B : Backends O L R) (a : R) (x : Option (GenericFunction O L))
    (b : R) (y : Option (GenericFunction O L)) :
    Outcome (Payload O L) (Option (GenericFunction O L)) :=
  match x, y with
  | none, none => .assertion
  | none, some y => generic_function_daxpby_single B a b false y
  | some x, none => generic_function_daxpby_single B a b true x
  | some x, some y =>
      if x.fc = y.fc then
        match x.fc with
        | .PIECEWISE =>
            (asPiecewise .piecewise_poly_daxpby x.f).bind fun px =>
              (asPiecewise .piecewise_poly_daxpby y.f).bind fun py =>
                .ret (some ((generic_function_alloc x.dim x.fc x.sub_type).setF
                  (.pw (B.piecewise_poly_daxpby a (some px) b (some py)))))
        | .POLYNOMIAL =>
            (asPolynomial .orth_poly_expansion_daxpby x.f).bind fun ox =>
              (asPolynomial .orth_poly_expansion_daxpby y.f).bind fun oy =>
                let p := B.orth_poly_expansion_daxpby a (some ox) b (some oy)
                .ret (some ((generic_function_alloc x.dim .POLYNOMIAL
                  (B.orth_poly_expansion_ptype p)).setF (.ope p)))
        | .LINELM =>
            (generic_function_copy B y).bind fun out =>
              match out with
              | none => .assertion
              | some o =>
                  (generic_function_scale B b o).bind fun o1 =>
                    (asLinElem .lin_elem_exp_axpy x.f).bind fun lx =>
                      (asLinElem .lin_elem_exp_axpy o1.f).bind fun lo =>
                        .ret (some (o1.setF (.lexp (B.lin_elem_exp_axpy a lx lo).2)))
        | .RATIONAL => .ret none
        | .KERNEL => .ret none
      else if x.fc = .LINELM ∨ y.fc = .LINELM then
        .exit 1
      else
        (asPiecewise .piecewise_poly_daxpby (promote x)).bind fun ap =>
          (asPiecewise .piecewise_poly_daxpby (promote y)).bind fun bp =>
            .ret (some ((generic_function_alloc x.dim .PIECEWISE x.sub_type).setF
              (.pw (B.piecewise_poly_daxpby a (some ap) b (some bp)))))

/-- The C routine `generic_function_prod(a, b)`: when the classes differ or `a`
is `PIECEWISE`, both operands are promoted and handed to
`piecewise_poly_prod`; otherwise the product of the common backend is taken. -/
def generic_function_prod (B : Backends O L R) (a b : GenericFunction O L) :
    Outcome (Payload O L) (Option (GenericFunction O L)) :=
  if a.fc ≠ b.fc ∨ a.fc = .PIECEWISE then
    (asPiecewise .piecewise_poly_prod (promote a)).bind fun ap =>
      (asPiecewise .piecewise_poly_prod (promote b)).bind fun bp =>
        .ret (some ((generic_function_alloc a.dim .PIECEWISE a.sub_type).setF
          (.pw (B.piecewise_poly_prod ap bp))))
  else
    match a.fc with
    | .PIECEWISE =>
        (asPiecewise .piecewise_poly_prod a.f).bind fun ap =>
          (asPiecewise .piecewise_poly_prod b.f).bind fun bp =>
            .ret (some ((generic_function_alloc a.dim .PIECEWISE a.sub_type).setF
              (.pw (B.piecewise_poly_prod ap bp))))
    | .POLYNOMIAL =>
        (asPolynomial .orth_poly_expansion_prod a.f).bind fun oa =>
          (asPolynomial .orth_poly_expansion_prod b.f).bind fun ob =>
            .ret (some ((generic_function_alloc a.dim a.fc a.sub_type).setF
              (.ope (B.orth_poly_expansion_prod oa ob))))
    | .LINELM =>
        (asLinElem .lin_elem_exp_prod a.f).bind fun la =>
          (asLinElem .lin_elem_exp_prod b.f).bind fun lb =>
            .ret (some ((generic_function_alloc a.dim a.fc a.sub_type).setF
              (.lexp (B.lin_elem_exp_prod la lb))))
    | .RATIONAL => .ret none
    | .KERNEL => .ret none

end Combinators

section CombinatorClaims

variable {O L R : Type}

/-- Backend routines on `Bool` payloads with `Nat` scalars, used to exercise
the combinators. -/
def boolBackends : Backends Bool Bool Nat where
  orth_poly_expansion_copy := fun o => o
  orth_poly_expansion_scale := fun _ o => o
  orth_poly_expansion_ptype := fun _ => 0
  orth_poly_expansion_daxpby := fun _ x _ y => (x.getD false) || (y.getD false)
  orth_poly_expansion_prod := fun x y => x && y
  lin_elem_exp_copy := fun l => l
  lin_elem_exp_scale := fun _ l => l
  lin_elem_exp_axpy := fun _ x y => (0, x || y)
  lin_elem_exp_prod := fun x y => x && y
  piecewise_poly_scale := fun _ p => p
  piecewise_poly_daxpby := fun _ x _ y => node ((x.toList) ++ (y.toList))
  piecewise_poly_prod := fun x y => node [x, y]

/-- C8: for non-NULL operands of implemented classes (payload of the announced
type), the function `generic_function_daxpby` returns has the class of `x` when
`x` and `y` share a class, and class `PIECEWISE` when the classes differ and
neither is `LINELM`; in the latter case the two operands handed to
`piecewise_poly_daxpby` are the promoted ones, a `POLYNOMIAL` payload being the
single leaf of a fresh tree. -/
theorem generic_function_daxpby_class (B : Backends O L R) (a b : R)
    (x y : GenericFunction O L) (hx : x.tagged = true) (hy : y.tagged = true) :
    (x.fc = y.fc → ∃ g, generic_function_daxpby B a (some x) b (some y) = .ret (some g) ∧
      g.fc = x.fc) ∧
    (x.fc ≠ y.fc → x.fc ≠ .LINELM → y.fc ≠ .LINELM →
      ∃ g ap bp, generic_function_daxpby B a (some x) b (some y) = .ret (some g) ∧
        g.fc = .PIECEWISE ∧ promote x = .pw ap ∧ promote y = .pw bp ∧
        g.f = .pw (B.piecewise_poly_daxpby a (some ap) b (some bp)) ∧
        (∀ o, x.f = .ope o → ap = leaf o) ∧ (∀ o, y.f = .ope o → bp = leaf o)) := by
  obtain ⟨dx, fx, sx, px⟩ := x
  obtain ⟨dy, fy, sy, py⟩ := y
  cases fx <;> cases px <;> simp [GenericFunction.tagged] at hx <;>
    cases fy <;> cases py <;> simp [GenericFunction.tagged] at hy <;>
    simp [generic_function_daxpby, asPiecewise, asPolynomial, asLinElem, Outcome.bind,
      generic_function_alloc, GenericFunction.setF, promote, generic_function_copy,
      generic_function_scale]

theorem generic_function_daxpby_class_witness :
    polySample.tagged = true ∧ pwSample.tagged = true ∧
    ((polySample.fc = pwSample.fc →
        ∃ g, generic_function_daxpby boolBackends 1 (some polySample) 2 (some pwSample)
          = .ret (some g) ∧ g.fc = polySample.fc) ∧
      (polySample.fc ≠ pwSample.fc → polySample.fc ≠ .LINELM → pwSample.fc ≠ .LINELM →
        ∃ g ap bp, generic_function_daxpby boolBackends 1 (some polySample) 2 (some pwSample)
            = .ret (some g) ∧
          g.fc = .PIECEWISE ∧ promote polySample = .pw ap ∧ promote pwSample = .pw bp ∧
          g.f = .pw (boolBackends.piecewise_poly_daxpby 1 (some ap) 2 (some bp)) ∧
          (∀ o, polySample.f = .ope o → ap = leaf o) ∧
          (∀ o, pwSample.f = .ope o → bp = leaf o))) :=
  ⟨rfl, rfl, generic_function_daxpby_class boolBackends 1 2 polySample pwSample rfl rfl⟩

/-- C10: with one operand of class `LINELM` and the other of class
`POLYNOMIAL` or `PIECEWISE`, `generic_function_prod` does not end in `exit(1)`
as `generic_function_daxpby` does on the same operands: it takes the
everything-to-`PIECEWISE` branch and hands the `LinElemExp` payload to
`piecewise_poly_prod` as if it were a `struct PiecewisePoly *`. -/
theorem generic_function_prod_linelm_mixed (B : Backends O L R) (c d : R) (d1 d2 : Nat)
    (s1 s2 : Int) (l : L) (o : O) (p : PiecewisePoly O) :
    generic_function_prod B ⟨d1, .LINELM, s1, .lexp l⟩ ⟨d2, .POLYNOMIAL, s2, .ope o⟩
      = .handed .piecewise_poly_prod (.lexp l) ∧
    generic_function_prod B ⟨d2, .POLYNOMIAL, s2, .ope o⟩ ⟨d1, .LINELM, s1, .lexp l⟩
      = .handed .piecewise_poly_prod (.lexp l) ∧
    generic_function_prod B ⟨d1, .LINELM, s1, .lexp l⟩ ⟨d2, .PIECEWISE, s2, .pw p⟩
      = .handed .piecewise_poly_prod (.lexp l) ∧
    generic_function_prod B ⟨d2, .PIECEWISE, s2, .pw p⟩ ⟨d1, .LINELM, s1, .lexp l⟩
      = .handed .piecewise_poly_prod (.lexp l) ∧
    generic_function_daxpby B c (some ⟨d1, .LINELM, s1, .lexp l⟩) d
      (some ⟨d2, .POLYNOMIAL, s2, .ope o⟩) = .exit 1 := by
  refine ⟨?_, ?_, ?_, ?_, ?_⟩ <;>
    simp [generic_function_prod, generic_function_daxpby, asPiecewise, Outcome.bind, promote]

end CombinatorClaims

/-! ## Closed-form train constructors (`elements.c`) -/

/-- The leaf constructors of `functions.c` as a train constructor calls them
while it works on dimension `onDim`.  The class, the sub-type, the bounds
`bds->lb[onDim]`, `bds->ub[onDim]` and the approximation options of a call are
those of the dimension, so a call is given by its coefficients and `onDim`:
`generic_function_constant a onDim`, `generic_function_linear a offset onDim`,
`generic_function_quadratic a offset onDim`, and
`generic_function_approximate1d onDim` for the fit of the `onDim`-th target
function.  The value is the pointer returned (NULL is `none`). -/
structure LeafConstructors (O L R : Type) where
  generic_function_constant : R → Nat → Option (GenericFunction O L)
  generic_function_linear : R → R → Nat → Option (GenericFunction O L)
  generic_function_quadratic : R → R → Nat → Option (GenericFunction O L)
  generic_function_approximate1d : Nat → Option (GenericFunction O L)

section TrainConstructors

variable {O L R : Type}

/-- The loop `for (i = lo; i < lo + n; i++) body`, threading the state; it
stops at the first iteration that has no defined result. -/
def forLoop {σ : Type} (body : Nat → σ → Option σ) : Nat → Nat → σ → Option σ
  | _, 0, s => some s
  | i, n + 1, s => (body i s).bind (forLoop body (i + 1) n)

/-- The store `ft->ranks[k] = v`; `none` when `k` is outside the block of
ranks. -/
def function_train_store_rank (ft : FunctionTrain O L) (k v : Nat) :
    Option (FunctionTrain O L) :=
  if k < ft.ranks.length then some ⟨ft.dim, ft.ranks.set k v, ft.cores⟩ else none

/-- The store `ft->cores[k] = q`; `none` when `k` is outside the block of
cores. -/
def function_train_store_core (ft : FunctionTrain O L) (k : Nat) (q : Qmarray O L) :
    Option (FunctionTrain O L) :=
  if k < ft.cores.length then some ⟨ft.dim, ft.ranks, ft.cores.set k (some q)⟩ else none

/-- The store `q->funcs[k] = g`; `none` when `k` is outside the block of
entries. -/
def qmarray_store (q : Qmarray O L) (k : Nat) (g : Option (GenericFunction O L)) :
    Option (Qmarray O L) :=
  if k < q.funcs.length then some ⟨q.nrows, q.ncols, q.funcs.set k g⟩ else none

/-- The stores `q->funcs[k] = g0; q->funcs[k+1] = g1; ...` made one after the
other. -/
def qmarray_store_seq (q : Qmarray O L) (k : Nat) :
    List (Option (GenericFunction O L)) → Option (Qmarray O L)
  | [] => some q
  | g :: gs => (qmarray_store q k g).bind fun q1 => qmarray_store_seq q1 (k + 1) gs

/-- The steps `ft->ranks[k] = rank; ft->cores[k] = qmarray_alloc(..);
ft->cores[k]->funcs[..] = ..` of one dimension, `core` being the allocated
qmarray after the stores into it. -/
def function_train_store (ft : FunctionTrain O L) (k rank : Nat)
    (core : Option (Qmarray O L)) : Option (FunctionTrain O L) :=
  (function_train_store_rank ft k rank).bind fun ft1 =>
    core.bind fun q => function_train_store_core ft1 k q

/-- The C routine `function_train_rankone`: every core is 1 by 1 and holds the
fit of the target function of its dimension. -/
def function_train_rankone (LC : LeafConstructors O L R) (dim : Nat) :
    Option (FunctionTrain O L) :=
  (forLoop (fun onDim ft =>
      function_train_store ft onDim 1
        (qmarray_store_seq (qmarray_alloc 1 1) 0 [LC.generic_function_approximate1d onDim]))
    0 dim (function_train_alloc dim)).bind fun ft =>
  function_train_store_rank ft dim 1

/-- The body shared, statement for statement, by the C routines
`function_train_initsum`, `function_train_initsum2`, `function_train_linear2`,
`function_train_linear` and `function_train_quadratic_aligned`, which differ
in the leaf constructor that makes the function `term onDim` of a dimension
and in the stores `firstCore` made into the first core.  `one onDim` and
`zero onDim` are the calls `generic_function_constant(1.0, ..)` and
`generic_function_constant(0.0, ..)`.  The first core is allocated 1 by 1 when
`dim == 1` and 1 by 2 otherwise; the interior cores and the last core, and the
ranks after `ranks[0]`, are written only inside `if (dim > 1)`. -/
def function_train_sum_cores (dim : Nat) (term one zero : Nat → Option (GenericFunction O L))
    (firstCore : List (Option (GenericFunction O L))) : Option (FunctionTrain O L) :=
  (function_train_store (function_train_alloc dim) 0 1
    (qmarray_store_seq (if dim = 1 then qmarray_alloc 1 1 else qmarray_alloc 1 2) 0
      firstCore)).bind fun ft =>
  if dim > 1 then
    (forLoop (fun onDim ft1 =>
        function_train_store ft1 onDim 2
          (qmarray_store_seq (qmarray_alloc 2 2) 0
            [one onDim, term onDim, zero onDim, one onDim]))
      1 (dim - 1 - 1) ft).bind fun ft2 =>
    (function_train_store_rank ft2 (dim - 1) 2).bind fun ft3 =>
    (function_train_store_rank ft3 (dim - 1 + 1) 1).bind fun ft4 =>
    (qmarray_store_seq (qmarray_alloc 2 1) 0 [one (dim - 1), term (dim - 1)]).bind fun q =>
    function_train_store_core ft4 (dim - 1) q
  else some ft

/-- The C routine `function_train_initsum`: `funcs[0]` and `funcs[1]` of the
first core are both written before the test `dim > 1`. -/
def function_train_initsum (LC : LeafConstructors O L R) [One R] [Zero R] (dim : Nat) :
    Option (FunctionTrain O L) :=
  function_train_sum_cores dim LC.generic_function_approximate1d
    (LC.generic_function_constant 1) (LC.generic_function_constant 0)
    [LC.generic_function_approximate1d 0, LC.generic_function_constant 1 0]

/-- The C routine `function_train_initsum2`, which differs from
`function_train_initsum` in how the target functions are passed. -/
def function_train_initsum2 (LC : LeafConstructors O L R) [One R] [Zero R] (dim : Nat) :
    Option (FunctionTrain O L) :=
  function_train_sum_cores dim LC.generic_function_approximate1d
    (LC.generic_function_constant 1) (LC.generic_function_constant 0)
    [LC.generic_function_approximate1d 0, LC.generic_function_constant 1 0]

/-- The C routine `function_train_linear2` with slopes `c[onDim*ldc]` and
offsets `a[onDim*lda]`: `funcs[0]` of the first core is written before the test
`dim > 1`, `funcs[1]` inside it. -/
def function_train_linear2 (LC : LeafConstructors O L R) [One R] [Zero R] (dim : Nat)
    (c : Nat → R) (ldc : Nat) (a : Nat → R) (lda : Nat) : Option (FunctionTrain O L) :=
  function_train_sum_cores dim
    (fun onDim => LC.generic_function_linear (c (onDim * ldc)) (a (onDim * lda)) onDim)
    (LC.generic_function_constant 1) (LC.generic_function_constant 0)
    (if dim > 1 then
      [LC.generic_function_linear (c (0 * ldc)) (a (0 * lda)) 0,
        LC.generic_function_constant 1 0]
     else [LC.generic_function_linear (c (0 * ldc)) (a (0 * lda)) 0])

/-- The C routine `function_train_linear` with slopes `coeffs[onDim]` and
offset 0: the first core gets two entries inside `if (dim > 1)` and one entry
in the `else` branch. -/
def function_train_linear (LC : LeafConstructors O L R) [One R] [Zero R] (dim : Nat)
    (coeffs : Nat → R) : Option (FunctionTrain O L) :=
  function_train_sum_cores dim (fun onDim => LC.generic_function_linear (coeffs onDim) 0 onDim)
    (LC.generic_function_constant 1) (LC.generic_function_constant 0)
    (if dim > 1 then
      [LC.generic_function_linear (coeffs 0) 0 0, LC.generic_function_constant 1 0]
     else [LC.generic_function_linear (coeffs 0) 0 0])

/-- The C routine `function_train_quadratic_aligned` with `dim = bds->dim`,
coefficients `coeffs[onDim]` and offsets `m[onDim]`. -/
def function_train_quadratic_aligned (LC : LeafConstructors O L R) [One R] [Zero R]
    (dim : Nat) (coeffs m : Nat → R) : Option (FunctionTrain O L) :=
  function_train_sum_cores dim
    (fun onDim => LC.generic_function_quadratic (coeffs onDim) (m onDim) onDim)
    (LC.generic_function_constant 1) (LC.generic_function_constant 0)
    (if dim > 1 then
      [LC.generic_function_quadratic (coeffs 0) (m 0) 0, LC.generic_function_constant 1 0]
     else [LC.generic_function_quadratic (coeffs 0) (m 0) 0])

/-- The C routine `function_train_constant`: the value `a` goes into the first
1 by 1 core, the constant 1 into every other one. -/
def function_train_constant (LC : LeafConstructors O L R) [One R] (dim : Nat) (a : R) :
    Option (FunctionTrain O L) :=
  (function_train_store (function_train_alloc dim) 0 1
    (qmarray_store_seq (qmarray_alloc 1 1) 0 [LC.generic_function_constant a 0])).bind fun ft =>
  (forLoop (fun onDim ft1 =>
      function_train_store ft1 onDim 1
        (qmarray_store_seq (qmarray_alloc 1 1) 0 [LC.generic_function_constant 1 onDim]))
    1 (dim - 1) ft).bind fun ft2 =>
  function_train_store_rank ft2 dim 1

/-- The C routine `function_train_constant_d` with `dim = fta->dim`: the body
of `function_train_constant` with the class and sub-type read per dimension. -/
def function_train_constant_d (LC : LeafConstructors O L R) [One R] (dim : Nat) (a : R) :
    Option (FunctionTrain O L) :=
  (function_train_store (function_train_alloc dim) 0 1
    (qmarray_store_seq (qmarray_alloc 1 1) 0 [LC.generic_function_constant a 0])).bind fun ft =>
  (forLoop (fun onDim ft1 =>
      function_train_store ft1 onDim 1
        (qmarray_store_seq (qmarray_alloc 1 1) 0 [LC.generic_function_constant 1 onDim]))
    1 (dim - 1) ft).bind fun ft2 =>
  function_train_store_rank ft2 dim 1

end TrainConstructors

section TrainConstructorProofs

variable {O L R : Type}

set_option linter.unusedTactic false
set_option linter.unreachableTactic false

/-- Overwriting a whole block leaves the values written. -/
theorem splice_full {α : Type} (l vs : List α) (h : vs.length = l.length) :
    splice l 0 vs = vs := by
  simp [splice, h]

theorem function_train_store_rank_eq (ft : FunctionTrain O L) (k v : Nat)
    (h : k < ft.ranks.length) :
    function_train_store_rank ft k v = some ⟨ft.dim, splice ft.ranks k [v], ft.cores⟩ := by
  unfold function_train_store_rank
  rw [if_pos h, List.set_eq_take_append_cons_drop, if_pos h]
  simp [splice]

theorem function_train_store_core_eq (ft : FunctionTrain O L) (k : Nat) (q : Qmarray O L)
    (h : k < ft.cores.length) :
    function_train_store_core ft k q = some ⟨ft.dim, ft.ranks, splice ft.cores k [some q]⟩ := by
  unfold function_train_store_core
  rw [if_pos h, List.set_eq_take_append_cons_drop, if_pos h]
  simp [splice]

theorem qmarray_store_eq (q : Qmarray O L) (k : Nat) (g : Option (GenericFunction O L))
    (h : k < q.funcs.length) :
    qmarray_store q k g = some ⟨q.nrows, q.ncols, splice q.funcs k [g]⟩ := by
  unfold qmarray_store
  rw [if_pos h, List.set_eq_take_append_cons_drop, if_pos h]
  simp [splice]

theorem qmarray_store_seq_eq : ∀ (gs : List (Option (GenericFunction O L))) (q : Qmarray O L)
    (k : Nat), k + gs.length ≤ q.funcs.length →
    qmarray_store_seq q k gs = some ⟨q.nrows, q.ncols, splice q.funcs k gs⟩
  | [], q, k, _ => by simp [qmarray_store_seq, splice_nil]
  | g :: gs, q, k, h => by
      have hk : k < q.funcs.length := by simp only [List.length_cons] at h; omega
      rw [qmarray_store_seq, qmarray_store_eq q k g hk, Option.some_bind,
        qmarray_store_seq_eq gs _ (k + 1)]
      · have := splice_splice q.funcs k [g] gs (by simpa using hk)
        simp only [List.length_singleton, List.singleton_append] at this
        simp only [this]
      · simp only [List.length_cons] at h
        rw [splice_length _ _ _ (by simpa using hk)]
        omega

theorem qmarray_alloc_funcs (nrows ncols : Nat) (h : nrows * ncols < SIZE_MOD) :
    (qmarray_alloc (O := O) (L := L) nrows ncols).funcs = List.replicate (nrows * ncols) none := by
  simp [qmarray_alloc, Nat.mod_eq_of_lt h]

/-- A freshly allocated qmarray whose entries are all written in index order
holds exactly the values written. -/
theorem qmarray_store_seq_alloc (nrows ncols : Nat) (gs : List (Option (GenericFunction O L)))
    (h : nrows * ncols < SIZE_MOD) (hlen : gs.length = nrows * ncols) :
    qmarray_store_seq (qmarray_alloc nrows ncols) 0 gs = some ⟨nrows, ncols, gs⟩ := by
  rw [qmarray_store_seq_eq gs _ 0 (by simp [qmarray_alloc_funcs nrows ncols h, hlen])]
  rw [splice_full _ _ (by simp [qmarray_alloc_funcs nrows ncols h, hlen])]
  rfl

theorem function_train_store_eq (ft : FunctionTrain O L) (k rank : Nat) (q : Qmarray O L)
    (h1 : k < ft.ranks.length) (h2 : k < ft.cores.length) :
    function_train_store ft k rank (some q) =
      some ⟨ft.dim, splice ft.ranks k [rank], splice ft.cores k [some q]⟩ := by
  unfold function_train_store
  rw [function_train_store_rank_eq ft k rank h1, Option.some_bind, Option.some_bind,
    function_train_store_core_eq _ k q (by simpa using h2)]

theorem forLoop_store_eq (r : Nat → Nat) (c : Nat → Option (Qmarray O L))
    (q : Nat → Qmarray O L) : ∀ (n lo : Nat) (ft : FunctionTrain O L),
    (∀ d, lo ≤ d → d < lo + n → c d = some (q d)) →
    lo + n ≤ ft.ranks.length → lo + n ≤ ft.cores.length →
    forLoop (fun d ft1 => function_train_store ft1 d (r d) (c d)) lo n ft =
      some ⟨ft.dim, splice ft.ranks lo ((List.range' lo n).map r),
        splice ft.cores lo ((List.range' lo n).map fun d => some (q d))⟩
  | 0, lo, ft, _, _, _ => by simp [forLoop, splice_nil]
  | n + 1, lo, ft, hc, h1, h2 => by
      rw [forLoop, hc lo (Nat.le_refl _) (by omega),
        function_train_store_eq ft lo (r lo) (q lo) (by omega) (by omega), Option.some_bind,
        forLoop_store_eq r c q n (lo + 1) _ (fun d hd1 hd2 => hc d (by omega) (by omega))
          (by rw [splice_length _ _ _ (by simp; omega)]; omega)
          (by rw [splice_length _ _ _ (by simp; omega)]; omega)]
      have e1 := splice_splice ft.ranks lo [r lo] ((List.range' (lo + 1) n).map r)
        (by simp; omega)
      have e2 := splice_splice ft.cores lo [some (q lo)]
        ((List.range' (lo + 1) n).map fun d => some (q d)) (by simp; omega)
      simp only [List.length_singleton, List.singleton_append] at e1 e2
      simp only [e1, e2, List.range'_succ, List.map_cons]

theorem splice_then {α : Type} (nodes : List α) (k j : Nat) (vs ws : List α)
    (hj : j = k + vs.length) (h : k + vs.length ≤ nodes.length) :
    splice (splice nodes k vs) j ws = splice nodes k (vs ++ ws) := by
  subst hj
  exact splice_splice nodes k vs ws h

theorem function_train_alloc_eq (dim : Nat) (h : dim + 1 < SIZE_MOD) :
    function_train_alloc (O := O) (L := L) dim =
      ⟨dim, List.replicate (dim + 1) 0, List.replicate dim none⟩ := by
  simp [function_train_alloc, Nat.mod_eq_of_lt h]

theorem SIZE_MOD_gt (n : Nat) (h : n ≤ 1000) : n < SIZE_MOD := by
  rw [SIZE_MOD_eq]; omega

/-- The sum-type body for `dim ≥ 2`: ranks `1, 2, .., 2, 1`, a 1 by 2 first
core, 2 by 2 interior cores and a 2 by 1 last core. -/
theorem function_train_sum_cores_eq (dim : Nat)
    (term one zero : Nat → Option (GenericFunction O L))
    (t0 o0 : Option (GenericFunction O L)) (h2 : 2 ≤ dim) (hs : dim + 1 < SIZE_MOD) :
    function_train_sum_cores dim term one zero [t0, o0] =
      some ⟨dim, 1 :: ((List.range' 1 (dim - 2)).map (fun _ => 2) ++ [2, 1]),
        some ⟨1, 2, [t0, o0]⟩ ::
          ((List.range' 1 (dim - 2)).map
              (fun d => some ⟨2, 2, [one d, term d, zero d, one d]⟩) ++
            [some ⟨2, 1, [one (dim - 1), term (dim - 1)]⟩])⟩ := by
  have hne : dim ≠ 1 := by omega
  have hgt : dim > 1 := by omega
  have e : dim - 1 - 1 = dim - 2 := by omega
  have e1 : dim - 1 + 1 = dim := by omega
  unfold function_train_sum_cores
  rw [if_neg hne, qmarray_store_seq_alloc 1 2 [t0, o0] (SIZE_MOD_gt _ (by omega)) rfl,
    function_train_alloc_eq dim hs,
    function_train_store_eq _ 0 1 _ (by first | (simp; omega) | simp) (by first | (simp; omega) | simp), Option.some_bind, if_pos hgt,
    forLoop_store_eq (fun _ => 2) _ (fun d => ⟨2, 2, [one d, term d, zero d, one d]⟩)
      (dim - 1 - 1) 1 _
      (fun d _ _ => qmarray_store_seq_alloc 2 2 [one d, term d, zero d, one d]
        (SIZE_MOD_gt _ (by omega)) rfl)
      (by rw [splice_length _ _ _ (by first | (simp; omega) | simp)]; simp; omega)
      (by rw [splice_length _ _ _ (by first | (simp; omega) | simp)]; simp; omega),
    Option.some_bind, e, e1]
  have hr1 := splice_then (List.replicate (dim + 1) 0) 0 1 [1]
    ((List.range' 1 (dim - 2)).map fun _ => 2) rfl (by first | (simp; omega) | simp)
  have hc1 := splice_then (List.replicate dim (none : Option (Qmarray O L))) 0 1
    [some ⟨1, 2, [t0, o0]⟩]
    ((List.range' 1 (dim - 2)).map
      fun d => some ⟨2, 2, [one d, term d, zero d, one d]⟩) rfl (by first | (simp; omega) | simp)
  simp only [hr1, hc1]
  have hlr : (splice (List.replicate (dim + 1) 0) 0
      ([1] ++ (List.range' 1 (dim - 2)).map fun _ => 2)).length = dim + 1 := by
    rw [splice_length _ _ _ (by first | (simp; omega) | simp)]
    simp
  have hlc : (splice (List.replicate dim (none : Option (Qmarray O L))) 0
      ([some ⟨1, 2, [t0, o0]⟩] ++ (List.range' 1 (dim - 2)).map
        fun d => some ⟨2, 2, [one d, term d, zero d, one d]⟩)).length = dim := by
    rw [splice_length _ _ _ (by first | (simp; omega) | simp)]
    simp
  rw [function_train_store_rank_eq _ (dim - 1) 2 (by simp only [hlr]; omega),
    Option.some_bind]
  simp only
  rw [splice_then _ 0 (dim - 1) _ [2] (by first | (simp; omega) | simp) (by first | (simp; omega) | simp)]
  have hlr2 : (splice (List.replicate (dim + 1) 0) 0
      ([1] ++ (List.range' 1 (dim - 2)).map (fun _ => 2) ++ [2])).length = dim + 1 := by
    rw [splice_length _ _ _ (by first | (simp; omega) | simp)]
    simp
  rw [function_train_store_rank_eq _ dim 1 (by simp only [hlr2]; omega),
    Option.some_bind, qmarray_store_seq_alloc 2 1 [one (dim - 1), term (dim - 1)]
      (SIZE_MOD_gt _ (by omega)) rfl,
    Option.some_bind,
    function_train_store_core_eq _ (dim - 1) _ (by simp only [hlc]; omega)]
  simp only
  rw [splice_then _ 0 dim _ [1] (by first | (simp; omega) | simp) (by first | (simp; omega) | simp),
    splice_then _ 0 (dim - 1) _ [_] (by first | (simp; omega) | simp) (by first | (simp; omega) | simp),
    splice_full _ _ (by first | (simp; omega) | simp), splice_full _ _ (by first | (simp; omega) | simp)]
  simp

end TrainConstructorProofs

section QuadraticTrain

variable {O L R : Type}

/-- The entry that `function_train_quadratic` stores at column `kk`, row `ll`
of the interior core of dimension `onDim`: the chain of tests of the C loop
body, in its order. -/
def function_train_quadratic_entry (LC : LeafConstructors O L R) [Ring R] (dim : Nat)
    (coeffs m : Nat → R) (onDim kk ll : Nat) : Option (GenericFunction O L) :=
  if ll = 0 ∧ kk = 0 then LC.generic_function_constant 1 onDim
  else if kk = 0 ∧ ll = 1 then LC.generic_function_linear 1 (-(m onDim)) onDim
  else if ll = kk + 1 then LC.generic_function_constant 1 onDim
  else if ll = dim - onDim + 1 ∧ kk = 0 then
    LC.generic_function_quadratic (coeffs (onDim * dim + onDim)) (m onDim) onDim
  else if ll = dim - onDim + 1 then
    LC.generic_function_linear
      (coeffs (onDim * dim + onDim + kk) + coeffs ((onDim + kk) * dim + onDim))
      (-(coeffs (onDim * dim + onDim + kk) + coeffs ((onDim + kk) * dim + onDim)) * m onDim)
      onDim
  else LC.generic_function_constant 0 onDim

/-- The C routine `function_train_quadratic` with the row-major coefficient
array `coeffs` and the offsets `m`.  A failed `assert(dim > 1)` returns
nothing.  The sizes `dim + 1` and `dim - onDim + 2` are taken not to wrap. -/
def function_train_quadratic (LC : LeafConstructors O L R) [Ring R] (dim : Nat)
    (coeffs m : Nat → R) : Option (FunctionTrain O L) :=
  if dim > 1 then
    (function_train_store (function_train_alloc dim) 0 1
      ((qmarray_store (qmarray_alloc 1 (dim + 1)) 0
          (LC.generic_function_quadratic (coeffs (0 * dim + 0)) (m 0) 0)).bind fun q0 =>
        (forLoop (fun kk q =>
            qmarray_store q kk
              (LC.generic_function_linear (coeffs (0 * dim + kk) + coeffs (kk * dim + 0))
                (-(coeffs (0 * dim + kk) + coeffs (kk * dim + 0)) * m 0) 0))
          1 (dim - 1) q0).bind fun q1 =>
        qmarray_store q1 dim (LC.generic_function_constant 1 0))).bind fun ft =>
    (forLoop (fun onDim ft1 =>
        function_train_store ft1 onDim (dim - onDim + 2)
          (forLoop (fun kk q =>
              forLoop (fun ll q1 =>
                  qmarray_store q1 (kk * q1.nrows + ll)
                    (function_train_quadratic_entry LC dim coeffs m onDim kk ll))
                0 (dim - onDim + 2) q)
            0 (dim - onDim + 1) (qmarray_alloc (dim - onDim + 2) (dim - onDim + 1))))
      1 (dim - 1 - 1) ft).bind fun ft2 =>
    (function_train_store ft2 (dim - 1) (dim - (dim - 1) + 2)
      (qmarray_store_seq (qmarray_alloc (dim - (dim - 1) + 2) 1) 0
        [LC.generic_function_constant 1 (dim - 1),
          LC.generic_function_linear 1 (-(m (dim - 1))) (dim - 1),
          LC.generic_function_quadratic (coeffs ((dim - 1) * dim + (dim - 1))) (m (dim - 1))
            (dim - 1)])).bind fun ft3 =>
    function_train_store_rank ft3 dim 1
  else none

/-- Modelled from the spec: the product of the row vector `v` with column `c`
of a core evaluated at `x`, the column being a list of entries; `ev` is the
evaluation of one generic function.  A NULL entry or a length mismatch has no
value. -/
def rowTimesColumn [Add R] [Mul R] [Zero R] (ev : GenericFunction O L → R → R) (x : R) :
    List R → List (Option (GenericFunction O L)) → Option R
  | [], [] => some 0
  | a :: v, some g :: col => (rowTimesColumn ev x v col).map fun s => a * ev g x + s
  | _, _ => none

/-- Column `c` of a column-major qmarray: the entries `c*nrows .. c*nrows +
nrows - 1`. -/
def Qmarray.column (q : Qmarray O L) (c : Nat) : List (Option (GenericFunction O L)) :=
  (q.funcs.drop (c * q.nrows)).take q.nrows

/-- Modelled from the spec: the products of the row vector `v` with the
columns `c, c+1, .., c+n-1` of the core `q` evaluated at `x`. -/
def rowTimesColumns [Add R] [Mul R] [Zero R] (ev : GenericFunction O L → R → R) (x : R)
    (v : List R) (q : Qmarray O L) : Nat → Nat → Option (List R)
  | _, 0 => some []
  | c, n + 1 =>
      (rowTimesColumn ev x v (q.column c)).bind fun y =>
        (rowTimesColumns ev x v q (c + 1) n).map fun ys => y :: ys

/-- Modelled from the spec: the row vector `v` times the core `q` evaluated at
`x`, defined when `v` has `nrows` components. -/
def rowTimesCore [Add R] [Mul R] [Zero R] (ev : GenericFunction O L → R → R) (x : R)
    (v : List R) (q : Qmarray O L) : Option (List R) :=
  if v.length = q.nrows then rowTimesColumns ev x v q 0 q.ncols else none

/-- Modelled from the spec: the chained product `v * core_k(x_k) * core_{k+1}
(x_{k+1}) * ..` over a list of cores, `x k` being coordinate `k` of the
point. -/
def chainedProduct [Add R] [Mul R] [Zero R] (ev : GenericFunction O L → R → R)
    (x : Nat → R) : Nat → List (Option (Qmarray O L)) → List R → Option (List R)
  | _, [], v => some v
  | k, some q :: cores, v =>
      (rowTimesCore ev (x k) v q).bind fun w => chainedProduct ev x (k + 1) cores w
  | _, none :: _, _ => none

/-- Modelled from the spec: the value of a train at the point `x`, the chained
product `core_0(x_0) * core_1(x_1) * .. * core_{dim-1}(x_{dim-1})` started from
the 1-vector `[1]`, defined when the product is a 1 by 1 matrix. -/
def function_train_eval [Add R] [Mul R] [Zero R] [One R]
    (ev : GenericFunction O L → R → R) (ft : FunctionTrain O L) (x : Nat → R) : Option R :=
  match chainedProduct ev x 0 ft.cores [1] with
  | some [y] => some y
  | _ => none

/-- The leaf constructors are exact for the evaluation `ev`: each returns a
function, the constant `a`, the linear function `a*x + offset`, the quadratic
`a*(x - offset)^2`, and the fit of target `onDim` evaluates as `f onDim`. -/
def LeafConstructors.exact [Ring R] (LC : LeafConstructors O L R)
    (ev : GenericFunction O L → R → R) (f : Nat → R → R) : Prop :=
  (∀ a onDim x, (LC.generic_function_constant a onDim).map (fun g => ev g x) = some a) ∧
  (∀ a offset onDim x,
    (LC.generic_function_linear a offset onDim).map (fun g => ev g x) = some (a * x + offset)) ∧
  (∀ a offset onDim x,
    (LC.generic_function_quadratic a offset onDim).map (fun g => ev g x)
      = some (a * (x - offset) ^ 2)) ∧
  (∀ onDim x,
    (LC.generic_function_approximate1d onDim).map (fun g => ev g x) = some (f onDim x))

/-- The ranks and cores chain: there are `dim + 1` ranks and `dim` cores, and
core `k` is allocated with `ranks[k]` rows and `ranks[k+1]` columns. -/
def FunctionTrain.shapesAgree (ft : FunctionTrain O L) : Prop :=
  ft.ranks.length = ft.dim + 1 ∧ ft.cores.length = ft.dim ∧
  ∀ k, k < ft.dim → ∃ q, ft.cores[k]? = some (some q) ∧
    ft.ranks[k]? = some q.nrows ∧ ft.ranks[k + 1]? = some q.ncols

end QuadraticTrain

section TrainShapeProofs

variable {O L R : Type}

set_option linter.unusedTactic false
set_option linter.unreachableTactic false

theorem map_range_split {α : Type} (g : Nat → α) (n : Nat) :
    (List.range (n + 2)).map g = g 0 :: ((List.range' 1 n).map g ++ [g (n + 1)]) := by
  rw [List.range_eq_range', show n + 2 = (n + 1) + 1 by omega, List.range'_concat,
    List.range'_succ]
  simp [Nat.add_comm]

theorem map_range'_congr {α : Type} (f g : Nat → α) (s n : Nat)
    (h : ∀ k, s ≤ k → k < s + n → f k = g k) :
    (List.range' s n).map f = (List.range' s n).map g := by
  apply List.map_congr_left
  intro k hk
  rw [List.mem_range'_1] at hk
  exact h k hk.1 hk.2

/-- A train whose ranks and cores are given index by index has agreeing
shapes when every core has the shape its two ranks name. -/
theorem shapesAgree_of_range (dim : Nat) (r : Nat → Nat) (c : Nat → Qmarray O L)
    (h : ∀ k, k < dim → (c k).nrows = r k ∧ (c k).ncols = r (k + 1)) :
    FunctionTrain.shapesAgree
      ⟨dim, (List.range (dim + 1)).map r, (List.range dim).map fun k => some (c k)⟩ := by
  refine ⟨by simp, by simp, ?_⟩
  intro k hk
  have hk : k < dim := hk
  refine ⟨c k, ?_, ?_, ?_⟩
  · simp [List.getElem?_map, List.getElem?_range hk]
  · simp [List.getElem?_map, List.getElem?_range (show k < dim + 1 by omega), (h k hk).1]
  · simp [List.getElem?_map, List.getElem?_range (show k + 1 < dim + 1 by omega), (h k hk).2]

/-- Shapes of a train given as first core, interior cores, last core. -/
theorem shapesAgree_of_parts (n : Nat) (r : Nat → Nat) (first last : Qmarray O L)
    (mid : Nat → Qmarray O L) (rlast : Nat)
    (hf : first.nrows = r 0 ∧ first.ncols = r 1)
    (hm : ∀ k, 1 ≤ k → k ≤ n → (mid k).nrows = r k ∧ (mid k).ncols = r (k + 1))
    (hl : last.nrows = r (n + 1) ∧ last.ncols = rlast) :
    FunctionTrain.shapesAgree
      ⟨n + 2, r 0 :: ((List.range' 1 n).map r ++ [r (n + 1), rlast]),
        some first :: ((List.range' 1 n).map (fun k => some (mid k)) ++ [some last])⟩ := by
  have key := shapesAgree_of_range (n + 2)
    (fun k => if k = n + 2 then rlast else r k)
    (fun k => if k = 0 then first else if k = n + 1 then last else mid k)
    (by
      intro k hk
      have h2 : k ≠ n + 2 := by omega
      by_cases h0 : k = 0
      · subst h0
        have h3 : 0 + 1 ≠ n + 2 := by omega
        simp only [if_true, if_neg h2, if_neg h3]
        exact hf
      · by_cases h1 : k = n + 1
        · subst h1
          simp only [if_true, if_neg h0, if_neg h2]
          exact hl
        · have h3 : k + 1 ≠ n + 2 := by omega
          simp only [if_neg h0, if_neg h1, if_neg h2, if_neg h3]
          exact hm k (by omega) (by omega))
  have e1 : (List.range (n + 2 + 1)).map (fun k => if k = n + 2 then rlast else r k)
      = r 0 :: ((List.range' 1 n).map r ++ [r (n + 1), rlast]) := by
    have a1 : 1 + 1 * n = n + 1 := by omega
    rw [map_range_split, List.range'_concat, List.map_append, a1]
    have := map_range'_congr (fun k => if k = n + 2 then rlast else r k) r 1 n
      (fun k _ hk => by simp only; rw [if_neg (by omega)])
    rw [this]
    simp [show ¬ (0 = n + 2) by omega]
  have e2 : (List.range (n + 2)).map
      (fun k => some (if k = 0 then first else if k = n + 1 then last else mid k))
      = some first :: ((List.range' 1 n).map (fun k => some (mid k)) ++ [some last]) := by
    rw [map_range_split]
    have := map_range'_congr
      (fun k => some (if k = 0 then first else if k = n + 1 then last else mid k))
      (fun k => some (mid k)) 1 n
      (fun k hk1 hk => by simp only; rw [if_neg (by omega), if_neg (by omega)])
    rw [this]
    simp
  rw [e1, e2] at key
  exact key

end TrainShapeProofs

section QuadraticProofs

variable {O L R : Type}

set_option linter.unusedTactic false
set_option linter.unreachableTactic false

theorem forLoop_qmarray_store (g : Nat → Option (GenericFunction O L)) :
    ∀ (n lo : Nat) (q : Qmarray O L), lo + n ≤ q.funcs.length →
    forLoop (fun kk q1 => qmarray_store q1 kk (g kk)) lo n q =
      some ⟨q.nrows, q.ncols, splice q.funcs lo ((List.range' lo n).map g)⟩
  | 0, lo, q, _ => by simp [forLoop, splice_nil]
  | n + 1, lo, q, h => by
      rw [forLoop, qmarray_store_eq q lo (g lo) (by omega), Option.some_bind,
        forLoop_qmarray_store g n (lo + 1) _
          (by simp only; rw [splice_length _ _ _ (by simp; omega)]; omega)]
      simp only [List.range'_succ, List.map_cons]
      rw [splice_then _ lo (lo + 1) [g lo] _ rfl (by simp; omega)]
      rfl

theorem forLoop_column (g : Nat → Option (GenericFunction O L)) (kk : Nat) :
    ∀ (n lo : Nat) (q : Qmarray O L), kk * q.nrows + lo + n ≤ q.funcs.length →
    forLoop (fun ll q1 => qmarray_store q1 (kk * q1.nrows + ll) (g ll)) lo n q =
      some ⟨q.nrows, q.ncols, splice q.funcs (kk * q.nrows + lo) ((List.range' lo n).map g)⟩
  | 0, lo, q, _ => by simp [forLoop, splice_nil]
  | n + 1, lo, q, h => by
      rw [forLoop, qmarray_store_eq q _ (g lo) (by omega), Option.some_bind,
        forLoop_column g kk n (lo + 1) _
          (by simp only; rw [splice_length _ _ _ (by simp; omega)]; omega)]
      simp only [List.range'_succ, List.map_cons]
      rw [splice_then _ (kk * q.nrows + lo) (kk * q.nrows + (lo + 1)) [g lo] _ rfl
        (by simp; omega)]
      rfl

/-- The entries of the columns `lo, .., lo+n-1`, column by column. -/
def columnEntries (g : Nat → Nat → Option (GenericFunction O L)) (nrows lo n : Nat) :
    List (Option (GenericFunction O L)) :=
  (List.range' lo n).flatMap fun kk => (List.range' 0 nrows).map (g kk)

theorem columnEntries_length (g : Nat → Nat → Option (GenericFunction O L)) (nrows : Nat) :
    ∀ (n lo : Nat), (columnEntries g nrows lo n).length = n * nrows
  | 0, lo => by simp [columnEntries]
  | n + 1, lo => by
      have ih := columnEntries_length g nrows n (lo + 1)
      simp only [columnEntries, List.range'_succ, List.flatMap_cons, List.length_append,
        List.length_map, List.length_range'] at ih ⊢
      rw [ih, Nat.add_mul]
      omega

theorem forLoop_columns (g : Nat → Nat → Option (GenericFunction O L)) (N : Nat) :
    ∀ (n lo : Nat) (q : Qmarray O L), q.nrows = N → (lo + n) * N ≤ q.funcs.length →
    forLoop (fun kk q1 =>
        forLoop (fun ll q2 => qmarray_store q2 (kk * q2.nrows + ll) (g kk ll)) 0 N q1) lo n q =
      some ⟨q.nrows, q.ncols, splice q.funcs (lo * N) (columnEntries g N lo n)⟩
  | 0, lo, q, _, _ => by simp [forLoop, splice_nil, columnEntries]
  | n + 1, lo, q, hN, h => by
      have h1 : lo * N + N + n * N ≤ q.funcs.length := by
        have : (lo + (n + 1)) * N = lo * N + N + n * N := by ring
        omega
      rw [forLoop, forLoop_column (g lo) lo N 0 q (by rw [hN]; omega), Option.some_bind]
      have ih := forLoop_columns g N n (lo + 1)
        ⟨q.nrows, q.ncols, splice q.funcs (lo * q.nrows + 0) ((List.range' 0 N).map (g lo))⟩ hN
        (by
          simp only
          rw [splice_length _ _ _ (by simp; rw [hN]; omega)]
          have : (lo + 1 + n) * N = lo * N + N + n * N := by ring
          omega)
      rw [ih]
      simp only [hN, Nat.add_zero]
      rw [splice_then _ (lo * N) ((lo + 1) * N) _ _ (by simp; ring) (by simp; omega)]
      simp [columnEntries, List.range'_succ]

/-- The first core `function_train_quadratic` builds: the quadratic in `x_0`,
the `dim - 1` linear cross terms, the constant 1. -/
def quadraticFirstCore (LC : LeafConstructors O L R) [Ring R] (dim : Nat)
    (coeffs m : Nat → R) : Qmarray O L :=
  ⟨1, dim + 1,
    LC.generic_function_quadratic (coeffs (0 * dim + 0)) (m 0) 0 ::
      ((List.range' 1 (dim - 1)).map (fun kk =>
          LC.generic_function_linear (coeffs (0 * dim + kk) + coeffs (kk * dim + 0))
            (-(coeffs (0 * dim + kk) + coeffs (kk * dim + 0)) * m 0) 0) ++
        [LC.generic_function_constant 1 0])⟩

/-- The interior core of dimension `onDim` that `function_train_quadratic`
builds. -/
def quadraticCore (LC : LeafConstructors O L R) [Ring R] (dim : Nat)
    (coeffs m : Nat → R) (onDim : Nat) : Qmarray O L :=
  ⟨dim - onDim + 2, dim - onDim + 1,
    columnEntries (function_train_quadratic_entry LC dim coeffs m onDim) (dim - onDim + 2) 0
      (dim - onDim + 1)⟩

/-- The last core `function_train_quadratic` builds. -/
def quadraticLastCore (LC : LeafConstructors O L R) [Ring R] (dim : Nat)
    (coeffs m : Nat → R) : Qmarray O L :=
  ⟨dim - (dim - 1) + 2, 1,
    [LC.generic_function_constant 1 (dim - 1),
      LC.generic_function_linear 1 (-(m (dim - 1))) (dim - 1),
      LC.generic_function_quadratic (coeffs ((dim - 1) * dim + (dim - 1))) (m (dim - 1))
        (dim - 1)]⟩

theorem quadraticFirstCore_eq (LC : LeafConstructors O L R) [Ring R] (dim : Nat)
    (coeffs m : Nat → R) (h2 : 2 ≤ dim) (hs : dim + 1 < SIZE_MOD) :
    ((qmarray_store (qmarray_alloc 1 (dim + 1)) 0
          (LC.generic_function_quadratic (coeffs (0 * dim + 0)) (m 0) 0)).bind fun q0 =>
        (forLoop (fun kk q =>
            qmarray_store q kk
              (LC.generic_function_linear (coeffs (0 * dim + kk) + coeffs (kk * dim + 0))
                (-(coeffs (0 * dim + kk) + coeffs (kk * dim + 0)) * m 0) 0))
          1 (dim - 1) q0).bind fun q1 =>
        qmarray_store q1 dim (LC.generic_function_constant 1 0))
      = some (quadraticFirstCore LC dim coeffs m) := by
  have hf : (qmarray_alloc (O := O) (L := L) 1 (dim + 1)).funcs
      = List.replicate (dim + 1) none := by
    rw [qmarray_alloc_funcs 1 (dim + 1) (by omega)]; simp
  rw [qmarray_store_eq _ 0 _ (by rw [hf]; simp), Option.some_bind,
    forLoop_qmarray_store _ (dim - 1) 1 _
      (by simp only; rw [splice_length _ _ _ (by rw [hf]; simp), hf]; simp; omega),
    Option.some_bind]
  simp only
  rw [splice_then _ 0 1 [_] _ rfl (by rw [hf]; simp),
    qmarray_store_eq _ dim _
      (by simp only; rw [splice_length _ _ _ (by rw [hf]; first | (simp; omega) | simp), hf]; first | (simp; omega) | simp)]
  simp only
  rw [splice_then _ 0 dim _ _ (by simp; omega) (by rw [hf]; first | (simp; omega) | simp),
    splice_full _ _ (by rw [hf]; first | (simp; omega) | simp)]
  simp [quadraticFirstCore, qmarray_alloc]

theorem quadraticCore_eq (LC : LeafConstructors O L R) [Ring R] (dim : Nat)
    (coeffs m : Nat → R) (onDim : Nat)
    (hs : (dim - onDim + 2) * (dim - onDim + 1) < SIZE_MOD) :
    forLoop (fun kk q =>
        forLoop (fun ll q1 =>
            qmarray_store q1 (kk * q1.nrows + ll)
              (function_train_quadratic_entry LC dim coeffs m onDim kk ll))
          0 (dim - onDim + 2) q)
      0 (dim - onDim + 1) (qmarray_alloc (dim - onDim + 2) (dim - onDim + 1))
      = some (quadraticCore LC dim coeffs m onDim) := by
  have hf := qmarray_alloc_funcs (O := O) (L := L) (dim - onDim + 2) (dim - onDim + 1) hs
  rw [forLoop_columns (function_train_quadratic_entry LC dim coeffs m onDim) (dim - onDim + 2)
    (dim - onDim + 1) 0 _ rfl (by rw [hf]; simp; rw [Nat.mul_comm])]
  rw [Nat.zero_mul, splice_full _ _ (by rw [hf, columnEntries_length]; simp; rw [Nat.mul_comm])]
  rfl

end QuadraticProofs

section ClosedForms

variable {O L R : Type}

set_option linter.unusedTactic false
set_option linter.unreachableTactic false

theorem function_train_quadratic_eq (LC : LeafConstructors O L R) [Ring R] (dim : Nat)
    (coeffs m : Nat → R) (h2 : 2 ≤ dim) (hs : (dim + 1) * (dim + 1) < SIZE_MOD) :
    function_train_quadratic LC dim coeffs m =
      some ⟨dim,
        1 :: ((List.range' 1 (dim - 2)).map (fun d => dim - d + 2) ++ [dim - (dim - 1) + 2, 1]),
        some (quadraticFirstCore LC dim coeffs m) ::
          ((List.range' 1 (dim - 2)).map (fun d => some (quadraticCore LC dim coeffs m d)) ++
            [some (quadraticLastCore LC dim coeffs m)])⟩ := by
  have hgt : dim > 1 := by omega
  have e : dim - 1 - 1 = dim - 2 := by omega
  have hd : dim + 1 < SIZE_MOD := by nlinarith
  unfold function_train_quadratic
  rw [if_pos hgt, quadraticFirstCore_eq LC dim coeffs m h2 hd, function_train_alloc_eq dim hd,
    function_train_store_eq _ 0 1 _ (by simp) (by first | (simp; omega) | simp), Option.some_bind,
    forLoop_store_eq (fun d => dim - d + 2) _ (fun d => quadraticCore LC dim coeffs m d)
      (dim - 1 - 1) 1 _
      (fun d hd1 _ => quadraticCore_eq LC dim coeffs m d
        (lt_of_le_of_lt (Nat.mul_le_mul (by omega) (by omega)) hs))
      (by rw [splice_length _ _ _ (by simp)] <;> first | (simp; omega) | simp)
      (by rw [splice_length _ _ _ (by first | (simp; omega) | simp)] <;> first | (simp; omega) | simp),
    Option.some_bind, e]
  simp only
  rw [splice_then _ 0 1 [1] _ rfl (by simp),
    splice_then _ 0 1 [_] _ rfl (by first | (simp; omega) | simp)]
  have hq : qmarray_store_seq (qmarray_alloc (dim - (dim - 1) + 2) 1) 0
      [LC.generic_function_constant 1 (dim - 1),
        LC.generic_function_linear 1 (-(m (dim - 1))) (dim - 1),
        LC.generic_function_quadratic (coeffs ((dim - 1) * dim + (dim - 1))) (m (dim - 1))
          (dim - 1)] = some (quadraticLastCore LC dim coeffs m) := by
    have e3 : dim - (dim - 1) + 2 = 3 := by omega
    rw [qmarray_store_seq_alloc _ 1 _ (by rw [e3]; exact SIZE_MOD_gt _ (by omega))
      (by rw [e3]; rfl)]
    rfl
  rw [hq, function_train_store_eq _ (dim - 1) _ _
      (by simp only; rw [splice_length _ _ _ (by first | (simp; omega) | simp)] <;> first | (simp; omega) | simp)
      (by simp only; rw [splice_length _ _ _ (by first | (simp; omega) | simp)] <;> first | (simp; omega) | simp),
    Option.some_bind]
  simp only
  rw [splice_then _ 0 (dim - 1) _ [_] (by first | (simp; omega) | simp) (by first | (simp; omega) | simp),
    splice_then _ 0 (dim - 1) _ [_] (by first | (simp; omega) | simp) (by first | (simp; omega) | simp),
    function_train_store_rank_eq _ dim 1
      (by simp only; rw [splice_length _ _ _ (by first | (simp; omega) | simp)]; simp)]
  simp only
  rw [splice_then _ 0 dim _ [1] (by first | (simp; omega) | simp) (by first | (simp; omega) | simp),
    splice_full _ _ (by first | (simp; omega) | simp), splice_full _ _ (by first | (simp; omega) | simp)]
  simp

/-- The train of `function_train_constant` for `dim ≥ 1`. -/
theorem function_train_constant_eq (LC : LeafConstructors O L R) [One R] (dim : Nat) (a : R)
    (h1 : 1 ≤ dim) (hs : dim + 1 < SIZE_MOD) :
    function_train_constant LC dim a =
      some ⟨dim, 1 :: ((List.range' 1 (dim - 1)).map (fun _ => 1) ++ [1]),
        some ⟨1, 1, [LC.generic_function_constant a 0]⟩ ::
          (List.range' 1 (dim - 1)).map
            (fun d => some ⟨1, 1, [LC.generic_function_constant 1 d]⟩)⟩ := by
  unfold function_train_constant
  rw [qmarray_store_seq_alloc 1 1 [LC.generic_function_constant a 0]
      (SIZE_MOD_gt _ (by omega)) rfl,
    function_train_alloc_eq dim hs,
    function_train_store_eq _ 0 1 _ (by simp) (by first | (simp; omega) | simp), Option.some_bind,
    forLoop_store_eq (fun _ => 1) _ (fun d => ⟨1, 1, [LC.generic_function_constant 1 d]⟩)
      (dim - 1) 1 _
      (fun d _ _ => qmarray_store_seq_alloc 1 1 [LC.generic_function_constant 1 d]
        (SIZE_MOD_gt _ (by omega)) rfl)
      (by rw [splice_length _ _ _ (by simp)] <;> first | (simp; omega) | simp)
      (by rw [splice_length _ _ _ (by first | (simp; omega) | simp)] <;> first | (simp; omega) | simp),
    Option.some_bind]
  simp only
  rw [splice_then _ 0 1 [1] _ rfl (by simp),
    splice_then _ 0 1 [_] _ rfl (by first | (simp; omega) | simp),
    function_train_store_rank_eq _ dim 1
      (by simp only; rw [splice_length _ _ _ (by first | (simp; omega) | simp)]; simp)]
  simp only
  rw [splice_then _ 0 dim _ [1] (by first | (simp; omega) | simp) (by first | (simp; omega) | simp),
    splice_full _ _ (by first | (simp; omega) | simp), splice_full _ _ (by first | (simp; omega) | simp)]
  simp

/-- The train of `function_train_rankone`. -/
theorem function_train_rankone_eq (LC : LeafConstructors O L R) (dim : Nat)
    (hs : dim + 1 < SIZE_MOD) :
    function_train_rankone LC dim =
      some ⟨dim, (List.range' 0 dim).map (fun _ => 1) ++ [1],
        (List.range' 0 dim).map
          (fun d => some ⟨1, 1, [LC.generic_function_approximate1d d]⟩)⟩ := by
  unfold function_train_rankone
  rw [function_train_alloc_eq dim hs,
    forLoop_store_eq (fun _ => 1) _
      (fun d => ⟨1, 1, [LC.generic_function_approximate1d d]⟩) dim 0 _
      (fun d _ _ => qmarray_store_seq_alloc 1 1 [LC.generic_function_approximate1d d]
        (SIZE_MOD_gt _ (by omega)) rfl)
      (by simp) (by simp),
    Option.some_bind,
    function_train_store_rank_eq _ dim 1
      (by simp only; rw [splice_length _ _ _ (by simp)]; simp)]
  simp only
  rw [splice_then _ 0 dim _ [1] (by simp) (by simp),
    splice_full _ _ (by simp), splice_full _ _ (by simp)]

end ClosedForms

/-- A polynomial backend in the monomial basis over a commutative ring, used to
run the constructors on concrete data: a function is its coefficient list
`[c0, c1, ..]`, and the fit of target `onDim` is the linear function
`(onDim + 1) * x`. -/
def polyLeaves (R : Type) [CommRing R] : LeafConstructors (List R) Unit R where
  generic_function_constant := fun a _ => some ⟨1, .POLYNOMIAL, 0, .ope [a]⟩
  generic_function_linear := fun a offset _ => some ⟨1, .POLYNOMIAL, 0, .ope [offset, a]⟩
  generic_function_quadratic := fun a offset _ =>
    some ⟨1, .POLYNOMIAL, 0, .ope [a * offset ^ 2, -(2 * a * offset), a]⟩
  generic_function_approximate1d := fun onDim => some ⟨1, .POLYNOMIAL, 0, .ope [0, onDim + 1]⟩

/-- Evaluation of a coefficient list by Horner's rule. -/
def polyEval {R : Type} [CommRing R] (g : GenericFunction (List R) Unit) (x : R) : R :=
  match g.f with
  | .ope cs => cs.foldr (fun c acc => c + x * acc) 0
  | _ => 0

section TrainShapeClaims

variable {O L R : Type}

theorem polyLeaves_exact (K : Type) [CommRing K] :
    (polyLeaves K).exact polyEval (fun onDim x => (onDim + 1) * x) := by
  refine ⟨?_, ?_, ?_, ?_⟩
  · intro a onDim x
    simp [polyLeaves, polyEval]
  · intro a offset onDim x
    simp [polyLeaves, polyEval]
    ring
  · intro a offset onDim x
    simp [polyLeaves, polyEval]
    ring
  · intro onDim x
    simp [polyLeaves, polyEval]
    ring

/-- C11: at `dim = 1` the sum-type constructors do not set `ranks[dim]`.
`function_train_linear`, `function_train_linear2` and
`function_train_quadratic_aligned` return a train whose ranks are `[1, 0]`
(the assignment `ranks[onDim+1] = 1` is inside `if (dim > 1)`), and
`function_train_initsum` and `function_train_initsum2` store `funcs[1]` into
the 1 by 1 core they have just allocated, outside its block; whereas
`function_train_constant`, `function_train_constant_d` and
`function_train_rankone` return ranks `[1, 1]`. -/
theorem function_train_dim_one_last_rank (LC : LeafConstructors O L R) [Ring R]
    (coeffs m c a : Nat → R) (ldc lda : Nat) (v : R) :
    (function_train_linear LC 1 coeffs).map (fun ft => ft.ranks) = some [1, 0] ∧
    (function_train_linear2 LC 1 c ldc a lda).map (fun ft => ft.ranks) = some [1, 0] ∧
    (function_train_quadratic_aligned LC 1 coeffs m).map (fun ft => ft.ranks) = some [1, 0] ∧
    function_train_initsum LC 1 = none ∧
    function_train_initsum2 LC 1 = none ∧
    (function_train_constant LC 1 v).map (fun ft => ft.ranks) = some [1, 1] ∧
    (function_train_constant_d LC 1 v).map (fun ft => ft.ranks) = some [1, 1] ∧
    (function_train_rankone LC 1).map (fun ft => ft.ranks) = some [1, 1] := by
  refine ⟨rfl, rfl, rfl, rfl, rfl, rfl, rfl, rfl⟩

end TrainShapeClaims


section TrainShapeClaims2

variable {O L R : Type}

set_option linter.unusedTactic false
set_option linter.unreachableTactic false

theorem function_train_initsum2_eq (LC : LeafConstructors O L R) [One R] [Zero R] (dim : Nat) :
    function_train_initsum2 LC dim = function_train_initsum LC dim := rfl

theorem function_train_constant_d_eq (LC : LeafConstructors O L R) [One R] (dim : Nat) (a : R) :
    function_train_constant_d LC dim a = function_train_constant LC dim a := rfl

/-- Shapes and ranks of the sum-type body for `dim ≥ 2`. -/
theorem function_train_sum_cores_shapes (dim : Nat)
    (term one zero : Nat → Option (GenericFunction O L))
    (t0 o0 : Option (GenericFunction O L)) (h2 : 2 ≤ dim) (hs : dim + 1 < SIZE_MOD) :
    ∃ ft, function_train_sum_cores dim term one zero [t0, o0] = some ft ∧
      ft.shapesAgree ∧ ft.ranks = 1 :: (List.replicate (dim - 1) 2 ++ [1]) := by
  refine ⟨_, function_train_sum_cores_eq dim term one zero t0 o0 h2 hs, ?_, ?_⟩
  · obtain ⟨n, rfl⟩ : ∃ n, dim = n + 2 := ⟨dim - 2, by omega⟩
    have key := shapesAgree_of_parts (O := O) (L := L) n (fun k => if k = 0 then 1 else 2)
      ⟨1, 2, [t0, o0]⟩ ⟨2, 1, [one (n + 2 - 1), term (n + 2 - 1)]⟩
      (fun d => ⟨2, 2, [one d, term d, zero d, one d]⟩) 1 ⟨rfl, rfl⟩
      (fun k hk1 _ => ⟨by simp only; rw [if_neg (by omega)], by simp⟩)
      ⟨by simp, rfl⟩
    have e := map_range'_congr (fun k => if k = 0 then 1 else 2) (fun _ => 2) 1 n
      (fun k hk _ => by simp only; rw [if_neg (by omega)])
    rw [e] at key
    simpa using key
  · simp only [List.map_const', List.length_range', List.cons.injEq, true_and]
    obtain ⟨n, rfl⟩ : ∃ n, dim = n + 2 := ⟨dim - 2, by omega⟩
    simp [List.replicate_succ']

/-- Shapes and ranks of the train of `function_train_constant`. -/
theorem function_train_constant_shapes (LC : LeafConstructors O L R) [One R] (dim : Nat) (a : R)
    (h1 : 1 ≤ dim) (hs : dim + 1 < SIZE_MOD) :
    ∃ ft, function_train_constant LC dim a = some ft ∧
      ft.shapesAgree ∧ ft.ranks = List.replicate (dim + 1) 1 := by
  refine ⟨_, function_train_constant_eq LC dim a h1 hs, ?_, ?_⟩
  · obtain ⟨n, rfl⟩ : ∃ n, dim = n + 1 := ⟨dim - 1, by omega⟩
    have key := shapesAgree_of_range (O := O) (L := L) (n + 1) (fun _ => 1)
      (fun k => if k = 0 then ⟨1, 1, [LC.generic_function_constant a 0]⟩
        else ⟨1, 1, [LC.generic_function_constant 1 k]⟩)
      (fun k _ => by by_cases h : k = 0 <;> simp [h])
    have e1 : (List.range (n + 1 + 1)).map (fun _ => 1)
        = 1 :: ((List.range' 1 n).map (fun _ => 1) ++ [1]) := by
      rw [map_range_split]
    have e2 : (List.range (n + 1)).map (fun k => some
        (if k = 0 then (⟨1, 1, [LC.generic_function_constant a 0]⟩ : Qmarray O L)
          else ⟨1, 1, [LC.generic_function_constant 1 k]⟩))
        = some ⟨1, 1, [LC.generic_function_constant a 0]⟩ ::
          (List.range' 1 n).map (fun d => some ⟨1, 1, [LC.generic_function_constant 1 d]⟩) := by
      rw [List.range_eq_range', List.range'_succ, List.map_cons]
      simp only [if_true, Nat.zero_add]
      congr 1
      exact map_range'_congr _ _ 1 n (fun k hk _ => by
        have hk0 : k ≠ 0 := by omega
        simp [hk0])
    rw [e1, e2] at key
    simpa using key
  · obtain ⟨n, rfl⟩ : ∃ n, dim = n + 1 := ⟨dim - 1, by omega⟩
    simp [List.replicate_succ']
    have h3 : List.replicate n 1 ++ [1] = List.replicate (n + 1) 1 :=
      (List.replicate_succ' n 1).symm
    have h4 : List.replicate n 1 ++ [1, 1] = List.replicate (n + 1) 1 ++ [1] := by
      rw [← h3]; simp
    rw [h4, h3, ← List.replicate_succ, ← List.replicate_succ']

/-- Shapes and ranks of the train of `function_train_rankone`. -/
theorem function_train_rankone_shapes (LC : LeafConstructors O L R) (dim : Nat)
    (hs : dim + 1 < SIZE_MOD) :
    ∃ ft, function_train_rankone LC dim = some ft ∧
      ft.shapesAgree ∧ ft.ranks = List.replicate (dim + 1) 1 := by
  refine ⟨_, function_train_rankone_eq LC dim hs, ?_, ?_⟩
  · have key := shapesAgree_of_range (O := O) (L := L) dim (fun _ => 1)
      (fun d => ⟨1, 1, [LC.generic_function_approximate1d d]⟩) (fun k _ => ⟨rfl, rfl⟩)
    have e1 : (List.range (dim + 1)).map (fun _ => 1)
        = (List.range' 0 dim).map (fun _ => 1) ++ [1] := by
      rw [List.range_succ, List.map_append, List.range_eq_range']
      rfl
    rw [e1, List.range_eq_range'] at key
    exact key
  · simp [List.replicate_succ']

end TrainShapeClaims2


section TrainShapeClaims3

variable {O L R : Type}

set_option linter.unusedTactic false
set_option linter.unreachableTactic false

theorem ranks_parts_eq_range (n : Nat) (r : Nat → Nat) (rlast : Nat) :
    r 0 :: ((List.range' 1 n).map r ++ [r (n + 1), rlast]) =
      (List.range (n + 3)).map (fun k => if k = n + 2 then rlast else r k) := by
  have a1 : 1 + 1 * n = n + 1 := by omega
  rw [show n + 3 = (n + 1) + 2 by omega, map_range_split, List.range'_concat, List.map_append,
    a1]
  have := map_range'_congr (fun k => if k = n + 2 then rlast else r k) r 1 n
    (fun k _ hk => by simp only; rw [if_neg (by omega)])
  rw [this]
  simp [show ¬ (0 = n + 2) by omega]

/-- The rank of index `k` in the train `function_train_quadratic` builds. -/
def quadraticRank (dim k : Nat) : Nat :=
  if k = dim then 1 else if k = 0 then 1 else dim - k + 2

theorem function_train_quadratic_ranks (dim : Nat) (h2 : 2 ≤ dim) :
    1 :: ((List.range' 1 (dim - 2)).map (fun d => dim - d + 2) ++ [dim - (dim - 1) + 2, 1])
      = (List.range (dim + 1)).map (quadraticRank dim) := by
  obtain ⟨n, rfl⟩ : ∃ n, dim = n + 2 := ⟨dim - 2, by omega⟩
  have key := ranks_parts_eq_range n (fun k => if k = 0 then 1 else n + 2 - k + 2) 1
  have e := map_range'_congr (fun k => if k = 0 then 1 else n + 2 - k + 2)
    (fun d => n + 2 - d + 2) 1 n (fun k hk _ => by simp only; rw [if_neg (by omega)])
  rw [e] at key
  simp only [if_true, show n + 2 - 2 = n by omega] at key ⊢
  rw [if_neg (by omega)] at key
  rw [show n + 2 - (n + 2 - 1) + 2 = n + 2 - (n + 1) + 2 by omega, key]
  apply List.map_congr_left
  intro k _
  simp only [quadraticRank]

/-- Shapes and ranks of the train of `function_train_quadratic`. -/
theorem function_train_quadratic_shapes (LC : LeafConstructors O L R) [Ring R] (dim : Nat)
    (coeffs m : Nat → R) (h2 : 2 ≤ dim) (hs : (dim + 1) * (dim + 1) < SIZE_MOD) :
    ∃ ft, function_train_quadratic LC dim coeffs m = some ft ∧
      ft.shapesAgree ∧ ft.dim = dim ∧ ft.ranks = (List.range (dim + 1)).map (quadraticRank dim) := by
  refine ⟨_, function_train_quadratic_eq LC dim coeffs m h2 hs, ?_, rfl,
    function_train_quadratic_ranks dim h2⟩
  obtain ⟨n, rfl⟩ : ∃ n, dim = n + 2 := ⟨dim - 2, by omega⟩
  have key := shapesAgree_of_parts (O := O) (L := L) n
    (fun k => if k = 0 then 1 else n + 2 - k + 2)
    (quadraticFirstCore LC (n + 2) coeffs m) (quadraticLastCore LC (n + 2) coeffs m)
    (fun d => quadraticCore LC (n + 2) coeffs m d) 1
    ⟨rfl, by simp [quadraticFirstCore]⟩
    (fun k hk1 hk2 => ⟨by simp only [quadraticCore]; rw [if_neg (by omega)],
      by simp only [quadraticCore]; rw [if_neg (by omega)]; omega⟩)
    ⟨by simp only [quadraticLastCore]; rw [if_neg (by omega)]; omega, rfl⟩
  have e := map_range'_congr (fun k => if k = 0 then 1 else n + 2 - k + 2)
    (fun d => n + 2 - d + 2) 1 n (fun k hk _ => by simp only; rw [if_neg (by omega)])
  rw [e] at key
  simp only [if_true, show n + 2 - 2 = n by omega] at key ⊢
  rw [if_neg (by omega)] at key
  rw [show n + 2 - (n + 2 - 1) + 2 = n + 2 - (n + 1) + 2 by omega]
  exact key

/-- The shape of core `k` read off the ranks of a train with agreeing
shapes. -/
theorem shapesAgree_core (ft : FunctionTrain O L) (h : ft.shapesAgree) (k : Nat)
    (hk : k < ft.dim) (a b : Nat) (ha : ft.ranks[k]? = some a) (hb : ft.ranks[k + 1]? = some b) :
    ∃ q, ft.cores[k]? = some (some q) ∧ q.nrows = a ∧ q.ncols = b := by
  obtain ⟨q, h1, h2, h3⟩ := h.2.2 k hk
  rw [ha] at h2
  rw [hb] at h3
  exact ⟨q, h1, (Option.some.inj h2).symm, (Option.some.inj h3).symm⟩

end TrainShapeClaims3


section TrainShapeClaims4

variable {O L R : Type}

set_option linter.unusedTactic false
set_option linter.unreachableTactic false

/-- C12: for `dim ≥ 2` (sizes representable in `size_t`) every closed-form
constructor returns a train whose cores chain, `cores[k].nrows = ranks[k]` and
`cores[k].ncols = ranks[k+1]`.  The sum-type constructors give the ranks
`1, 2, .., 2, 1`; `function_train_rankone`, `function_train_constant` and
`function_train_constant_d` give all ranks 1; `function_train_quadratic` gives
`ranks[k] = dim - k + 2` for `1 ≤ k ≤ dim - 1` between two ranks 1, with cores
of shape `1 x (dim+1)`, `(dim-k+2) x (dim-k+1)` and `3 x 1`, and no rank above
`dim + 2`. -/
theorem closed_form_trains_shapes (LC : LeafConstructors O L R) [Ring R] (dim : Nat)
    (coeffs m c a : Nat → R) (ldc lda : Nat) (v : R)
    (h2 : 2 ≤ dim) (hs : (dim + 1) * (dim + 1) < SIZE_MOD) :
    (∃ ft, function_train_initsum LC dim = some ft ∧ ft.shapesAgree ∧
      ft.ranks = 1 :: (List.replicate (dim - 1) 2 ++ [1])) ∧
    (∃ ft, function_train_initsum2 LC dim = some ft ∧ ft.shapesAgree ∧
      ft.ranks = 1 :: (List.replicate (dim - 1) 2 ++ [1])) ∧
    (∃ ft, function_train_linear LC dim coeffs = some ft ∧ ft.shapesAgree ∧
      ft.ranks = 1 :: (List.replicate (dim - 1) 2 ++ [1])) ∧
    (∃ ft, function_train_linear2 LC dim c ldc a lda = some ft ∧ ft.shapesAgree ∧
      ft.ranks = 1 :: (List.replicate (dim - 1) 2 ++ [1])) ∧
    (∃ ft, function_train_quadratic_aligned LC dim coeffs m = some ft ∧ ft.shapesAgree ∧
      ft.ranks = 1 :: (List.replicate (dim - 1) 2 ++ [1])) ∧
    (∃ ft, function_train_rankone LC dim = some ft ∧ ft.shapesAgree ∧
      ft.ranks = List.replicate (dim + 1) 1) ∧
    (∃ ft, function_train_constant LC dim v = some ft ∧ ft.shapesAgree ∧
      ft.ranks = List.replicate (dim + 1) 1) ∧
    (∃ ft, function_train_constant_d LC dim v = some ft ∧ ft.shapesAgree ∧
      ft.ranks = List.replicate (dim + 1) 1) ∧
    (∃ ft, function_train_quadratic LC dim coeffs m = some ft ∧ ft.shapesAgree ∧
      ft.ranks[0]? = some 1 ∧ ft.ranks[dim]? = some 1 ∧
      (∀ k, 1 ≤ k → k ≤ dim - 1 → ft.ranks[k]? = some (dim - k + 2)) ∧
      (∀ r, r ∈ ft.ranks → r ≤ dim + 2) ∧
      (∃ q, ft.cores[0]? = some (some q) ∧ q.nrows = 1 ∧ q.ncols = dim + 1) ∧
      (∀ k, 1 ≤ k → k ≤ dim - 2 →
        ∃ q, ft.cores[k]? = some (some q) ∧ q.nrows = dim - k + 2 ∧ q.ncols = dim - k + 1) ∧
      (∃ q, ft.cores[dim - 1]? = some (some q) ∧ q.nrows = 3 ∧ q.ncols = 1)) := by
  have hd : dim + 1 < SIZE_MOD := by nlinarith
  have hgt : dim > 1 := by omega
  refine ⟨?_, ?_, ?_, ?_, ?_, function_train_rankone_shapes LC dim hd,
    function_train_constant_shapes LC dim v (by omega) hd,
    function_train_constant_shapes LC dim v (by omega) hd, ?_⟩
  · exact function_train_sum_cores_shapes dim _ _ _ _ _ h2 hd
  · exact function_train_sum_cores_shapes dim _ _ _ _ _ h2 hd
  · unfold function_train_linear
    rw [if_pos hgt]
    exact function_train_sum_cores_shapes dim _ _ _ _ _ h2 hd
  · unfold function_train_linear2
    rw [if_pos hgt]
    exact function_train_sum_cores_shapes dim _ _ _ _ _ h2 hd
  · unfold function_train_quadratic_aligned
    rw [if_pos hgt]
    exact function_train_sum_cores_shapes dim _ _ _ _ _ h2 hd
  · obtain ⟨ft, hft, hsh, hdim, hr⟩ := function_train_quadratic_shapes LC dim coeffs m h2 hs
    have rk : ∀ k, k ≤ dim → ft.ranks[k]? = some (quadraticRank dim k) := by
      intro k hk
      rw [hr, List.getElem?_map, List.getElem?_range (by omega)]
      rfl
    have r0 : ft.ranks[0]? = some 1 := by
      rw [rk 0 (by omega)]; simp [quadraticRank]
    have rd : ft.ranks[dim]? = some 1 := by
      rw [rk dim (by omega)]; simp [quadraticRank]
    have rmid : ∀ k, 1 ≤ k → k ≤ dim - 1 → ft.ranks[k]? = some (dim - k + 2) := by
      intro k hk1 hk2
      rw [rk k (by omega), quadraticRank, if_neg (by omega), if_neg (by omega)]
    refine ⟨ft, hft, hsh, r0, rd, rmid, ?_, ?_, ?_, ?_⟩
    · intro r hrm
      rw [hr, List.mem_map] at hrm
      obtain ⟨k, hk, rfl⟩ := hrm
      rw [List.mem_range] at hk
      unfold quadraticRank
      split
      · omega
      · split <;> omega
    · have := rmid 1 (by omega) (by omega)
      rw [show dim - 1 + 2 = dim + 1 by omega] at this
      exact shapesAgree_core ft hsh 0 (by omega) 1 (dim + 1) r0 this
    · intro k hk1 hk2
      have h3 := rmid (k + 1) (by omega) (by omega)
      rw [show dim - (k + 1) + 2 = dim - k + 1 by omega] at h3
      exact shapesAgree_core ft hsh k (by omega) _ _ (rmid k hk1 (by omega)) h3
    · have h3 := rmid (dim - 1) (by omega) (by omega)
      rw [show dim - (dim - 1) + 2 = 3 by omega] at h3
      have h4 : ft.ranks[dim - 1 + 1]? = some 1 := by
        rw [show dim - 1 + 1 = dim by omega]; exact rd
      exact shapesAgree_core ft hsh (dim - 1) (by omega) 3 1 h3 h4

end TrainShapeClaims4

section TrainEvalProofs

variable {O L R : Type} [CommRing R]

set_option linter.unusedTactic false
set_option linter.unreachableTactic false

theorem rowTimesColumn_cons (ev : GenericFunction O L → R → R) (x a : R) (v : List R)
    (e : Option (GenericFunction O L)) (col : List (Option (GenericFunction O L))) :
    rowTimesColumn ev x (a :: v) (e :: col) =
      (e.map fun g => ev g x).bind fun y =>
        (rowTimesColumn ev x v col).map fun s => a * y + s := by
  cases e <;> simp [rowTimesColumn]

theorem finset_sum_range_parts (f : Nat → R) (n : Nat) :
    Finset.sum (Finset.range (n + 2)) f = f 0 + (((List.range' 1 n).map f).sum + f (n + 1)) := by
  have : Finset.sum (Finset.range (n + 2)) f = ((List.range (n + 2)).map f).sum := rfl
  rw [this, map_range_split]
  simp

/-- The interior 2 by 2 cores of a sum-type train add the value of their
term to the first component of the row vector `[s, 1]`. -/
theorem chainedProduct_sum_interior (ev : GenericFunction O L → R → R) (x : Nat → R)
    (term one zero : Nat → Option (GenericFunction O L)) (tv : Nat → R → R)
    (hterm : ∀ d y, (term d).map (fun g => ev g y) = some (tv d y))
    (hone : ∀ d y, (one d).map (fun g => ev g y) = some 1)
    (hzero : ∀ d y, (zero d).map (fun g => ev g y) = some 0)
    (rest : List (Option (Qmarray O L))) :
    ∀ (n k : Nat) (s : R),
    chainedProduct ev x k
        ((List.range' k n).map (fun d => some ⟨2, 2, [one d, term d, zero d, one d]⟩) ++ rest)
        [s, 1] =
      chainedProduct ev x (k + n) rest [s + ((List.range' k n).map fun d => tv d (x d)).sum, 1]
  | 0, k, s => by simp
  | n + 1, k, s => by
      have step : rowTimesCore ev (x k) [s, 1]
          (⟨2, 2, [one k, term k, zero k, one k]⟩ : Qmarray O L) = some [s + tv k (x k), 1] := by
        simp [rowTimesCore, rowTimesColumns, Qmarray.column, rowTimesColumn_cons, hterm, hone,
          hzero, rowTimesColumn]
      rw [List.range'_succ, List.map_cons, List.cons_append, chainedProduct, step,
        Option.some_bind, chainedProduct_sum_interior ev x term one zero tv hterm hone hzero rest
          n (k + 1) (s + tv k (x k))]
      simp only [List.map_cons, List.sum_cons]
      rw [show k + 1 + n = k + (n + 1) by omega, add_assoc]

/-- Value of a sum-type train for `dim ≥ 2`. -/
theorem function_train_sum_cores_eval (ev : GenericFunction O L → R → R) (x : Nat → R)
    (dim : Nat) (term one zero : Nat → Option (GenericFunction O L)) (tv : Nat → R → R)
    (hterm : ∀ d y, (term d).map (fun g => ev g y) = some (tv d y))
    (hone : ∀ d y, (one d).map (fun g => ev g y) = some 1)
    (hzero : ∀ d y, (zero d).map (fun g => ev g y) = some 0)
    (h2 : 2 ≤ dim) (hs : dim + 1 < SIZE_MOD) :
    (function_train_sum_cores dim term one zero [term 0, one 0]).bind
        (fun ft => function_train_eval ev ft x) =
      some (Finset.sum (Finset.range dim) fun i => tv i (x i)) := by
  rw [function_train_sum_cores_eq dim term one zero _ _ h2 hs, Option.some_bind]
  obtain ⟨n, rfl⟩ : ∃ n, dim = n + 2 := ⟨dim - 2, by omega⟩
  have first : rowTimesCore ev (x 0) [1] (⟨1, 2, [term 0, one 0]⟩ : Qmarray O L)
      = some [tv 0 (x 0), 1] := by
    simp [rowTimesCore, rowTimesColumns, Qmarray.column, rowTimesColumn_cons, hterm, hone,
      rowTimesColumn]
  have last : ∀ s : R, rowTimesCore ev (x (n + 1)) [s, 1]
      (⟨2, 1, [one (n + 1), term (n + 1)]⟩ : Qmarray O L) = some [s + tv (n + 1) (x (n + 1))] := by
    intro s
    simp [rowTimesCore, rowTimesColumns, Qmarray.column, rowTimesColumn_cons, hterm, hone,
      rowTimesColumn]
  unfold function_train_eval
  simp only [show n + 2 - 2 = n by omega, show n + 2 - 1 = n + 1 by omega]
  rw [chainedProduct, first, Option.some_bind,
    chainedProduct_sum_interior ev x term one zero tv hterm hone hzero _ n 1 (tv 0 (x 0)),
    show 1 + n = n + 1 by omega, chainedProduct, last, Option.some_bind, chainedProduct,
    finset_sum_range_parts]
  simp only [add_assoc]

end TrainEvalProofs

section TrainEvalClaims

variable {O L R : Type} [CommRing R]

set_option linter.unusedTactic false
set_option linter.unreachableTactic false

theorem parts_getElem? {α : Type} (a b : α) (g : Nat → α) (n : Nat) :
    (a :: ((List.range' 1 n).map g ++ [b]))[0]? = some a ∧
    (∀ k, 1 ≤ k → k ≤ n → (a :: ((List.range' 1 n).map g ++ [b]))[k]? = some (g k)) ∧
    (a :: ((List.range' 1 n).map g ++ [b]))[n + 1]? = some b := by
  have e : a :: ((List.range' 1 n).map g ++ [b]) =
      (List.range (n + 2)).map (fun k => if k = 0 then a else if k = n + 1 then b else g k) := by
    rw [map_range_split]
    have := map_range'_congr (fun k => if k = 0 then a else if k = n + 1 then b else g k) g 1 n
      (fun k hk1 hk => by simp only; rw [if_neg (by omega), if_neg (by omega)])
    rw [this]
    simp
  rw [e]
  refine ⟨by simp, ?_, ?_⟩
  · intro k hk1 hk2
    rw [List.getElem?_map, List.getElem?_range (by omega)]
    simp only [Option.map_some']
    rw [if_neg (by omega), if_neg (by omega)]
  · rw [List.getElem?_map, List.getElem?_range (by omega)]
    simp

/-- The 1 by 1 cores holding the constant 1 leave the row vector `[s]` as it
is. -/
theorem chainedProduct_constant_ones (ev : GenericFunction O L → R → R) (x : Nat → R)
    (one : Nat → Option (GenericFunction O L))
    (hone : ∀ d y, (one d).map (fun g => ev g y) = some 1) (s : R) :
    ∀ (n k : Nat),
    chainedProduct ev x k ((List.range' k n).map (fun d => some ⟨1, 1, [one d]⟩)) [s] = some [s]
  | 0, k => by simp [chainedProduct]
  | n + 1, k => by
      have step : rowTimesCore ev (x k) [s] (⟨1, 1, [one k]⟩ : Qmarray O L) = some [s] := by
        simp [rowTimesCore, rowTimesColumns, Qmarray.column, rowTimesColumn_cons, hone,
          rowTimesColumn]
      rw [List.range'_succ, List.map_cons, chainedProduct, step, Option.some_bind,
        chainedProduct_constant_ones ev x one hone s n (k + 1)]

/-- C14: for `dim ≥ 1`, with exact leaf constructors, `function_train_linear`
returns a train whose chained core product at `x` is the sum over `i < dim` of
`coeffs[i] * x_i`. -/
theorem function_train_linear_eval (LC : LeafConstructors O L R)
    (ev : GenericFunction O L → R → R) (f : Nat → R → R) (hex : LC.exact ev f) (dim : Nat)
    (coeffs x : Nat → R) (h1 : 1 ≤ dim) (hs : dim + 1 < SIZE_MOD) :
    ∃ ft, function_train_linear LC dim coeffs = some ft ∧
      function_train_eval ev ft x = some (Finset.sum (Finset.range dim) fun i => coeffs i * x i) := by
  obtain ⟨hc, hl, _, _⟩ := hex
  by_cases hd : dim = 1
  · subst hd
    refine ⟨⟨1, [1, 0], [some ⟨1, 1, [LC.generic_function_linear (coeffs 0) 0 0]⟩]⟩, rfl, ?_⟩
    simp [function_train_eval, chainedProduct, rowTimesCore, rowTimesColumns, Qmarray.column,
      rowTimesColumn_cons, hl, rowTimesColumn]
  · have h2 : 2 ≤ dim := by omega
    have key := function_train_sum_cores_eval ev x dim
      (fun onDim => LC.generic_function_linear (coeffs onDim) 0 onDim)
      (LC.generic_function_constant 1) (LC.generic_function_constant 0)
      (fun d y => coeffs d * y + 0) (fun d y => hl _ _ _ _) (fun d y => hc _ _ _)
      (fun d y => hc _ _ _) h2 hs
    unfold function_train_linear
    rw [if_pos (by omega)]
    obtain ⟨ft, hft, hev⟩ := Option.bind_eq_some.mp key
    refine ⟨ft, hft, ?_⟩
    rw [hev]
    simp

/-- C15: for `dim ≥ 2`, with exact one-dimensional fits, `function_train_initsum`
returns a train whose first core is the 1 by 2 row `[f_0, 1]`, whose last core
is the 2 by 1 column `[1, f_{dim-1}]`, whose interior cores are the 2 by 2
arrays with columns `[1, f_k]` and `[0, 1]`, and whose chained core product at
`x` is `f_0(x_0) + .. + f_{dim-1}(x_{dim-1})`. -/
theorem function_train_initsum_eval (LC : LeafConstructors O L R)
    (ev : GenericFunction O L → R → R) (f : Nat → R → R) (hex : LC.exact ev f) (dim : Nat)
    (x : Nat → R) (h2 : 2 ≤ dim) (hs : dim + 1 < SIZE_MOD) :
    ∃ ft, function_train_initsum LC dim = some ft ∧
      ft.cores[0]? = some (some ⟨1, 2,
        [LC.generic_function_approximate1d 0, LC.generic_function_constant 1 0]⟩) ∧
      ft.cores[dim - 1]? = some (some ⟨2, 1,
        [LC.generic_function_constant 1 (dim - 1),
          LC.generic_function_approximate1d (dim - 1)]⟩) ∧
      (∀ k, 1 ≤ k → k ≤ dim - 2 → ft.cores[k]? = some (some ⟨2, 2,
        [LC.generic_function_constant 1 k, LC.generic_function_approximate1d k,
          LC.generic_function_constant 0 k, LC.generic_function_constant 1 k]⟩)) ∧
      function_train_eval ev ft x = some (Finset.sum (Finset.range dim) fun i => f i (x i)) := by
  obtain ⟨hc, _, _, ha⟩ := hex
  have key := function_train_sum_cores_eval ev x dim LC.generic_function_approximate1d
    (LC.generic_function_constant 1) (LC.generic_function_constant 0) f ha (fun d y => hc _ _ _)
    (fun d y => hc _ _ _) h2 hs
  have hclosed := function_train_sum_cores_eq dim LC.generic_function_approximate1d
    (LC.generic_function_constant 1) (LC.generic_function_constant 0)
    (LC.generic_function_approximate1d 0) (LC.generic_function_constant 1 0) h2 hs
  rw [hclosed, Option.some_bind] at key
  have parts := parts_getElem?
    (some (⟨1, 2, [LC.generic_function_approximate1d 0, LC.generic_function_constant 1 0]⟩ :
      Qmarray O L))
    (some ⟨2, 1, [LC.generic_function_constant 1 (dim - 1),
      LC.generic_function_approximate1d (dim - 1)]⟩)
    (fun d => some ⟨2, 2, [LC.generic_function_constant 1 d,
      LC.generic_function_approximate1d d, LC.generic_function_constant 0 d,
      LC.generic_function_constant 1 d]⟩) (dim - 2)
  refine ⟨_, hclosed, parts.1, ?_, parts.2.1, key⟩
  have := parts.2.2
  rw [show dim - 2 + 1 = dim - 1 by omega] at this
  exact this

/-- C16: for `dim ≥ 1`, `function_train_constant` returns a train with all
ranks 1, the constant `a` in the first 1 by 1 core and the constant 1 in every
other 1 by 1 core; with exact leaf constructors its chained core product is
`a` at every point. -/
theorem function_train_constant_eval (LC : LeafConstructors O L R)
    (ev : GenericFunction O L → R → R) (f : Nat → R → R) (hex : LC.exact ev f) (dim : Nat)
    (a : R) (x : Nat → R) (h1 : 1 ≤ dim) (hs : dim + 1 < SIZE_MOD) :
    ∃ ft, function_train_constant LC dim a = some ft ∧
      ft.ranks = List.replicate (dim + 1) 1 ∧
      ft.cores[0]? = some (some ⟨1, 1, [LC.generic_function_constant a 0]⟩) ∧
      (∀ k, 1 ≤ k → k < dim →
        ft.cores[k]? = some (some ⟨1, 1, [LC.generic_function_constant 1 k]⟩)) ∧
      function_train_eval ev ft x = some a := by
  obtain ⟨hc, _, _, _⟩ := hex
  obtain ⟨ft, hft, _, hr⟩ := function_train_constant_shapes LC dim a h1 hs
  have hclosed := function_train_constant_eq LC dim a h1 hs
  rw [hclosed] at hft
  refine ⟨ft, hclosed.trans hft, hr, ?_, ?_, ?_⟩
  · rw [← Option.some.inj hft]
    simp
  · intro k hk1 hk2
    rw [← Option.some.inj hft]
    simp only [List.getElem?_cons, if_neg (show ¬ k = 0 by omega), List.getElem?_map]
    rw [List.getElem?_range' 1 1 (by omega)]
    simp only [Option.map_some']
    rw [show 1 + 1 * (k - 1) = k by omega]
  · rw [← Option.some.inj hft]
    have step : rowTimesCore ev (x 0) [1]
        (⟨1, 1, [LC.generic_function_constant a 0]⟩ : Qmarray O L) = some [a] := by
      simp [rowTimesCore, rowTimesColumns, Qmarray.column, rowTimesColumn_cons, hc,
        rowTimesColumn]
    unfold function_train_eval
    simp only
    rw [chainedProduct, step, Option.some_bind,
      chainedProduct_constant_ones ev x (LC.generic_function_constant 1) (fun d y => hc _ _ _) a
        (dim - 1) 1]

end TrainEvalClaims

section TrainClaimWitnesses

theorem function_train_linear_eval_witness :
    (polyLeaves Int).exact polyEval (fun onDim x => (onDim + 1) * x) ∧ 1 ≤ 3 ∧
    3 + 1 < SIZE_MOD ∧
    ∃ ft, function_train_linear (polyLeaves Int) 3 (fun i => (i : Int) + 1) = some ft ∧
      function_train_eval polyEval ft (fun i => 10 * (i : Int) + 7) =
        some (Finset.sum (Finset.range 3) fun i => ((i : Int) + 1) * (10 * (i : Int) + 7)) :=
  ⟨polyLeaves_exact Int, by decide, by decide,
    function_train_linear_eval (polyLeaves Int) polyEval _ (polyLeaves_exact Int) 3 _ _
      (by decide) (by decide)⟩

theorem function_train_initsum_eval_witness :
    (polyLeaves Int).exact polyEval (fun onDim x => (onDim + 1) * x) ∧ 2 ≤ 3 ∧
    3 + 1 < SIZE_MOD ∧
    ∃ ft, function_train_initsum (polyLeaves Int) 3 = some ft ∧
      ft.cores[0]? = some (some ⟨1, 2,
        [(polyLeaves Int).generic_function_approximate1d 0,
          (polyLeaves Int).generic_function_constant 1 0]⟩) ∧
      ft.cores[3 - 1]? = some (some ⟨2, 1,
        [(polyLeaves Int).generic_function_constant 1 (3 - 1),
          (polyLeaves Int).generic_function_approximate1d (3 - 1)]⟩) ∧
      (∀ k, 1 ≤ k → k ≤ 3 - 2 → ft.cores[k]? = some (some ⟨2, 2,
        [(polyLeaves Int).generic_function_constant 1 k,
          (polyLeaves Int).generic_function_approximate1d k,
          (polyLeaves Int).generic_function_constant 0 k,
          (polyLeaves Int).generic_function_constant 1 k]⟩)) ∧
      function_train_eval polyEval ft (fun i => 10 * (i : Int) + 7) =
        some (Finset.sum (Finset.range 3) fun i => ((i : Int) + 1) * (10 * (i : Int) + 7)) :=
  ⟨polyLeaves_exact Int, by decide, by decide,
    function_train_initsum_eval (polyLeaves Int) polyEval _ (polyLeaves_exact Int) 3 _
      (by decide) (by decide)⟩

theorem function_train_constant_eval_witness :
    (polyLeaves ℚ).exact polyEval (fun onDim x => (onDim + 1) * x) ∧ 1 ≤ 4 ∧
    4 + 1 < SIZE_MOD ∧
    ∃ ft, function_train_constant (polyLeaves ℚ) 4 (5 / 2) = some ft ∧
      ft.ranks = List.replicate (4 + 1) 1 ∧
      ft.cores[0]? = some (some ⟨1, 1, [(polyLeaves ℚ).generic_function_constant (5 / 2) 0]⟩) ∧
      (∀ k, 1 ≤ k → k < 4 →
        ft.cores[k]? = some (some ⟨1, 1, [(polyLeaves ℚ).generic_function_constant 1 k]⟩)) ∧
      function_train_eval polyEval ft (fun i => (i : ℚ) / 3) = some (5 / 2) :=
  ⟨polyLeaves_exact ℚ, by decide, by decide,
    function_train_constant_eval (polyLeaves ℚ) polyEval _ (polyLeaves_exact ℚ) 4 (5 / 2) _
      (by decide) (by decide)⟩

theorem closed_form_trains_shapes_witness :
    2 ≤ 3 ∧ (3 + 1) * (3 + 1) < SIZE_MOD ∧
    (∃ ft, function_train_initsum (polyLeaves Int) 3 = some ft ∧ ft.shapesAgree ∧
      ft.ranks = 1 :: (List.replicate (3 - 1) 2 ++ [1])) ∧
    (∃ ft, function_train_initsum2 (polyLeaves Int) 3 = some ft ∧ ft.shapesAgree ∧
      ft.ranks = 1 :: (List.replicate (3 - 1) 2 ++ [1])) ∧
    (∃ ft, function_train_linear (polyLeaves Int) 3 (fun i => (i : Int) + 1) = some ft ∧
      ft.shapesAgree ∧ ft.ranks = 1 :: (List.replicate (3 - 1) 2 ++ [1])) ∧
    (∃ ft, function_train_linear2 (polyLeaves Int) 3 (fun i => (i : Int) + 1) 1
        (fun i => (i : Int)) 1 = some ft ∧
      ft.shapesAgree ∧ ft.ranks = 1 :: (List.replicate (3 - 1) 2 ++ [1])) ∧
    (∃ ft, function_train_quadratic_aligned (polyLeaves Int) 3 (fun i => (i : Int) + 1)
        (fun i => (i : Int)) = some ft ∧
      ft.shapesAgree ∧ ft.ranks = 1 :: (List.replicate (3 - 1) 2 ++ [1])) ∧
    (∃ ft, function_train_rankone (polyLeaves Int) 3 = some ft ∧ ft.shapesAgree ∧
      ft.ranks = List.replicate (3 + 1) 1) ∧
    (∃ ft, function_train_constant (polyLeaves Int) 3 5 = some ft ∧ ft.shapesAgree ∧
      ft.ranks = List.replicate (3 + 1) 1) ∧
    (∃ ft, function_train_constant_d (polyLeaves Int) 3 5 = some ft ∧ ft.shapesAgree ∧
      ft.ranks = List.replicate (3 + 1) 1) ∧
    (∃ ft, function_train_quadratic (polyLeaves Int) 3 (fun i => (i : Int) + 1)
        (fun i => (i : Int)) = some ft ∧ ft.shapesAgree ∧
      ft.ranks[0]? = some 1 ∧ ft.ranks[3]? = some 1 ∧
      (∀ k, 1 ≤ k → k ≤ 3 - 1 → ft.ranks[k]? = some (3 - k + 2)) ∧
      (∀ r, r ∈ ft.ranks → r ≤ 3 + 2) ∧
      (∃ q, ft.cores[0]? = some (some q) ∧ q.nrows = 1 ∧ q.ncols = 3 + 1) ∧
      (∀ k, 1 ≤ k → k ≤ 3 - 2 →
        ∃ q, ft.cores[k]? = some (some q) ∧ q.nrows = 3 - k + 2 ∧ q.ncols = 3 - k + 1) ∧
      (∃ q, ft.cores[3 - 1]? = some (some q) ∧ q.nrows = 3 ∧ q.ncols = 1)) :=
  ⟨by decide, by decide,
    closed_form_trains_shapes (polyLeaves Int) 3 (fun i => (i : Int) + 1) (fun i => (i : Int))
      (fun i => (i : Int) + 1) (fun i => (i : Int)) 1 1 5 (by decide) (by decide)⟩

end TrainClaimWitnesses

section QuadraticEvalProofs

variable {O L R : Type} [CommRing R]

set_option linter.unusedTactic false
set_option linter.unreachableTactic false

theorem rowTimesColumn_map (ev : GenericFunction O L → R → R) (x : R) (vf : Nat → R)
    (e : Nat → Option (GenericFunction O L)) (val : Nat → R) :
    ∀ (n s : Nat), (∀ ll, s ≤ ll → ll < s + n → (e ll).map (fun g => ev g x) = some (val ll)) →
    rowTimesColumn ev x ((List.range' s n).map vf) ((List.range' s n).map e) =
      some (((List.range' s n).map fun ll => vf ll * val ll).sum)
  | 0, s, _ => by simp [rowTimesColumn]
  | n + 1, s, h => by
      rw [List.range'_succ, List.map_cons, List.map_cons, rowTimesColumn_cons,
        h s (Nat.le_refl _) (by omega), Option.some_bind,
        rowTimesColumn_map ev x vf e val n (s + 1) (fun ll h1 h2 => h ll (by omega) (by omega))]
      simp

theorem columnEntries_succ (g : Nat → Nat → Option (GenericFunction O L)) (N lo n : Nat) :
    columnEntries g N lo (n + 1) =
      (List.range' 0 N).map (g lo) ++ columnEntries g N (lo + 1) n := by
  simp [columnEntries, List.range'_succ]

theorem columnEntries_column (g : Nat → Nat → Option (GenericFunction O L)) (N : Nat) :
    ∀ (n lo j : Nat), j < n →
    ((columnEntries g N lo n).drop (j * N)).take N = (List.range' 0 N).map (g (lo + j))
  | 0, _, _, h => by omega
  | n + 1, lo, 0, _ => by
      rw [columnEntries_succ, Nat.zero_mul, List.drop_zero]
      exact List.take_left' (by simp)
  | n + 1, lo, j + 1, h => by
      rw [columnEntries_succ]
      have hl : ((List.range' 0 N).map (g lo)).length = N := by simp
      have e : (j + 1) * N = ((List.range' 0 N).map (g lo)).length + j * N := by
        rw [hl]; ring
      rw [e, List.drop_append, columnEntries_column g N n (lo + 1) j (by omega)]
      rw [show lo + 1 + j = lo + (j + 1) by omega]

theorem rowTimesColumns_columnEntries (ev : GenericFunction O L → R → R) (x : R) (N C : Nat)
    (g : Nat → Nat → Option (GenericFunction O L)) (val : Nat → Nat → R)
    (hval : ∀ kk ll, kk < C → ll < N → (g kk ll).map (fun f => ev f x) = some (val kk ll))
    (vf : Nat → R) :
    ∀ (n c : Nat), c + n ≤ C →
    rowTimesColumns ev x ((List.range' 0 N).map vf) ⟨N, C, columnEntries g N 0 C⟩ c n =
      some ((List.range' c n).map fun kk =>
        Finset.sum (Finset.range N) fun ll => vf ll * val kk ll)
  | 0, c, _ => by simp [rowTimesColumns]
  | n + 1, c, h => by
      have hcol : (⟨N, C, columnEntries g N 0 C⟩ : Qmarray O L).column c
          = (List.range' 0 N).map (g c) := by
        have := columnEntries_column g N C 0 c (by omega)
        rw [Nat.zero_add] at this
        exact this
      have hsum : ((List.range' 0 N).map fun ll => vf ll * val c ll).sum
          = Finset.sum (Finset.range N) fun ll => vf ll * val c ll := by
        rw [← List.range_eq_range']
        rfl
      rw [rowTimesColumns, hcol,
        rowTimesColumn_map ev x vf (g c) (val c) N 0
          (fun ll _ h2 => hval c ll (by omega) (by omega)),
        Option.some_bind,
        rowTimesColumns_columnEntries ev x N C g val hval vf n (c + 1) (by omega), hsum]
      simp [List.range'_succ]

/-- The row vector `vf 0, .., vf (N-1)` times a core whose entries are given
column by column. -/
theorem rowTimesCore_columnEntries (ev : GenericFunction O L → R → R) (x : R) (N C : Nat)
    (g : Nat → Nat → Option (GenericFunction O L)) (val : Nat → Nat → R)
    (hval : ∀ kk ll, kk < C → ll < N → (g kk ll).map (fun f => ev f x) = some (val kk ll))
    (vf : Nat → R) :
    rowTimesCore ev x ((List.range' 0 N).map vf) ⟨N, C, columnEntries g N 0 C⟩ =
      some ((List.range' 0 C).map fun kk =>
        Finset.sum (Finset.range N) fun ll => vf ll * val kk ll) := by
  unfold rowTimesCore
  rw [if_pos (by simp)]
  exact rowTimesColumns_columnEntries ev x N C g val hval vf C 0 (by omega)

end QuadraticEvalProofs

section QuadraticAlgebra

variable {O L R : Type} [CommRing R]

set_option linter.unusedTactic false
set_option linter.unreachableTactic false

/-- The partial quadratic form over the first `d` coordinates. -/
def quadS (dim : Nat) (coeffs x m : Nat → R) (d : Nat) : R :=
  Finset.sum (Finset.range d) fun i => Finset.sum (Finset.range d) fun j =>
    coeffs (i * dim + j) * (x i - m i) * (x j - m j)

/-- The coefficient, after the first `d` coordinates, of `x_j - m_j` for a
later coordinate `j`. -/
def quadL (dim : Nat) (coeffs x m : Nat → R) (d j : Nat) : R :=
  Finset.sum (Finset.range d) fun i =>
    (coeffs (i * dim + j) + coeffs (j * dim + i)) * (x i - m i)

/-- Component `ll` of the row vector that enters the core of dimension `d`. -/
def quadVec (dim : Nat) (coeffs x m : Nat → R) (d ll : Nat) : R :=
  if ll = 0 then quadS dim coeffs x m d
  else if ll = dim - d + 1 then 1
  else quadL dim coeffs x m d (d + ll - 1)

/-- The value at `y` of the entry at column `kk`, row `ll` of the interior
core of dimension `onDim`, the leaf constructors being exact. -/
def quadEntryVal (dim : Nat) (coeffs m : Nat → R) (onDim : Nat) (y : R) (kk ll : Nat) : R :=
  if ll = 0 ∧ kk = 0 then 1
  else if kk = 0 ∧ ll = 1 then 1 * y + -(m onDim)
  else if ll = kk + 1 then 1
  else if ll = dim - onDim + 1 ∧ kk = 0 then
    coeffs (onDim * dim + onDim) * (y - m onDim) ^ 2
  else if ll = dim - onDim + 1 then
    (coeffs (onDim * dim + onDim + kk) + coeffs ((onDim + kk) * dim + onDim)) * y +
      -(coeffs (onDim * dim + onDim + kk) + coeffs ((onDim + kk) * dim + onDim)) * m onDim
  else 0

theorem function_train_quadratic_entry_val (LC : LeafConstructors O L R)
    (ev : GenericFunction O L → R → R) (f : Nat → R → R) (hex : LC.exact ev f) (dim : Nat)
    (coeffs m : Nat → R) (onDim : Nat) (y : R) (kk ll : Nat) :
    (function_train_quadratic_entry LC dim coeffs m onDim kk ll).map (fun g => ev g y) =
      some (quadEntryVal dim coeffs m onDim y kk ll) := by
  obtain ⟨hc, hl, hq, _⟩ := hex
  unfold function_train_quadratic_entry quadEntryVal
  split_ifs <;> simp only [hc, hl, hq]

theorem sum_one_point (N a : Nat) (F : Nat → R) (u : R) (ha : a < N) :
    (Finset.sum (Finset.range N) fun ll => F ll * (if ll = a then u else 0)) = F a * u := by
  simp [mul_ite, Finset.sum_ite_eq', ha]

theorem sum_two_points (N a b : Nat) (F : Nat → R) (u w : R) (ha : a < N) (hb : b < N)
    (hab : a ≠ b) :
    (Finset.sum (Finset.range N) fun ll => F ll * (if ll = a then u else if ll = b then w else 0))
      = F a * u + F b * w := by
  have e : ∀ ll, F ll * (if ll = a then u else if ll = b then w else 0)
      = F ll * (if ll = a then u else 0) + F ll * (if ll = b then w else 0) := by
    intro ll
    by_cases h1 : ll = a
    · have h2 : ll ≠ b := by omega
      simp [h1, h2, hab]
    · simp [h1]
  simp only [e, Finset.sum_add_distrib, sum_one_point N a F u ha, sum_one_point N b F w hb]

theorem sum_three_points (N a b c : Nat) (F : Nat → R) (u w z : R) (ha : a < N) (hb : b < N)
    (hc : c < N) (hab : a ≠ b) (hac : a ≠ c) (hbc : b ≠ c) :
    (Finset.sum (Finset.range N) fun ll =>
        F ll * (if ll = a then u else if ll = b then w else if ll = c then z else 0))
      = F a * u + F b * w + F c * z := by
  have e : ∀ ll, F ll * (if ll = a then u else if ll = b then w else if ll = c then z else 0)
      = F ll * (if ll = a then u else if ll = b then w else 0)
        + F ll * (if ll = c then z else 0) := by
    intro ll
    by_cases h1 : ll = a
    · have h2 : ll ≠ c := by omega
      simp [h1, h2, hac]
    · by_cases h2 : ll = b
      · have h3 : ll ≠ c := by omega
        simp [h2, h3, hbc, hab.symm]
      · simp [h1, h2]
  simp only [e, Finset.sum_add_distrib, sum_two_points N a b F u w ha hb hab,
    sum_one_point N c F z hc]

theorem quadS_succ (dim : Nat) (coeffs x m : Nat → R) (d : Nat) :
    quadS dim coeffs x m (d + 1) =
      quadS dim coeffs x m d + quadL dim coeffs x m d d * (x d - m d)
        + coeffs (d * dim + d) * (x d - m d) ^ 2 := by
  unfold quadS quadL
  simp only [Finset.sum_range_succ, Finset.sum_add_distrib, Finset.sum_mul, add_mul]
  have e : (Finset.sum (Finset.range d) fun j =>
      coeffs (d * dim + j) * (x d - m d) * (x j - m j))
      = Finset.sum (Finset.range d) fun i =>
        coeffs (d * dim + i) * (x i - m i) * (x d - m d) :=
    Finset.sum_congr rfl (fun i _ => by ring)
  rw [e]
  ring

theorem quadL_succ (dim : Nat) (coeffs x m : Nat → R) (d j : Nat) :
    quadL dim coeffs x m (d + 1) j =
      quadL dim coeffs x m d j + (coeffs (d * dim + j) + coeffs (j * dim + d)) * (x d - m d) := by
  unfold quadL
  rw [Finset.sum_range_succ]

end QuadraticAlgebra

section QuadraticStep

variable {O L R : Type} [CommRing R]

set_option linter.unusedTactic false
set_option linter.unreachableTactic false

/-- One interior core of the quadratic train maps the row vector of dimension
`d` to the row vector of dimension `d + 1`. -/
theorem quadVec_step (dim : Nat) (coeffs x m : Nat → R) (d kk : Nat) (hd1 : 1 ≤ d)
    (hd2 : d + 2 ≤ dim) (hk : kk < dim - d + 1) :
    (Finset.sum (Finset.range (dim - d + 2)) fun ll =>
        quadVec dim coeffs x m d ll * quadEntryVal dim coeffs m d (x d) kk ll)
      = quadVec dim coeffs x m (d + 1) kk := by
  by_cases h0 : kk = 0
  · subst h0
    have e : ∀ ll, quadEntryVal dim coeffs m d (x d) 0 ll
        = if ll = 0 then 1 else if ll = 1 then 1 * x d + -(m d)
          else if ll = dim - d + 1 then coeffs (d * dim + d) * (x d - m d) ^ 2 else 0 := by
      intro ll
      unfold quadEntryVal
      split_ifs <;> first | rfl | omega
    simp only [e]
    rw [sum_three_points _ 0 1 (dim - d + 1) _ _ _ _ (by omega) (by omega) (by omega)
      (by omega) (by omega) (by omega)]
    have v0 : quadVec dim coeffs x m d 0 = quadS dim coeffs x m d := by simp [quadVec]
    have v1 : quadVec dim coeffs x m d 1 = quadL dim coeffs x m d d := by
      unfold quadVec
      rw [if_neg (by omega), if_neg (by omega)]
      simp
    have v2 : quadVec dim coeffs x m d (dim - d + 1) = 1 := by
      unfold quadVec
      rw [if_neg (by omega), if_pos rfl]
    have t : quadVec dim coeffs x m (d + 1) 0 = quadS dim coeffs x m (d + 1) := by
      simp [quadVec]
    rw [v0, v1, v2, t, quadS_succ]
    ring
  · by_cases h1 : kk = dim - d
    · subst h1
      have e : ∀ ll, ll ∈ Finset.range (dim - d + 2) →
          quadVec dim coeffs x m d ll * quadEntryVal dim coeffs m d (x d) (dim - d) ll
          = quadVec dim coeffs x m d ll * (if ll = dim - d + 1 then 1 else 0) := by
        intro ll hll
        rw [Finset.mem_range] at hll
        congr 1
        unfold quadEntryVal
        split_ifs <;> first | rfl | omega
      rw [Finset.sum_congr rfl e, sum_one_point _ (dim - d + 1) _ _ (by omega)]
      have v2 : quadVec dim coeffs x m d (dim - d + 1) = 1 := by
        unfold quadVec
        rw [if_neg (by omega), if_pos rfl]
      have t : quadVec dim coeffs x m (d + 1) (dim - d) = 1 := by
        unfold quadVec
        rw [if_neg (by omega), if_pos (by omega)]
      rw [v2, t, mul_one]
    · have e : ∀ ll, quadEntryVal dim coeffs m d (x d) kk ll
          = if ll = kk + 1 then 1 else if ll = dim - d + 1 then
              (coeffs (d * dim + d + kk) + coeffs ((d + kk) * dim + d)) * x d +
                -(coeffs (d * dim + d + kk) + coeffs ((d + kk) * dim + d)) * m d
            else 0 := by
        intro ll
        unfold quadEntryVal
        split_ifs <;> first | rfl | omega
      simp only [e]
      rw [sum_two_points _ (kk + 1) (dim - d + 1) _ _ _ (by omega) (by omega) (by omega)]
      have v1 : quadVec dim coeffs x m d (kk + 1) = quadL dim coeffs x m d (d + kk) := by
        unfold quadVec
        rw [if_neg (by omega), if_neg (by omega)]
        simp
      have v2 : quadVec dim coeffs x m d (dim - d + 1) = 1 := by
        unfold quadVec
        rw [if_neg (by omega), if_pos rfl]
      have t : quadVec dim coeffs x m (d + 1) kk = quadL dim coeffs x m (d + 1) (d + kk) := by
        unfold quadVec
        rw [if_neg h0, if_neg (by omega), show d + 1 + kk - 1 = d + kk by omega]
      rw [v1, v2, t, quadL_succ, Nat.add_assoc (d * dim) d kk]
      ring

end QuadraticStep

section QuadraticEval

variable {O L R : Type} [CommRing R]

set_option linter.unusedTactic false
set_option linter.unreachableTactic false

theorem rowTimesCore_quadraticCore (LC : LeafConstructors O L R)
    (ev : GenericFunction O L → R → R) (f : Nat → R → R) (hex : LC.exact ev f) (dim : Nat)
    (coeffs m x : Nat → R) (d : Nat) (hd1 : 1 ≤ d) (hd2 : d + 2 ≤ dim) :
    rowTimesCore ev (x d) ((List.range' 0 (dim - d + 2)).map (quadVec dim coeffs x m d))
        (quadraticCore LC dim coeffs m d) =
      some ((List.range' 0 (dim - (d + 1) + 2)).map (quadVec dim coeffs x m (d + 1))) := by
  unfold quadraticCore
  rw [rowTimesCore_columnEntries ev (x d) (dim - d + 2) (dim - d + 1)
    (function_train_quadratic_entry LC dim coeffs m d) (quadEntryVal dim coeffs m d (x d))
    (fun kk ll _ _ => function_train_quadratic_entry_val LC ev f hex dim coeffs m d (x d) kk ll)
    (quadVec dim coeffs x m d)]
  rw [show dim - (d + 1) + 2 = dim - d + 1 by omega]
  congr 1
  exact map_range'_congr _ _ 0 (dim - d + 1)
    (fun kk _ hk => quadVec_step dim coeffs x m d kk hd1 hd2 (by omega))

theorem chainedProduct_quadratic_interior (LC : LeafConstructors O L R)
    (ev : GenericFunction O L → R → R) (f : Nat → R → R) (hex : LC.exact ev f) (dim : Nat)
    (coeffs m x : Nat → R) (rest : List (Option (Qmarray O L))) :
    ∀ (n k : Nat), 1 ≤ k → k + n + 1 ≤ dim →
    chainedProduct ev x k
        ((List.range' k n).map (fun d => some (quadraticCore LC dim coeffs m d)) ++ rest)
        ((List.range' 0 (dim - k + 2)).map (quadVec dim coeffs x m k)) =
      chainedProduct ev x (k + n) rest
        ((List.range' 0 (dim - (k + n) + 2)).map (quadVec dim coeffs x m (k + n)))
  | 0, k, _, _ => by simp
  | n + 1, k, hk, hkn => by
      rw [List.range'_succ, List.map_cons, List.cons_append, chainedProduct,
        rowTimesCore_quadraticCore LC ev f hex dim coeffs m x k hk (by omega), Option.some_bind,
        chainedProduct_quadratic_interior LC ev f hex dim coeffs m x rest n (k + 1) (by omega)
          (by omega),
        show k + 1 + n = k + (n + 1) by omega]

theorem columnEntries_one_row (g : Nat → Nat → Option (GenericFunction O L)) :
    ∀ (n lo : Nat), columnEntries g 1 lo n = (List.range' lo n).map fun kk => g kk 0
  | 0, lo => by simp [columnEntries]
  | n + 1, lo => by
      rw [columnEntries_succ, columnEntries_one_row g n (lo + 1)]
      simp [List.range'_succ]

theorem rowTimesCore_quadraticFirstCore (LC : LeafConstructors O L R)
    (ev : GenericFunction O L → R → R) (f : Nat → R → R) (hex : LC.exact ev f) (dim : Nat)
    (coeffs m x : Nat → R) (h2 : 2 ≤ dim) :
    rowTimesCore ev (x 0) [1] (quadraticFirstCore LC dim coeffs m) =
      some ((List.range' 0 (dim - 1 + 2)).map (quadVec dim coeffs x m 1)) := by
  obtain ⟨hc, hl, hq, _⟩ := hex
  obtain ⟨n, rfl⟩ : ∃ n, dim = n + 2 := ⟨dim - 2, by omega⟩
  have hcore : quadraticFirstCore LC (n + 2) coeffs m =
      ⟨1, n + 2 + 1, columnEntries (fun kk _ =>
        if kk = 0 then LC.generic_function_quadratic (coeffs (0 * (n + 2) + 0)) (m 0) 0
        else if kk = n + 1 + 1 then LC.generic_function_constant 1 0
        else LC.generic_function_linear
          (coeffs (0 * (n + 2) + kk) + coeffs (kk * (n + 2) + 0))
          (-(coeffs (0 * (n + 2) + kk) + coeffs (kk * (n + 2) + 0)) * m 0) 0) 1 0
        (n + 2 + 1)⟩ := by
    rw [columnEntries_one_row, ← List.range_eq_range', show n + 2 + 1 = (n + 1) + 2 by omega,
      map_range_split]
    simp only [quadraticFirstCore, if_true, show n + 2 - 1 = n + 1 by omega]
    congr 3
    exact map_range'_congr _ _ 1 (n + 1) (fun k hk1 hk2 => by
      rw [if_neg (by omega), if_neg (by omega)])
  have hv : ([1] : List R) = (List.range' 0 1).map (fun _ => 1) := rfl
  rw [hcore, hv, rowTimesCore_columnEntries ev (x 0) 1 (n + 2 + 1) _
    (fun kk _ =>
      if kk = 0 then coeffs (0 * (n + 2) + 0) * (x 0 - m 0) ^ 2
      else if kk = n + 1 + 1 then 1
      else (coeffs (0 * (n + 2) + kk) + coeffs (kk * (n + 2) + 0)) * x 0 +
        -(coeffs (0 * (n + 2) + kk) + coeffs (kk * (n + 2) + 0)) * m 0)
    (fun kk ll _ _ => by
      by_cases h0 : kk = 0
      · simp only [h0, if_true, hq]
      · by_cases h1 : kk = n + 1 + 1
        · simp only [if_neg h0, if_pos h1, hc]
        · simp only [if_neg h0, if_neg h1, hl])]
  rw [show n + 2 - 1 + 2 = n + 2 + 1 by omega]
  congr 1
  apply map_range'_congr
  intro kk _ hk
  simp only [Finset.sum_range_one, one_mul]
  unfold quadVec
  by_cases h0 : kk = 0
  · subst h0
    simp [quadS]
    ring
  · rw [if_neg h0, if_neg h0]
    by_cases h1 : kk = n + 1 + 1
    · rw [if_pos h1, if_pos (by omega)]
    · rw [if_neg h1, if_neg (by omega), show 1 + kk - 1 = kk by omega]
      simp [quadL]
      ring

theorem rowTimesCore_quadraticLastCore (LC : LeafConstructors O L R)
    (ev : GenericFunction O L → R → R) (f : Nat → R → R) (hex : LC.exact ev f) (dim : Nat)
    (coeffs m x : Nat → R) (h2 : 2 ≤ dim) :
    rowTimesCore ev (x (dim - 1))
        ((List.range' 0 (dim - (dim - 1) + 2)).map (quadVec dim coeffs x m (dim - 1)))
        (quadraticLastCore LC dim coeffs m) =
      some [quadS dim coeffs x m dim] := by
  obtain ⟨hc, hl, hq, _⟩ := hex
  obtain ⟨n, rfl⟩ : ∃ n, dim = n + 2 := ⟨dim - 2, by omega⟩
  have e3 : n + 2 - (n + 1) + 2 = 3 := by omega
  have v0 : quadVec (n + 2) coeffs x m (n + 1) 0 = quadS (n + 2) coeffs x m (n + 1) := by
    simp [quadVec]
  have v1 : quadVec (n + 2) coeffs x m (n + 1) 1 = quadL (n + 2) coeffs x m (n + 1) (n + 1) := by
    unfold quadVec
    rw [if_neg (by omega), if_neg (by omega)]
    simp
  have v2 : quadVec (n + 2) coeffs x m (n + 1) 2 = 1 := by
    unfold quadVec
    rw [if_neg (by omega), if_pos (by omega)]
  unfold quadraticLastCore
  simp only [show n + 2 - 1 = n + 1 by omega, e3]
  have hl3 : List.range' 0 3 = [0, 1, 2] := rfl
  rw [hl3]
  simp only [List.map_cons, List.map_nil, v0, v1, v2]
  have hS : quadS (n + 2) coeffs x m (n + 2) =
      quadS (n + 2) coeffs x m (n + 1)
        + quadL (n + 2) coeffs x m (n + 1) (n + 1) * (x (n + 1) - m (n + 1))
        + coeffs ((n + 1) * (n + 2) + (n + 1)) * (x (n + 1) - m (n + 1)) ^ 2 :=
    quadS_succ (n + 2) coeffs x m (n + 1)
  rw [hS]
  simp [rowTimesCore, rowTimesColumns, Qmarray.column, rowTimesColumn_cons, hc, hl, hq,
    rowTimesColumn]
  ring

/-- C13: for `dim ≥ 2` (sizes representable in `size_t`), every row-major
`dim` by `dim` coefficient array `coeffs` and every offset vector `m`, with
exact leaf constructors, `function_train_quadratic` returns a train whose
chained core product at `x` is the sum over all `i, j < dim` of
`coeffs[i*dim+j] * (x_i - m_i) * (x_j - m_j)`. -/
theorem function_train_quadratic_eval (LC : LeafConstructors O L R)
    (ev : GenericFunction O L → R → R) (f : Nat → R → R) (hex : LC.exact ev f) (dim : Nat)
    (coeffs m x : Nat → R) (h2 : 2 ≤ dim) (hs : (dim + 1) * (dim + 1) < SIZE_MOD) :
    ∃ ft, function_train_quadratic LC dim coeffs m = some ft ∧
      function_train_eval ev ft x =
        some (Finset.sum (Finset.range dim) fun i => Finset.sum (Finset.range dim) fun j =>
          coeffs (i * dim + j) * (x i - m i) * (x j - m j)) := by
  refine ⟨_, function_train_quadratic_eq LC dim coeffs m h2 hs, ?_⟩
  unfold function_train_eval
  simp only
  rw [chainedProduct, rowTimesCore_quadraticFirstCore LC ev f hex dim coeffs m x h2,
    Option.some_bind,
    chainedProduct_quadratic_interior LC ev f hex dim coeffs m x _ (dim - 2) 1 (by omega)
      (by omega),
    show 1 + (dim - 2) = dim - 1 by omega, chainedProduct,
    rowTimesCore_quadraticLastCore LC ev f hex dim coeffs m x h2, Option.some_bind,
    chainedProduct]
  rfl

theorem function_train_quadratic_eval_witness :
    (polyLeaves Int).exact polyEval (fun onDim x => (onDim + 1) * x) ∧ 2 ≤ 3 ∧
    (3 + 1) * (3 + 1) < SIZE_MOD ∧
    ∃ ft, function_train_quadratic (polyLeaves Int) 3 (fun k => (k : Int) + 1)
        (fun i => (i : Int)) = some ft ∧
      function_train_eval polyEval ft (fun i => 10 * (i : Int) + 7) =
        some (Finset.sum (Finset.range 3) fun i => Finset.sum (Finset.range 3) fun j =>
          (((i * 3 + j : Nat) : Int) + 1) * (10 * (i : Int) + 7 - (i : Int))
            * (10 * (j : Int) + 7 - (j : Int))) :=
  ⟨polyLeaves_exact Int, by decide, by decide,
    function_train_quadratic_eval (polyLeaves Int) polyEval _ (polyLeaves_exact Int) 3
      (fun k => (k : Int) + 1) (fun i => (i : Int)) (fun i => 10 * (i : Int) + 7)
      (by decide) (by decide)⟩

end QuadraticEval

/-! ## Matching two piecewise polynomials (`piecewisepoly.c`) -/

section Match

variable {R : Type}

/-- A read or store that has no defined result (NULL pointer, index outside
the block) ends the call as `undefined`. -/
def Outcome.ofOption {P α : Type} : Option α → Outcome P α
  | some v => .ret v
  | none => .undefined

/-- The C routine `piecewise_poly_finer_grid(a, N, nodes)`.  With `N == 2` it
asserts that `a` is a leaf and copies it.  Otherwise the first statement after
the options are filled in is `p->leaf = 0` with `p` still NULL: the node the
branches are to hang from is never allocated, so the refits on
`nodes[ii], nodes[ii+1]` that follow are not reached. -/
def piecewise_poly_finer_grid (copy : OrthPolyExpansion R → OrthPolyExpansion R)
    (a : PiecewisePoly (OrthPolyExpansion R)) (N : Nat) (_nodes : List R) :
    Outcome Unit (PiecewisePoly (OrthPolyExpansion R)) :=
  if N = 2 then
    if a.isLeaf then .ret (piecewise_poly_copy copy a) else .assertion
  else .undefined

/-- The loop `while (nodesx[ind] < lb) ind++` of `piecewise_poly_match`, the
list being the part of the array from index `ind` on; reading past the end of
the array has no defined result. -/
def piecewise_poly_match_skip [LT R] [DecidableRel (fun (a b : R) => a < b)] (lb : R) :
    List R → Nat → Option Nat
  | [], _ => none
  | v :: rest, ind => if v < lb then piecewise_poly_match_skip lb rest (ind + 1) else some ind

/-- The merge loop `while (nodes[cind-1] < ub)` of `piecewise_poly_match`.  The
smaller of `nodesa[inda]`, `nodesb[indb]` is stored at `nodes[cind]`, the index
of the array it came from advances (both when the two differ by less than
`eps`, the constant `DBL_EPSILON`), and `cind` advances.  `room` is the number
of elements of `nodes` from index `cind - 1` on: with no room left the test
reads outside the block. -/
def piecewise_poly_match_merge [LinearOrderedRing R] (eps ub : R) (nodesa nodesb : List R) :
    Nat → List R → Nat → Nat → Nat → Outcome Unit (List R × Nat)
  | 0, _, _, _, _ => .undefined
  | room + 1, nodes, inda, indb, cind =>
      (Outcome.ofOption nodes[cind - 1]?).bind fun prev =>
        if prev < ub then
          (Outcome.ofOption nodesa[inda]?).bind fun va =>
          (Outcome.ofOption nodesb[indb]?).bind fun vb =>
          (Outcome.ofOption
            (if va ≤ vb then storeNode nodes cind va
              else if vb < va then storeNode nodes cind vb
              else some nodes)).bind fun nodes1 =>
          if |vb - va| < eps then
            piecewise_poly_match_merge eps ub nodesa nodesb room nodes1 (inda + 1) (indb + 1)
              (cind + 1)
          else if vb < va then
            piecewise_poly_match_merge eps ub nodesa nodesb room nodes1 inda (indb + 1) (cind + 1)
          else if va < vb then
            piecewise_poly_match_merge eps ub nodesa nodesb room nodes1 (inda + 1) indb (cind + 1)
          else
            piecewise_poly_match_merge eps ub nodesa nodesb room nodes1 inda indb (cind + 1)
        else .ret (nodes, cind)

/-- The C routine `piecewise_poly_match(ain, &aout, bin, &bout)`; the result is
the pair `(*aout, *bout)`.  `lb` is the smaller of the two first nodes and `ub`
the larger of the two last nodes, as the code computes them. -/
def piecewise_poly_match [LinearOrderedRing R]
    (copy : OrthPolyExpansion R → OrthPolyExpansion R) (eps : R)
    (ain bin : PiecewisePoly (OrthPolyExpansion R)) :
    Outcome Unit (PiecewisePoly (OrthPolyExpansion R) × PiecewisePoly (OrthPolyExpansion R)) :=
  (Outcome.ofOption (piecewise_poly_boundaries ain 0 none none)).bind fun ra =>
  (Outcome.ofOption (piecewise_poly_boundaries bin 0 none none)).bind fun rb =>
  (Outcome.ofOption ra.2[0]?).bind fun a0 =>
  (Outcome.ofOption rb.2[0]?).bind fun b0 =>
  (Outcome.ofOption ra.2[(ra.1 + SIZE_MOD - 1) % SIZE_MOD]?).bind fun aN =>
  (Outcome.ofOption rb.2[(rb.1 + SIZE_MOD - 1) % SIZE_MOD]?).bind fun bN =>
  let lb := if a0 < b0 then a0 else b0
  let ub := if aN > bN then aN else bN
  (Outcome.ofOption
    (storeNode (List.replicate ((ra.1 + rb.1) % SIZE_MOD) (0 : R)) 0 lb)).bind fun nodes =>
  (Outcome.ofOption (piecewise_poly_match_skip lb (ra.2.drop 1) 1)).bind fun inda =>
  (Outcome.ofOption (piecewise_poly_match_skip lb (rb.2.drop 1) 1)).bind fun indb =>
  (piecewise_poly_match_merge eps ub ra.2 rb.2 nodes.length nodes inda indb 1).bind fun m =>
  (piecewise_poly_finer_grid copy ain m.2 (m.1.take m.2)).bind fun aout =>
  (piecewise_poly_finer_grid copy bin m.2 (m.1.take m.2)).bind fun bout =>
  .ret (aout, bout)

/-- A leaf on `[lo, hi]` with the one coefficient `c`; the bounds are in units
of 1/100. -/
def constantLeaf (lo hi c : Int) : PiecewisePoly (OrthPolyExpansion Int) :=
  leaf ⟨0, 1, lo, hi, [c]⟩

/-- A tree as `piecewise_poly_approx1` builds it with the default five
regions on `[-2, 0.7]`: five leaves on the equispaced nodes `-2, -1.46,
-0.92, -0.38, 0.16, 0.7`, written in units of 1/100. -/
def fiveRegions (c : Int) : PiecewisePoly (OrthPolyExpansion Int) :=
  node [constantLeaf (-200) (-146) c, constantLeaf (-146) (-92) c,
    constantLeaf (-92) (-38) c, constantLeaf (-38) 16 c, constantLeaf 16 70 c]

/-- The call ends without a result: in undefined behaviour or in a failed
assertion. -/
def Outcome.fails {α : Type} (o : Outcome Unit α) : Prop :=
  o = .undefined ∨ o = .assertion

end Match

section MatchProofs

variable {R : Type}

theorem Outcome.fails_bind {α β : Type} (x : Outcome Unit α) (k : α → Outcome Unit β)
    (h : x.fails) : (x.bind k).fails := by
  rcases h with h | h <;> subst h
  · exact Or.inl rfl
  · exact Or.inr rfl

theorem Outcome.ofOption_bind_fails {α β : Type} (x : Option α) (k : α → Outcome Unit β)
    (h : ∀ v, (k v).fails) : ((Outcome.ofOption x).bind k).fails := by
  cases x with
  | none => exact Or.inl rfl
  | some v => exact h v

theorem Outcome.ofOption_bind_bind_fails {α β γ : Type} (x : Option α)
    (f : α → Outcome Unit β) (k : β → Outcome Unit γ) (h : ∀ v, ((f v).bind k).fails) :
    (((Outcome.ofOption x).bind f).bind k).fails := by
  cases x with
  | none => exact Or.inl rfl
  | some v => exact h v

theorem piecewise_poly_match_merge_bind_fails [LinearOrderedRing R] {β : Type} (eps ub : R)
    (nodesa nodesb : List R) (k : List R × Nat → Outcome Unit β) (h : ∀ v, (k v).fails) :
    ∀ (room : Nat) (nodes : List R) (inda indb cind : Nat),
    ((piecewise_poly_match_merge eps ub nodesa nodesb room nodes inda indb cind).bind k).fails
  | 0, _, _, _, _ => Or.inl rfl
  | room + 1, nodes, inda, indb, cind => by
      have ih := piecewise_poly_match_merge_bind_fails eps ub nodesa nodesb k h room
      unfold piecewise_poly_match_merge
      refine Outcome.ofOption_bind_bind_fails _ _ _ (fun prev => ?_)
      by_cases hp : prev < ub
      · rw [if_pos hp]
        refine Outcome.ofOption_bind_bind_fails _ _ _ (fun va => ?_)
        refine Outcome.ofOption_bind_bind_fails _ _ _ (fun vb => ?_)
        refine Outcome.ofOption_bind_bind_fails _ _ _ (fun nodes1 => ?_)
        split_ifs <;> exact ih _ _ _ _
      · rw [if_neg hp]
        exact h _

/-- With an interior node as either argument `piecewise_poly_match` returns
nothing: the call of `piecewise_poly_finer_grid` on that argument fails its
assertion when two nodes were merged and writes through NULL otherwise. -/
theorem piecewise_poly_match_interior [LinearOrderedRing R]
    (copy : OrthPolyExpansion R → OrthPolyExpansion R) (eps : R)
    (bs : List (PiecewisePoly (OrthPolyExpansion R)))
    (other : PiecewisePoly (OrthPolyExpansion R)) :
    (piecewise_poly_match copy eps (node bs) other).fails ∧
    (piecewise_poly_match copy eps other (node bs)).fails := by
  have hnode : ∀ N (nodes : List R), (piecewise_poly_finer_grid copy (node bs) N nodes).fails := by
    intro N nodes
    unfold piecewise_poly_finer_grid
    by_cases hN : N = 2
    · rw [if_pos hN]
      exact Or.inr rfl
    · rw [if_neg hN]
      exact Or.inl rfl
  constructor
  · unfold piecewise_poly_match
    refine Outcome.ofOption_bind_fails _ _ (fun ra => ?_)
    refine Outcome.ofOption_bind_fails _ _ (fun rb => ?_)
    refine Outcome.ofOption_bind_fails _ _ (fun a0 => ?_)
    refine Outcome.ofOption_bind_fails _ _ (fun b0 => ?_)
    refine Outcome.ofOption_bind_fails _ _ (fun aN => ?_)
    refine Outcome.ofOption_bind_fails _ _ (fun bN => ?_)
    refine Outcome.ofOption_bind_fails _ _ (fun nodes => ?_)
    refine Outcome.ofOption_bind_fails _ _ (fun inda => ?_)
    refine Outcome.ofOption_bind_fails _ _ (fun indb => ?_)
    refine piecewise_poly_match_merge_bind_fails _ _ _ _ _ (fun m => ?_) _ _ _ _ _
    exact Outcome.fails_bind _ _ (hnode _ _)
  · unfold piecewise_poly_match
    refine Outcome.ofOption_bind_fails _ _ (fun ra => ?_)
    refine Outcome.ofOption_bind_fails _ _ (fun rb => ?_)
    refine Outcome.ofOption_bind_fails _ _ (fun a0 => ?_)
    refine Outcome.ofOption_bind_fails _ _ (fun b0 => ?_)
    refine Outcome.ofOption_bind_fails _ _ (fun aN => ?_)
    refine Outcome.ofOption_bind_fails _ _ (fun bN => ?_)
    refine Outcome.ofOption_bind_fails _ _ (fun nodes => ?_)
    refine Outcome.ofOption_bind_fails _ _ (fun inda => ?_)
    refine Outcome.ofOption_bind_fails _ _ (fun indb => ?_)
    refine piecewise_poly_match_merge_bind_fails _ _ _ _ _ (fun m => ?_) _ _ _ _ _
    cases hfa : piecewise_poly_finer_grid copy other m.2 (List.take m.2 m.1) with
    | ret aout =>
      show ((piecewise_poly_finer_grid copy (node bs) m.2 (List.take m.2 m.1)).bind
        fun bout => Outcome.ret (aout, bout)).fails
      exact Outcome.fails_bind _ _ (hnode _ _)
    | exit st =>
      unfold piecewise_poly_finer_grid at hfa
      split_ifs at hfa
    | assertion => exact Or.inr rfl
    | handed r a =>
      unfold piecewise_poly_finer_grid at hfa
      split_ifs at hfa
    | undefined => exact Or.inl rfl

end MatchProofs


section MatchClaims
/-- C17: `piecewise_poly_match` does not produce matched trees for trees with
more than one region.  On the two trees of five regions each on `[-2, 0.7]`
the six merged nodes are handed to `piecewise_poly_finer_grid`, which writes
`p->leaf` through the NULL pointer `p`; and with an interior node as either
argument the call never returns, whatever the trees. -/
theorem piecewise_poly_match_five_regions
    (bs : List (PiecewisePoly (OrthPolyExpansion Int)))
    (other : PiecewisePoly (OrthPolyExpansion Int)) (eps : Int) :
    piecewise_poly_boundaries (fiveRegions 1) 0 none none
      = some (6, [-200, -146, -92, -38, 16, 70]) ∧
    piecewise_poly_boundaries (fiveRegions 2) 0 none none
      = some (6, [-200, -146, -92, -38, 16, 70]) ∧
    piecewise_poly_match_merge 1 70 [-200, -146, -92, -38, 16, 70]
        [-200, -146, -92, -38, 16, 70] 12 (-200 :: List.replicate 11 0) 1 1 1
      = .ret ([-200, -146, -92, -38, 16, 70, 0, 0, 0, 0, 0, 0], 6) ∧
    piecewise_poly_match id 1 (fiveRegions 1) (fiveRegions 2) = .undefined ∧
    (piecewise_poly_match id eps (node bs) other).fails ∧
    (piecewise_poly_match id eps other (node bs)).fails :=
  ⟨by decide, by decide, rfl, rfl,
    (piecewise_poly_match_interior id eps bs other).1,
    (piecewise_poly_match_interior id eps bs other).2⟩
end MatchClaims

/-! ## Adaptive piecewise approximation (`piecewisepoly.c`) -/

/-- The C type `struct PwPolyAdaptOpts`, the fields the two approximation
routines read; `pts` is `none` for a NULL pointer. -/
structure PwPolyAdaptOpts (R : Type) where
  ptype : Int
  maxorder : Nat
  minsize : R
  coeff_check : Nat
  epsilon : R
  nregions : Nat
  pts : Option (List R)

section Adapt

variable {R : Type}

/-- Modelled from the spec: `linspace(lb, ub, N)`, the `N` equispaced points
from `lb` to `ub`. -/
def linspace [Field R] (lb ub : R) (N : Nat) : List R :=
  (List.range N).map fun (i : Nat) => lb + (i : R) * ((ub - lb) / ((N : R) - 1))

/-- The loop of `piecewise_poly_approx1` over the branches `ii, ii+1, ..`:
branch `ii` is a leaf holding the backend fit on `[pts[ii], pts[ii+1]]`, where
`fit ptype N clb cub` stands for `orth_poly_expansion_init` followed by
`orth_poly_expansion_approx` and `orth_poly_expansion_round`. -/
def piecewise_poly_approx1_loop (fit : Int → Nat → R → R → OrthPolyExpansion R)
    (ptype : Int) (N : Nat) (pts : List R) :
    Nat → Nat → Outcome Unit (List (PiecewisePoly (OrthPolyExpansion R)))
  | _, 0 => .ret []
  | ii, n + 1 =>
      (Outcome.ofOption pts[ii]?).bind fun clb =>
      (Outcome.ofOption pts[ii + 1]?).bind fun cub =>
      (piecewise_poly_approx1_loop fit ptype N pts (ii + 1) n).bind fun rest =>
      .ret (leaf (fit ptype N clb cub) :: rest)

/-- The body of `piecewise_poly_approx1` once the options are resolved: one
leaf on `[lb, ub]` when `nregions == 1`, otherwise an interior node with
`nregions` leaves on the points `aopts->pts`, or on
`linspace(lb, ub, nregions+1)` when `aopts->pts` is NULL. -/
def piecewise_poly_approx1_body [Field R] (fit : Int → Nat → R → R → OrthPolyExpansion R)
    (lb ub : R) (ptype : Int) (maxorder nregions : Nat) (pts : Option (List R)) :
    Outcome Unit (PiecewisePoly (OrthPolyExpansion R)) :=
  if nregions = 1 then .ret (leaf (fit ptype ((maxorder + 1) % SIZE_MOD) lb ub))
  else
    (piecewise_poly_approx1_loop fit ptype ((maxorder + 1) % SIZE_MOD)
      (match pts with
        | none => linspace lb ub ((nregions + 1) % SIZE_MOD)
        | some p => p) 0 nregions).bind fun bs => .ret (node bs)

/-- The C routine `piecewise_poly_approx1`; with `aoptsin == NULL` the options
are `LEGENDRE`, `maxorder = 7`, `nregions = 5` and no points. -/
def piecewise_poly_approx1 [Field R] (fit : Int → Nat → R → R → OrthPolyExpansion R)
    (LEGENDRE : Int) (lb ub : R) (aoptsin : Option (PwPolyAdaptOpts R)) :
    Outcome Unit (PiecewisePoly (OrthPolyExpansion R)) :=
  match aoptsin with
  | some aopts =>
      piecewise_poly_approx1_body fit lb ub aopts.ptype aopts.maxorder aopts.nregions aopts.pts
  | none => piecewise_poly_approx1_body fit lb ub LEGENDRE 7 5 none

/-- The flag `refine` that `piecewise_poly_approx1_adapt` computes for the
branch holding `o`: one of the last `ncheck` coefficients exceeds in absolute
value `epsilon * sum`, with `sum = 1.0`, and the branch is not narrower than
`minsize`.  The summation loop reads `coeff[0 .. npolys-1]`. -/
def piecewise_poly_approx1_adapt_refine [LinearOrderedField R] (aopts : PwPolyAdaptOpts R)
    (o : OrthPolyExpansion R) : Outcome Unit Bool :=
  if o.coeff.length < o.num_poly then .undefined
  else
    .ret (if o.upper_bound - o.lower_bound < aopts.minsize then false
      else (List.range (if aopts.coeff_check < o.num_poly then aopts.coeff_check
          else o.num_poly)).any fun jj =>
        decide (|o.coeff.getD (o.num_poly - 1 - jj) 0| > aopts.epsilon * 1))

/-- Sequencing for a computation that may run out of recursion budget
(`none`). -/
def budgetBind {α β : Type} (x : Option (Outcome Unit α))
    (k : α → Option (Outcome Unit β)) : Option (Outcome Unit β) :=
  match x with
  | none => none
  | some (.ret v) => k v
  | some (.exit status) => some (.exit status)
  | some .assertion => some .assertion
  | some (.handed routine arg) => some (.handed routine arg)
  | some .undefined => some .undefined

/-- The loop of `piecewise_poly_approx1_adapt` over the branches: a branch
whose flag is set is replaced by the result of the recursive call `adapt` on
its bounds, after `assert(aopts->pts == NULL)`. -/
def piecewise_poly_approx1_adapt_loop [LinearOrderedField R] (aopts : PwPolyAdaptOpts R)
    (adapt : R → R → Option (Outcome Unit (PiecewisePoly (OrthPolyExpansion R)))) :
    List (PiecewisePoly (OrthPolyExpansion R)) →
      Option (Outcome Unit (List (PiecewisePoly (OrthPolyExpansion R))))
  | [] => some (.ret [])
  | node _ :: _ => some .undefined
  | leaf o :: rest =>
      budgetBind (some (piecewise_poly_approx1_adapt_refine aopts o)) fun refine =>
      budgetBind
        (if refine then
          if aopts.pts.isSome then some .assertion
          else adapt o.lower_bound o.upper_bound
        else some (.ret (leaf o))) fun b =>
      budgetBind (piecewise_poly_approx1_adapt_loop aopts adapt rest) fun bs =>
      some (.ret (b :: bs))

/-- The C routine `piecewise_poly_approx1_adapt` with resolved options
`aopts`, which it passes on to its recursive calls.  The first argument bounds
the depth of the recursion: `none` is returned when the bound is used up. -/
def piecewise_poly_approx1_adapt_body [LinearOrderedField R]
    (fit : Int → Nat → R → R → OrthPolyExpansion R) (LEGENDRE : Int)
    (aopts : PwPolyAdaptOpts R) :
    Nat → R → R → Option (Outcome Unit (PiecewisePoly (OrthPolyExpansion R)))
  | 0, _, _ => none
  | depth + 1, lb, ub =>
      budgetBind (some (piecewise_poly_approx1 fit LEGENDRE lb ub (some aopts))) fun poly =>
      match poly with
      | leaf o => some (.ret (leaf o))
      | node bs =>
          budgetBind
            (piecewise_poly_approx1_adapt_loop aopts
              (piecewise_poly_approx1_adapt_body fit LEGENDRE aopts depth) bs)
            fun bs1 => some (.ret (node bs1))

/-- The C routine `piecewise_poly_approx1_adapt`; with `aoptsin == NULL` the
options are `LEGENDRE`, `maxorder = 7`, `minsize = 1e-5`, `coeff_check = 2`,
`epsilon = 1e-8`, `nregions = 5` and no points. -/
def piecewise_poly_approx1_adapt [LinearOrderedField R]
    (fit : Int → Nat → R → R → OrthPolyExpansion R) (LEGENDRE : Int) (depth : Nat) (lb ub : R)
    (aoptsin : Option (PwPolyAdaptOpts R)) :
    Option (Outcome Unit (PiecewisePoly (OrthPolyExpansion R))) :=
  match aoptsin with
  | some aopts => piecewise_poly_approx1_adapt_body fit LEGENDRE aopts depth lb ub
  | none =>
      piecewise_poly_approx1_adapt_body fit LEGENDRE
        ⟨LEGENDRE, 7, 1 / 100000, 2, 1 / 100000000, 5, none⟩ depth lb ub

end Adapt

section AdaptProofs

variable {R : Type} [LinearOrderedField R]

set_option linter.unusedTactic false
set_option linter.unreachableTactic false

/-- The backend fit on `[lo, hi]` has these bounds and as many coefficients as
its `num_poly` says. -/
def FitOnInterval (fit : Int → Nat → R → R → OrthPolyExpansion R) : Prop :=
  ∀ p N lo hi, (fit p N lo hi).lower_bound = lo ∧ (fit p N lo hi).upper_bound = hi ∧
    (fit p N lo hi).num_poly ≤ (fit p N lo hi).coeff.length

theorem linspace_getElem? (lb ub : R) (N i : Nat) (h : i < N) :
    (linspace lb ub N)[i]? = some (lb + (i : R) * ((ub - lb) / ((N : R) - 1))) := by
  unfold linspace
  rw [List.getElem?_map, List.getElem?_range h]
  rfl

theorem piecewise_poly_approx1_loop_linspace (fit : Int → Nat → R → R → OrthPolyExpansion R)
    (ptype : Int) (N : Nat) (lb ub : R) (M : Nat) :
    ∀ (n ii : Nat), ii + n + 1 ≤ M →
    piecewise_poly_approx1_loop fit ptype N (linspace lb ub M) ii n =
      .ret ((List.range' ii n).map fun (i : Nat) =>
        leaf (fit ptype N (lb + (i : R) * ((ub - lb) / ((M : R) - 1)))
          (lb + ((i + 1 : Nat) : R) * ((ub - lb) / ((M : R) - 1)))))
  | 0, ii, _ => by simp [piecewise_poly_approx1_loop]
  | n + 1, ii, h => by
      rw [piecewise_poly_approx1_loop, linspace_getElem? lb ub M ii (by omega),
        linspace_getElem? lb ub M (ii + 1) (by omega),
        piecewise_poly_approx1_loop_linspace fit ptype N lb ub M n (ii + 1) (by omega)]
      simp [Outcome.ofOption, Outcome.bind, List.range'_succ]

/-- The children `piecewise_poly_approx1` makes for `nregions ≥ 2` without
caller-supplied points: leaves on consecutive intervals of width
`(ub - lb) / nregions`. -/
theorem piecewise_poly_approx1_children (fit : Int → Nat → R → R → OrthPolyExpansion R)
    (hfit : FitOnInterval fit) (LEGENDRE : Int) (aopts : PwPolyAdaptOpts R) (lb ub : R)
    (hn : 2 ≤ aopts.nregions) (hs : aopts.nregions + 1 < SIZE_MOD) (hpts : aopts.pts = none) :
    ∃ bs, piecewise_poly_approx1 fit LEGENDRE lb ub (some aopts) = .ret (node bs) ∧
      ∀ b, b ∈ bs → ∃ o, b = leaf o ∧ o.num_poly ≤ o.coeff.length ∧
        o.upper_bound - o.lower_bound = (ub - lb) / (aopts.nregions : R) := by
  refine ⟨(List.range' 0 aopts.nregions).map fun (i : Nat) =>
      leaf (fit aopts.ptype ((aopts.maxorder + 1) % SIZE_MOD)
        (lb + (i : R) * ((ub - lb) / (((aopts.nregions + 1 : Nat) : R) - 1)))
        (lb + ((i + 1 : Nat) : R) * ((ub - lb) / (((aopts.nregions + 1 : Nat) : R) - 1)))),
    ?_, ?_⟩
  · unfold piecewise_poly_approx1 piecewise_poly_approx1_body
    simp only
    rw [if_neg (by omega), hpts]
    simp only
    rw [Nat.mod_eq_of_lt hs,
      piecewise_poly_approx1_loop_linspace fit aopts.ptype _ lb ub (aopts.nregions + 1)
        aopts.nregions 0 (by omega)]
    rfl
  · intro b hb
    rw [List.mem_map] at hb
    obtain ⟨i, _, rfl⟩ := hb
    refine ⟨_, rfl, (hfit _ _ _ _).2.2, ?_⟩
    rw [(hfit _ _ _ _).1, (hfit _ _ _ _).2.1]
    push_cast
    ring

theorem piecewise_poly_approx1_adapt_refine_ret (aopts : PwPolyAdaptOpts R)
    (o : OrthPolyExpansion R) (h : o.num_poly ≤ o.coeff.length) :
    ∃ r, piecewise_poly_approx1_adapt_refine aopts o = .ret r ∧
      (r = true → ¬ (o.upper_bound - o.lower_bound < aopts.minsize)) := by
  unfold piecewise_poly_approx1_adapt_refine
  rw [if_neg (by omega)]
  refine ⟨_, rfl, ?_⟩
  intro hr hlt
  rw [if_pos hlt] at hr
  exact Bool.false_ne_true hr

/-- The branch loop returns when every branch is a readable leaf and the
recursive call returns on every branch that is not narrower than `minsize`. -/
theorem piecewise_poly_approx1_adapt_loop_ret (aopts : PwPolyAdaptOpts R)
    (hpts : aopts.pts = none)
    (adapt : R → R → Option (Outcome Unit (PiecewisePoly (OrthPolyExpansion R)))) :
    ∀ (bs : List (PiecewisePoly (OrthPolyExpansion R))),
    (∀ b, b ∈ bs → ∃ o, b = leaf o ∧ o.num_poly ≤ o.coeff.length ∧
      (¬ (o.upper_bound - o.lower_bound < aopts.minsize) →
        ∃ t, adapt o.lower_bound o.upper_bound = some (.ret t))) →
    ∃ bs1, piecewise_poly_approx1_adapt_loop aopts adapt bs = some (.ret bs1)
  | [], _ => ⟨[], rfl⟩
  | b :: rest, h => by
      obtain ⟨o, rfl, hlen, hrec⟩ := h b (List.mem_cons_self _ _)
      obtain ⟨bs1, hbs1⟩ := piecewise_poly_approx1_adapt_loop_ret aopts hpts adapt rest
        (fun c hc => h c (List.mem_cons_of_mem _ hc))
      obtain ⟨r, hr, hwide⟩ := piecewise_poly_approx1_adapt_refine_ret aopts o hlen
      unfold piecewise_poly_approx1_adapt_loop
      rw [hr, hbs1, hpts]
      cases r with
      | false => exact ⟨_, rfl⟩
      | true =>
        obtain ⟨t, ht⟩ := hrec (hwide rfl)
        simp only [budgetBind, Option.isSome_none, Bool.false_eq_true, if_false, if_true, ht]
        exact ⟨_, rfl⟩

theorem piecewise_poly_approx1_adapt_body_ret (fit : Int → Nat → R → R → OrthPolyExpansion R)
    (hfit : FitOnInterval fit) (LEGENDRE : Int) (aopts : PwPolyAdaptOpts R)
    (hmin : 0 < aopts.minsize) (hn : 2 ≤ aopts.nregions) (hs : aopts.nregions + 1 < SIZE_MOD)
    (hpts : aopts.pts = none) :
    ∀ (k : Nat) (lb ub : R), ub - lb < aopts.minsize * (aopts.nregions : R) ^ k →
    ∀ depth, k < depth →
      ∃ t, piecewise_poly_approx1_adapt_body fit LEGENDRE aopts depth lb ub = some (.ret t) := by
  have hn0 : (0 : R) < (aopts.nregions : R) := by
    have : (0 : Nat) < aopts.nregions := by omega
    exact_mod_cast this
  have hn1 : (1 : R) ≤ (aopts.nregions : R) := by
    have : (1 : Nat) ≤ aopts.nregions := by omega
    exact_mod_cast this
  intro k
  induction k with
  | zero =>
    intro lb ub hw depth hd
    obtain ⟨f, rfl⟩ : ∃ f, depth = f + 1 := ⟨depth - 1, by omega⟩
    obtain ⟨bs, hbs, hch⟩ := piecewise_poly_approx1_children fit hfit LEGENDRE aopts lb ub hn hs hpts
    obtain ⟨bs1, hbs1⟩ := piecewise_poly_approx1_adapt_loop_ret aopts hpts
      (piecewise_poly_approx1_adapt_body fit LEGENDRE aopts f) bs (by
        intro b hb
        obtain ⟨o, rfl, hlen, hwidth⟩ := hch b hb
        refine ⟨o, rfl, hlen, ?_⟩
        intro hnot
        exfalso
        apply hnot
        rw [hwidth, div_lt_iff₀ hn0]
        rw [pow_zero, mul_one] at hw
        calc ub - lb < aopts.minsize := hw
          _ = aopts.minsize * 1 := (mul_one _).symm
          _ ≤ aopts.minsize * (aopts.nregions : R) :=
            mul_le_mul_of_nonneg_left hn1 (le_of_lt hmin))
    unfold piecewise_poly_approx1_adapt_body
    rw [hbs]
    simp only [budgetBind, hbs1]
    exact ⟨_, rfl⟩
  | succ k ih =>
    intro lb ub hw depth hd
    obtain ⟨f, rfl⟩ : ∃ f, depth = f + 1 := ⟨depth - 1, by omega⟩
    obtain ⟨bs, hbs, hch⟩ := piecewise_poly_approx1_children fit hfit LEGENDRE aopts lb ub hn hs hpts
    obtain ⟨bs1, hbs1⟩ := piecewise_poly_approx1_adapt_loop_ret aopts hpts
      (piecewise_poly_approx1_adapt_body fit LEGENDRE aopts f) bs (by
        intro b hb
        obtain ⟨o, rfl, hlen, hwidth⟩ := hch b hb
        refine ⟨o, rfl, hlen, ?_⟩
        intro _
        apply ih o.lower_bound o.upper_bound _ f (by omega)
        rw [hwidth, div_lt_iff₀ hn0, mul_assoc, ← pow_succ]
        exact hw)
    unfold piecewise_poly_approx1_adapt_body
    rw [hbs]
    simp only [budgetBind, hbs1]
    exact ⟨_, rfl⟩

/-- C18 (amended): in exact arithmetic (scalars in an ordered field, the
points of `linspace` exact), for `minsize > 0`, `nregions ≥ 2`, `lb < ub`, no
caller-supplied break points and any backend fit (any target function),
`piecewise_poly_approx1_adapt` returns a tree whenever more than
`⌈(ub - lb) / minsize⌉` nested calls are allowed, a bound that depends on
`(ub - lb) / minsize` alone; and a branch is refined, that is a recursive call
is made on it, only if it is one of the children of width
`(ub - lb) / nregions` and that width is not below `minsize`. -/
theorem piecewise_poly_approx1_adapt_terminates [FloorSemiring R]
    (fit : Int → Nat → R → R → OrthPolyExpansion R) (hfit : FitOnInterval fit)
    (LEGENDRE : Int) (aopts : PwPolyAdaptOpts R) (lb ub : R)
    (hmin : 0 < aopts.minsize) (hn : 2 ≤ aopts.nregions) (hs : aopts.nregions + 1 < SIZE_MOD)
    (hlt : lb < ub) (hpts : aopts.pts = none) :
    0 < (ub - lb) / aopts.minsize ∧
    (∀ depth, ⌈(ub - lb) / aopts.minsize⌉₊ < depth →
      ∃ t, piecewise_poly_approx1_adapt fit LEGENDRE depth lb ub (some aopts) = some (.ret t)) ∧
    (∃ bs, piecewise_poly_approx1 fit LEGENDRE lb ub (some aopts) = .ret (node bs) ∧
      ∀ b, b ∈ bs → ∃ o, b = leaf o ∧
        o.upper_bound - o.lower_bound = (ub - lb) / (aopts.nregions : R) ∧
        (piecewise_poly_approx1_adapt_refine aopts o = .ret true →
          aopts.minsize ≤ o.upper_bound - o.lower_bound)) := by
  refine ⟨div_pos (sub_pos.mpr hlt) hmin, ?_, ?_⟩
  · intro depth hd
    have hw : ub - lb < aopts.minsize * (aopts.nregions : R) ^ ⌈(ub - lb) / aopts.minsize⌉₊ := by
      have h1 : (ub - lb) / aopts.minsize ≤ (⌈(ub - lb) / aopts.minsize⌉₊ : R) := Nat.le_ceil _
      have h2 : ((⌈(ub - lb) / aopts.minsize⌉₊ : Nat) : R)
          < (aopts.nregions : R) ^ ⌈(ub - lb) / aopts.minsize⌉₊ := by
        have h3 : ⌈(ub - lb) / aopts.minsize⌉₊ < aopts.nregions ^ ⌈(ub - lb) / aopts.minsize⌉₊ :=
          Nat.lt_pow_self (by omega) _
        exact_mod_cast h3
      have h4 := lt_of_le_of_lt h1 h2
      rw [div_lt_iff₀ hmin] at h4
      rw [mul_comm]
      exact h4
    exact piecewise_poly_approx1_adapt_body_ret fit hfit LEGENDRE aopts hmin hn hs hpts _ lb ub hw
      depth hd
  · obtain ⟨bs, hbs, hch⟩ := piecewise_poly_approx1_children fit hfit LEGENDRE aopts lb ub hn hs hpts
    refine ⟨bs, hbs, ?_⟩
    intro b hb
    obtain ⟨o, rfl, hlen, hwidth⟩ := hch b hb
    refine ⟨o, rfl, hwidth, ?_⟩
    intro hr
    obtain ⟨r, hr2, hwide⟩ := piecewise_poly_approx1_adapt_refine_ret aopts o hlen
    rw [hr] at hr2
    have : r = true := by
      cases hr2
      rfl
    exact not_lt.mp (hwide this)

/-- A backend fit whose two coefficients are always 1, so that every branch
that is wide enough is refined. -/
def steepFit (p : Int) (_N : Nat) (lo hi : ℚ) : OrthPolyExpansion ℚ :=
  ⟨p, 2, lo, hi, [1, 1]⟩

/-- Options with `minsize = 1/4` and two regions per split. -/
def quarterOpts : PwPolyAdaptOpts ℚ :=
  ⟨0, 7, 1 / 4, 2, 1 / 100, 2, none⟩

theorem piecewise_poly_approx1_adapt_terminates_witness :
    FitOnInterval steepFit ∧ 0 < quarterOpts.minsize ∧ 2 ≤ quarterOpts.nregions ∧
    quarterOpts.nregions + 1 < SIZE_MOD ∧ (0 : ℚ) < 1 ∧ quarterOpts.pts = none ∧
    0 < ((1 : ℚ) - 0) / quarterOpts.minsize ∧
    (∀ depth, ⌈((1 : ℚ) - 0) / quarterOpts.minsize⌉₊ < depth →
      ∃ t, piecewise_poly_approx1_adapt steepFit 0 depth 0 1 (some quarterOpts)
        = some (.ret t)) ∧
    (∃ bs, piecewise_poly_approx1 steepFit 0 0 1 (some quarterOpts) = .ret (node bs) ∧
      ∀ b, b ∈ bs → ∃ o, b = leaf o ∧
        o.upper_bound - o.lower_bound = ((1 : ℚ) - 0) / (quarterOpts.nregions : ℚ) ∧
        (piecewise_poly_approx1_adapt_refine quarterOpts o = .ret true →
          quarterOpts.minsize ≤ o.upper_bound - o.lower_bound)) :=
  ⟨fun _ _ _ _ => ⟨rfl, rfl, Nat.le_refl _⟩, by norm_num [quarterOpts], by decide, by decide,
    by norm_num, rfl,
    piecewise_poly_approx1_adapt_terminates steepFit (fun _ _ _ _ => ⟨rfl, rfl, Nat.le_refl _⟩)
      0 quarterOpts 0 1 (by norm_num [quarterOpts]) (by decide) (by decide) (by norm_num) rfl⟩

end AdaptProofs

/-! ## Columns and rows of a qmarray (`elements.c`) -/

/-- The C type `struct Quasimatrix`: `n` pointers to generic functions. -/
structure Quasimatrix (O L : Type) where
  n : Nat
  funcs : List (Option (GenericFunction O L))

section Extract

variable {O L R : Type}

/-- The C routine `quasimatrix_alloc(n)`: `n` NULL entries. -/
def quasimatrix_alloc (n : Nat) : Quasimatrix O L :=
  ⟨n, List.replicate n none⟩

/-- The call `generic_function_copy(p)` on a pointer: the routine reads
`p->fc` first, so a NULL pointer has no defined result. -/
def generic_function_copy_ptr (B : Backends O L R) :
    Option (GenericFunction O L) → Outcome (Payload O L) (Option (GenericFunction O L))
  | none => .undefined
  | some gf => generic_function_copy B gf

/-- The loop `for (ii = lo; ii < lo + n; ii++) arr[idx(ii)] = val(ii)`; a
store outside the block has no defined result. -/
def storeLoop {P α : Type} (val : Nat → Outcome P α) (idx : Nat → Nat) :
    Nat → Nat → List α → Outcome P (List α)
  | _, 0, arr => .ret arr
  | ii, n + 1, arr =>
      (val ii).bind fun v =>
      (Outcome.ofOption (storeNode arr (idx ii) v)).bind fun arr1 =>
      storeLoop val idx (ii + 1) n arr1

/-- The C routine `qmarray_extract_column(qma, col)`. -/
def qmarray_extract_column (B : Backends O L R) (qma : Qmarray O L) (col : Nat) :
    Outcome (Payload O L) (Quasimatrix O L) :=
  (storeLoop
    (fun ii =>
      (Outcome.ofOption qma.funcs[(col * qma.nrows + ii) % SIZE_MOD]?).bind
        (generic_function_copy_ptr B))
    (fun ii => ii) 0 qma.nrows (quasimatrix_alloc (O := O) (L := L) qma.nrows).funcs).bind
    fun funcs => .ret ⟨qma.nrows, funcs⟩

/-- The C routine `qmarray_extract_row(qma, row)`. -/
def qmarray_extract_row (B : Backends O L R) (qma : Qmarray O L) (row : Nat) :
    Outcome (Payload O L) (Quasimatrix O L) :=
  (storeLoop
    (fun ii =>
      (Outcome.ofOption qma.funcs[(ii * qma.nrows + row) % SIZE_MOD]?).bind
        (generic_function_copy_ptr B))
    (fun ii => ii) 0 qma.ncols (quasimatrix_alloc (O := O) (L := L) qma.ncols).funcs).bind
    fun funcs => .ret ⟨qma.ncols, funcs⟩

end Extract

section ExtractProofs

variable {O L R : Type}

set_option linter.unusedTactic false
set_option linter.unreachableTactic false

theorem Outcome.ret_bind {P α β : Type} (v : α) (k : α → Outcome P β) :
    (Outcome.ret v).bind k = k v := rfl

theorem storeLoop_eq {P α : Type} (val : Nat → Outcome P α) (idx : Nat → Nat) (base : Nat)
    (v : Nat → α) (hidx : ∀ ii, idx ii = base + ii) :
    ∀ (n lo : Nat) (arr : List α), (∀ ii, lo ≤ ii → ii < lo + n → val ii = .ret (v ii)) →
    base + lo + n ≤ arr.length →
    storeLoop val idx lo n arr = .ret (splice arr (base + lo) ((List.range' lo n).map v))
  | 0, lo, arr, _, _ => by simp [storeLoop, splice_nil]
  | n + 1, lo, arr, hv, hlen => by
      rw [storeLoop, hv lo (Nat.le_refl _) (by omega), hidx, Outcome.ret_bind, storeNode_eq,
        if_pos (by omega)]
      simp only [Outcome.ofOption, Outcome.ret_bind]
      rw [storeLoop_eq val idx base v hidx n (lo + 1) _
        (fun ii h1 h2 => hv ii (by omega) (by omega))
        (by rw [splice_length _ _ _ (by simp; omega)]; omega)]
      rw [splice_then _ (base + lo) (base + (lo + 1)) [v lo] _ (by simp; omega)
        (by simp; omega)]
      simp [List.range'_succ]

theorem column_index_lt (c C i N : Nat) (hc : c < C) (hi : i < N) : c * N + i < N * C := by
  calc c * N + i < c * N + N := by omega
    _ = (c + 1) * N := by ring
    _ ≤ C * N := Nat.mul_le_mul_right N hc
    _ = N * C := Nat.mul_comm C N

theorem extract_loop_eq (B : Backends O L R) (A : Qmarray O L) (cp : Nat → Option (GenericFunction O L))
    (hs : A.nrows * A.ncols < SIZE_MOD)
    (hcp : ∀ k, k < A.nrows * A.ncols →
      ∃ g, A.funcs[k]? = some (some g) ∧ generic_function_copy B g = .ret (cp k))
    (index : Nat → Nat) (n : Nat) (hidx : ∀ ii, ii < n → index ii < A.nrows * A.ncols) :
    storeLoop
      (fun ii => (Outcome.ofOption A.funcs[(index ii) % SIZE_MOD]?).bind
        (generic_function_copy_ptr B))
      (fun ii => ii) 0 n (quasimatrix_alloc (O := O) (L := L) n).funcs
      = .ret ((List.range' 0 n).map fun ii => cp (index ii)) := by
  rw [storeLoop_eq _ (fun ii => ii) 0 (fun ii => cp (index ii)) (fun ii => (Nat.zero_add ii).symm)
    n 0 _ (by
      intro ii _ hii
      have hlt := hidx ii (by omega)
      obtain ⟨g, hg, hcopy⟩ := hcp (index ii) hlt
      simp only
      rw [Nat.mod_eq_of_lt (by omega), hg]
      exact hcopy) (by simp [quasimatrix_alloc])]
  rw [splice_full _ _ (by simp [quasimatrix_alloc])]

/-- C20: for a qmarray `A` with `nrows*ncols` entries on each of which
`generic_function_copy` returns (`cp k` being the copy of the entry at index
`k`), a column `c < ncols` and a row `r < nrows`: `qmarray_extract_column`
returns a quasimatrix of length `nrows` whose `i`-th function is the copy of
the entry at index `c*nrows + i`, `qmarray_extract_row` returns one of length
`ncols` whose `i`-th function is the copy of the entry at index `i*nrows + r`,
and element `r` of the column is element `c` of the row. -/
theorem qmarray_extract_column_row (B : Backends O L R) (A : Qmarray O L) (c r : Nat)
    (cp : Nat → Option (GenericFunction O L)) (hs : A.nrows * A.ncols < SIZE_MOD)
    (hcp : ∀ k, k < A.nrows * A.ncols →
      ∃ g, A.funcs[k]? = some (some g) ∧ generic_function_copy B g = .ret (cp k))
    (hc : c < A.ncols) (hr : r < A.nrows) :
    ∃ qc qr, qmarray_extract_column B A c = .ret qc ∧ qmarray_extract_row B A r = .ret qr ∧
      qc.n = A.nrows ∧ qc.funcs.length = A.nrows ∧
      (∀ i, i < A.nrows → qc.funcs[i]? = some (cp (c * A.nrows + i))) ∧
      qr.n = A.ncols ∧ qr.funcs.length = A.ncols ∧
      (∀ i, i < A.ncols → qr.funcs[i]? = some (cp (i * A.nrows + r))) ∧
      qc.funcs[r]? = qr.funcs[c]? := by
  have hcol := extract_loop_eq B A cp hs hcp (fun ii => c * A.nrows + ii) A.nrows
    (fun ii hii => column_index_lt c A.ncols ii A.nrows hc hii)
  have hrow := extract_loop_eq B A cp hs hcp (fun ii => ii * A.nrows + r) A.ncols
    (fun ii hii => column_index_lt ii A.ncols r A.nrows hii hr)
  have gcol : ∀ i, i < A.nrows →
      ((List.range' 0 A.nrows).map fun ii => cp (c * A.nrows + ii))[i]?
        = some (cp (c * A.nrows + i)) := by
    intro i hi
    rw [List.getElem?_map, List.getElem?_range' 0 1 hi]
    simp
  have grow : ∀ i, i < A.ncols →
      ((List.range' 0 A.ncols).map fun ii => cp (ii * A.nrows + r))[i]?
        = some (cp (i * A.nrows + r)) := by
    intro i hi
    rw [List.getElem?_map, List.getElem?_range' 0 1 hi]
    simp
  refine ⟨⟨A.nrows, (List.range' 0 A.nrows).map fun ii => cp (c * A.nrows + ii)⟩,
    ⟨A.ncols, (List.range' 0 A.ncols).map fun ii => cp (ii * A.nrows + r)⟩, ?_, ?_, rfl,
    by simp, gcol, rfl, by simp, grow, ?_⟩
  · unfold qmarray_extract_column
    rw [hcol]
    rfl
  · unfold qmarray_extract_row
    rw [hrow]
    rfl
  · simp only
    rw [gcol r hr, grow c hc]

theorem qmarray_extract_column_row_witness :
    qmarraySample.nrows * qmarraySample.ncols < SIZE_MOD ∧
    (∀ k, k < qmarraySample.nrows * qmarraySample.ncols →
      ∃ g, qmarraySample.funcs[k]? = some (some g) ∧
        generic_function_copy boolBackends g = .ret (qmarraySample.funcs.getD k none)) ∧
    1 < qmarraySample.ncols ∧ 2 < qmarraySample.nrows ∧
    ∃ qc qr, qmarray_extract_column boolBackends qmarraySample 1 = .ret qc ∧
      qmarray_extract_row boolBackends qmarraySample 2 = .ret qr ∧
      qc.n = qmarraySample.nrows ∧ qc.funcs.length = qmarraySample.nrows ∧
      (∀ i, i < qmarraySample.nrows →
        qc.funcs[i]? = some (qmarraySample.funcs.getD (1 * qmarraySample.nrows + i) none)) ∧
      qr.n = qmarraySample.ncols ∧ qr.funcs.length = qmarraySample.ncols ∧
      (∀ i, i < qmarraySample.ncols →
        qr.funcs[i]? = some (qmarraySample.funcs.getD (i * qmarraySample.nrows + 2) none)) ∧
      qc.funcs[2]? = qr.funcs[1]? :=
  have hcp : ∀ k, k < qmarraySample.nrows * qmarraySample.ncols →
      ∃ g, qmarraySample.funcs[k]? = some (some g) ∧
        generic_function_copy boolBackends g = .ret (qmarraySample.funcs.getD k none) := by
    intro k hk
    have hk6 : k < 6 := hk
    interval_cases k <;> exact ⟨_, rfl, rfl⟩
  ⟨by decide, hcp, by decide, by decide,
    qmarray_extract_column_row boolBackends qmarraySample 1 2
      (fun k => qmarraySample.funcs.getD k none) (by decide) hcp (by decide) (by decide)⟩

end ExtractProofs

/-! ## Orthonormal arrays of functions (`functions.c`, `elements.c`) -/

/-- The backend routines that make functions: `orth_poly_expansion_constant a
ptype lb ub`, `lin_elem_exp_constant a lb ub`, `orth_poly_expansion_genorder
ptype order lb ub` (the orthonormal polynomial of the given order),
`lin_elem_exp_init n nodes fvals`, and `lin_elem_exp_orth_basis n f`, which
gives the `n` linear-element functions after they are made orthonormal in
place. -/
structure FunctionFactories (O L R : Type) where
  orth_poly_expansion_constant : R → Int → R → R → O
  lin_elem_exp_constant : R → R → R → L
  orth_poly_expansion_genorder : Int → Nat → R → R → O
  lin_elem_exp_init : Nat → List R → List R → L
  lin_elem_exp_orth_basis : Nat → List L → List L

/-- The backend inner products. -/
structure InnerBackends (O L R : Type) where
  piecewise_poly_inner : PiecewisePoly O → PiecewisePoly O → R
  orth_poly_expansion_inner : O → O → R
  lin_elem_exp_inner : L → L → R

section Orth

variable {O L R : Type}

/-- The C routine `piecewise_poly_constant`: a single leaf holding the constant
expansion. -/
def piecewise_poly_constant (F : FunctionFactories O L R) (value : R) (ptype : Int)
    (lb ub : R) : PiecewisePoly O :=
  leaf (F.orth_poly_expansion_constant value ptype lb ub)

/-- The C routine `generic_function_constant(a, fc, st, lb, ub, aopts)`; NULL
is returned for `RATIONAL` and `KERNEL`. -/
def generic_function_constant (F : FunctionFactories O L R) (a : R) (fc : function_class)
    (st : Int) (lb ub : R) : Option (GenericFunction O L) :=
  match fc with
  | .PIECEWISE =>
      some ((generic_function_alloc 1 fc st).setF
        (.pw (piecewise_poly_constant F a
          (generic_function_alloc (O := O) (L := L) 1 fc st).sub_type lb ub)))
  | .POLYNOMIAL =>
      some ((generic_function_alloc 1 fc st).setF
        (.ope (F.orth_poly_expansion_constant a
          (generic_function_alloc (O := O) (L := L) 1 fc st).sub_type lb ub)))
  | .LINELM =>
      some ((generic_function_alloc 1 fc st).setF (.lexp (F.lin_elem_exp_constant a lb ub)))
  | .RATIONAL => none
  | .KERNEL => none

/-- The C routine `generic_function_array_orth(n, fc, st, gfarray, args)` with
`args` the interval `[lb, ub]`; the result is `gfarray` after the call.  For
`PIECEWISE` the first iteration stores into the tree `gfarray[0]->f`, which is
NULL after `generic_function_alloc`.  For `LINELM` the `n` functions are
initialised on `linspace(lb, ub, nnodes)` with zero values and then made
orthonormal together. -/
def generic_function_array_orth [Field R] (F : FunctionFactories O L R) (n : Nat)
    (fc : function_class) (st : Int) (gfarray : List (Option (GenericFunction O L)))
    (lb ub : R) : Outcome (Payload O L) (List (Option (GenericFunction O L))) :=
  match fc with
  | .PIECEWISE => if n = 0 then .ret gfarray else .undefined
  | .POLYNOMIAL =>
      storeLoop
        (fun ii => .ret (some ((generic_function_alloc 1 fc st).setF
          (.ope (F.orth_poly_expansion_genorder
            (generic_function_alloc (O := O) (L := L) 1 fc st).sub_type ii lb ub)))))
        (fun ii => ii) 0 n gfarray
  | .LINELM =>
      if n ≤ 1000 then
        storeLoop
          (fun ii => .ret (some ((generic_function_alloc 1 fc st).setF
            (.lexp ((F.lin_elem_exp_orth_basis n
                (List.replicate n
                  (F.lin_elem_exp_init (if n = 1 then 2 else n)
                    (linspace lb ub (if n = 1 then 2 else n))
                    (List.replicate (if n = 1 then 2 else n) 0)))).getD ii
              (F.lin_elem_exp_init (if n = 1 then 2 else n)
                (linspace lb ub (if n = 1 then 2 else n))
                (List.replicate (if n = 1 then 2 else n) 0)))))))
          (fun ii => ii) 0 n gfarray
      else .assertion
  | .RATIONAL => .ret gfarray
  | .KERNEL => .ret gfarray

/-- The loop over the columns `jj, jj+1, ..` of
`generic_function_array_orth1d_columns`, with the array `f` and the counters
`onnon` and `onorder` as state: row `onnon` of the column gets a copy of
`funcs[onorder]`, the rows before and after it a copy of `zero`. -/
def generic_function_array_orth1d_columns_loop (B : Backends O L R)
    (funcs : List (Option (GenericFunction O L))) (zero : Option (GenericFunction O L))
    (nrows : Nat) :
    Nat → Nat → List (Option (GenericFunction O L)) → Nat → Nat →
      Outcome (Payload O L) (List (Option (GenericFunction O L)))
  | _, 0, f, _, _ => .ret f
  | jj, n + 1, f, onnon, onorder =>
      (Outcome.ofOption funcs[onorder]?).bind fun e =>
      (generic_function_copy_ptr B e).bind fun c =>
      (Outcome.ofOption (storeNode f ((jj * nrows + onnon) % SIZE_MOD) c)).bind fun f1 =>
      (storeLoop (fun _ => generic_function_copy_ptr B zero)
        (fun kk => (jj * nrows + kk) % SIZE_MOD) 0 onnon f1).bind fun f2 =>
      (storeLoop (fun _ => generic_function_copy_ptr B zero)
        (fun kk => (jj * nrows + kk) % SIZE_MOD) (onnon + 1) (nrows - (onnon + 1)) f2).bind
        fun f3 =>
      if onnon + 1 = nrows then
        generic_function_array_orth1d_columns_loop B funcs zero nrows (jj + 1) n f3 0
          (onorder + 1)
      else
        generic_function_array_orth1d_columns_loop B funcs zero nrows (jj + 1) n f3 (onnon + 1)
          onorder

/-- The C routine `generic_function_array_orth1d_columns(f, funcs, fc, st,
nrows, ncols, lb, ub)`; the result is the array `f` after the call. -/
def generic_function_array_orth1d_columns [Field R] (B : Backends O L R)
    (F : FunctionFactories O L R) (f funcs : List (Option (GenericFunction O L)))
    (fc : function_class) (st : Int) (nrows ncols : Nat) (lb ub : R) :
    Outcome (Payload O L) (List (Option (GenericFunction O L))) :=
  (generic_function_array_orth F ncols fc st funcs lb ub).bind fun funcs1 =>
    generic_function_array_orth1d_columns_loop B funcs1
      (generic_function_constant F 0 fc st lb ub) nrows 0 ncols f 0 0

/-- The C routine `qmarray_orth1d_columns(fc, st, nrows, ncols, lb, ub)`. -/
def qmarray_orth1d_columns [Field R] (B : Backends O L R) (F : FunctionFactories O L R)
    (fc : function_class) (st : Int) (nrows ncols : Nat) (lb ub : R) :
    Outcome (Payload O L) (Qmarray O L) :=
  (generic_function_array_orth1d_columns B F
    (qmarray_alloc (O := O) (L := L) nrows ncols).funcs
    (qmarray_alloc (O := O) (L := L) ncols 1).funcs fc st nrows ncols lb ub).bind fun f =>
    .ret ⟨nrows, ncols, f⟩

/-- The C routine `generic_function_inner(a, b)`.  When the classes differ or
`a` is `PIECEWISE`, both operands are taken as piecewise polynomials (a
`POLYNOMIAL` payload wrapped as a leaf) after the two assertions that neither
is `LINELM`.  For `RATIONAL` and `KERNEL` the initial value of `out` is
returned. -/
def generic_function_inner [Field R] (I : InnerBackends O L R) (a b : GenericFunction O L) :
    Outcome (Payload O L) R :=
  if a.fc ≠ b.fc ∨ a.fc = .PIECEWISE then
    if a.fc = .LINELM then .assertion
    else if b.fc = .LINELM then .assertion
    else
      (asPiecewise .piecewise_poly_inner (promote a)).bind fun ap =>
      (asPiecewise .piecewise_poly_inner (promote b)).bind fun bp =>
      .ret (I.piecewise_poly_inner ap bp)
  else
    match a.fc with
    | .PIECEWISE =>
        (asPiecewise .piecewise_poly_inner a.f).bind fun ap =>
        (asPiecewise .piecewise_poly_inner b.f).bind fun bp =>
        .ret (I.piecewise_poly_inner ap bp)
    | .POLYNOMIAL =>
        (asPolynomial .orth_poly_expansion_inner a.f).bind fun oa =>
        (asPolynomial .orth_poly_expansion_inner b.f).bind fun ob =>
        .ret (I.orth_poly_expansion_inner oa ob)
    | .LINELM =>
        (asLinElem .lin_elem_exp_inner a.f).bind fun la =>
        (asLinElem .lin_elem_exp_inner b.f).bind fun lb =>
        .ret (I.lin_elem_exp_inner la lb)
    | .RATIONAL => .ret (123456789 / 1000000000)
    | .KERNEL => .ret (123456789 / 1000000000)

/-- The loop of `generic_function_inner_sum` from index `ii` on, `val` being
the sum so far. -/
def generic_function_inner_sum_loop [Field R] (I : InnerBackends O L R) (lda : Nat)
    (a : List (Option (GenericFunction O L))) (ldb : Nat)
    (b : List (Option (GenericFunction O L))) : Nat → Nat → R → Outcome (Payload O L) R
  | _, 0, val => .ret val
  | ii, n + 1, val =>
      (Outcome.ofOption a[(ii * lda) % SIZE_MOD]?).bind fun ea =>
      (Outcome.ofOption b[(ii * ldb) % SIZE_MOD]?).bind fun eb =>
      match ea, eb with
      | some x, some y =>
          (generic_function_inner I x y).bind fun v =>
            generic_function_inner_sum_loop I lda a ldb b (ii + 1) n (val + v)
      | _, _ => .undefined

/-- The C routine `generic_function_inner_sum(n, lda, a, ldb, b)`. -/
def generic_function_inner_sum [Field R] (I : InnerBackends O L R) (n lda : Nat)
    (a : List (Option (GenericFunction O L))) (ldb : Nat)
    (b : List (Option (GenericFunction O L))) : Outcome (Payload O L) R :=
  generic_function_inner_sum_loop I lda a ldb b 0 n 0

end Orth

section OrthProofs

variable {O L R : Type}

set_option linter.unusedTactic false
set_option linter.unreachableTactic false

theorem storeNode_getElem? {α : Type} (arr : List α) (i : Nat) (v : α) (h : i < arr.length) :
    ∃ arr1, storeNode arr i v = some arr1 ∧ arr1.length = arr.length ∧
      ∀ k, arr1[k]? = if k = i then some v else arr[k]? := by
  refine ⟨arr.set i v, by simp [storeNode, h], by simp, ?_⟩
  intro k
  by_cases hk : k = i
  · subst hk
    simp [h]
  · rw [if_neg hk, List.getElem?_set_ne (fun e => hk e.symm)]

theorem storeLoop_const {P α : Type} (x : Outcome P α) (v : α) (hx : x = .ret v)
    (idx : Nat → Nat) (base : Nat) :
    ∀ (n lo : Nat) (arr : List α), (∀ ii, lo ≤ ii → ii < lo + n → idx ii = base + ii) →
    base + lo + n ≤ arr.length →
    ∃ arr1, storeLoop (fun _ => x) idx lo n arr = .ret arr1 ∧ arr1.length = arr.length ∧
      ∀ k, arr1[k]? = if base + lo ≤ k ∧ k < base + lo + n then some v else arr[k]?
  | 0, lo, arr, _, _ => ⟨arr, rfl, rfl, fun k => by rw [if_neg (by omega)]⟩
  | n + 1, lo, arr, hidx, hlen => by
      subst hx
      obtain ⟨arr1, h1, hl1, hg1⟩ := storeNode_getElem? arr (base + lo) v (by omega)
      obtain ⟨arr2, h2, hl2, hg2⟩ := storeLoop_const (.ret v) v rfl idx base n (lo + 1) arr1
        (fun ii a b => hidx ii (by omega) (by omega)) (by omega)
      refine ⟨arr2, ?_, by omega, ?_⟩
      · rw [storeLoop, Outcome.ret_bind, hidx lo (Nat.le_refl _) (by omega), h1]
        exact h2
      · intro k
        rw [hg2 k, hg1 k]
        by_cases hk : k = base + lo
        · subst hk
          rw [if_neg (by omega), if_pos rfl, if_pos (by omega)]
        · rw [if_neg hk]
          by_cases hk2 : base + (lo + 1) ≤ k ∧ k < base + (lo + 1) + n
          · rw [if_pos hk2, if_pos (by omega)]
          · rw [if_neg hk2, if_neg (by omega)]

theorem block_div_mod (N jj k : Nat) (h1 : jj * N ≤ k) (h2 : k < jj * N + N) :
    k / N = jj ∧ k % N = k - jj * N := by
  have hN : 0 < N := by omega
  rw [Nat.div_mod_unique hN]
  constructor
  · rw [Nat.mul_comm N jj]
    omega
  · omega

theorem succ_div_mod (N jj : Nat) (hN : 0 < N) :
    (jj % N + 1 = N → (jj + 1) % N = 0 ∧ (jj + 1) / N = jj / N + 1) ∧
    (jj % N + 1 ≠ N → (jj + 1) % N = jj % N + 1 ∧ (jj + 1) / N = jj / N) := by
  have h := Nat.div_add_mod jj N
  have hlt := Nat.mod_lt jj hN
  constructor
  · intro he
    have := (Nat.div_mod_unique (a := jj + 1) (d := jj / N + 1) (c := 0) hN).mpr
      ⟨by rw [Nat.mul_add]; omega, hN⟩
    exact ⟨this.2, this.1⟩
  · intro hne
    have := (Nat.div_mod_unique (a := jj + 1) (d := jj / N) (c := jj % N + 1) hN).mpr
      ⟨by omega, by omega⟩
    exact ⟨this.2, this.1⟩

/-- The function the column loop leaves at column `j`, row `r`. -/
def orthEntry (cb : Nat → GenericFunction O L) (cz : GenericFunction O L) (nrows j r : Nat) :
    GenericFunction O L :=
  if r = j % nrows then cb (j / nrows) else cz

theorem generic_function_array_orth1d_columns_loop_eq (B : Backends O L R)
    (funcs : List (Option (GenericFunction O L))) (zero : Option (GenericFunction O L))
    (nrows K : Nat) (cb : Nat → GenericFunction O L) (cz : GenericFunction O L)
    (hN : 0 < nrows)
    (hb : ∀ k, k < K → ∃ b, funcs[k]? = some (some b) ∧
      generic_function_copy B b = .ret (some (cb k)))
    (hz : generic_function_copy_ptr B zero = .ret (some cz)) :
    ∀ (n jj : Nat) (f : List (Option (GenericFunction O L))), jj + n ≤ K →
    (jj + n) * nrows ≤ f.length → f.length < SIZE_MOD →
    ∃ f1, generic_function_array_orth1d_columns_loop B funcs zero nrows jj n f (jj % nrows)
        (jj / nrows) = .ret f1 ∧ f1.length = f.length ∧
      ∀ k, f1[k]? = if jj * nrows ≤ k ∧ k < (jj + n) * nrows then
          some (some (orthEntry cb cz nrows (k / nrows) (k % nrows)))
        else f[k]?
  | 0, jj, f, _, _, _ => ⟨f, rfl, rfl, fun k => by
      rw [if_neg (by simp only [Nat.add_zero]; omega)]⟩
  | n + 1, jj, f, hK, hlen, hs => by
      have hexp : (jj + (n + 1)) * nrows = jj * nrows + nrows + n * nrows := by ring
      have hexp2 : (jj + 1 + n) * nrows = jj * nrows + nrows + n * nrows := by ring
      have hexp3 : (jj + 1) * nrows = jj * nrows + nrows := by ring
      have hmod := Nat.mod_lt jj hN
      have hdiv : jj / nrows < K := lt_of_le_of_lt (Nat.div_le_self jj nrows) (by omega)
      obtain ⟨b, hfb, hcb⟩ := hb (jj / nrows) hdiv
      have hidx : ∀ lo m, lo + m ≤ nrows → ∀ ii, lo ≤ ii → ii < lo + m →
          (jj * nrows + ii) % SIZE_MOD = jj * nrows + ii := by
        intro lo m hm ii _ hii
        exact Nat.mod_eq_of_lt (by omega)
      obtain ⟨f1, h1, hl1, hg1⟩ := storeNode_getElem? f (jj * nrows + jj % nrows) (some (cb (jj / nrows)))
        (by omega)
      obtain ⟨f2, h2, hl2, hg2⟩ := storeLoop_const (generic_function_copy_ptr B zero) (some cz) hz
        (fun kk => (jj * nrows + kk) % SIZE_MOD) (jj * nrows) (jj % nrows) 0 f1
        (hidx 0 (jj % nrows) (by omega)) (by omega)
      obtain ⟨f3, h3, hl3, hg3⟩ := storeLoop_const (generic_function_copy_ptr B zero) (some cz) hz
        (fun kk => (jj * nrows + kk) % SIZE_MOD) (jj * nrows) (nrows - (jj % nrows + 1))
        (jj % nrows + 1) f2 (hidx (jj % nrows + 1) (nrows - (jj % nrows + 1)) (by omega))
        (by omega)
      have hcol : ∀ k, f3[k]? = if jj * nrows ≤ k ∧ k < jj * nrows + nrows then
          some (some (orthEntry cb cz nrows (k / nrows) (k % nrows))) else f[k]? := by
        intro k
        rw [hg3 k, hg2 k, hg1 k]
        by_cases hblock : jj * nrows ≤ k ∧ k < jj * nrows + nrows
        · obtain ⟨hd, hm⟩ := block_div_mod nrows jj k hblock.1 hblock.2
          rw [if_pos hblock, hd, hm]
          unfold orthEntry
          split_ifs <;> first | rfl | omega
        · rw [if_neg hblock]
          split_ifs <;> first | rfl | omega
      have hstep : generic_function_array_orth1d_columns_loop B funcs zero nrows jj (n + 1) f
          (jj % nrows) (jj / nrows) =
          (if jj % nrows + 1 = nrows then
            generic_function_array_orth1d_columns_loop B funcs zero nrows (jj + 1) n f3 0
              (jj / nrows + 1)
          else
            generic_function_array_orth1d_columns_loop B funcs zero nrows (jj + 1) n f3
              (jj % nrows + 1) (jj / nrows)) := by
        have hcp : generic_function_copy_ptr B (some b) = .ret (some (cb (jj / nrows))) := hcb
        rw [generic_function_array_orth1d_columns_loop, hfb]
        simp only [Outcome.ofOption, Outcome.ret_bind]
        rw [hcp, Outcome.ret_bind, Nat.mod_eq_of_lt (by omega), h1]
        simp only [Outcome.ret_bind]
        rw [h2, Outcome.ret_bind, h3, Outcome.ret_bind]
      obtain ⟨f4, h4, hl4, hg4⟩ := generic_function_array_orth1d_columns_loop_eq B funcs zero nrows
        K cb cz hN hb hz n (jj + 1) f3 (by omega) (by omega) (by omega)
      have hnext : generic_function_array_orth1d_columns_loop B funcs zero nrows jj (n + 1) f
          (jj % nrows) (jj / nrows) = .ret f4 := by
        rw [hstep]
        obtain ⟨ha, hb2⟩ := succ_div_mod nrows jj hN
        by_cases he : jj % nrows + 1 = nrows
        · rw [if_pos he]
          rw [(ha he).1, (ha he).2] at h4
          exact h4
        · rw [if_neg he]
          rw [(hb2 he).1, (hb2 he).2] at h4
          exact h4
      refine ⟨f4, hnext, by omega, ?_⟩
      intro k
      rw [hg4 k, hcol k]
      by_cases hA : (jj + 1) * nrows ≤ k ∧ k < (jj + 1 + n) * nrows
      · rw [if_pos hA, if_pos (by omega)]
      · rw [if_neg hA]
        by_cases hB : jj * nrows ≤ k ∧ k < jj * nrows + nrows
        · rw [if_pos hB, if_pos (by omega)]
        · rw [if_neg hB, if_neg (by omega)]

theorem generic_function_inner_sum_loop_eq [Field R] (I : InnerBackends O L R)
    (a b : List (Option (GenericFunction O L))) (xa xb : Nat → GenericFunction O L)
    (w : Nat → R) :
    ∀ (n ii : Nat) (val : R),
    (∀ r, ii ≤ r → r < ii + n → a[r]? = some (some (xa r)) ∧ b[r]? = some (some (xb r)) ∧
      generic_function_inner I (xa r) (xb r) = .ret (w r)) →
    ii + n < SIZE_MOD →
    generic_function_inner_sum_loop I 1 a 1 b ii n val =
      .ret (val + ((List.range' ii n).map w).sum)
  | 0, ii, val, _, _ => by simp [generic_function_inner_sum_loop]
  | n + 1, ii, val, h, hs => by
      obtain ⟨ha, hb, hw⟩ := h ii (Nat.le_refl _) (by omega)
      rw [generic_function_inner_sum_loop, Nat.mul_one, Nat.mod_eq_of_lt (by omega), ha, hb]
      simp only [Outcome.ofOption, Outcome.ret_bind]
      rw [hw, Outcome.ret_bind,
        generic_function_inner_sum_loop_eq I a b xa xb w n (ii + 1) (val + w ii)
          (fun r h1 h2 => h r (by omega) (by omega)) (by omega)]
      simp [List.range'_succ, add_assoc]

theorem div_mod_eq_iff (N j k : Nat) : j = k ↔ j % N = k % N ∧ j / N = k / N := by
  constructor
  · rintro rfl
    exact ⟨rfl, rfl⟩
  · rintro ⟨h1, h2⟩
    rw [← Nat.div_add_mod j N, ← Nat.div_add_mod k N, h1, h2]

/-- C19: for `nrows, ncols ≥ 1` (with `nrows*ncols` a `size_t` value), when
`generic_function_array_orth` returns a basis whose copies are `cb 0, cb 1, ..`
and the copy of the zero function is `cz`, `qmarray_orth1d_columns` fills every
slot of the column-major array: column `j` holds `cb (j / nrows)` at row
`j % nrows` and `cz` in every other row.  If the copies of the basis are
orthonormal and `cz` is orthogonal to everything under
`generic_function_inner`, then the summed inner product of columns `j` and `k`
is 1 for `j = k` and 0 otherwise. -/
theorem qmarray_orth1d_columns_orthonormal [Field R] (B : Backends O L R)
    (F : FunctionFactories O L R) (I : InnerBackends O L R) (fc : function_class)
    (st : Int) (nrows ncols : Nat) (lb ub : R)
    (funcs1 : List (Option (GenericFunction O L))) (cb : Nat → GenericFunction O L)
    (cz : GenericFunction O L)
    (hr : 1 ≤ nrows) (hc : 1 ≤ ncols) (hs : nrows * ncols < SIZE_MOD)
    (horth : generic_function_array_orth F ncols fc st
      (qmarray_alloc (O := O) (L := L) ncols 1).funcs lb ub = .ret funcs1)
    (hb : ∀ k, k < ncols → ∃ b, funcs1[k]? = some (some b) ∧
      generic_function_copy B b = .ret (some (cb k)))
    (hz : generic_function_copy_ptr B (generic_function_constant F 0 fc st lb ub)
      = .ret (some cz))
    (hbb : ∀ i k, i < ncols → k < ncols →
      generic_function_inner I (cb i) (cb k) = .ret (if i = k then 1 else 0))
    (hzz : generic_function_inner I cz cz = .ret 0)
    (hzb : ∀ i, i < ncols → generic_function_inner I cz (cb i) = .ret 0 ∧
      generic_function_inner I (cb i) cz = .ret 0) :
    ∃ Q, qmarray_orth1d_columns B F fc st nrows ncols lb ub = .ret Q ∧
      Q.nrows = nrows ∧ Q.ncols = ncols ∧ Q.funcs.length = nrows * ncols ∧
      (∀ j r, j < ncols → r < nrows →
        Q.funcs[j * nrows + r]? = some (some (if r = j % nrows then cb (j / nrows) else cz))) ∧
      (∀ j k, j < ncols → k < ncols →
        generic_function_inner_sum I nrows 1 (Q.funcs.drop (j * nrows)) 1
          (Q.funcs.drop (k * nrows)) = .ret (if j = k then 1 else 0)) := by
  have hf0 : (qmarray_alloc (O := O) (L := L) nrows ncols).funcs.length = nrows * ncols := by
    rw [qmarray_alloc_funcs nrows ncols hs]; simp
  obtain ⟨f1, h1, hl1, hg1⟩ := generic_function_array_orth1d_columns_loop_eq B funcs1
    (generic_function_constant F 0 fc st lb ub) nrows ncols cb cz (by omega) hb hz ncols 0
    (qmarray_alloc (O := O) (L := L) nrows ncols).funcs (by omega)
    (by rw [hf0, Nat.zero_add, Nat.mul_comm]) (by rw [hf0]; exact hs)
  rw [Nat.zero_mod, Nat.zero_div] at h1
  have hplace : ∀ j r, j < ncols → r < nrows →
      f1[j * nrows + r]? = some (some (orthEntry cb cz nrows j r)) := by
    intro j r hj hrr
    have hlt := column_index_lt j ncols r nrows hj hrr
    obtain ⟨hd, hm⟩ := block_div_mod nrows j (j * nrows + r) (by omega) (by omega)
    have e : (0 + ncols) * nrows = nrows * ncols := by ring
    rw [hg1, if_pos ⟨by omega, by rw [e]; exact hlt⟩, hd, hm]
    congr 3
    omega
  refine ⟨⟨nrows, ncols, f1⟩, ?_, rfl, rfl, by rw [hl1, hf0], hplace, ?_⟩
  · unfold qmarray_orth1d_columns generic_function_array_orth1d_columns
    rw [horth, Outcome.ret_bind, h1, Outcome.ret_bind]
  · intro j k hj hk
    have hjd : j / nrows < ncols := lt_of_le_of_lt (Nat.div_le_self j nrows) hj
    have hkd : k / nrows < ncols := lt_of_le_of_lt (Nat.div_le_self k nrows) hk
    have hN : 0 < nrows := by omega
    have hnlt : nrows < SIZE_MOD := by
      have : nrows * 1 ≤ nrows * ncols := Nat.mul_le_mul_left nrows hc
      omega
    unfold generic_function_inner_sum
    rw [generic_function_inner_sum_loop_eq I _ _ (orthEntry cb cz nrows j)
      (orthEntry cb cz nrows k)
      (fun r => if r = j % nrows then
        (if j % nrows = k % nrows then (if j / nrows = k / nrows then 1 else 0) else 0) else 0)
      nrows 0 0
      (by
        intro r _ hrr
        have hrr2 : r < nrows := by omega
        refine ⟨?_, ?_, ?_⟩
        · rw [List.getElem?_drop]; exact hplace j r hj hrr2
        · rw [List.getElem?_drop]; exact hplace k r hk hrr2
        · unfold orthEntry
          beta_reduce
          by_cases h1 : r = j % nrows
          · by_cases h2 : r = k % nrows
            · rw [if_pos h1, if_pos h2, if_pos h1, if_pos (by omega), hbb _ _ hjd hkd]
            · rw [if_pos h1, if_neg h2, if_pos h1, if_neg (by omega)]
              exact (hzb _ hjd).2
          · by_cases h2 : r = k % nrows
            · rw [if_neg h1, if_pos h2, if_neg h1]
              exact (hzb _ hkd).1
            · rw [if_neg h1, if_neg h2, if_neg h1]
              exact hzz)
      (by omega)]
    have hsum : ((List.range' 0 nrows).map fun r => if r = j % nrows then
        (if j % nrows = k % nrows then (if j / nrows = k / nrows then (1 : R) else 0) else 0)
          else 0).sum
        = Finset.sum (Finset.range nrows) fun r => (fun _ => (1 : R)) r *
          (if r = j % nrows then
            (if j % nrows = k % nrows then (if j / nrows = k / nrows then (1 : R) else 0) else 0)
              else 0) := by
      rw [← List.range_eq_range']
      simp only [one_mul]
      rfl
    rw [hsum, sum_one_point nrows (j % nrows) _ _ (Nat.mod_lt j hN), zero_add, one_mul]
    congr 1
    by_cases hjk : j = k
    · subst hjk
      simp
    · rw [if_neg hjk]
      have := (div_mod_eq_iff nrows j k).not.mp hjk
      by_cases hm : j % nrows = k % nrows
      · rw [if_pos hm, if_neg (fun hd => this ⟨hm, hd⟩)]
      · rw [if_neg hm]

/-- A symbolic polynomial backend: `some k` is the orthonormal basis
polynomial of order `k` and `none` the zero function, which is all that
`qmarray_orth1d_columns` asks of the backend. -/
def basisBackends : Backends (Option Nat) Unit ℚ where
  orth_poly_expansion_copy := fun o => o
  orth_poly_expansion_scale := fun _ o => o
  orth_poly_expansion_ptype := fun _ => 0
  orth_poly_expansion_daxpby := fun _ _ _ _ => none
  orth_poly_expansion_prod := fun _ _ => none
  lin_elem_exp_copy := fun l => l
  lin_elem_exp_scale := fun _ l => l
  lin_elem_exp_axpy := fun _ _ y => (0, y)
  lin_elem_exp_prod := fun _ y => y
  piecewise_poly_scale := fun _ p => p
  piecewise_poly_daxpby := fun _ _ _ _ => leaf none
  piecewise_poly_prod := fun _ _ => leaf none

/-- The factories of the symbolic backend: the constant made is the zero
function, and the basis function of order `k` is `some k`. -/
def basisFactories : FunctionFactories (Option Nat) Unit ℚ where
  orth_poly_expansion_constant := fun _ _ _ _ => none
  lin_elem_exp_constant := fun _ _ _ => ()
  orth_poly_expansion_genorder := fun _ order _ _ => some order
  lin_elem_exp_init := fun _ _ _ => ()
  lin_elem_exp_orth_basis := fun _ f => f

/-- The inner products of the symbolic backend: basis polynomials are
orthonormal and the zero function is orthogonal to everything. -/
def basisInner : InnerBackends (Option Nat) Unit ℚ where
  piecewise_poly_inner := fun _ _ => 0
  orth_poly_expansion_inner := fun a b =>
    match a, b with
    | some i, some k => if i = k then 1 else 0
    | _, _ => 0
  lin_elem_exp_inner := fun _ _ => 0

theorem qmarray_orth1d_columns_orthonormal_witness :
    1 ≤ 2 ∧ 2 * 2 < SIZE_MOD ∧
    generic_function_array_orth basisFactories 2 .POLYNOMIAL 0
      (qmarray_alloc (O := Option Nat) (L := Unit) 2 1).funcs (-1) 1
      = .ret [some ⟨1, .POLYNOMIAL, 0, .ope (some 0)⟩, some ⟨1, .POLYNOMIAL, 0, .ope (some 1)⟩] ∧
    ∃ Q, qmarray_orth1d_columns basisBackends basisFactories .POLYNOMIAL 0 2 2 (-1) 1 = .ret Q ∧
      Q.nrows = 2 ∧ Q.ncols = 2 ∧ Q.funcs.length = 2 * 2 ∧
      (∀ j r, j < 2 → r < 2 →
        Q.funcs[j * 2 + r]? = some (some (if r = j % 2
          then (⟨1, .POLYNOMIAL, 0, .ope (some (j / 2))⟩ : GenericFunction (Option Nat) Unit)
          else ⟨1, .POLYNOMIAL, 0, .ope none⟩))) ∧
      (∀ j k, j < 2 → k < 2 →
        generic_function_inner_sum basisInner 2 1 (Q.funcs.drop (j * 2)) 1
          (Q.funcs.drop (k * 2)) = .ret (if j = k then 1 else 0)) :=
  ⟨by decide, by decide, rfl,
    qmarray_orth1d_columns_orthonormal basisBackends basisFactories basisInner .POLYNOMIAL 0 2 2
      (-1) 1 [some ⟨1, .POLYNOMIAL, 0, .ope (some 0)⟩, some ⟨1, .POLYNOMIAL, 0, .ope (some 1)⟩]
      (fun k => ⟨1, .POLYNOMIAL, 0, .ope (some k)⟩) ⟨1, .POLYNOMIAL, 0, .ope none⟩
      (by decide) (by decide) (by decide) rfl
      (by
        intro k hk
        interval_cases k <;> exact ⟨_, rfl, rfl⟩)
      rfl
      (by
        intro i k hi hk
        interval_cases i <;> interval_cases k <;> rfl)
      rfl
      (by
        intro i hi
        interval_cases i <;> exact ⟨rfl, rfl⟩)⟩

end OrthProofs

/-! ## Setting a column or a row of a qmarray (`elements.c`) -/

section SetColumn

variable {O L R : Type}

/-- The C routine `qmarray_set_column(qma, col, qm)`: for each row `ii` the
entry at `col*nrows + ii` is released and replaced by
`generic_function_copy(qm->funcs[ii])`.  The release (`generic_function_free`,
which accepts NULL) changes no value; `qm` is a quasimatrix of its own, none of
whose functions is an entry of `qma`. -/
def qmarray_set_column (B : Backends O L R) (qma : Qmarray O L) (col : Nat)
    (qm : Quasimatrix O L) : Outcome (Payload O L) (Qmarray O L) :=
  (storeLoop
    (fun ii => (Outcome.ofOption qm.funcs[ii]?).bind (generic_function_copy_ptr B))
    (fun ii => (col * qma.nrows + ii) % SIZE_MOD) 0 qma.nrows qma.funcs).bind
    fun funcs => .ret ⟨qma.nrows, qma.ncols, funcs⟩

/-- The C routine `qmarray_set_row(qma, row, qm)`: for each column `ii` the
entry at `ii*nrows + row` is released and replaced by
`generic_function_copy(qm->funcs[ii])`. -/
def qmarray_set_row (B : Backends O L R) (qma : Qmarray O L) (row : Nat)
    (qm : Quasimatrix O L) : Outcome (Payload O L) (Qmarray O L) :=
  (storeLoop
    (fun ii => (Outcome.ofOption qm.funcs[ii]?).bind (generic_function_copy_ptr B))
    (fun ii => (ii * qma.nrows + row) % SIZE_MOD) 0 qma.ncols qma.funcs).bind
    fun funcs => .ret ⟨qma.nrows, qma.ncols, funcs⟩

end SetColumn

section SetColumnProofs

variable {O L R : Type}

set_option linter.unusedTactic false
set_option linter.unreachableTactic false

theorem storeLoop_pointwise {P α : Type} (val : Nat → Outcome P α) (idx : Nat → Nat)
    (v : Nat → α) :
    ∀ (n lo : Nat) (arr : List α),
      (∀ ii, lo ≤ ii → ii < lo + n → val ii = .ret (v ii)) →
      (∀ ii, lo ≤ ii → ii < lo + n → idx ii < arr.length) →
      (∀ ii jj, lo ≤ ii → ii < jj → jj < lo + n → idx ii ≠ idx jj) →
      ∃ arr1, storeLoop val idx lo n arr = .ret arr1 ∧ arr1.length = arr.length ∧
        (∀ ii, lo ≤ ii → ii < lo + n → arr1[idx ii]? = some (v ii)) ∧
        (∀ k, (∀ ii, lo ≤ ii → ii < lo + n → k ≠ idx ii) → arr1[k]? = arr[k]?)
  | 0, lo, arr, _, _, _ =>
      ⟨arr, rfl, rfl, fun ii h1 h2 => absurd h2 (by omega), fun _ _ => rfl⟩
  | n + 1, lo, arr, hv, hlt, hinj => by
      obtain ⟨arr1, h1, hl1, hg1⟩ :=
        storeNode_getElem? arr (idx lo) (v lo) (hlt lo (Nat.le_refl _) (by omega))
      obtain ⟨arr2, h2, hl2, hg2, hf2⟩ := storeLoop_pointwise val idx v n (lo + 1) arr1
        (fun ii a b => hv ii (by omega) (by omega))
        (fun ii a b => by rw [hl1]; exact hlt ii (by omega) (by omega))
        (fun ii jj a b c => hinj ii jj (by omega) b (by omega))
      refine ⟨arr2, ?_, by omega, ?_, ?_⟩
      · rw [storeLoop, hv lo (Nat.le_refl _) (by omega), Outcome.ret_bind, h1]
        exact h2
      · intro ii a b
        by_cases hii : ii = lo
        · subst hii
          rw [hf2 (idx ii) (fun jj c d => hinj ii jj (Nat.le_refl _) (by omega) (by omega)),
            hg1, if_pos rfl]
        · exact hg2 ii (by omega) (by omega)
      · intro k hk
        rw [hf2 k (fun ii a b => hk ii (by omega) (by omega)), hg1,
          if_neg (hk lo (Nat.le_refl _) (by omega))]

theorem extract_loop_at (B : Backends O L R) (funcs : List (Option (GenericFunction O L)))
    (cp : Nat → Option (GenericFunction O L)) (index : Nat → Nat) (n : Nat)
    (hcp : ∀ ii, ii < n → index ii < SIZE_MOD ∧
      ∃ g, funcs[index ii]? = some (some g) ∧ generic_function_copy B g = .ret (cp ii)) :
    storeLoop
      (fun ii => (Outcome.ofOption funcs[(index ii) % SIZE_MOD]?).bind
        (generic_function_copy_ptr B))
      (fun ii => ii) 0 n (quasimatrix_alloc (O := O) (L := L) n).funcs
      = .ret ((List.range' 0 n).map cp) := by
  rw [storeLoop_eq _ (fun ii => ii) 0 cp (fun ii => (Nat.zero_add ii).symm)
    n 0 _ (by
      intro ii _ hii
      obtain ⟨hlt, g, hg, hcopy⟩ := hcp ii (by omega)
      show (Outcome.ofOption funcs[(index ii) % SIZE_MOD]?).bind (generic_function_copy_ptr B)
        = .ret (cp ii)
      rw [Nat.mod_eq_of_lt hlt, hg]
      exact hcopy) (by simp [quasimatrix_alloc])]
  rw [splice_full _ _ (by simp [quasimatrix_alloc])]

theorem range'_map_getD {α : Type} (l : List α) (n : Nat) (d : α) (h : l.length = n) :
    (List.range' 0 n).map (fun i => l.getD i d) = l := by
  apply List.ext_getElem?
  intro i
  by_cases hi : i < n
  · rw [List.getElem?_map, List.getElem?_range' 0 1 hi]
    have hl : i < l.length := by omega
    simp [List.getD, List.getElem?_eq_getElem hl]
  · rw [List.getElem?_eq_none (by simp; omega), List.getElem?_eq_none (by omega)]

theorem row_index_div (c N i : Nat) (hi : i < N) : (c * N + i) / N = c := by
  rw [Nat.add_comm, Nat.add_mul_div_right _ _ (by omega), Nat.div_eq_of_lt hi, Nat.zero_add]

theorem row_index_mod (c N i : Nat) (hi : i < N) : (c * N + i) % N = i := by
  rw [Nat.add_comm, Nat.add_mul_mod_self_right, Nat.mod_eq_of_lt hi]

theorem set_loop_eq (B : Backends O L R) (A : Qmarray O L) (q : Quasimatrix O L)
    (index : Nat → Nat) (n : Nat)
    (hs : A.nrows * A.ncols < SIZE_MOD) (hA : A.funcs.length = A.nrows * A.ncols)
    (hq : ∀ i, i < n →
      ∃ g, q.funcs[i]? = some (some g) ∧ generic_function_copy B g = .ret (some g))
    (hidx : ∀ ii, ii < n → index ii < A.nrows * A.ncols)
    (hinj : ∀ ii jj, ii < jj → jj < n → index ii ≠ index jj) :
    ∃ funcs, storeLoop
        (fun ii => (Outcome.ofOption q.funcs[ii]?).bind (generic_function_copy_ptr B))
        (fun ii => (index ii) % SIZE_MOD) 0 n A.funcs = .ret funcs ∧
      funcs.length = A.nrows * A.ncols ∧
      (∀ ii, ii < n → funcs[index ii]? = q.funcs[ii]?) ∧
      (∀ ii, ii < n → ∃ g, funcs[index ii]? = some (some g) ∧
        generic_function_copy B g = .ret (q.funcs.getD ii none)) ∧
      (∀ k, (∀ ii, ii < n → k ≠ index ii) → funcs[k]? = A.funcs[k]?) := by
  have hmod : ∀ ii, ii < n → index ii % SIZE_MOD = index ii := fun ii h =>
    Nat.mod_eq_of_lt (by have := hidx ii h; omega)
  obtain ⟨funcs, h1, h2, h3, h4⟩ := storeLoop_pointwise
    (fun ii => (Outcome.ofOption q.funcs[ii]?).bind (generic_function_copy_ptr B))
    (fun ii => (index ii) % SIZE_MOD) (fun ii => q.funcs.getD ii none) n 0 A.funcs
    (by
      intro ii _ hii
      obtain ⟨g, hg, hcopy⟩ := hq ii (by omega)
      simp only
      rw [hg]
      simp only [Outcome.ofOption, Outcome.ret_bind, generic_function_copy_ptr, hcopy]
      simp [List.getD, hg])
    (by
      intro ii _ hii
      simp only
      rw [hmod ii (by omega), hA]
      exact hidx ii (by omega))
    (by
      intro ii jj _ hij hjj
      simp only
      rw [hmod ii (by omega), hmod jj (by omega)]
      exact hinj ii jj hij (by omega))
  have hget : ∀ ii, ii < n → funcs[index ii]? = q.funcs[ii]? := by
    intro ii hii
    obtain ⟨g, hg, _⟩ := hq ii hii
    have := h3 ii (Nat.zero_le _) (by omega)
    simp only at this
    rw [hmod ii hii] at this
    rw [this, hg]
    simp [List.getD, hg]
  refine ⟨funcs, h1, by omega, hget, ?_, ?_⟩
  · intro ii hii
    obtain ⟨g, hg, hcopy⟩ := hq ii hii
    refine ⟨g, by rw [hget ii hii, hg], ?_⟩
    rw [hcopy, List.getD_eq_getElem?_getD, hg]
    rfl
  · intro k hk
    apply h4 k
    intro ii _ hii
    show k ≠ index ii % SIZE_MOD
    rw [hmod ii (by omega)]
    exact hk ii (by omega)

/-- C21: let `A` be a qmarray whose block holds `nrows*ncols` entries, `c <
ncols`, `r < nrows`, and `qc`, `qr` quasimatrices of length `nrows` and `ncols`
on each of whose functions `generic_function_copy` returns a function equal to
it.  Then `qmarray_set_column(A, c, qc)` returns with `nrows`, `ncols` and the
length of the block unchanged, every entry at an index `k` outside column `c`
(`k / nrows ≠ c`) unchanged, and `qmarray_extract_column` of the result at `c`
returns `qc`; and `qmarray_set_row(A, r, qr)` returns with `nrows`, `ncols` and
the block length unchanged, every entry outside row `r` (`k % nrows ≠ r`)
unchanged, and `qmarray_extract_row` of the result at `r` returns `qr`. -/
theorem qmarray_set_column_row_frame (B : Backends O L R) (A : Qmarray O L) (c r : Nat)
    (qc qr : Quasimatrix O L)
    (hs : A.nrows * A.ncols < SIZE_MOD) (hA : A.funcs.length = A.nrows * A.ncols)
    (hc : c < A.ncols) (hr : r < A.nrows)
    (hcn : qc.n = A.nrows) (hclen : qc.funcs.length = A.nrows)
    (hcq : ∀ i, i < A.nrows →
      ∃ g, qc.funcs[i]? = some (some g) ∧ generic_function_copy B g = .ret (some g))
    (hrn : qr.n = A.ncols) (hrlen : qr.funcs.length = A.ncols)
    (hrq : ∀ i, i < A.ncols →
      ∃ g, qr.funcs[i]? = some (some g) ∧ generic_function_copy B g = .ret (some g)) :
    (∃ A1, qmarray_set_column B A c qc = .ret A1 ∧
      A1.nrows = A.nrows ∧ A1.ncols = A.ncols ∧ A1.funcs.length = A.funcs.length ∧
      (∀ k, k / A.nrows ≠ c → A1.funcs[k]? = A.funcs[k]?) ∧
      qmarray_extract_column B A1 c = .ret qc) ∧
    (∃ A1, qmarray_set_row B A r qr = .ret A1 ∧
      A1.nrows = A.nrows ∧ A1.ncols = A.ncols ∧ A1.funcs.length = A.funcs.length ∧
      (∀ k, k % A.nrows ≠ r → A1.funcs[k]? = A.funcs[k]?) ∧
      qmarray_extract_row B A1 r = .ret qr) := by
  constructor
  · obtain ⟨funcs, h1, h2, _, h4, h5⟩ := set_loop_eq B A qc (fun ii => c * A.nrows + ii)
      A.nrows hs hA hcq (fun ii hii => column_index_lt c A.ncols ii A.nrows hc hii)
      (fun ii jj hij _ => by simp only; omega)
    refine ⟨⟨A.nrows, A.ncols, funcs⟩, ?_, rfl, rfl, by simp only; omega, ?_, ?_⟩
    · rw [qmarray_set_column, h1]
      rfl
    · intro k hk
      apply h5 k
      intro ii hii e
      apply hk
      rw [e]
      exact row_index_div c A.nrows ii hii
    · rw [qmarray_extract_column]
      simp only
      rw [extract_loop_at B funcs (fun ii => qc.funcs.getD ii none)
        (fun ii => c * A.nrows + ii) A.nrows (fun ii hii =>
          ⟨by
            have := column_index_lt c A.ncols ii A.nrows hc hii
            show c * A.nrows + ii < SIZE_MOD
            omega, h4 ii hii⟩)]
      rw [range'_map_getD _ _ _ hclen, Outcome.ret_bind, ← hcn]
  · obtain ⟨funcs, h1, h2, _, h4, h5⟩ := set_loop_eq B A qr (fun ii => ii * A.nrows + r)
      A.ncols hs hA hrq (fun ii hii => column_index_lt ii A.ncols r A.nrows hii hr)
      (fun ii jj hij _ => by
        simp only
        intro e
        have h1 := row_index_div ii A.nrows r hr
        have h2 := row_index_div jj A.nrows r hr
        rw [e, h2] at h1
        omega)
    refine ⟨⟨A.nrows, A.ncols, funcs⟩, ?_, rfl, rfl, by simp only; omega, ?_, ?_⟩
    · rw [qmarray_set_row, h1]
      rfl
    · intro k hk
      apply h5 k
      intro ii _ e
      apply hk
      rw [e]
      exact row_index_mod ii A.nrows r hr
    · rw [qmarray_extract_row]
      simp only
      rw [extract_loop_at B funcs (fun ii => qr.funcs.getD ii none)
        (fun ii => ii * A.nrows + r) A.ncols (fun ii hii =>
          ⟨by
            have := column_index_lt ii A.ncols r A.nrows hii hr
            show ii * A.nrows + r < SIZE_MOD
            omega, h4 ii hii⟩)]
      rw [range'_map_getD _ _ _ hrlen, Outcome.ret_bind, ← hrn]

/-- A quasimatrix of three polynomial functions. -/
def columnSample : Quasimatrix Bool Bool :=
  ⟨3, [some ⟨1, .POLYNOMIAL, 5, .ope false⟩, some ⟨1, .POLYNOMIAL, 6, .ope true⟩,
    some ⟨1, .POLYNOMIAL, 7, .ope false⟩]⟩

/-- A quasimatrix of two polynomial functions. -/
def rowSample : Quasimatrix Bool Bool :=
  ⟨2, [some ⟨1, .POLYNOMIAL, 8, .ope false⟩, some ⟨1, .POLYNOMIAL, 9, .ope false⟩]⟩

theorem qmarray_set_column_row_frame_witness :
    qmarraySample.nrows * qmarraySample.ncols < SIZE_MOD ∧
    qmarraySample.funcs.length = qmarraySample.nrows * qmarraySample.ncols ∧
    1 < qmarraySample.ncols ∧ 2 < qmarraySample.nrows ∧
    columnSample.n = qmarraySample.nrows ∧
    columnSample.funcs.length = qmarraySample.nrows ∧
    (∀ i, i < qmarraySample.nrows → ∃ g, columnSample.funcs[i]? = some (some g) ∧
      generic_function_copy boolBackends g = .ret (some g)) ∧
    rowSample.n = qmarraySample.ncols ∧ rowSample.funcs.length = qmarraySample.ncols ∧
    (∀ i, i < qmarraySample.ncols → ∃ g, rowSample.funcs[i]? = some (some g) ∧
      generic_function_copy boolBackends g = .ret (some g)) ∧
    (∃ A1, qmarray_set_column boolBackends qmarraySample 1 columnSample = .ret A1 ∧
      A1.nrows = qmarraySample.nrows ∧ A1.ncols = qmarraySample.ncols ∧
      A1.funcs.length = qmarraySample.funcs.length ∧
      (∀ k, k / qmarraySample.nrows ≠ 1 → A1.funcs[k]? = qmarraySample.funcs[k]?) ∧
      qmarray_extract_column boolBackends A1 1 = .ret columnSample) ∧
    (∃ A1, qmarray_set_row boolBackends qmarraySample 2 rowSample = .ret A1 ∧
      A1.nrows = qmarraySample.nrows ∧ A1.ncols = qmarraySample.ncols ∧
      A1.funcs.length = qmarraySample.funcs.length ∧
      (∀ k, k % qmarraySample.nrows ≠ 2 → A1.funcs[k]? = qmarraySample.funcs[k]?) ∧
      qmarray_extract_row boolBackends A1 2 = .ret rowSample) :=
  have hcq : ∀ i, i < qmarraySample.nrows → ∃ g, columnSample.funcs[i]? = some (some g) ∧
      generic_function_copy boolBackends g = .ret (some g) := by
    intro i hi
    have hi3 : i < 3 := hi
    interval_cases i <;> exact ⟨_, rfl, rfl⟩
  have hrq : ∀ i, i < qmarraySample.ncols → ∃ g, rowSample.funcs[i]? = some (some g) ∧
      generic_function_copy boolBackends g = .ret (some g) := by
    intro i hi
    have hi2 : i < 2 := hi
    interval_cases i <;> exact ⟨_, rfl, rfl⟩
  ⟨by decide, rfl, by decide, by decide, rfl, rfl, hcq, rfl, rfl, hrq,
    qmarray_set_column_row_frame boolBackends qmarraySample 1 2 columnSample rowSample
      (by decide) rfl (by decide) (by decide) rfl rfl hcq rfl rfl hrq⟩

end SetColumnProofs

/-! ## In-place addition `generic_function_axpy` (`functions.c`) -/

section Axpy

variable {O L R : Type}

/-- The C routine `generic_function_axpy(a, x, y)`: the status returned, and
`x` and `y` after the call (`none` is a NULL pointer).  A backend routine
`axpy a x y` gives its status and the updated `y`, as `lin_elem_exp_axpy` of the
backends does; `orth_poly_expansion_axpy` is the one of the polynomial backend. -/
def generic_function_axpy (B : Backends O L R) (orth_poly_expansion_axpy : R → O → O → Int × O)
    (a : R) (x y : Option (GenericFunction O L)) :
    Outcome (Payload O L) (Int × GenericFunction O L × GenericFunction O L) :=
  match y with
  | none => .assertion
  | some y =>
      match x with
      | none => .assertion
      | some x =>
          if x.fc ≠ y.fc then .assertion
          else
            match x.fc with
            | .PIECEWISE => .ret (1, x, y)
            | .POLYNOMIAL =>
                (asPolynomial .orth_poly_expansion_axpy x.f).bind fun ox =>
                  (asPolynomial .orth_poly_expansion_axpy y.f).bind fun oy =>
                    .ret ((orth_poly_expansion_axpy a ox oy).1, x,
                      y.setF (.ope (orth_poly_expansion_axpy a ox oy).2))
            | .LINELM =>
                (asLinElem .lin_elem_exp_axpy x.f).bind fun lx =>
                  (asLinElem .lin_elem_exp_axpy y.f).bind fun ly =>
                    .ret ((B.lin_elem_exp_axpy a lx ly).1, x,
                      y.setF (.lexp (B.lin_elem_exp_axpy a lx ly).2))
            | .RATIONAL => .ret (1, x, y)
            | .KERNEL => .ret (1, x, y)

/-- C22: for `x` and `y` both of class `PIECEWISE`, whatever their other
fields, `generic_function_axpy(a, x, y)` returns 1 and leaves `x` and `y` as
they were; for both of class `POLYNOMIAL` (payloads polynomial expansions) it
returns the status of `orth_poly_expansion_axpy` on the payloads, and for both
of class `LINELM` (payloads linear-element expansions) the status of
`lin_elem_exp_axpy`, with `y` holding the payload the backend left. -/
theorem generic_function_axpy_status (B : Backends O L R) (axpy : R → O → O → Int × O) (a : R) :
    (∀ (dx dy : Nat) (sx sy : Int) (fx fy : Payload O L),
      generic_function_axpy B axpy a (some ⟨dx, .PIECEWISE, sx, fx⟩)
          (some ⟨dy, .PIECEWISE, sy, fy⟩)
        = .ret (1, ⟨dx, .PIECEWISE, sx, fx⟩, ⟨dy, .PIECEWISE, sy, fy⟩)) ∧
    (∀ (dx dy : Nat) (sx sy : Int) (ox oy : O),
      generic_function_axpy B axpy a (some ⟨dx, .POLYNOMIAL, sx, .ope ox⟩)
          (some ⟨dy, .POLYNOMIAL, sy, .ope oy⟩)
        = .ret ((axpy a ox oy).1, ⟨dx, .POLYNOMIAL, sx, .ope ox⟩,
            ⟨dy, .POLYNOMIAL, sy, .ope (axpy a ox oy).2⟩)) ∧
    (∀ (dx dy : Nat) (sx sy : Int) (lx ly : L),
      generic_function_axpy B axpy a (some ⟨dx, .LINELM, sx, .lexp lx⟩)
          (some ⟨dy, .LINELM, sy, .lexp ly⟩)
        = .ret ((B.lin_elem_exp_axpy a lx ly).1, ⟨dx, .LINELM, sx, .lexp lx⟩,
            ⟨dy, .LINELM, sy, .lexp (B.lin_elem_exp_axpy a lx ly).2⟩)) :=
  ⟨fun _ _ _ _ _ _ => rfl, fun _ _ _ _ _ _ => rfl, fun _ _ _ _ _ _ => rfl⟩

end Axpy

/-! ## Linear combinations `generic_function_lin_comb` (`functions.c`) -/

section LinComb

variable {O L R : Type}

/-- The loop `for (ii = 2; ii < n; ii++)` of `generic_function_lin_comb` on the
pair `(temp1, temp2)`: on an even `ii` the new accumulator goes to `temp2` and
`temp1` is released and set to NULL, on an odd `ii` the other way round. -/
def generic_function_lin_comb_loop [One R] (B : Backends O L R)
    (gfarray : List (Option (GenericFunction O L))) (coeffs : List R) :
    Nat → Nat → Option (GenericFunction O L) × Option (GenericFunction O L) →
      Outcome (Payload O L) (Option (GenericFunction O L) × Option (GenericFunction O L))
  | _, 0, temps => .ret temps
  | ii, k + 1, (temp1, temp2) =>
      (Outcome.ofOption coeffs[ii]?).bind fun c =>
      (Outcome.ofOption gfarray[ii]?).bind fun g =>
      if ii % 2 = 0 then
        (generic_function_daxpby B c g 1 temp1).bind fun t2 =>
          generic_function_lin_comb_loop B gfarray coeffs (ii + 1) k (none, t2)
      else
        (generic_function_daxpby B c g 1 temp2).bind fun t1 =>
          generic_function_lin_comb_loop B gfarray coeffs (ii + 1) k (t1, none)

/-- The C routine `generic_function_lin_comb(n, gfarray, coeffs)`.  After the
loop it returns `temp1` if that is not NULL, else `temp2` if that is not NULL,
else `out` after asserting that it is not NULL. -/
def generic_function_lin_comb [Zero R] [One R] (B : Backends O L R) (n : Nat)
    (gfarray : List (Option (GenericFunction O L))) (coeffs : List R) :
    Outcome (Payload O L) (GenericFunction O L) :=
  if n = 1 then
    (Outcome.ofOption coeffs[0]?).bind fun c0 =>
    (Outcome.ofOption gfarray[0]?).bind fun g0 =>
    (generic_function_daxpby B c0 g0 0 none).bind fun out =>
    match out with
    | some o => .ret o
    | none => .assertion
  else
    (Outcome.ofOption coeffs[0]?).bind fun c0 =>
    (Outcome.ofOption gfarray[0]?).bind fun g0 =>
    (Outcome.ofOption coeffs[1]?).bind fun c1 =>
    (Outcome.ofOption gfarray[1]?).bind fun g1 =>
    (generic_function_daxpby B c0 g0 c1 g1).bind fun temp1 =>
    (generic_function_lin_comb_loop B gfarray coeffs 2 (n - 2) (temp1, none)).bind fun temps =>
    match temps with
    | (some t1, _) => .ret t1
    | (none, some t2) => .ret t2
    | (none, none) => .assertion

/-- The left-to-right fold of the specification: `lin_comb_fold_acc .. m` is
the accumulator `acc_{m+1}`, with `acc_1 = daxpby(c[0], g[0], c[1], g[1])` and
`acc_i = daxpby(c[i], g[i], 1, acc_{i-1})`. -/
def lin_comb_fold_acc [One R] (B : Backends O L R)
    (g : List (Option (GenericFunction O L))) (cs : List R) :
    Nat → Outcome (Payload O L) (Option (GenericFunction O L))
  | 0 =>
      (Outcome.ofOption cs[0]?).bind fun c0 =>
      (Outcome.ofOption g[0]?).bind fun g0 =>
      (Outcome.ofOption cs[1]?).bind fun c1 =>
      (Outcome.ofOption g[1]?).bind fun g1 =>
      generic_function_daxpby B c0 g0 c1 g1
  | m + 1 =>
      (lin_comb_fold_acc B g cs m).bind fun acc =>
      (Outcome.ofOption cs[m + 2]?).bind fun ci =>
      (Outcome.ofOption g[m + 2]?).bind fun gi =>
      generic_function_daxpby B ci gi 1 acc

/-- The accumulator returned to the caller: a NULL one fails the final
assertion. -/
def lin_comb_result (acc : Option (GenericFunction O L)) :
    Outcome (Payload O L) (GenericFunction O L) :=
  match acc with
  | some t => .ret t
  | none => .assertion

/-- Where the current accumulator is when iteration `ii` starts: in `temp1`
for an even `ii`, in `temp2` for an odd one; the other variable is NULL. -/
def lin_comb_slot (ii : Nat) (acc : Option (GenericFunction O L)) :
    Option (GenericFunction O L) × Option (GenericFunction O L) :=
  if ii % 2 = 0 then (acc, none) else (none, acc)

end LinComb

section LinCombProofs

variable {O L R : Type}

set_option linter.unusedTactic false
set_option linter.unreachableTactic false

theorem Outcome.bind_assoc {P α β γ : Type} (x : Outcome P α) (k : α → Outcome P β)
    (h : β → Outcome P γ) : (x.bind k).bind h = x.bind fun v => (k v).bind h := by
  cases x <;> rfl

theorem Outcome.bind_ret {P α : Type} (x : Outcome P α) : x.bind Outcome.ret = x := by
  cases x <;> rfl

theorem Outcome.bind_congr {P α β : Type} (x : Outcome P α) (k h : α → Outcome P β)
    (e : ∀ v, k v = h v) : x.bind k = x.bind h := by
  cases x <;> simp [Outcome.bind, e]

theorem generic_function_lin_comb_loop_step [One R] (B : Backends O L R)
    (g : List (Option (GenericFunction O L))) (cs : List R) (ii k : Nat)
    (acc : Option (GenericFunction O L)) :
    generic_function_lin_comb_loop B g cs ii (k + 1) (lin_comb_slot ii acc)
      = ((Outcome.ofOption cs[ii]?).bind fun ci =>
          (Outcome.ofOption g[ii]?).bind fun gi =>
          generic_function_daxpby B ci gi 1 acc).bind fun a =>
        generic_function_lin_comb_loop B g cs (ii + 1) k (lin_comb_slot (ii + 1) a) := by
  rw [Outcome.bind_assoc]
  by_cases h : ii % 2 = 0
  · have h1 : ¬ (ii + 1) % 2 = 0 := by omega
    have hs : lin_comb_slot ii acc = (acc, none) := by rw [lin_comb_slot, if_pos h]
    have hs1 : ∀ a : Option (GenericFunction O L), lin_comb_slot (ii + 1) a = (none, a) :=
      fun a => by rw [lin_comb_slot, if_neg h1]
    rw [hs, generic_function_lin_comb_loop]
    simp only [if_pos h, hs1, Outcome.bind_assoc]
  · have h1 : (ii + 1) % 2 = 0 := by omega
    have hs : lin_comb_slot ii acc = (none, acc) := by rw [lin_comb_slot, if_neg h]
    have hs1 : ∀ a : Option (GenericFunction O L), lin_comb_slot (ii + 1) a = (a, none) :=
      fun a => by rw [lin_comb_slot, if_pos h1]
    rw [hs, generic_function_lin_comb_loop]
    simp only [if_neg h, hs1, Outcome.bind_assoc]

theorem generic_function_lin_comb_loop_eq [One R] (B : Backends O L R)
    (g : List (Option (GenericFunction O L))) (cs : List R) :
    ∀ (k m : Nat),
      ((lin_comb_fold_acc B g cs m).bind fun a =>
        generic_function_lin_comb_loop B g cs (m + 2) k (lin_comb_slot (m + 2) a))
      = (lin_comb_fold_acc B g cs (m + k)).bind fun a => .ret (lin_comb_slot (m + k + 2) a)
  | 0, m => by
      apply Outcome.bind_congr
      intro a
      simp [generic_function_lin_comb_loop]
  | k + 1, m => by
      have ih := generic_function_lin_comb_loop_eq B g cs k (m + 1)
      rw [show m + (k + 1) = m + 1 + k by omega, ← ih]
      rw [lin_comb_fold_acc, Outcome.bind_assoc]
      apply Outcome.bind_congr
      intro a
      rw [generic_function_lin_comb_loop_step]

theorem lin_comb_result_slot (ii : Nat) (acc : Option (GenericFunction O L)) :
    (match lin_comb_slot ii acc with
      | (some t1, _) => Outcome.ret t1
      | (none, some t2) => .ret t2
      | (none, none) => .assertion)
      = (lin_comb_result acc : Outcome (Payload O L) (GenericFunction O L)) := by
  unfold lin_comb_slot lin_comb_result
  by_cases h : ii % 2 = 0
  · rw [if_pos h]
    cases acc <;> rfl
  · rw [if_neg h]
    cases acc <;> rfl

theorem generic_function_lin_comb_eq [Zero R] [One R] (B : Backends O L R)
    (g : List (Option (GenericFunction O L))) (cs : List R) (m : Nat) :
    generic_function_lin_comb B (m + 2) g cs
      = (lin_comb_fold_acc B g cs m).bind lin_comb_result := by
  have h := generic_function_lin_comb_loop_eq B g cs m 0
  simp only [Nat.zero_add] at h
  have h2 : (lin_comb_fold_acc B g cs m).bind lin_comb_result
      = ((lin_comb_fold_acc B g cs m).bind fun a => .ret (lin_comb_slot (m + 2) a)).bind
          fun temps => match temps with
            | (some t1, _) => Outcome.ret t1
            | (none, some t2) => .ret t2
            | (none, none) => .assertion := by
    rw [Outcome.bind_assoc]
    apply Outcome.bind_congr
    intro a
    rw [Outcome.ret_bind, lin_comb_result_slot]
  rw [h2, ← h]
  unfold generic_function_lin_comb
  rw [if_neg (by omega)]
  simp only [lin_comb_fold_acc, Outcome.bind_assoc]
  rfl

theorem getElem?_getD_of_lt {α : Type} (l : List α) (d : α) (i : Nat) (h : i < l.length) :
    l[i]? = some (l.getD i d) := by
  rw [List.getD_eq_getElem?_getD, List.getElem?_eq_getElem h]
  rfl

theorem getD_of_getElem? {α : Type} (l : List α) (d v : α) (i : Nat) (h : l[i]? = some v) :
    l.getD i d = v := by
  rw [List.getD_eq_getElem?_getD, h]
  rfl

theorem lin_comb_fold_acc_exact [Ring R] (B : Backends O L R)
    (g : List (Option (GenericFunction O L))) (cs : List R) (n : Nat)
    (ev : GenericFunction O L → R) (good : GenericFunction O L → Prop)
    (hc : n ≤ cs.length)
    (hg : ∀ i, i < n → ∃ u, g[i]? = some (some u) ∧ good u)
    (hex : ∀ (a b : R) (x y : Option (GenericFunction O L)),
      (∀ u, x = some u → good u) → (∀ u, y = some u → good u) → (x.isSome ∨ y.isSome) →
      ∃ z, generic_function_daxpby B a x b y = .ret (some z) ∧ good z ∧
        ev z = a * x.elim 0 ev + b * y.elim 0 ev) :
    ∀ m, m + 2 ≤ n → ∃ z, lin_comb_fold_acc B g cs m = .ret (some z) ∧ good z ∧
      ev z = ∑ i in Finset.range (m + 2), cs.getD i 0 * (g.getD i none).elim 0 ev
  | 0, h => by
      obtain ⟨u0, hu0, hgood0⟩ := hg 0 (by omega)
      obtain ⟨u1, hu1, hgood1⟩ := hg 1 (by omega)
      obtain ⟨z, hz, hgz, hev⟩ := hex (cs.getD 0 0) (cs.getD 1 0) (some u0) (some u1)
        (fun u e => by cases e; exact hgood0) (fun u e => by cases e; exact hgood1)
        (Or.inl rfl)
      refine ⟨z, ?_, hgz, ?_⟩
      · rw [lin_comb_fold_acc, getElem?_getD_of_lt cs 0 0 (by omega),
          getElem?_getD_of_lt cs 0 1 (by omega), hu0, hu1]
        exact hz
      · rw [hev, Finset.sum_range_succ, Finset.sum_range_succ, Finset.sum_range_zero,
          getD_of_getElem? g none _ 0 hu0, getD_of_getElem? g none _ 1 hu1]
        simp
  | m + 1, h => by
      obtain ⟨z0, hz0, hgz0, hev0⟩ := lin_comb_fold_acc_exact B g cs n ev good hc hg hex m
        (by omega)
      obtain ⟨u, hu, hgood⟩ := hg (m + 2) (by omega)
      obtain ⟨z, hz, hgz, hev⟩ := hex (cs.getD (m + 2) 0) 1 (some u) (some z0)
        (fun u e => by cases e; exact hgood) (fun u e => by cases e; exact hgz0)
        (Or.inl rfl)
      refine ⟨z, ?_, hgz, ?_⟩
      · rw [lin_comb_fold_acc, hz0, Outcome.ret_bind,
          getElem?_getD_of_lt cs 0 (m + 2) (by omega), hu]
        exact hz
      · rw [hev, Finset.sum_range_succ _ (m + 2), ← hev0, getD_of_getElem? g none _ (m + 2) hu]
        simp [add_comm]

theorem generic_function_lin_comb_exact [Ring R] (B : Backends O L R)
    (g : List (Option (GenericFunction O L))) (cs : List R) (n : Nat)
    (ev : GenericFunction O L → R) (good : GenericFunction O L → Prop)
    (hn : 1 ≤ n) (hc : n ≤ cs.length)
    (hg : ∀ i, i < n → ∃ u, g[i]? = some (some u) ∧ good u)
    (hex : ∀ (a b : R) (x y : Option (GenericFunction O L)),
      (∀ u, x = some u → good u) → (∀ u, y = some u → good u) → (x.isSome ∨ y.isSome) →
      ∃ z, generic_function_daxpby B a x b y = .ret (some z) ∧ good z ∧
        ev z = a * x.elim 0 ev + b * y.elim 0 ev) :
    ∃ z, generic_function_lin_comb B n g cs = .ret z ∧ good z ∧
      ev z = ∑ i in Finset.range n, cs.getD i 0 * (g.getD i none).elim 0 ev := by
  by_cases h1 : n = 1
  · subst h1
    obtain ⟨u0, hu0, hgood0⟩ := hg 0 (by omega)
    obtain ⟨z, hz, hgz, hev⟩ := hex (cs.getD 0 0) 0 (some u0) none
      (fun u e => by cases e; exact hgood0) (fun u e => by cases e) (Or.inl rfl)
    refine ⟨z, ?_, hgz, ?_⟩
    · unfold generic_function_lin_comb
      rw [if_pos rfl, getElem?_getD_of_lt cs 0 0 (by omega), hu0]
      simp only [Outcome.ofOption, Outcome.ret_bind, hz]
    · rw [hev, Finset.sum_range_one, getD_of_getElem? g none _ 0 hu0]
      simp
  · obtain ⟨m, rfl⟩ : ∃ m, n = m + 2 := ⟨n - 2, by omega⟩
    obtain ⟨z, hz, hgz, hev⟩ := lin_comb_fold_acc_exact B g cs (m + 2) ev good hc hg hex m
      (Nat.le_refl _)
    refine ⟨z, ?_, hgz, hev⟩
    rw [generic_function_lin_comb_eq, hz]
    rfl

/-- C23: for arrays `g`, `c` whatever, `generic_function_lin_comb(1, g, c)`
returns the result of `daxpby(c[0], g[0], 0, NULL)`, and for `n = m + 2`
it returns the accumulator `acc_{n-1}` of the fold `acc_1 = daxpby(c[0], g[0],
c[1], g[1])`, `acc_i = daxpby(c[i], g[i], 1, acc_{i-1})` (a NULL one fails the
final assertion); when the loop ends that accumulator is in the variable last
assigned and the other variable, released, is NULL.  When moreover `n ≥ 1`
functions and coefficients are given, the functions belong to a family `good`
on which the combinator is exact for a valuation `ev` (the result of `daxpby(a,
x, b, y)` is in the family and has value `a * ev x + b * ev y`, a NULL operand
counting for 0), then the call returns a function of the family whose value is
the sum of `c[i] * ev g[i]` over `i < n`. -/
theorem generic_function_lin_comb_fold [Ring R] (B : Backends O L R)
    (g : List (Option (GenericFunction O L))) (cs : List R) (n : Nat)
    (ev : GenericFunction O L → R) (good : GenericFunction O L → Prop)
    (hn : 1 ≤ n) (hc : cs.length = n)
    (hg : ∀ i, i < n → ∃ u, g[i]? = some (some u) ∧ good u)
    (hex : ∀ (a b : R) (x y : Option (GenericFunction O L)),
      (∀ u, x = some u → good u) → (∀ u, y = some u → good u) → (x.isSome ∨ y.isSome) →
      ∃ z, generic_function_daxpby B a x b y = .ret (some z) ∧ good z ∧
        ev z = a * x.elim 0 ev + b * y.elim 0 ev) :
    (∀ (g1 : List (Option (GenericFunction O L))) (c1 : List R),
      generic_function_lin_comb B 1 g1 c1
        = ((Outcome.ofOption c1[0]?).bind fun c0 =>
            (Outcome.ofOption g1[0]?).bind fun g0 =>
            generic_function_daxpby B c0 g0 0 none).bind lin_comb_result) ∧
    (∀ (g1 : List (Option (GenericFunction O L))) (c1 : List R) (m : Nat),
      generic_function_lin_comb B (m + 2) g1 c1
        = (lin_comb_fold_acc B g1 c1 m).bind lin_comb_result) ∧
    (∀ (g1 : List (Option (GenericFunction O L))) (c1 : List R) (m : Nat),
      ((lin_comb_fold_acc B g1 c1 0).bind fun temp1 =>
        generic_function_lin_comb_loop B g1 c1 2 m (temp1, none))
        = (lin_comb_fold_acc B g1 c1 m).bind fun acc =>
            .ret (if m % 2 = 0 then (acc, none) else (none, acc))) ∧
    ∃ z, generic_function_lin_comb B n g cs = .ret z ∧ good z ∧
      ev z = ∑ i in Finset.range n, cs.getD i 0 * (g.getD i none).elim 0 ev := by
  refine ⟨?_, fun g1 c1 m => generic_function_lin_comb_eq B g1 c1 m, ?_, ?_⟩
  · intro g1 c1
    unfold generic_function_lin_comb
    rw [if_pos rfl]
    simp only [Outcome.bind_assoc]
    rfl
  · intro g1 c1 m
    have h := generic_function_lin_comb_loop_eq B g1 c1 m 0
    simp only [Nat.zero_add] at h
    have e : ∀ a : Option (GenericFunction O L),
        lin_comb_slot (m + 2) a = if m % 2 = 0 then (a, none) else (none, a) := by
      intro a
      unfold lin_comb_slot
      by_cases hm : m % 2 = 0
      · rw [if_pos hm, if_pos (by omega)]
      · rw [if_neg hm, if_neg (by omega)]
    simp only [e] at h
    rw [← h]
    rfl
  · exact generic_function_lin_comb_exact B g cs n ev good hn (by omega) hg hex

/-- Backend routines on constant functions: an expansion is the integer it is
equal to everywhere. -/
def constBackends : Backends Int Unit Int where
  orth_poly_expansion_copy := fun o => o
  orth_poly_expansion_scale := fun a o => a * o
  orth_poly_expansion_ptype := fun _ => 0
  orth_poly_expansion_daxpby := fun a x b y => a * x.getD 0 + b * y.getD 0
  orth_poly_expansion_prod := fun x y => x * y
  lin_elem_exp_copy := fun l => l
  lin_elem_exp_scale := fun _ l => l
  lin_elem_exp_axpy := fun _ _ y => (0, y)
  lin_elem_exp_prod := fun _ y => y
  piecewise_poly_scale := fun _ p => p
  piecewise_poly_daxpby := fun _ x _ y => node ((x.toList) ++ (y.toList))
  piecewise_poly_prod := fun x y => node [x, y]

/-- The value of a constant polynomial function. -/
def constValue (u : GenericFunction Int Unit) : Int :=
  match u.f with
  | .ope o => o
  | _ => 0

/-- The function is of class `POLYNOMIAL` and holds an expansion. -/
def isConstPoly (u : GenericFunction Int Unit) : Prop :=
  u.fc = .POLYNOMIAL ∧ ∃ o, u.f = .ope o

theorem constBackends_exact (a b : Int) (x y : Option (GenericFunction Int Unit))
    (hx : ∀ u, x = some u → isConstPoly u) (hy : ∀ u, y = some u → isConstPoly u)
    (hxy : x.isSome ∨ y.isSome) :
    ∃ z, generic_function_daxpby constBackends a x b y = .ret (some z) ∧ isConstPoly z ∧
      constValue z = a * x.elim 0 constValue + b * y.elim 0 constValue := by
  cases x with
  | none =>
    cases y with
    | none => simp at hxy
    | some v =>
      obtain ⟨d, fc, st, f⟩ := v
      obtain ⟨h1, o, h2⟩ := hy _ rfl
      simp only at h1 h2
      subst h1 h2
      exact ⟨_, rfl, ⟨rfl, _, rfl⟩, by
        simp [constValue, constBackends, GenericFunction.setF, Option.elim]⟩
  | some u =>
    obtain ⟨d, fc, st, f⟩ := u
    obtain ⟨h1, o, h2⟩ := hx _ rfl
    simp only at h1 h2
    subst h1 h2
    cases y with
    | none =>
      exact ⟨_, rfl, ⟨rfl, _, rfl⟩, by
        simp [constValue, constBackends, GenericFunction.setF, Option.elim]⟩
    | some v =>
      obtain ⟨d1, fc1, st1, f1⟩ := v
      obtain ⟨h3, o1, h4⟩ := hy _ rfl
      simp only at h3 h4
      subst h3 h4
      exact ⟨_, rfl, ⟨rfl, _, rfl⟩, by
        simp [constValue, constBackends, GenericFunction.setF, Option.elim]⟩

/-- Three constant functions, equal to 2, 3 and 5. -/
def constSample : List (Option (GenericFunction Int Unit)) :=
  [some ⟨1, .POLYNOMIAL, 0, .ope 2⟩, some ⟨1, .POLYNOMIAL, 0, .ope 3⟩,
    some ⟨1, .POLYNOMIAL, 0, .ope 5⟩]

theorem generic_function_lin_comb_fold_witness :
    1 ≤ 3 ∧ [(1 : Int), -1, 4].length = 3 ∧
    (∀ i, i < 3 → ∃ u, constSample[i]? = some (some u) ∧ isConstPoly u) ∧
    ((∀ (g1 : List (Option (GenericFunction Int Unit))) (c1 : List Int),
      generic_function_lin_comb constBackends 1 g1 c1
        = ((Outcome.ofOption c1[0]?).bind fun c0 =>
            (Outcome.ofOption g1[0]?).bind fun g0 =>
            generic_function_daxpby constBackends c0 g0 0 none).bind lin_comb_result) ∧
    (∀ (g1 : List (Option (GenericFunction Int Unit))) (c1 : List Int) (m : Nat),
      generic_function_lin_comb constBackends (m + 2) g1 c1
        = (lin_comb_fold_acc constBackends g1 c1 m).bind lin_comb_result) ∧
    (∀ (g1 : List (Option (GenericFunction Int Unit))) (c1 : List Int) (m : Nat),
      ((lin_comb_fold_acc constBackends g1 c1 0).bind fun temp1 =>
        generic_function_lin_comb_loop constBackends g1 c1 2 m (temp1, none))
        = (lin_comb_fold_acc constBackends g1 c1 m).bind fun acc =>
            .ret (if m % 2 = 0 then (acc, none) else (none, acc))) ∧
    ∃ z, generic_function_lin_comb constBackends 3 constSample [1, -1, 4] = .ret z ∧
      isConstPoly z ∧
      constValue z = ∑ i in Finset.range 3,
        [(1 : Int), -1, 4].getD i 0 * (constSample.getD i none).elim 0 constValue) :=
  have hg : ∀ i, i < 3 → ∃ u, constSample[i]? = some (some u) ∧ isConstPoly u := by
    intro i hi
    interval_cases i <;> exact ⟨_, rfl, rfl, _, rfl⟩
  ⟨by decide, rfl, hg,
    generic_function_lin_comb_fold constBackends constSample [1, -1, 4] 3 constValue
      isConstPoly (by decide) rfl hg constBackends_exact⟩

end LinCombProofs

/-! ## Evaluation of a piecewise polynomial (`piecewisepoly.c`) -/

section Eval

variable {R : Type}

mutual
/-- The C routine `piecewise_poly_eval(poly, x)`; `orth_poly_expansion_eval` is
the evaluation of the polynomial backend. -/
def piecewise_poly_eval [LinearOrderedField R]
    (orth_poly_expansion_eval : OrthPolyExpansion R → R → R) :
    PiecewisePoly (OrthPolyExpansion R) → R → Outcome Unit R
  | leaf o, x => .ret (orth_poly_expansion_eval o x)
  | node bs, x => piecewise_poly_eval_loop orth_poly_expansion_eval bs x
/-- The loop of `piecewise_poly_eval` over the branches still to be tried: the
first one with `x <= piecewise_poly_ub(branch)` is evaluated; when none is
left, `out` still holds its initial value `0.1234567890`. -/
def piecewise_poly_eval_loop [LinearOrderedField R]
    (orth_poly_expansion_eval : OrthPolyExpansion R → R → R) :
    List (PiecewisePoly (OrthPolyExpansion R)) → R → Outcome Unit R
  | [], _ => .ret (1234567890 / 10000000000)
  | b :: rest, x =>
      (Outcome.ofOption (piecewise_poly_ub b)).bind fun ub =>
        if x ≤ ub then piecewise_poly_eval orth_poly_expansion_eval b x
        else piecewise_poly_eval_loop orth_poly_expansion_eval rest x
end

set_option linter.unusedTactic false
set_option linter.unreachableTactic false

theorem piecewise_poly_ub_last_leaves :
    ∀ (os : List (OrthPolyExpansion R)),
      piecewise_poly_ub_last (os.map leaf) = os.getLast?.map fun o => o.upper_bound
  | [] => rfl
  | [o] => by simp [piecewise_poly_ub_last, piecewise_poly_ub]
  | o :: o1 :: rest => by
      have ih := piecewise_poly_ub_last_leaves (o1 :: rest)
      simp only [List.map_cons] at ih
      simp only [List.map_cons, piecewise_poly_ub_last, ih]
      simp [List.getLast?_cons_cons]

theorem piecewise_poly_lb_leaves (os : List (OrthPolyExpansion R)) :
    piecewise_poly_lb (node (os.map leaf)) = os.head?.map fun o => o.lower_bound := by
  cases os with
  | nil => rfl
  | cons o rest => simp [piecewise_poly_lb]

end Eval

section EvalProofs

variable {R : Type} [LinearOrderedField R]

set_option linter.unusedTactic false
set_option linter.unreachableTactic false

theorem piecewise_poly_eval_loop_lowest (ev : OrthPolyExpansion R → R → R) (x : R) :
    ∀ (bs : List (PiecewisePoly (OrthPolyExpansion R))) (i : Nat)
      (b : PiecewisePoly (OrthPolyExpansion R)) (ub : R),
      bs[i]? = some b → piecewise_poly_ub b = some ub → x ≤ ub →
      (∀ j, j < i → ∃ c u, bs[j]? = some c ∧ piecewise_poly_ub c = some u ∧ u < x) →
      piecewise_poly_eval_loop ev bs x = piecewise_poly_eval ev b x
  | [], i, b, ub, hb, _, _, _ => by simp at hb
  | c :: rest, 0, b, ub, hb, hub, hx, _ => by
      simp only [List.getElem?_cons_zero, Option.some.injEq] at hb
      subst hb
      rw [piecewise_poly_eval_loop, hub]
      simp only [Outcome.ofOption, Outcome.ret_bind, if_pos hx]
  | c :: rest, i + 1, b, ub, hb, hub, hx, hlow => by
      obtain ⟨c0, u0, hc0, hu0, hlt⟩ := hlow 0 (by omega)
      simp only [List.getElem?_cons_zero, Option.some.injEq] at hc0
      subst hc0
      rw [piecewise_poly_eval_loop, hu0]
      simp only [Outcome.ofOption, Outcome.ret_bind, if_neg (not_le.mpr hlt)]
      exact piecewise_poly_eval_loop_lowest ev x rest i b ub (by simpa using hb) hub hx
        (fun j hj => by
          obtain ⟨c1, u1, hc1, hu1, hlt1⟩ := hlow (j + 1) (by omega)
          exact ⟨c1, u1, by simpa using hc1, hu1, hlt1⟩)

theorem piecewise_poly_eval_loop_beyond (ev : OrthPolyExpansion R → R → R) (y : R) :
    ∀ (bs : List (PiecewisePoly (OrthPolyExpansion R))),
      (∀ c, c ∈ bs → ∃ u, piecewise_poly_ub c = some u ∧ u < y) →
      piecewise_poly_eval_loop ev bs y = .ret (1234567890 / 10000000000)
  | [], _ => by rw [piecewise_poly_eval_loop]
  | c :: rest, h => by
      obtain ⟨u, hu, hlt⟩ := h c (List.mem_cons_self _ _)
      rw [piecewise_poly_eval_loop, hu]
      simp only [Outcome.ofOption, Outcome.ret_bind, if_neg (not_le.mpr hlt)]
      exact piecewise_poly_eval_loop_beyond ev y rest
        (fun d hd => h d (List.mem_cons_of_mem _ hd))

theorem lowest_containing (os : List (OrthPolyExpansion R)) (x u : R)
    (hu : (os.getLast?.map fun o => o.upper_bound) = some u) (hx : x ≤ u) :
    ∃ (i : Nat) (o : OrthPolyExpansion R), os[i]? = some o ∧ x ≤ o.upper_bound ∧
      ∀ j, j < i → ∃ c : OrthPolyExpansion R, os[j]? = some c ∧ c.upper_bound < x := by
  classical
  have hex : ∃ (i : Nat), ∃ o : OrthPolyExpansion R, os[i]? = some o ∧ x ≤ o.upper_bound := by
    cases hl : os.getLast? with
    | none => rw [hl] at hu; simp at hu
    | some o =>
      rw [hl] at hu
      simp only [Option.map_some', Option.some.injEq] at hu
      rw [List.getLast?_eq_getElem?] at hl
      exact ⟨_, o, hl, by rw [hu]; exact hx⟩
  refine ⟨Nat.find hex, ?_⟩
  obtain ⟨o, ho, hle⟩ := Nat.find_spec hex
  refine ⟨o, ho, hle, ?_⟩
  intro j hj
  have hlen : Nat.find hex < os.length := by
    by_contra hn
    rw [List.getElem?_eq_none (by omega)] at ho
    cases ho
  have hjl : j < os.length := by omega
  refine ⟨os[j], List.getElem?_eq_getElem hjl, ?_⟩
  by_contra hn
  exact Nat.find_min hex hj ⟨os[j], List.getElem?_eq_getElem hjl, not_lt.mp hn⟩

/-- C26: for an interior node with children `bs` and a point `x`, if child
`i` is the lowest-indexed one whose upper bound is at least `x`, then
`piecewise_poly_eval` on the node returns what it returns on that child; at a
point `y` above the upper bound of every child it returns the placeholder
`0.1234567890`; and for a node whose children are the leaves `os`, contiguous
(`os[j].upper_bound = os[j+1].lower_bound`), at a point `z` between the lower
and the upper bound of the node, it returns the value at `z` of the leftmost
leaf `o` with `o.lower_bound ≤ z ≤ o.upper_bound`. -/
theorem piecewise_poly_eval_lowest_child (ev : OrthPolyExpansion R → R → R)
    (bs : List (PiecewisePoly (OrthPolyExpansion R))) (x : R) (i : Nat)
    (b : PiecewisePoly (OrthPolyExpansion R)) (ub : R)
    (hb : bs[i]? = some b) (hub : piecewise_poly_ub b = some ub) (hx : x ≤ ub)
    (hlow : ∀ j, j < i → ∃ c u, bs[j]? = some c ∧ piecewise_poly_ub c = some u ∧ u < x)
    (y : R) (hy : ∀ c, c ∈ bs → ∃ u, piecewise_poly_ub c = some u ∧ u < y)
    (os : List (OrthPolyExpansion R)) (z l u : R)
    (hcont : ∀ j o1 o2, os[j]? = some o1 → os[j + 1]? = some o2 →
      o1.upper_bound = o2.lower_bound)
    (hl : piecewise_poly_lb (node (os.map leaf)) = some l)
    (hu : piecewise_poly_ub (node (os.map leaf)) = some u) (hlz : l ≤ z) (hzu : z ≤ u) :
    piecewise_poly_eval ev (node bs) x = piecewise_poly_eval ev b x ∧
    piecewise_poly_eval ev (node bs) y = .ret (1234567890 / 10000000000) ∧
    ∃ (k : Nat) (o : OrthPolyExpansion R), os[k]? = some o ∧ o.lower_bound ≤ z ∧
      z ≤ o.upper_bound ∧
      (∀ j, j < k → ∃ c : OrthPolyExpansion R, os[j]? = some c ∧ c.upper_bound < z) ∧
      piecewise_poly_eval ev (node (os.map leaf)) z = .ret (ev o z) := by
  refine ⟨?_, ?_, ?_⟩
  · rw [piecewise_poly_eval]
    exact piecewise_poly_eval_loop_lowest ev x bs i b ub hb hub hx hlow
  · rw [piecewise_poly_eval]
    exact piecewise_poly_eval_loop_beyond ev y bs hy
  · rw [piecewise_poly_ub, piecewise_poly_ub_last_leaves] at hu
    rw [piecewise_poly_lb_leaves] at hl
    obtain ⟨k, o, hk, hle, hmin⟩ := lowest_containing os z u hu hzu
    refine ⟨k, o, hk, ?_, hle, hmin, ?_⟩
    · cases k with
      | zero =>
        rw [List.head?_eq_getElem?, hk] at hl
        simp only [Option.map_some', Option.some.injEq] at hl
        rw [hl]
        exact hlz
      | succ k =>
        obtain ⟨c, hc, hlt⟩ := hmin k (by omega)
        rw [← hcont k c o hc hk]
        exact le_of_lt hlt
    · rw [piecewise_poly_eval]
      rw [piecewise_poly_eval_loop_lowest ev z (os.map leaf) k (leaf o) o.upper_bound
        (by rw [List.getElem?_map, hk]; rfl) rfl hle
        (fun j hj => by
          obtain ⟨c, hc, hlt⟩ := hmin j hj
          exact ⟨leaf c, c.upper_bound, by rw [List.getElem?_map, hc]; rfl, rfl, hlt⟩)]
      rw [piecewise_poly_eval]

/-- Two constant leaves on `[0, 1]` and `[1, 2]`. -/
def evalSample : List (OrthPolyExpansion ℚ) :=
  [⟨0, 1, 0, 1, [7]⟩, ⟨0, 1, 1, 2, [9]⟩]

/-- The evaluation of a constant expansion: its first coefficient. -/
def headCoeff (o : OrthPolyExpansion ℚ) (_ : ℚ) : ℚ := o.coeff.headD 0

theorem piecewise_poly_eval_lowest_child_witness :
    (evalSample.map leaf)[1]? = some (leaf ⟨0, 1, 1, 2, [9]⟩) ∧
    piecewise_poly_ub (leaf (⟨0, 1, 1, 2, [9]⟩ : OrthPolyExpansion ℚ)) = some 2 ∧
    (3 / 2 : ℚ) ≤ 2 ∧
    (∀ j, j < 1 → ∃ c u, (evalSample.map leaf)[j]? = some c ∧
      piecewise_poly_ub c = some u ∧ u < (3 / 2 : ℚ)) ∧
    (∀ c, c ∈ evalSample.map leaf → ∃ u, piecewise_poly_ub c = some u ∧ u < (3 : ℚ)) ∧
    (∀ j o1 o2, evalSample[j]? = some o1 → evalSample[j + 1]? = some o2 →
      o1.upper_bound = o2.lower_bound) ∧
    piecewise_poly_lb (node (evalSample.map leaf)) = some 0 ∧
    piecewise_poly_ub (node (evalSample.map leaf)) = some 2 ∧ (0 : ℚ) ≤ 1 ∧ (1 : ℚ) ≤ 2 ∧
    piecewise_poly_eval headCoeff (node (evalSample.map leaf)) (3 / 2)
      = piecewise_poly_eval headCoeff (leaf ⟨0, 1, 1, 2, [9]⟩) (3 / 2) ∧
    piecewise_poly_eval headCoeff (node (evalSample.map leaf)) 3
      = .ret (1234567890 / 10000000000) ∧
    ∃ (k : Nat) (o : OrthPolyExpansion ℚ), evalSample[k]? = some o ∧ o.lower_bound ≤ 1 ∧
      1 ≤ o.upper_bound ∧
      (∀ j, j < k → ∃ c : OrthPolyExpansion ℚ, evalSample[j]? = some c ∧ c.upper_bound < 1) ∧
      piecewise_poly_eval headCoeff (node (evalSample.map leaf)) 1 = .ret (headCoeff o 1) :=
  have hlow : ∀ j, j < 1 → ∃ c u, (evalSample.map leaf)[j]? = some c ∧
      piecewise_poly_ub c = some u ∧ u < (3 / 2 : ℚ) := by
    intro j hj
    interval_cases j
    exact ⟨_, 1, rfl, rfl, by norm_num⟩
  have hy : ∀ c, c ∈ evalSample.map leaf →
      ∃ u, piecewise_poly_ub c = some u ∧ u < (3 : ℚ) := by
    intro c hc
    simp only [evalSample, List.map_cons, List.map_nil, List.mem_cons, List.mem_singleton,
      List.not_mem_nil, or_false] at hc
    rcases hc with rfl | rfl
    · exact ⟨1, rfl, by norm_num⟩
    · exact ⟨2, rfl, by norm_num⟩
  have hcont : ∀ j o1 o2, evalSample[j]? = some o1 → evalSample[j + 1]? = some o2 →
      o1.upper_bound = o2.lower_bound := by
    intro j o1 o2 h1 h2
    cases j with
    | zero =>
      simp only [evalSample, List.getElem?_cons_zero, Option.some.injEq] at h1
      simp only [evalSample, Nat.zero_add, List.getElem?_cons_succ, List.getElem?_cons_zero,
        Option.some.injEq] at h2
      subst h1 h2
      rfl
    | succ j => simp [evalSample] at h2
  ⟨rfl, rfl, by norm_num, hlow, hy, hcont, rfl, rfl, by norm_num, by norm_num,
    piecewise_poly_eval_lowest_child headCoeff (evalSample.map leaf) (3 / 2) 1
      (leaf ⟨0, 1, 1, 2, [9]⟩) 2 rfl rfl (by norm_num) hlow 3 hy evalSample 1 0 2 hcont rfl rfl
      (by norm_num) (by norm_num)⟩

end EvalProofs

/-! ## The size-query mode of `serialize_piecewise_poly` -/

section PwSizeQuery

variable {O : Type}

set_option linter.unusedTactic false
set_option linter.unreachableTactic false

theorem nonemptyInteriorList_mem :
    ∀ (bs : List (PiecewisePoly O)), nonemptyInteriorList bs = true →
      ∀ b, b ∈ bs → nonemptyInterior b = true
  | [], _, b, hb => by simp at hb
  | c :: rest, h, b, hb => by
      simp only [nonemptyInteriorList, Bool.and_eq_true] at h
      rcases List.mem_cons.mp hb with rfl | hb
      · exact h.1
      · exact nonemptyInteriorList_mem rest h.2 b hb

theorem length_le_flatten_of_mem {α : Type} :
    ∀ (ls : List (List α)) (l : List α), l ∈ ls → l.length ≤ ls.flatten.length
  | [], l, h => by simp at h
  | k :: rest, l, h => by
      rw [List.flatten_cons, List.length_append]
      rcases List.mem_cons.mp h with rfl | h
      · omega
      · have := length_le_flatten_of_mem rest l h
        omega

/-- C28: for a tree `p` whose interior nodes have at least one child, written
by a backend whose reported size is the number of bytes it writes, and whose
serialization fits a `size_t`: the size `serialize_piecewise_poly` stores in
size-query mode is the number of bytes write mode emits; for a leaf it is
`sizeof(int)` plus the backend size; for an interior node every child has a
size, and the node's size is `sizeof(int) + sizeof(size_t)` plus the sum of the
children's sizes. -/
theorem serialize_piecewise_poly_size_query (cod : BackendCodec O) (hse : cod.SizeExact)
    (p : PiecewisePoly O) (hne : nonemptyInterior p = true)
    (hlen : (serialize_piecewise_poly cod [] p).length < SIZE_MOD) :
    serialize_piecewise_poly_size cod p = some (serialize_piecewise_poly cod [] p).length ∧
    (∀ o, p = leaf o → serialize_piecewise_poly_size cod p = some (sizeof_int + cod.size o)) ∧
    (∀ bs, p = node bs → ∃ sizes : List Nat,
      bs.map (serialize_piecewise_poly_size cod) = sizes.map some ∧
      serialize_piecewise_poly_size cod p = some (sizeof_int + sizeof_size_t + sizes.sum)) := by
  have hsize := pw_size_exact cod hse p hne hlen
  refine ⟨hsize, ?_, ?_⟩
  · intro o ho
    subst ho
    rw [hsize, serialize_piecewise_poly_leaf, List.length_append, serialize_int_length, hse o]
  · intro bs hbs
    subst hbs
    have hne2 : nonemptyInteriorList bs = true := by
      cases bs with
      | nil => simp [nonemptyInterior] at hne
      | cons b rest =>
        simpa only [nonemptyInterior, List.isEmpty_cons, Bool.not_false, Bool.true_and] using hne
    rw [serialize_piecewise_poly_node] at hlen
    simp only [List.length_append, serialize_int_length, serialize_size_t_length] at hlen
    refine ⟨bs.map fun b => (serialize_piecewise_poly cod [] b).length, ?_, ?_⟩
    · rw [List.map_map]
      apply List.map_congr_left
      intro b hb
      have hle := length_le_flatten_of_mem (bs.map (serialize_piecewise_poly cod [])) _
        (List.mem_map_of_mem _ hb)
      exact pw_size_exact cod hse b (nonemptyInteriorList_mem bs hne2 b hb) (by omega)
    · rw [hsize, serialize_piecewise_poly_node]
      simp only [List.length_append, serialize_int_length, serialize_size_t_length,
        List.length_flatten, List.map_map]
      rw [Nat.add_assoc]
      rfl

theorem serialize_piecewise_poly_size_query_witness :
    boolCodec.SizeExact ∧
    nonemptyInterior (node [leaf true, node [leaf false]]) = true ∧
    (serialize_piecewise_poly boolCodec [] (node [leaf true, node [leaf false]])).length
      < SIZE_MOD ∧
    (serialize_piecewise_poly_size boolCodec (node [leaf true, node [leaf false]])
        = some (serialize_piecewise_poly boolCodec []
            (node [leaf true, node [leaf false]])).length ∧
      (∀ o, node [leaf true, node [leaf false]] = leaf o →
        serialize_piecewise_poly_size boolCodec (node [leaf true, node [leaf false]])
          = some (sizeof_int + boolCodec.size o)) ∧
      (∀ bs, node [leaf true, node [leaf false]] = node bs → ∃ sizes : List Nat,
        bs.map (serialize_piecewise_poly_size boolCodec) = sizes.map some ∧
        serialize_piecewise_poly_size boolCodec (node [leaf true, node [leaf false]])
          = some (sizeof_int + sizeof_size_t + sizes.sum))) :=
  ⟨boolCodec_sizeExact, by decide, by decide,
    serialize_piecewise_poly_size_query boolCodec boolCodec_sizeExact
      (node [leaf true, node [leaf false]]) (by decide) (by decide)⟩

end PwSizeQuery

/-! ## Extrema and integral of a piecewise polynomial (`piecewisepoly.c`) -/

section AbsmaxIntegrate

variable {O R : Type}

mutual
/-- The C routine `piecewise_poly_absmax(p, x)`: the value returned and the
location stored in `*x`.  `orth_poly_expansion_absmax` is the routine of the
polynomial backend, giving value and location on a leaf.  An interior node
starts from `branches[0]`, which does not exist when `nbranches == 0`. -/
def piecewise_poly_absmax [LinearOrder R] (orth_poly_expansion_absmax : O → R × R) :
    PiecewisePoly O → Outcome Unit (R × R)
  | leaf o => .ret (orth_poly_expansion_absmax o)
  | node [] => .undefined
  | node (b :: rest) =>
      (piecewise_poly_absmax orth_poly_expansion_absmax b).bind fun final =>
        piecewise_poly_absmax_loop orth_poly_expansion_absmax final rest
/-- The loop `for (ii = 1; ii < p->nbranches; ii++)` of `piecewise_poly_absmax`
on the pair `(valfinal, locfinal)`. -/
def piecewise_poly_absmax_loop [LinearOrder R] (orth_poly_expansion_absmax : O → R × R) :
    R × R → List (PiecewisePoly O) → Outcome Unit (R × R)
  | final, [] => .ret final
  | final, b :: rest =>
      (piecewise_poly_absmax orth_poly_expansion_absmax b).bind fun v2 =>
        piecewise_poly_absmax_loop orth_poly_expansion_absmax
          (if v2.1 > final.1 then v2 else final) rest
end

mutual
/-- The C routine `piecewise_poly_integrate(poly)`; `orth_poly_expansion_integrate`
is the routine of the polynomial backend. -/
def piecewise_poly_integrate [Zero R] [Add R] (orth_poly_expansion_integrate : O → R) :
    PiecewisePoly O → R
  | leaf o => orth_poly_expansion_integrate o
  | node bs => piecewise_poly_integrate_loop orth_poly_expansion_integrate 0 bs
/-- The loop of `piecewise_poly_integrate` on the running sum `out`. -/
def piecewise_poly_integrate_loop [Zero R] [Add R] (orth_poly_expansion_integrate : O → R) :
    R → List (PiecewisePoly O) → R
  | out, [] => out
  | out, b :: rest =>
      piecewise_poly_integrate_loop orth_poly_expansion_integrate
        (out + piecewise_poly_integrate orth_poly_expansion_integrate b) rest
end

/-- The pair `r` is the value and location the leftmost leaf of `l` with the
largest value gives: it comes from the leaf at some index `i`, no leaf has a
larger value, and every leaf before `i` has a smaller one. -/
def LeftmostMax [LinearOrder R] (am : O → R × R) (l : List O) (r : R × R) : Prop :=
  ∃ (i : Nat) (o : O), l[i]? = some o ∧ am o = r ∧ (∀ c, c ∈ l → (am c).1 ≤ r.1) ∧
    ∀ (j : Nat) (c : O), j < i → l[j]? = some c → (am c).1 < r.1

end AbsmaxIntegrate

section AbsmaxProofs

variable {O R : Type}

set_option linter.unusedTactic false
set_option linter.unreachableTactic false

theorem LeftmostMax.append [LinearOrder R] (am : O → R × R) (l1 l2 : List O) (r1 r2 : R × R)
    (h1 : LeftmostMax am l1 r1) (h2 : LeftmostMax am l2 r2) :
    LeftmostMax am (l1 ++ l2) (if r2.1 > r1.1 then r2 else r1) := by
  obtain ⟨i1, o1, hi1, ho1, hmax1, hleft1⟩ := h1
  obtain ⟨i2, o2, hi2, ho2, hmax2, hleft2⟩ := h2
  have hlen1 : i1 < l1.length := by
    by_contra hn
    rw [List.getElem?_eq_none (by omega)] at hi1
    cases hi1
  by_cases h : r2.1 > r1.1
  · rw [if_pos h]
    refine ⟨l1.length + i2, o2, ?_, ho2, ?_, ?_⟩
    · rw [List.getElem?_append_right (by omega)]
      simpa using hi2
    · intro c hc
      rcases List.mem_append.mp hc with hc | hc
      · exact le_of_lt (lt_of_le_of_lt (hmax1 c hc) h)
      · exact hmax2 c hc
    · intro j c hj hc
      by_cases hjl : j < l1.length
      · rw [List.getElem?_append_left hjl] at hc
        exact lt_of_le_of_lt (hmax1 c (List.getElem?_mem hc)) h
      · rw [List.getElem?_append_right (by omega)] at hc
        exact hleft2 (j - l1.length) c (by omega) hc
  · rw [if_neg h]
    refine ⟨i1, o1, ?_, ho1, ?_, ?_⟩
    · rw [List.getElem?_append_left hlen1]
      exact hi1
    · intro c hc
      rcases List.mem_append.mp hc with hc | hc
      · exact hmax1 c hc
      · exact le_trans (hmax2 c hc) (not_lt.mp h)
    · intro j c hj hc
      rw [List.getElem?_append_left (by omega)] at hc
      exact hleft1 j c hj hc

mutual
theorem piecewise_poly_absmax_leftmost [LinearOrder R] (am : O → R × R) :
    (p : PiecewisePoly O) → nonemptyInterior p = true →
    ∃ r, piecewise_poly_absmax am p = .ret r ∧ LeftmostMax am (leaves p) r
  | leaf o => by
      intro _
      refine ⟨am o, by rw [piecewise_poly_absmax], 0, o, by simp, rfl, ?_, ?_⟩
      · intro c hc
        simp only [leaves_leaf, List.mem_singleton] at hc
        rw [hc]
      · intro j c hj
        omega
  | node [] => by
      intro h
      simp [nonemptyInterior] at h
  | node (b :: rest) => by
      intro h
      simp only [nonemptyInterior, nonemptyInteriorList, List.isEmpty_cons, Bool.not_false,
        Bool.true_and, Bool.and_eq_true] at h
      obtain ⟨r1, hr1, hl1⟩ := piecewise_poly_absmax_leftmost am b h.1
      obtain ⟨r, hr, hl⟩ := piecewise_poly_absmax_loop_leftmost am rest h.2 (leaves b) r1 hl1
      refine ⟨r, ?_, ?_⟩
      · rw [piecewise_poly_absmax, hr1]
        exact hr
      · simpa [leaves, leavesList] using hl
theorem piecewise_poly_absmax_loop_leftmost [LinearOrder R] (am : O → R × R) :
    (bs : List (PiecewisePoly O)) → nonemptyInteriorList bs = true →
    ∀ (pre : List O) (final : R × R), LeftmostMax am pre final →
    ∃ r, piecewise_poly_absmax_loop am final bs = .ret r ∧
      LeftmostMax am (pre ++ leavesList bs) r
  | [] => by
      intro _ pre final hpre
      exact ⟨final, by rw [piecewise_poly_absmax_loop], by simpa [leavesList] using hpre⟩
  | b :: rest => by
      intro h pre final hpre
      simp only [nonemptyInteriorList, Bool.and_eq_true] at h
      obtain ⟨r2, hr2, hl2⟩ := piecewise_poly_absmax_leftmost am b h.1
      obtain ⟨r, hr, hl⟩ := piecewise_poly_absmax_loop_leftmost am rest h.2 (pre ++ leaves b)
        (if r2.1 > final.1 then r2 else final) (LeftmostMax.append am pre (leaves b) final r2
          hpre hl2)
      refine ⟨r, ?_, ?_⟩
      · rw [piecewise_poly_absmax_loop, hr2]
        exact hr
      · simpa [leavesList, List.append_assoc] using hl
end

mutual
theorem piecewise_poly_integrate_sum [AddCommMonoid R] (ig : O → R) :
    (p : PiecewisePoly O) → piecewise_poly_integrate ig p = ((leaves p).map ig).sum
  | leaf o => by simp [piecewise_poly_integrate]
  | node bs => by
      rw [piecewise_poly_integrate, piecewise_poly_integrate_loop_sum ig bs 0]
      simp [leaves]
theorem piecewise_poly_integrate_loop_sum [AddCommMonoid R] (ig : O → R) :
    (bs : List (PiecewisePoly O)) → ∀ out : R,
    piecewise_poly_integrate_loop ig out bs = out + ((leavesList bs).map ig).sum
  | [] => by
      intro out
      simp [piecewise_poly_integrate_loop, leavesList]
  | b :: rest => by
      intro out
      rw [piecewise_poly_integrate_loop, piecewise_poly_integrate_loop_sum ig rest,
        piecewise_poly_integrate_sum ig b]
      simp [leavesList, add_assoc]
end

/-- C27: for a tree `p` whose interior nodes have at least one child,
`piecewise_poly_absmax` returns the value and location reported by one of the
leaves, no leaf reports a larger value, and every leaf to the left of that one
reports a strictly smaller value (so the location is the one of the leftmost
leaf attaining the maximum); and `piecewise_poly_integrate` returns the sum of
the integrals of the leaves. -/
theorem piecewise_poly_absmax_integrate [LinearOrder R] [AddCommMonoid R]
    (orth_poly_expansion_absmax : O → R × R) (orth_poly_expansion_integrate : O → R)
    (p : PiecewisePoly O) (hne : nonemptyInterior p = true) :
    (∃ r, piecewise_poly_absmax orth_poly_expansion_absmax p = .ret r ∧
      ∃ (i : Nat) (o : O), (leaves p)[i]? = some o ∧ orth_poly_expansion_absmax o = r ∧
        (∀ c, c ∈ leaves p → (orth_poly_expansion_absmax c).1 ≤ r.1) ∧
        ∀ (j : Nat) (c : O), j < i → (leaves p)[j]? = some c →
          (orth_poly_expansion_absmax c).1 < r.1) ∧
    piecewise_poly_integrate orth_poly_expansion_integrate p
      = ((leaves p).map orth_poly_expansion_integrate).sum :=
  ⟨piecewise_poly_absmax_leftmost orth_poly_expansion_absmax p hne,
    piecewise_poly_integrate_sum orth_poly_expansion_integrate p⟩

/-- A tree whose largest leaf value, 5, is attained by two leaves. -/
def absmaxSample : PiecewisePoly (Int × Int) :=
  node [leaf (1, 10), node [leaf (5, 20), leaf (5, 30)], leaf (2, 40)]

theorem piecewise_poly_absmax_integrate_witness :
    nonemptyInterior absmaxSample = true ∧
    (∃ r, piecewise_poly_absmax (fun o : Int × Int => o) absmaxSample = .ret r ∧
      ∃ (i : Nat) (o : Int × Int), (leaves absmaxSample)[i]? = some o ∧ o = r ∧
        (∀ c, c ∈ leaves absmaxSample → c.1 ≤ r.1) ∧
        ∀ (j : Nat) (c : Int × Int), j < i → (leaves absmaxSample)[j]? = some c →
          c.1 < r.1) ∧
    piecewise_poly_integrate (fun o : Int × Int => o.1) absmaxSample
      = ((leaves absmaxSample).map fun o : Int × Int => o.1).sum ∧
    piecewise_poly_absmax (fun o : Int × Int => o) absmaxSample
      = (.ret (5, 20) : Outcome Unit (Int × Int)) ∧
    piecewise_poly_integrate (fun o : Int × Int => o.1) absmaxSample = 13 :=
  ⟨by decide,
    (piecewise_poly_absmax_integrate (fun o : Int × Int => o) (fun o : Int × Int => o.1)
      absmaxSample (by decide)).1,
    (piecewise_poly_absmax_integrate (fun o : Int × Int => o) (fun o : Int × Int => o.1)
      absmaxSample (by decide)).2, rfl, by decide⟩

end AbsmaxProofs

section Approx1Proofs

variable {R : Type} [LinearOrderedField R]

set_option linter.unusedTactic false
set_option linter.unreachableTactic false

theorem piecewise_poly_approx1_loop_eq (fit : Int → Nat → R → R → OrthPolyExpansion R)
    (ptype : Int) (N : Nat) (pts : List R) :
    ∀ (n ii : Nat), ii + n + 1 ≤ pts.length →
    piecewise_poly_approx1_loop fit ptype N pts ii n =
      .ret ((List.range' ii n).map fun (i : Nat) =>
        leaf (fit ptype N (pts.getD i 0) (pts.getD (i + 1) 0)))
  | 0, ii, _ => by simp [piecewise_poly_approx1_loop]
  | n + 1, ii, h => by
      rw [piecewise_poly_approx1_loop, getElem?_getD_of_lt pts 0 ii (by omega),
        getElem?_getD_of_lt pts 0 (ii + 1) (by omega),
        piecewise_poly_approx1_loop_eq fit ptype N pts n (ii + 1) (by omega)]
      simp [Outcome.ofOption, Outcome.bind, List.range'_succ]

theorem linspace_length (lb ub : R) (N : Nat) : (linspace lb ub N).length = N := by
  simp [linspace]

theorem piecewise_poly_approx1_loop_children (fit : Int → Nat → R → R → OrthPolyExpansion R)
    (hfit : FitOnInterval fit) (ptype : Int) (N : Nat) (pts : List R) (n : Nat)
    (hlen : n + 1 ≤ pts.length) :
    ∃ os : List (OrthPolyExpansion R),
      piecewise_poly_approx1_loop fit ptype N pts 0 n = .ret (os.map leaf) ∧ os.length = n ∧
      (∀ (i : Nat), i < n → ∃ o : OrthPolyExpansion R, os[i]? = some o ∧
        pts[i]? = some o.lower_bound ∧ pts[i + 1]? = some o.upper_bound) ∧
      ∀ (i : Nat) (o1 o2 : OrthPolyExpansion R), os[i]? = some o1 → os[i + 1]? = some o2 →
        o1.upper_bound = o2.lower_bound := by
  have hget : ∀ (i : Nat), i < n →
      ((List.range' 0 n).map fun (i : Nat) =>
        fit ptype N (pts.getD i 0) (pts.getD (i + 1) 0))[i]?
        = some (fit ptype N (pts.getD i 0) (pts.getD (i + 1) 0)) := by
    intro i hi
    rw [List.getElem?_map, List.getElem?_range' 0 1 hi]
    simp
  refine ⟨(List.range' 0 n).map fun (i : Nat) =>
      fit ptype N (pts.getD i 0) (pts.getD (i + 1) 0), ?_, by simp, ?_, ?_⟩
  · rw [piecewise_poly_approx1_loop_eq fit ptype N pts n 0 (by omega)]
    simp [List.map_map, Function.comp_def]
  · intro i hi
    refine ⟨_, hget i hi, ?_⟩
    rw [(hfit _ _ _ _).1, (hfit _ _ _ _).2.1]
    exact ⟨getElem?_getD_of_lt pts 0 i (by omega),
      getElem?_getD_of_lt pts 0 (i + 1) (by omega)⟩
  · intro i o1 o2 ho1 ho2
    have hi : i + 1 < n := by
      by_contra hn
      rw [List.getElem?_eq_none (by simp; omega)] at ho2
      cases ho2
    rw [hget i (by omega)] at ho1
    rw [hget (i + 1) hi] at ho2
    cases ho1
    cases ho2
    rw [(hfit _ _ _ _).2.1, (hfit _ _ _ _).1]

/-- C29: with a backend fit that keeps the bounds it is given, region count
`nregions` with `nregions + 1` representable and, when break points are
supplied, at least `nregions + 1` of them: `piecewise_poly_approx1` returns a
single leaf on `[lb, ub]` when `nregions = 1`; otherwise it returns an interior
node whose children are `nregions` leaves, leaf `i` with bounds
`pts[i], pts[i+1]` of the supplied points, or `lb + i*(ub-lb)/nregions` and
`lb + (i+1)*(ub-lb)/nregions` when none are supplied, and the upper bound of
each child is the lower bound of the next.  Without options the routine does
what it does with the options `LEGENDRE`, order 7, five regions, no points. -/
theorem piecewise_poly_approx1_partition (fit : Int → Nat → R → R → OrthPolyExpansion R)
    (hfit : FitOnInterval fit) (LEGENDRE : Int) (lb ub : R) (aopts : PwPolyAdaptOpts R)
    (hs : aopts.nregions + 1 < SIZE_MOD)
    (hlen : ∀ p, aopts.pts = some p → aopts.nregions + 1 ≤ p.length) :
    (if aopts.nregions = 1 then
      ∃ o, piecewise_poly_approx1 fit LEGENDRE lb ub (some aopts) = .ret (leaf o) ∧
        o.lower_bound = lb ∧ o.upper_bound = ub
    else
      ∃ os : List (OrthPolyExpansion R),
        piecewise_poly_approx1 fit LEGENDRE lb ub (some aopts) = .ret (node (os.map leaf)) ∧
        os.length = aopts.nregions ∧
        (∀ (i : Nat), i < aopts.nregions → ∃ o : OrthPolyExpansion R, os[i]? = some o ∧
          match aopts.pts with
          | some p => p[i]? = some o.lower_bound ∧ p[i + 1]? = some o.upper_bound
          | none =>
              o.lower_bound = lb + (i : R) * ((ub - lb) / (aopts.nregions : R)) ∧
              o.upper_bound = lb + ((i : R) + 1) * ((ub - lb) / (aopts.nregions : R))) ∧
        ∀ (i : Nat) (o1 o2 : OrthPolyExpansion R), os[i]? = some o1 → os[i + 1]? = some o2 →
          o1.upper_bound = o2.lower_bound) ∧
    ∀ (minsize epsilon : R) (coeff_check : Nat),
      piecewise_poly_approx1 fit LEGENDRE lb ub none
        = piecewise_poly_approx1 fit LEGENDRE lb ub
            (some ⟨LEGENDRE, 7, minsize, coeff_check, epsilon, 5, none⟩) := by
  refine ⟨?_, fun _ _ _ => rfl⟩
  by_cases h1 : aopts.nregions = 1
  · rw [if_pos h1]
    refine ⟨fit aopts.ptype ((aopts.maxorder + 1) % SIZE_MOD) lb ub, ?_,
      (hfit _ _ lb ub).1, (hfit _ _ lb ub).2.1⟩
    · unfold piecewise_poly_approx1 piecewise_poly_approx1_body
      simp only
      rw [if_pos h1]
  · rw [if_neg h1]
    obtain ⟨ptype, maxorder, minsize, cc, eps, nregions, opts⟩ := aopts
    simp only at hs hlen h1 ⊢
    cases opts with
    | some p =>
      obtain ⟨os, hos, hl, hb, hc⟩ := piecewise_poly_approx1_loop_children fit hfit ptype
        ((maxorder + 1) % SIZE_MOD) p nregions (hlen p rfl)
      refine ⟨os, ?_, hl, hb, hc⟩
      unfold piecewise_poly_approx1 piecewise_poly_approx1_body
      simp only
      rw [if_neg h1, hos]
      rfl
    | none =>
      obtain ⟨os, hos, hl, hb, hc⟩ := piecewise_poly_approx1_loop_children fit hfit ptype
        ((maxorder + 1) % SIZE_MOD) (linspace lb ub (nregions + 1)) nregions
        (by rw [linspace_length])
      refine ⟨os, ?_, hl, ?_, hc⟩
      · unfold piecewise_poly_approx1 piecewise_poly_approx1_body
        simp only
        rw [if_neg h1, Nat.mod_eq_of_lt hs, hos]
        rfl
      · intro i hi
        obtain ⟨o, ho, hlo, hup⟩ := hb i hi
        have hc1 : (((nregions + 1 : Nat) : R) - 1) = (nregions : R) := by
          push_cast
          ring
        rw [linspace_getElem? lb ub (nregions + 1) i (by omega), hc1] at hlo
        rw [linspace_getElem? lb ub (nregions + 1) (i + 1) (by omega), hc1] at hup
        simp only [Option.some.injEq] at hlo hup
        refine ⟨o, ho, hlo.symm, ?_⟩
        rw [← hup]
        push_cast
        rfl

theorem piecewise_poly_approx1_partition_witness :
    FitOnInterval steepFit ∧ quarterOpts.nregions + 1 < SIZE_MOD ∧
    (∀ p, quarterOpts.pts = some p → quarterOpts.nregions + 1 ≤ p.length) ∧
    (if quarterOpts.nregions = 1 then
      ∃ o, piecewise_poly_approx1 steepFit 0 0 1 (some quarterOpts) = .ret (leaf o) ∧
        o.lower_bound = 0 ∧ o.upper_bound = 1
    else
      ∃ os : List (OrthPolyExpansion ℚ),
        piecewise_poly_approx1 steepFit 0 0 1 (some quarterOpts) = .ret (node (os.map leaf)) ∧
        os.length = quarterOpts.nregions ∧
        (∀ (i : Nat), i < quarterOpts.nregions → ∃ o : OrthPolyExpansion ℚ, os[i]? = some o ∧
          match quarterOpts.pts with
          | some p => p[i]? = some o.lower_bound ∧ p[i + 1]? = some o.upper_bound
          | none =>
              o.lower_bound = 0 + (i : ℚ) * ((1 - 0) / (quarterOpts.nregions : ℚ)) ∧
              o.upper_bound = 0 + ((i : ℚ) + 1) * ((1 - 0) / (quarterOpts.nregions : ℚ))) ∧
        ∀ (i : Nat) (o1 o2 : OrthPolyExpansion ℚ), os[i]? = some o1 → os[i + 1]? = some o2 →
          o1.upper_bound = o2.lower_bound) ∧
    ∀ (minsize epsilon : ℚ) (coeff_check : Nat),
      piecewise_poly_approx1 steepFit 0 0 1 none
        = piecewise_poly_approx1 steepFit 0 0 1
            (some ⟨0, 7, minsize, coeff_check, epsilon, 5, none⟩) :=
  ⟨fun _ _ _ _ => ⟨rfl, rfl, Nat.le_refl _⟩, by decide,
    (fun p hp => by simp [quarterOpts] at hp),
    piecewise_poly_approx1_partition steepFit (fun _ _ _ _ => ⟨rfl, rfl, Nat.le_refl _⟩)
      0 0 1 quarterOpts (by decide) (fun p hp => by simp [quarterOpts] at hp)⟩

end Approx1Proofs

section AdaptReplace

variable {R : Type} [LinearOrderedField R]

set_option linter.unusedTactic false
set_option linter.unreachableTactic false

/-- The condition under which `piecewise_poly_approx1_adapt` refines the branch
holding `o`: one of its last `min(coeff_check, num_poly)` coefficients is larger
in absolute value than `epsilon`, and the branch is not narrower than
`minsize`. -/
def adaptRefines (aopts : PwPolyAdaptOpts R) (o : OrthPolyExpansion R) : Prop :=
  (∃ jj, jj < min aopts.coeff_check o.num_poly ∧
    |o.coeff.getD (o.num_poly - 1 - jj) 0| > aopts.epsilon) ∧
  aopts.minsize ≤ o.upper_bound - o.lower_bound

theorem piecewise_poly_approx1_adapt_refine_iff (aopts : PwPolyAdaptOpts R)
    (o : OrthPolyExpansion R) (h : o.num_poly ≤ o.coeff.length) :
    ∃ r, piecewise_poly_approx1_adapt_refine aopts o = .ret r ∧
      (r = true ↔ adaptRefines aopts o) := by
  unfold piecewise_poly_approx1_adapt_refine adaptRefines
  rw [if_neg (by omega)]
  refine ⟨_, rfl, ?_⟩
  have hmin : (if aopts.coeff_check < o.num_poly then aopts.coeff_check else o.num_poly)
      = min aopts.coeff_check o.num_poly := by
    by_cases hc : aopts.coeff_check < o.num_poly
    · rw [if_pos hc, Nat.min_eq_left (by omega)]
    · rw [if_neg hc, Nat.min_eq_right (by omega)]
  rw [hmin]
  by_cases hw : o.upper_bound - o.lower_bound < aopts.minsize
  · rw [if_pos hw]
    constructor
    · intro hf
      exact absurd hf (by simp)
    · intro hc
      exact absurd hc.2 (not_le.mpr hw)
  · rw [if_neg hw]
    simp only [List.any_eq_true, List.mem_range, decide_eq_true_eq, mul_one]
    constructor
    · intro hc
      exact ⟨hc, not_lt.mp hw⟩
    · intro hc
      exact hc.1

theorem piecewise_poly_approx1_adapt_loop_replace (aopts : PwPolyAdaptOpts R)
    (hpts : aopts.pts = none)
    (adapt : R → R → Option (Outcome Unit (PiecewisePoly (OrthPolyExpansion R))))
    (t : OrthPolyExpansion R → PiecewisePoly (OrthPolyExpansion R)) :
    ∀ (os : List (OrthPolyExpansion R)),
      (∀ o, o ∈ os → o.num_poly ≤ o.coeff.length) →
      (∀ o, o ∈ os → adaptRefines aopts o →
        adapt o.lower_bound o.upper_bound = some (.ret (t o))) →
      ∃ bs1, piecewise_poly_approx1_adapt_loop aopts adapt (os.map leaf) = some (.ret bs1) ∧
        bs1.length = os.length ∧
        ∀ (i : Nat) (o : OrthPolyExpansion R), os[i]? = some o →
          (adaptRefines aopts o → bs1[i]? = some (t o)) ∧
          (¬ adaptRefines aopts o → bs1[i]? = some (leaf o))
  | [], _, _ => ⟨[], rfl, rfl, fun i o h => by simp at h⟩
  | o :: rest, hread, hrec => by
      obtain ⟨bs1, hbs1, hlen1, hch1⟩ := piecewise_poly_approx1_adapt_loop_replace aopts hpts
        adapt t rest (fun c hc => hread c (List.mem_cons_of_mem _ hc))
        (fun c hc => hrec c (List.mem_cons_of_mem _ hc))
      obtain ⟨r, hr, hiff⟩ := piecewise_poly_approx1_adapt_refine_iff aopts o
        (hread o (List.mem_cons_self _ _))
      rw [List.map_cons, piecewise_poly_approx1_adapt_loop, hr, hbs1, hpts]
      cases r with
      | true =>
        have hc : adaptRefines aopts o := hiff.mp rfl
        refine ⟨t o :: bs1, ?_, by simp [hlen1], ?_⟩
        · simp [budgetBind, hrec o (List.mem_cons_self _ _) hc]
        · intro i c hi
          cases i with
          | zero =>
            simp only [List.getElem?_cons_zero, Option.some.injEq] at hi
            subst hi
            exact ⟨fun _ => by simp, fun hn => absurd hc hn⟩
          | succ i => simpa using hch1 i c (by simpa using hi)
      | false =>
        have hc : ¬ adaptRefines aopts o := fun hc => Bool.false_ne_true (hiff.mpr hc)
        refine ⟨leaf o :: bs1, ?_, by simp [hlen1], ?_⟩
        · simp [budgetBind]
        · intro i c hi
          cases i with
          | zero =>
            simp only [List.getElem?_cons_zero, Option.some.injEq] at hi
            subst hi
            exact ⟨fun h => absurd h hc, fun _ => by simp⟩
          | succ i => simpa using hch1 i c (by simpa using hi)

/-- C30: with no break points in the options, let the fixed-grid fit on
`[lb, ub]` return an interior node whose children are the leaves `os`, each
with its coefficients readable, and let the recursive call with the same
options on the bounds of every child to be refined return the tree `t o`.
Then `piecewise_poly_approx1_adapt` returns an interior node with as many
children, where child `i` is the recursive fit `t o` if one of the last
`min(coeff_check, num_poly)` coefficients of the fitted child `o` is larger in
absolute value than `epsilon` and the width of `o` is at least `minsize`, and
is the fitted leaf `o` itself otherwise. -/
theorem piecewise_poly_approx1_adapt_replaces
    (fit : Int → Nat → R → R → OrthPolyExpansion R) (LEGENDRE : Int)
    (aopts : PwPolyAdaptOpts R) (depth : Nat) (lb ub : R) (os : List (OrthPolyExpansion R))
    (t : OrthPolyExpansion R → PiecewisePoly (OrthPolyExpansion R))
    (hpts : aopts.pts = none)
    (hfix : piecewise_poly_approx1 fit LEGENDRE lb ub (some aopts) = .ret (node (os.map leaf)))
    (hread : ∀ o, o ∈ os → o.num_poly ≤ o.coeff.length)
    (hrec : ∀ o, o ∈ os →
      ((∃ jj, jj < min aopts.coeff_check o.num_poly ∧
          |o.coeff.getD (o.num_poly - 1 - jj) 0| > aopts.epsilon) ∧
        aopts.minsize ≤ o.upper_bound - o.lower_bound) →
      piecewise_poly_approx1_adapt fit LEGENDRE depth o.lower_bound o.upper_bound (some aopts)
        = some (.ret (t o))) :
    ∃ bs1, piecewise_poly_approx1_adapt fit LEGENDRE (depth + 1) lb ub (some aopts)
        = some (.ret (node bs1)) ∧
      bs1.length = os.length ∧
      ∀ (i : Nat) (o : OrthPolyExpansion R), os[i]? = some o →
        (((∃ jj, jj < min aopts.coeff_check o.num_poly ∧
            |o.coeff.getD (o.num_poly - 1 - jj) 0| > aopts.epsilon) ∧
          aopts.minsize ≤ o.upper_bound - o.lower_bound) → bs1[i]? = some (t o)) ∧
        (¬ ((∃ jj, jj < min aopts.coeff_check o.num_poly ∧
            |o.coeff.getD (o.num_poly - 1 - jj) 0| > aopts.epsilon) ∧
          aopts.minsize ≤ o.upper_bound - o.lower_bound) → bs1[i]? = some (leaf o)) := by
  obtain ⟨bs1, hbs1, hlen, hch⟩ := piecewise_poly_approx1_adapt_loop_replace aopts hpts
    (piecewise_poly_approx1_adapt_body fit LEGENDRE aopts depth) t os hread hrec
  refine ⟨bs1, ?_, hlen, hch⟩
  unfold piecewise_poly_approx1_adapt
  simp only
  rw [piecewise_poly_approx1_adapt_body, hfix]
  simp only [budgetBind]
  rw [hbs1]

/-- Options with `minsize = 1/2` and two regions per split. -/
def halfOpts : PwPolyAdaptOpts ℚ :=
  ⟨0, 7, 1 / 2, 2, 1 / 100, 2, none⟩

/-- The two leaves the backend fit gives on the halves of the interval of
`o`. -/
def halves (o : OrthPolyExpansion ℚ) : PiecewisePoly (OrthPolyExpansion ℚ) :=
  node [leaf (steepFit 0 8 o.lower_bound ((o.lower_bound + o.upper_bound) / 2)),
    leaf (steepFit 0 8 ((o.lower_bound + o.upper_bound) / 2) o.upper_bound)]

theorem piecewise_poly_approx1_halfOpts :
    piecewise_poly_approx1 steepFit 0 0 1 (some halfOpts)
      = .ret (node ([steepFit 0 8 0 (1 / 2), steepFit 0 8 (1 / 2) 1].map leaf)) := by
  simp [piecewise_poly_approx1, piecewise_poly_approx1_body, halfOpts, linspace,
    piecewise_poly_approx1_loop, Outcome.ofOption, Outcome.bind, SIZE_MOD, List.range,
    List.range.loop]
  norm_num

theorem piecewise_poly_approx1_adapt_halfOpts (o : OrthPolyExpansion ℚ)
    (ho : o ∈ [steepFit 0 8 0 (1 / 2), steepFit 0 8 (1 / 2) 1]) :
    piecewise_poly_approx1_adapt steepFit 0 2 o.lower_bound o.upper_bound (some halfOpts)
      = some (.ret (halves o)) := by
  simp only [List.mem_cons, List.mem_singleton, List.not_mem_nil, or_false] at ho
  rcases ho with rfl | rfl
  · simp [piecewise_poly_approx1_adapt, piecewise_poly_approx1_adapt_body, budgetBind,
      piecewise_poly_approx1_adapt_loop, piecewise_poly_approx1_adapt_refine,
      piecewise_poly_approx1, piecewise_poly_approx1_body, halfOpts, linspace,
      piecewise_poly_approx1_loop, Outcome.ofOption, Outcome.bind, SIZE_MOD, List.range,
      List.range.loop, steepFit, halves]
    norm_num
  · simp [piecewise_poly_approx1_adapt, piecewise_poly_approx1_adapt_body, budgetBind,
      piecewise_poly_approx1_adapt_loop, piecewise_poly_approx1_adapt_refine,
      piecewise_poly_approx1, piecewise_poly_approx1_body, halfOpts, linspace,
      piecewise_poly_approx1_loop, Outcome.ofOption, Outcome.bind, SIZE_MOD, List.range,
      List.range.loop, steepFit, halves]
    norm_num

theorem piecewise_poly_approx1_adapt_replaces_witness :
    halfOpts.pts = none ∧
    piecewise_poly_approx1 steepFit 0 0 1 (some halfOpts)
      = .ret (node ([steepFit 0 8 0 (1 / 2), steepFit 0 8 (1 / 2) 1].map leaf)) ∧
    (∀ o, o ∈ [steepFit 0 8 0 (1 / 2), steepFit 0 8 (1 / 2) 1] →
      o.num_poly ≤ o.coeff.length) ∧
    (∀ o, o ∈ [steepFit 0 8 0 (1 / 2), steepFit 0 8 (1 / 2) 1] →
      ((∃ jj, jj < min halfOpts.coeff_check o.num_poly ∧
          |o.coeff.getD (o.num_poly - 1 - jj) 0| > halfOpts.epsilon) ∧
        halfOpts.minsize ≤ o.upper_bound - o.lower_bound) →
      piecewise_poly_approx1_adapt steepFit 0 2 o.lower_bound o.upper_bound (some halfOpts)
        = some (.ret (halves o))) ∧
    ∃ bs1, piecewise_poly_approx1_adapt steepFit 0 (2 + 1) 0 1 (some halfOpts)
        = some (.ret (node bs1)) ∧
      bs1.length = [steepFit 0 8 0 (1 / 2), steepFit 0 8 (1 / 2) 1].length ∧
      ∀ (i : Nat) (o : OrthPolyExpansion ℚ),
        [steepFit 0 8 0 (1 / 2), steepFit 0 8 (1 / 2) 1][i]? = some o →
        (((∃ jj, jj < min halfOpts.coeff_check o.num_poly ∧
            |o.coeff.getD (o.num_poly - 1 - jj) 0| > halfOpts.epsilon) ∧
          halfOpts.minsize ≤ o.upper_bound - o.lower_bound) → bs1[i]? = some (halves o)) ∧
        (¬ ((∃ jj, jj < min halfOpts.coeff_check o.num_poly ∧
            |o.coeff.getD (o.num_poly - 1 - jj) 0| > halfOpts.epsilon) ∧
          halfOpts.minsize ≤ o.upper_bound - o.lower_bound) → bs1[i]? = some (leaf o)) :=
  have hread : ∀ o, o ∈ [steepFit 0 8 0 (1 / 2), steepFit 0 8 (1 / 2) 1] →
      o.num_poly ≤ o.coeff.length := by
    intro o ho
    simp only [List.mem_cons, List.mem_singleton, List.not_mem_nil, or_false] at ho
    rcases ho with rfl | rfl <;> exact Nat.le_refl _
  ⟨rfl, piecewise_poly_approx1_halfOpts, hread,
    fun o ho _ => piecewise_poly_approx1_adapt_halfOpts o ho,
    piecewise_poly_approx1_adapt_replaces steepFit 0 halfOpts 2 0 1
      [steepFit 0 8 0 (1 / 2), steepFit 0 8 (1 / 2) 1] halves rfl
      piecewise_poly_approx1_halfOpts hread
      (fun o ho _ => piecewise_poly_approx1_adapt_halfOpts o ho)⟩

/-- C30 (as stated, refuted): the criterion asks for a width that exceeds
`minsize`.  On `[0, 1]` with two regions and `minsize = 1/2` both children of
the fixed-grid fit have width `1/2`, which does not exceed `minsize`, and two
coefficients equal to 1; the routine replaces the first child by an interior
node all the same. -/
theorem piecewise_poly_approx1_adapt_minsize_counterexample :
    piecewise_poly_approx1 steepFit 0 0 1 (some halfOpts)
      = .ret (node [leaf (steepFit 0 8 0 (1 / 2)), leaf (steepFit 0 8 (1 / 2) 1)]) ∧
    ¬ ((steepFit 0 8 0 (1 / 2)).upper_bound - (steepFit 0 8 0 (1 / 2)).lower_bound
        > halfOpts.minsize) ∧
    (match piecewise_poly_approx1_adapt steepFit 0 3 0 1 (some halfOpts) with
      | some (.ret (node (b :: _))) => b.isLeaf
      | _ => true) = false :=
  ⟨piecewise_poly_approx1_halfOpts, by norm_num [steepFit, halfOpts], by decide!⟩

end AdaptReplace

/-! ## Evaluation of generic functions and the sum of two piecewise polynomials -/

section Eval1d

variable {L R : Type}

/-- A call of a routine of `piecewisepoly.c` made from `functions.c`: it ends
the way the routine ends. -/
def Outcome.weaken {P α : Type} : Outcome Unit α → Outcome P α
  | .ret v => .ret v
  | .exit status => .exit status
  | .assertion => .assertion
  | .handed _ _ => .undefined
  | .undefined => .undefined

/-- The C routine `generic_function_1d_eval(f, x)`; `orth_poly_expansion_eval`
and `lin_elem_exp_eval` are the evaluations of the two backends.  For
`RATIONAL` and `KERNEL` the initial value `0.1234567890` of `out` is
returned. -/
def generic_function_1d_eval [LinearOrderedField R]
    (orth_poly_expansion_eval : OrthPolyExpansion R → R → R) (lin_elem_exp_eval : L → R → R)
    (f : GenericFunction (OrthPolyExpansion R) L) (x : R) :
    Outcome (Payload (OrthPolyExpansion R) L) R :=
  match f.fc with
  | .PIECEWISE =>
      (asPiecewise .piecewise_poly_eval f.f).bind fun pw =>
        (piecewise_poly_eval orth_poly_expansion_eval pw x).weaken
  | .POLYNOMIAL =>
      (asPolynomial .orth_poly_expansion_eval f.f).bind fun op =>
        .ret (orth_poly_expansion_eval op x)
  | .LINELM =>
      (asLinElem .lin_elem_exp_eval f.f).bind fun l => .ret (lin_elem_exp_eval l x)
  | .RATIONAL => .ret (1234567890 / 10000000000)
  | .KERNEL => .ret (1234567890 / 10000000000)

/-- The C routine `pw_eval_sum(x, args)` on the couple `args = {a, b, coeff}`;
`none` is a NULL tree. -/
def pw_eval_sum [LinearOrderedField R] (orth_poly_expansion_eval : OrthPolyExpansion R → R → R)
    (coeff0 coeff1 : R) (a b : Option (PiecewisePoly (OrthPolyExpansion R))) (x : R) :
    Outcome Unit R :=
  match b with
  | none =>
      match a with
      | none => .assertion
      | some pa =>
          (piecewise_poly_eval orth_poly_expansion_eval pa x).bind fun va => .ret (coeff0 * va)
  | some pb =>
      match a with
      | none =>
          (piecewise_poly_eval orth_poly_expansion_eval pb x).bind fun vb => .ret (coeff1 * vb)
      | some pa =>
          (piecewise_poly_eval orth_poly_expansion_eval pa x).bind fun va =>
            (piecewise_poly_eval orth_poly_expansion_eval pb x).bind fun vb =>
              .ret (coeff0 * va + coeff1 * vb)

/-- The C routine `piecewise_poly_daxpby(a, x, b, y)` of `piecewisepoly.c`: the
adaptive approximation of `pw_eval_sum` on the bounds of `x`, with the options
`LEGENDRE`, `maxorder = 7`, `coeff_check = 2`, `epsilon = 1e-8`,
`minsize = 1e-3`, `nregions = 5` and no points.  `approx f ptype N lb ub` stands
for the backend fit of the function `f` (`orth_poly_expansion_init`,
`orth_poly_expansion_approx`, `orth_poly_expansion_round`); `depth` bounds the
recursion of the adaptive routine. -/
def piecewise_poly_daxpby [LinearOrderedField R]
    (approx : (R → Outcome Unit R) → Int → Nat → R → R → OrthPolyExpansion R)
    (orth_poly_expansion_eval : OrthPolyExpansion R → R → R) (LEGENDRE : Int) (depth : Nat)
    (a : R) (x : Option (PiecewisePoly (OrthPolyExpansion R))) (b : R)
    (y : Option (PiecewisePoly (OrthPolyExpansion R))) :
    Option (Outcome Unit (PiecewisePoly (OrthPolyExpansion R))) :=
  match x with
  | none => some .undefined
  | some px =>
      budgetBind (some (Outcome.ofOption (piecewise_poly_lb px))) fun lb =>
      budgetBind (some (Outcome.ofOption (piecewise_poly_ub px))) fun ub =>
      piecewise_poly_approx1_adapt (approx (pw_eval_sum orth_poly_expansion_eval a b x y))
        LEGENDRE depth lb ub (some ⟨LEGENDRE, 7, 1 / 1000, 2, 1 / 100000000, 5, none⟩)

/-- The tree has upper bound `hi` and evaluates to 0 at every point up to
`hi`. -/
def ZeroUpTo [LinearOrderedField R] (ev : OrthPolyExpansion R → R → R)
    (tr : PiecewisePoly (OrthPolyExpansion R)) (hi : R) : Prop :=
  piecewise_poly_ub tr = some hi ∧ ∀ t, t ≤ hi → piecewise_poly_eval ev tr t = .ret 0

end Eval1d

section BoundsDefined

variable {R : Type}

set_option linter.unusedTactic false
set_option linter.unreachableTactic false

mutual
theorem piecewise_poly_ub_isSome :
    (p : PiecewisePoly (OrthPolyExpansion R)) → nonemptyInterior p = true →
    ∃ u, piecewise_poly_ub p = some u
  | leaf o => fun _ => ⟨o.upper_bound, rfl⟩
  | node [] => by
      intro h
      simp [nonemptyInterior] at h
  | node (b :: rest) => by
      intro h
      simp only [nonemptyInterior, List.isEmpty_cons, Bool.not_false, Bool.true_and] at h
      rw [piecewise_poly_ub]
      exact piecewise_poly_ub_last_isSome (b :: rest) h (by simp)
theorem piecewise_poly_ub_last_isSome :
    (bs : List (PiecewisePoly (OrthPolyExpansion R))) → nonemptyInteriorList bs = true →
    bs ≠ [] → ∃ u, piecewise_poly_ub_last bs = some u
  | [] => fun _ h => absurd rfl h
  | [b] => by
      intro h _
      simp only [nonemptyInteriorList, Bool.and_true] at h
      rw [piecewise_poly_ub_last]
      exact piecewise_poly_ub_isSome b h
  | b :: c :: rest => by
      intro h _
      simp only [nonemptyInteriorList, Bool.and_eq_true] at h
      rw [piecewise_poly_ub_last]
      exact piecewise_poly_ub_last_isSome (c :: rest)
        (by simp only [nonemptyInteriorList, Bool.and_eq_true]; exact h.2) (by simp)
end

theorem piecewise_poly_lb_isSome :
    (p : PiecewisePoly (OrthPolyExpansion R)) → nonemptyInterior p = true →
    ∃ l, piecewise_poly_lb p = some l
  | leaf o => fun _ => ⟨o.lower_bound, rfl⟩
  | node [] => by
      intro h
      simp [nonemptyInterior] at h
  | node (b :: rest) => by
      intro h
      simp only [nonemptyInterior, nonemptyInteriorList, List.isEmpty_cons, Bool.not_false,
        Bool.true_and, Bool.and_eq_true] at h
      rw [piecewise_poly_lb]
      exact piecewise_poly_lb_isSome b h.1

end BoundsDefined

section Eval1dProofs

variable {L R : Type} [LinearOrderedField R]

set_option linter.unusedTactic false
set_option linter.unreachableTactic false

mutual
theorem piecewise_poly_eval_ret (ev : OrthPolyExpansion R → R → R) (x : R) :
    (p : PiecewisePoly (OrthPolyExpansion R)) → nonemptyInterior p = true →
    ∃ v, piecewise_poly_eval ev p x = .ret v
  | leaf o => fun _ => ⟨ev o x, by rw [piecewise_poly_eval]⟩
  | node [] => by
      intro h
      simp [nonemptyInterior] at h
  | node (b :: rest) => by
      intro h
      simp only [nonemptyInterior, List.isEmpty_cons, Bool.not_false, Bool.true_and] at h
      rw [piecewise_poly_eval]
      exact piecewise_poly_eval_loop_ret ev x (b :: rest) h
theorem piecewise_poly_eval_loop_ret (ev : OrthPolyExpansion R → R → R) (x : R) :
    (bs : List (PiecewisePoly (OrthPolyExpansion R))) → nonemptyInteriorList bs = true →
    ∃ v, piecewise_poly_eval_loop ev bs x = .ret v
  | [] => fun _ => ⟨_, by rw [piecewise_poly_eval_loop]⟩
  | b :: rest => by
      intro h
      simp only [nonemptyInteriorList, Bool.and_eq_true] at h
      obtain ⟨u, hu⟩ := piecewise_poly_ub_isSome b h.1
      rw [piecewise_poly_eval_loop, hu]
      simp only [Outcome.ofOption, Outcome.ret_bind]
      by_cases hx : x ≤ u
      · rw [if_pos hx]
        exact piecewise_poly_eval_ret ev x b h.1
      · rw [if_neg hx]
        exact piecewise_poly_eval_loop_ret ev x rest h.2
end

theorem pw_eval_sum_cancel (ev : OrthPolyExpansion R → R → R)
    (p : PiecewisePoly (OrthPolyExpansion R)) (hne : nonemptyInterior p = true) (t : R) :
    pw_eval_sum ev 1 (-1) (some p) (some p) t = .ret 0 := by
  obtain ⟨v, hv⟩ := piecewise_poly_eval_ret ev t p hne
  simp only [pw_eval_sum, hv, Outcome.ret_bind]
  congr 1
  ring

theorem budgetBind_eq_ret {α β : Type} (x : Option (Outcome Unit α))
    (k : α → Option (Outcome Unit β)) (v : β) (h : budgetBind x k = some (.ret v)) :
    ∃ u, x = some (.ret u) ∧ k u = some (.ret v) := by
  cases x with
  | none => simp [budgetBind] at h
  | some o =>
    cases o with
    | ret u => exact ⟨u, rfl, h⟩
    | exit s => simp [budgetBind] at h
    | assertion => simp [budgetBind] at h
    | handed r a => simp [budgetBind] at h
    | undefined => simp [budgetBind] at h

theorem piecewise_poly_approx1_adapt_loop_forall₂ (aopts : PwPolyAdaptOpts R)
    (adapt : R → R → Option (Outcome Unit (PiecewisePoly (OrthPolyExpansion R))))
    (Q : PiecewisePoly (OrthPolyExpansion R) → R → Prop)
    (hadapt : ∀ lo hi tr, adapt lo hi = some (.ret tr) → Q tr hi) :
    ∀ (os : List (OrthPolyExpansion R)) (bs1 : List (PiecewisePoly (OrthPolyExpansion R))),
      (∀ o, o ∈ os → Q (leaf o) o.upper_bound) →
      piecewise_poly_approx1_adapt_loop aopts adapt (os.map leaf) = some (.ret bs1) →
      List.Forall₂ (fun o b => Q b o.upper_bound) os bs1
  | [], bs1, _, h => by
      simp only [List.map_nil, piecewise_poly_approx1_adapt_loop, Option.some.injEq,
        Outcome.ret.injEq] at h
      subst h
      exact List.Forall₂.nil
  | o :: rest, bs1, hleaf, h => by
      rw [List.map_cons, piecewise_poly_approx1_adapt_loop] at h
      obtain ⟨r, _, h⟩ := budgetBind_eq_ret _ _ _ h
      obtain ⟨b, hb, h⟩ := budgetBind_eq_ret _ _ _ h
      obtain ⟨bs, hbs, h⟩ := budgetBind_eq_ret _ _ _ h
      simp only [Option.some.injEq, Outcome.ret.injEq] at h
      subst h
      refine List.Forall₂.cons ?_ (piecewise_poly_approx1_adapt_loop_forall₂ aopts adapt Q hadapt
        rest bs (fun c hc => hleaf c (List.mem_cons_of_mem _ hc)) hbs)
      cases r with
      | true =>
        simp only [if_true] at hb
        by_cases hp : aopts.pts.isSome = true
        · rw [if_pos hp] at hb
          simp at hb
        · rw [if_neg hp] at hb
          exact hadapt _ _ _ hb
      | false =>
        simp only [Bool.false_eq_true, if_false, Option.some.injEq, Outcome.ret.injEq] at hb
        subst hb
        exact hleaf o (List.mem_cons_self _ _)

theorem zeroUpTo_ub_last (ev : OrthPolyExpansion R → R → R) :
    ∀ (os : List (OrthPolyExpansion R)) (bs1 : List (PiecewisePoly (OrthPolyExpansion R))),
      List.Forall₂ (fun o b => ZeroUpTo ev b o.upper_bound) os bs1 →
      piecewise_poly_ub_last bs1 = os.getLast?.map fun o => o.upper_bound
  | [], _, h => by
      cases h
      rfl
  | [o], _, h => by
      cases h with
      | cons h1 h2 =>
        cases h2
        rw [piecewise_poly_ub_last, h1.1]
        rfl
  | o :: o1 :: rest, _, h => by
      cases h with
      | cons h1 h2 =>
        cases h2 with
        | cons h3 h4 =>
          rw [piecewise_poly_ub_last,
            zeroUpTo_ub_last ev (o1 :: rest) _ (List.Forall₂.cons h3 h4)]
          simp [List.getLast?_cons_cons]

theorem zeroUpTo_eval_loop (ev : OrthPolyExpansion R → R → R) (t : R) :
    ∀ (os : List (OrthPolyExpansion R)) (bs1 : List (PiecewisePoly (OrthPolyExpansion R))),
      List.Forall₂ (fun o b => ZeroUpTo ev b o.upper_bound) os bs1 →
      (∃ o, o ∈ os ∧ t ≤ o.upper_bound) →
      piecewise_poly_eval_loop ev bs1 t = .ret 0
  | [], _, _, h => by
      obtain ⟨o, ho, _⟩ := h
      simp at ho
  | o :: rest, _, h, hex => by
      cases h with
      | cons h1 h2 =>
        rw [piecewise_poly_eval_loop, h1.1]
        simp only [Outcome.ofOption, Outcome.ret_bind]
        by_cases ht : t ≤ o.upper_bound
        · rw [if_pos ht]
          exact h1.2 t ht
        · rw [if_neg ht]
          apply zeroUpTo_eval_loop ev t rest _ h2
          obtain ⟨c, hc, hle⟩ := hex
          rcases List.mem_cons.mp hc with rfl | hc
          · exact absurd hle ht
          · exact ⟨c, hc, hle⟩

theorem zeroUpTo_node (ev : OrthPolyExpansion R → R → R) (hi : R)
    (os : List (OrthPolyExpansion R)) (bs1 : List (PiecewisePoly (OrthPolyExpansion R)))
    (h : List.Forall₂ (fun o b => ZeroUpTo ev b o.upper_bound) os bs1)
    (hlast : (os.getLast?.map fun o => o.upper_bound) = some hi) :
    ZeroUpTo ev (node bs1) hi := by
  refine ⟨?_, ?_⟩
  · rw [piecewise_poly_ub, zeroUpTo_ub_last ev os bs1 h, hlast]
  · intro t ht
    rw [piecewise_poly_eval]
    apply zeroUpTo_eval_loop ev t os bs1 h
    cases hl : os.getLast? with
    | none => rw [hl] at hlast; simp at hlast
    | some o =>
      rw [hl] at hlast
      simp only [Option.map_some', Option.some.injEq] at hlast
      exact ⟨o, List.mem_of_mem_getLast? hl, by rw [hlast]; exact ht⟩

theorem piecewise_poly_approx1_uniform (fit : Int → Nat → R → R → OrthPolyExpansion R)
    (hub : ∀ p N lo hi, (fit p N lo hi).upper_bound = hi) (LEGENDRE : Int)
    (aopts : PwPolyAdaptOpts R) (lb ub : R) (hpts : aopts.pts = none)
    (hn : 1 ≤ aopts.nregions) (hs : aopts.nregions + 1 < SIZE_MOD) :
    (∃ p N lo, piecewise_poly_approx1 fit LEGENDRE lb ub (some aopts)
        = .ret (leaf (fit p N lo ub))) ∨
    ∃ os : List (OrthPolyExpansion R),
      piecewise_poly_approx1 fit LEGENDRE lb ub (some aopts) = .ret (node (os.map leaf)) ∧
      (∀ o, o ∈ os → ∃ p N lo hi, o = fit p N lo hi) ∧
      (os.getLast?.map fun o => o.upper_bound) = some ub := by
  obtain ⟨ptype, maxorder, minsize, cc, eps, nregions, opts⟩ := aopts
  simp only at hpts hn hs
  subst hpts
  by_cases h1 : nregions = 1
  · left
    refine ⟨ptype, (maxorder + 1) % SIZE_MOD, lb, ?_⟩
    unfold piecewise_poly_approx1 piecewise_poly_approx1_body
    simp only
    rw [if_pos h1]
  · right
    refine ⟨(List.range' 0 nregions).map fun (i : Nat) =>
        fit ptype ((maxorder + 1) % SIZE_MOD) ((linspace lb ub (nregions + 1)).getD i 0)
          ((linspace lb ub (nregions + 1)).getD (i + 1) 0), ?_, ?_, ?_⟩
    · unfold piecewise_poly_approx1 piecewise_poly_approx1_body
      simp only
      rw [if_neg h1, Nat.mod_eq_of_lt hs,
        piecewise_poly_approx1_loop_eq fit ptype _ (linspace lb ub (nregions + 1)) nregions 0
          (by rw [linspace_length]; omega)]
      simp [Outcome.bind, List.map_map, Function.comp_def]
    · intro o ho
      rw [List.mem_map] at ho
      obtain ⟨i, _, rfl⟩ := ho
      exact ⟨_, _, _, _, rfl⟩
    · rw [List.getLast?_eq_getElem?, List.length_map, List.length_range', List.getElem?_map,
        List.getElem?_range' 0 1 (by omega : nregions - 1 < nregions)]
      simp only [Option.map_some', hub, Option.some.injEq]
      have e : 0 + 1 * (nregions - 1) + 1 = nregions := by omega
      rw [e, getD_of_getElem? _ 0 _ nregions
        (linspace_getElem? lb ub (nregions + 1) nregions (by omega))]
      have hc : (((nregions + 1 : Nat) : R) - 1) = (nregions : R) := by
        push_cast
        ring
      have hn0 : (nregions : R) ≠ 0 := by
        have : (0 : R) < (nregions : R) := by exact_mod_cast hn
        exact ne_of_gt this
      rw [hc]
      field_simp

theorem piecewise_poly_approx1_adapt_body_zero (fit : Int → Nat → R → R → OrthPolyExpansion R)
    (ev : OrthPolyExpansion R → R → R) (hz : ∀ p N lo hi t, ev (fit p N lo hi) t = 0)
    (hub : ∀ p N lo hi, (fit p N lo hi).upper_bound = hi) (LEGENDRE : Int)
    (aopts : PwPolyAdaptOpts R) (hpts : aopts.pts = none)
    (hn : 1 ≤ aopts.nregions) (hs : aopts.nregions + 1 < SIZE_MOD) :
    ∀ (depth : Nat) (lo hi : R) (tr : PiecewisePoly (OrthPolyExpansion R)),
      piecewise_poly_approx1_adapt_body fit LEGENDRE aopts depth lo hi = some (.ret tr) →
      ZeroUpTo ev tr hi
  | 0, lo, hi, tr, h => by simp [piecewise_poly_approx1_adapt_body] at h
  | depth + 1, lo, hi, tr, h => by
      have hleaf : ∀ p N l u, ZeroUpTo ev (leaf (fit p N l u)) (fit p N l u).upper_bound :=
        fun p N l u => ⟨rfl, fun t _ => by rw [piecewise_poly_eval, hz]⟩
      rw [piecewise_poly_approx1_adapt_body] at h
      rcases piecewise_poly_approx1_uniform fit hub LEGENDRE aopts lo hi hpts hn hs with
        ⟨p, N, l, hp⟩ | ⟨os, hos, hfit, hlast⟩
      · rw [hp] at h
        simp only [budgetBind, Option.some.injEq, Outcome.ret.injEq] at h
        subst h
        have := hleaf p N l hi
        rw [hub] at this
        exact this
      · rw [hos] at h
        simp only [budgetBind] at h
        obtain ⟨bs1, hbs1, h⟩ := budgetBind_eq_ret _ _ _ h
        simp only [Option.some.injEq, Outcome.ret.injEq] at h
        subst h
        have hall := piecewise_poly_approx1_adapt_loop_forall₂ aopts
          (piecewise_poly_approx1_adapt_body fit LEGENDRE aopts depth) (ZeroUpTo ev)
          (fun l u tr1 h1 => piecewise_poly_approx1_adapt_body_zero fit ev hz hub LEGENDRE aopts
            hpts hn hs depth l u tr1 h1)
          os bs1
          (fun o ho => by
            obtain ⟨p, N, l, u, rfl⟩ := hfit o ho
            exact hleaf p N l u)
          hbs1
        exact zeroUpTo_node ev hi os bs1 hall hlast

theorem piecewise_poly_daxpby_cancel
    (approx : (R → Outcome Unit R) → Int → Nat → R → R → OrthPolyExpansion R)
    (ev : OrthPolyExpansion R → R → R)
    (hz : ∀ h p N lo hi, (∀ t, h t = .ret 0) → ∀ t, ev (approx h p N lo hi) t = 0)
    (hub : ∀ h p N lo hi, (approx h p N lo hi).upper_bound = hi)
    (LEGENDRE : Int) (depth : Nat) (p tr : PiecewisePoly (OrthPolyExpansion R))
    (hne : nonemptyInterior p = true)
    (h : piecewise_poly_daxpby approx ev LEGENDRE depth 1 (some p) (-1) (some p)
      = some (.ret tr)) :
    ∃ ub, piecewise_poly_ub p = some ub ∧ ZeroUpTo ev tr ub := by
  obtain ⟨ub, hubp⟩ := piecewise_poly_ub_isSome p hne
  obtain ⟨lb, hlbp⟩ := piecewise_poly_lb_isSome p hne
  refine ⟨ub, hubp, ?_⟩
  rw [piecewise_poly_daxpby, hlbp, hubp] at h
  simp only [Outcome.ofOption, budgetBind, piecewise_poly_approx1_adapt] at h
  exact piecewise_poly_approx1_adapt_body_zero
    (approx (pw_eval_sum ev 1 (-1) (some p) (some p))) ev
    (fun q N lo hi t => hz _ q N lo hi (pw_eval_sum_cancel ev p hne) t)
    (fun q N lo hi => hub _ q N lo hi) LEGENDRE _ rfl (by norm_num) (by norm_num [SIZE_MOD])
    depth lb ub tr h

/-- A backend fit by a constant: the value of the function at the lower
bound. -/
def startFit (h : ℚ → Outcome Unit ℚ) (p : Int) (_N : Nat) (lo hi : ℚ) : OrthPolyExpansion ℚ :=
  ⟨p, 1, lo, hi, [match h lo with | .ret v => v | _ => 0]⟩

/-- Backend routines on constant functions over the rationals: an expansion is
equal everywhere to its first coefficient, a linear-element function is a
number; `piecewise_poly_daxpby` is the routine of `piecewisepoly.c` run with
the constant fit. -/
def headBackends : Backends (OrthPolyExpansion ℚ) ℚ ℚ where
  orth_poly_expansion_copy := fun o => o
  orth_poly_expansion_scale := fun a o =>
    ⟨o.ptype, 1, o.lower_bound, o.upper_bound, [a * o.coeff.headD 0]⟩
  orth_poly_expansion_ptype := fun o => o.ptype
  orth_poly_expansion_daxpby := fun a x b y =>
    ⟨0, 1, 0, 1, [a * x.elim 0 (fun o => o.coeff.headD 0)
      + b * y.elim 0 (fun o => o.coeff.headD 0)]⟩
  orth_poly_expansion_prod := fun x y =>
    ⟨0, 1, x.lower_bound, x.upper_bound, [x.coeff.headD 0 * y.coeff.headD 0]⟩
  lin_elem_exp_copy := fun l => l
  lin_elem_exp_scale := fun a l => a * l
  lin_elem_exp_axpy := fun a x y => (0, a * x + y)
  lin_elem_exp_prod := fun x y => x * y
  piecewise_poly_scale := fun _ p => p
  piecewise_poly_daxpby := fun a x b y =>
    match piecewise_poly_daxpby startFit headCoeff 0 2 a x b y with
    | some (.ret t) => t
    | _ => node []
  piecewise_poly_prod := fun x y => node [x, y]

theorem headBackends_daxpby (a b : ℚ) (x y : OrthPolyExpansion ℚ) (t : ℚ) :
    headCoeff (headBackends.orth_poly_expansion_daxpby a (some x) b (some y)) t
      = a * headCoeff x t + b * headCoeff y t := by
  simp [headBackends, headCoeff]

theorem startFit_zero (h : ℚ → Outcome Unit ℚ) (q : Int) (N : Nat) (lo hi : ℚ)
    (hh : ∀ t, h t = .ret 0) (t : ℚ) : headCoeff (startFit h q N lo hi) t = 0 := by
  simp [startFit, headCoeff, hh lo]

end Eval1dProofs

/-! ## Skeleton decomposition of a bivariate function (`elements.c`) -/

/-- The C type `struct FiberCut` of a two-dimensional function: `totdim`, the
free dimension `dimcut` and the block `vals` of `totdim` coordinates.  The
function and its arguments, the same for every cut, are passed alongside. -/
structure FiberCut (R : Type) where
  totdim : Nat
  dimcut : Nat
  vals : List R

/-- The C type `struct SkeletonDecomp`: the rank `r`, the quasimatrices `xqm`
and `yqm` and the block `skeleton` of `r*r` numbers. -/
structure SkeletonDecomp (O L R : Type) where
  r : Nat
  xqm : Quasimatrix O L
  yqm : Quasimatrix O L
  skeleton : List R

/-- The approximation routines `generic_function_approximate1d` calls, each
taken to return its result on the function it is given:
`piecewise_poly_approx1_adapt`, `orth_poly_expansion_approx_adapt` (which also
takes the polynomial type) and `lin_elem_exp_approx`. -/
structure ApproxBackends (O L R : Type) where
  piecewise_poly_approx1_adapt : (R → R) → R → R → PiecewisePoly O
  orth_poly_expansion_approx_adapt : (R → R) → Int → R → R → O
  lin_elem_exp_approx : (R → R) → R → R → L

section Skeleton

variable {O L R : Type}

/-- The loop `for (i = lo; i < lo + n; i++) body`, threading the state through
calls that may not return. -/
def outcomeLoop {P σ : Type} (body : Nat → σ → Outcome P σ) : Nat → Nat → σ → Outcome P σ
  | _, 0, s => .ret s
  | i, n + 1, s => (body i s).bind (outcomeLoop body (i + 1) n)

/-- The C routine `alloc_fiber_cut(totdim, dim)`: the coordinates are zeroed. -/
def alloc_fiber_cut [Zero R] (totdim dim : Nat) : FiberCut R :=
  ⟨totdim, dim, List.replicate totdim 0⟩

/-- The C routine `fiber_cut_2darray(f, args, dim, n, val)`: cut `ii` has the
coordinate that is not `dim` set to `val[ii]`. -/
def fiber_cut_2darray [Zero R] (dim n : Nat) (val : List R) :
    Outcome (Payload O L) (List (FiberCut R)) :=
  storeLoop
    (fun ii =>
      (Outcome.ofOption val[ii]?).bind fun v =>
      (Outcome.ofOption
        (storeNode (alloc_fiber_cut (R := R) 2 dim).vals (if dim = 0 then 1 else 0) v)).bind
        fun vals => .ret (⟨2, dim, vals⟩ : FiberCut R))
    (fun ii => ii) 0 n (List.replicate n (alloc_fiber_cut 2 dim))

/-- The C routine `fiber_cut_eval2d(x, vfcut)` for the function `f`; the block
`vals` of a cut of a two-dimensional function has two entries. -/
def fiber_cut_eval2d [Zero R] (f : R → R → R) (fcut : FiberCut R) (x : R) : R :=
  if fcut.dimcut = 0 then f x (fcut.vals.getD 1 0) else f (fcut.vals.getD 0 0) x

/-- The C routine `generic_function_approximate1d(f, args, fc, sub_type, lb,
ub, aopts)`. -/
def generic_function_approximate1d (A : ApproxBackends O L R) (f : R → R)
    (fc : function_class) (sub_type : Int) (lb ub : R) : GenericFunction O L :=
  match fc with
  | .PIECEWISE =>
      (generic_function_alloc 1 fc sub_type).setF (.pw (A.piecewise_poly_approx1_adapt f lb ub))
  | .POLYNOMIAL =>
      (generic_function_alloc 1 fc sub_type).setF
        (.ope (A.orth_poly_expansion_approx_adapt f
          (generic_function_alloc (O := O) (L := L) 1 fc sub_type).sub_type lb ub))
  | .LINELM =>
      (generic_function_alloc 1 fc sub_type).setF (.lexp (A.lin_elem_exp_approx f lb ub))
  | .RATIONAL => generic_function_alloc 1 fc sub_type
  | .KERNEL => generic_function_alloc 1 fc sub_type

/-- The C routine `quasimatrix_approx_from_fiber_cuts(n, f, fcut, fc, sub_type,
lb, ub, aopts)`. -/
def quasimatrix_approx_from_fiber_cuts (A : ApproxBackends O L R) (n : Nat)
    (f : FiberCut R → R → R) (fcut : List (FiberCut R)) (fc : function_class)
    (sub_type : Int) (lb ub : R) : Outcome (Payload O L) (Quasimatrix O L) :=
  (storeLoop
    (fun ii =>
      (Outcome.ofOption fcut[ii]?).bind fun cut =>
        .ret (some (generic_function_approximate1d A (f cut) fc sub_type lb ub)))
    (fun ii => ii) 0 n (quasimatrix_alloc (O := O) (L := L) n).funcs).bind
    fun funcs => .ret ⟨n, funcs⟩

/-- The C routine `skeleton_decomp_init2d_from_pivots(f, args, bounds, fc,
sub_type, r, pivx, pivy, approx_args)`, with `bounds = {lb0, ub0, lb1, ub1}`.
The matrix `cmat[ii*r + jj] = f(pivx[jj], pivy[ii])` is handed to `pinv`, the
pseudo-inverse routine of the dense linear algebra library, whose result is
the block `skeleton`. -/
def skeleton_decomp_init2d_from_pivots [Zero R] (A : ApproxBackends O L R)
    (pinv : Nat → Nat → Nat → List R → List R) (f : R → R → R) (lb0 ub0 lb1 ub1 : R)
    (fc0 fc1 : function_class) (sub_type0 sub_type1 : Int) (r : Nat) (pivx pivy : List R) :
    Outcome (Payload O L) (SkeletonDecomp O L R) :=
  (fiber_cut_2darray 0 r pivy).bind fun fx =>
  (quasimatrix_approx_from_fiber_cuts A r (fiber_cut_eval2d f) fx fc0 sub_type0 lb0 ub0).bind
    fun xqm =>
  (fiber_cut_2darray 1 r pivx).bind fun fy =>
  (quasimatrix_approx_from_fiber_cuts A r (fiber_cut_eval2d f) fy fc1 sub_type1 lb1 ub1).bind
    fun yqm =>
  (outcomeLoop
    (fun ii cmat =>
      storeLoop
        (fun jj =>
          (Outcome.ofOption pivx[jj]?).bind fun px =>
          (Outcome.ofOption pivy[ii]?).bind fun py => .ret (f px py))
        (fun jj => (ii * r + jj) % SIZE_MOD) 0 r cmat)
    0 r (List.replicate ((r * r) % SIZE_MOD) 0)).bind fun cmat =>
  .ret ⟨r, xqm, yqm, pinv r r r cmat⟩

/-- Modelled from the spec: `qmm(Q, S, b)`, the product of a quasimatrix with a
numeric matrix on the right: function `k` of the result is the linear
combination of the functions of `Q` whose coefficients are column `k` of the
matrix, stored column by column (`S[k*n + i]`, the layout `dprint2d_col`
prints). -/
def qmm [Zero R] [One R] (B : Backends O L R) (Q : Quasimatrix O L) (S : List R) (b : Nat) :
    Outcome (Payload O L) (Quasimatrix O L) :=
  (storeLoop
    (fun k =>
      (generic_function_lin_comb B Q.n Q.funcs (S.drop (k * Q.n))).bind fun g => .ret (some g))
    (fun k => k) 0 b (quasimatrix_alloc (O := O) (L := L) b).funcs).bind
    fun funcs => .ret ⟨b, funcs⟩

/-- The loop of `skeleton_decomp_eval` on the running sum `out`: the product of
the values of `t1->funcs[ii]` at `x` and `skd->yqm->funcs[ii]` at `y` is added;
`eval` is `generic_function_1d_eval`, which reads through the pointer it is
given. -/
def skeleton_decomp_eval_loop [Add R] [Mul R]
    (eval : GenericFunction O L → R → Outcome (Payload O L) R)
    (t1 yqm : Quasimatrix O L) (x y : R) : Nat → Nat → R → Outcome (Payload O L) R
  | _, 0, out => .ret out
  | ii, n + 1, out =>
      (Outcome.ofOption t1.funcs[ii]?).bind fun p1 =>
      (Outcome.ofOption p1).bind fun g1 =>
      (eval g1 x).bind fun v1 =>
      (Outcome.ofOption yqm.funcs[ii]?).bind fun p2 =>
      (Outcome.ofOption p2).bind fun g2 =>
      (eval g2 y).bind fun v2 =>
      skeleton_decomp_eval_loop eval t1 yqm x y (ii + 1) n (out + v1 * v2)

/-- The C routine `skeleton_decomp_eval(skd, x, y)`. -/
def skeleton_decomp_eval [Zero R] [One R] [Add R] [Mul R] (B : Backends O L R)
    (eval : GenericFunction O L → R → Outcome (Payload O L) R)
    (skd : SkeletonDecomp O L R) (x y : R) : Outcome (Payload O L) R :=
  (qmm B skd.xqm skd.skeleton skd.r).bind fun t1 =>
    skeleton_decomp_eval_loop eval t1 skd.yqm x y 0 t1.n 0

end Skeleton

section SkeletonProofs

variable {O L R : Type}

set_option linter.unusedTactic false
set_option linter.unreachableTactic false

/-- The cut `fiber_cut_2darray` makes for the value `v`. -/
def cutOf [Zero R] (dim : Nat) (v : R) : FiberCut R :=
  ⟨2, dim, if dim = 0 then [0, v] else [v, 0]⟩

theorem storeLoop_fill {P α : Type} (val : Nat → Outcome P α) (v : Nat → α) (n : Nat)
    (arr : List α) (hlen : arr.length = n) (hv : ∀ ii, ii < n → val ii = .ret (v ii)) :
    storeLoop val (fun ii => ii) 0 n arr = .ret ((List.range' 0 n).map v) := by
  rw [storeLoop_eq val (fun ii => ii) 0 v (fun ii => (Nat.zero_add ii).symm) n 0 arr
    (fun ii _ h => hv ii (by omega)) (by omega)]
  rw [splice_full _ _ (by simp [hlen])]

theorem range'_map_getElem? {α : Type} (v : Nat → α) (n i : Nat) (h : i < n) :
    ((List.range' 0 n).map v)[i]? = some (v i) := by
  rw [List.getElem?_map, List.getElem?_range' 0 1 h]
  simp

theorem fiber_cut_2darray_eq [Zero R] (dim n : Nat) (val : List R) (h : n ≤ val.length) :
    fiber_cut_2darray (O := O) (L := L) dim n val
      = .ret ((List.range' 0 n).map fun i => cutOf dim (val.getD i 0)) := by
  unfold fiber_cut_2darray
  apply storeLoop_fill
  · simp
  · intro ii hii
    rw [getElem?_getD_of_lt val 0 ii (by omega)]
    by_cases hd : dim = 0
    · simp [Outcome.ofOption, Outcome.bind, storeNode, alloc_fiber_cut, cutOf, hd]
    · simp [Outcome.ofOption, Outcome.bind, storeNode, alloc_fiber_cut, cutOf, hd]

theorem quasimatrix_approx_from_fiber_cuts_eq (A : ApproxBackends O L R) (n : Nat)
    (f : FiberCut R → R → R) (cut : Nat → FiberCut R) (fc : function_class) (st : Int)
    (lb ub : R) :
    quasimatrix_approx_from_fiber_cuts A n f ((List.range' 0 n).map cut) fc st lb ub
      = .ret ⟨n, (List.range' 0 n).map fun i =>
          some (generic_function_approximate1d A (f (cut i)) fc st lb ub)⟩ := by
  unfold quasimatrix_approx_from_fiber_cuts
  rw [storeLoop_fill _ (fun i => some (generic_function_approximate1d A (f (cut i)) fc st lb ub))
    n _ (by simp [quasimatrix_alloc]) (fun ii hii => by
      rw [range'_map_getElem? cut n ii hii]
      rfl)]
  rfl

theorem cmat_loop_eq (F : Nat → Nat → R) (r : Nat) (hs : r * r < SIZE_MOD)
    (val : Nat → Nat → Outcome (Payload O L) R)
    (hval : ∀ i j, i < r → j < r → val i j = .ret (F i j)) :
    ∀ (n lo : Nat) (arr : List R), arr.length = r * r → lo + n ≤ r →
      ∃ arr1, outcomeLoop
          (fun ii cmat => storeLoop (val ii) (fun jj => (ii * r + jj) % SIZE_MOD) 0 r cmat)
          lo n arr = .ret arr1 ∧
        arr1.length = r * r ∧
        (∀ i j, lo ≤ i → i < lo + n → j < r → arr1[i * r + j]? = some (F i j)) ∧
        ∀ k, (k / r < lo ∨ lo + n ≤ k / r) → arr1[k]? = arr[k]?
  | 0, lo, arr, hlen, _ =>
      ⟨arr, rfl, hlen, fun i j h1 h2 => absurd h2 (by omega), fun _ _ => rfl⟩
  | n + 1, lo, arr, hlen, hle => by
      have hlt : ∀ jj, jj < r → lo * r + jj < r * r := fun jj hjj =>
        column_index_lt lo r jj r (by omega) hjj
      obtain ⟨arr0, h0, hl0, hg0, hf0⟩ := storeLoop_pointwise (val lo)
        (fun jj => (lo * r + jj) % SIZE_MOD) (F lo) r 0 arr
        (fun jj _ hjj => hval lo jj (by omega) (by omega))
        (fun jj _ hjj => by
          show (lo * r + jj) % SIZE_MOD < arr.length
          rw [Nat.mod_eq_of_lt (by have := hlt jj (by omega); omega), hlen]
          exact hlt jj (by omega))
        (fun ii jj _ hij hjj => by
          show (lo * r + ii) % SIZE_MOD ≠ (lo * r + jj) % SIZE_MOD
          rw [Nat.mod_eq_of_lt (by have := hlt ii (by omega); omega),
            Nat.mod_eq_of_lt (by have := hlt jj (by omega); omega)]
          omega)
      obtain ⟨arr1, h1, hl1, hg1, hf1⟩ := cmat_loop_eq F r hs val hval n (lo + 1) arr0
        (by omega) (by omega)
      refine ⟨arr1, ?_, hl1, ?_, ?_⟩
      · rw [outcomeLoop, h0]
        exact h1
      · intro i j hi1 hi2 hj
        by_cases hil : i = lo
        · subst hil
          rw [hf1 (i * r + j) (Or.inl (by rw [row_index_div i r j hj]; omega))]
          have := hg0 j (Nat.zero_le _) (by omega)
          simp only at this
          rw [Nat.mod_eq_of_lt (by have := hlt j hj; omega)] at this
          exact this
        · exact hg1 i j (by omega) (by omega) hj
      · intro k hk
        rw [hf1 k (by omega)]
        apply hf0 k
        intro jj _ hjj
        show k ≠ (lo * r + jj) % SIZE_MOD
        rw [Nat.mod_eq_of_lt (by have := hlt jj (by omega); omega)]
        intro e
        rw [e, row_index_div lo r jj (by omega)] at hk
        omega

theorem qmm_eq [Zero R] [One R] (B : Backends O L R) (Q : Quasimatrix O L) (S : List R)
    (b : Nat) (z : Nat → GenericFunction O L)
    (hz : ∀ k, k < b → generic_function_lin_comb B Q.n Q.funcs (S.drop (k * Q.n)) = .ret (z k)) :
    qmm B Q S b = .ret ⟨b, (List.range' 0 b).map fun k => some (z k)⟩ := by
  unfold qmm
  rw [storeLoop_fill _ (fun k => some (z k)) b _ (by simp [quasimatrix_alloc])
    (fun k hk => by rw [hz k hk]; rfl)]
  rfl

theorem skeleton_decomp_eval_loop_eq [Ring R]
    (eval : GenericFunction O L → R → Outcome (Payload O L) R) (t1 yqm : Quasimatrix O L)
    (x y : R) (g1 g2 : Nat → GenericFunction O L) (v1 v2 : Nat → R) :
    ∀ (n lo : Nat) (out : R),
      (∀ ii, lo ≤ ii → ii < lo + n →
        t1.funcs[ii]? = some (some (g1 ii)) ∧ eval (g1 ii) x = .ret (v1 ii) ∧
        yqm.funcs[ii]? = some (some (g2 ii)) ∧ eval (g2 ii) y = .ret (v2 ii)) →
      skeleton_decomp_eval_loop eval t1 yqm x y lo n out
        = .ret (out + ∑ k in Finset.range n, v1 (lo + k) * v2 (lo + k))
  | 0, lo, out, _ => by simp [skeleton_decomp_eval_loop]
  | n + 1, lo, out, h => by
      obtain ⟨e1, e2, e3, e4⟩ := h lo (Nat.le_refl _) (by omega)
      rw [skeleton_decomp_eval_loop, e1]
      simp only [Outcome.ofOption, Outcome.ret_bind, e2, e3, e4]
      rw [skeleton_decomp_eval_loop_eq eval t1 yqm x y g1 g2 v1 v2 n (lo + 1) _
        (fun ii a b => h ii (by omega) (by omega))]
      congr 1
      rw [Finset.sum_range_succ' _ n, add_assoc]
      congr 1
      rw [add_comm]
      congr 1
      apply Finset.sum_congr rfl
      intro k _
      rw [show lo + 1 + k = lo + (k + 1) by omega]

theorem skeleton_sum_pivot [CommRing R] (r a b : Nat) (hb : b < r) (S : Nat → R)
    (C : Nat → Nat → R)
    (hS : ∀ i j, i < r → j < r →
      ∑ k in Finset.range r, C i k * S (k * r + j) = if i = j then 1 else 0) :
    ∑ k in Finset.range r, (∑ i in Finset.range r, S (k * r + i) * C i a) * C b k = C b a := by
  have h1 : ∀ k, k ∈ Finset.range r →
      (∑ i in Finset.range r, S (k * r + i) * C i a) * C b k
        = ∑ i in Finset.range r, C b k * S (k * r + i) * C i a := by
    intro k _
    rw [Finset.sum_mul]
    apply Finset.sum_congr rfl
    intro i _
    ring
  rw [Finset.sum_congr rfl h1, Finset.sum_comm]
  have h2 : ∀ i, i ∈ Finset.range r →
      ∑ k in Finset.range r, C b k * S (k * r + i) * C i a
        = (if b = i then 1 else 0) * C i a := by
    intro i hi
    rw [← Finset.sum_mul, hS b i hb (Finset.mem_range.mp hi)]
  rw [Finset.sum_congr rfl h2]
  simp [Finset.sum_ite_eq, hb]

theorem getD_drop {α : Type} (l : List α) (n i : Nat) (d : α) :
    (l.drop n).getD i d = l.getD (n + i) d := by
  rw [List.getD_eq_getElem?_getD, List.getElem?_drop, ← List.getD_eq_getElem?_getD]

theorem fiber_cut_eval2d_zero [Zero R] (f : R → R → R) (v t : R) :
    fiber_cut_eval2d f (cutOf 0 v) t = f t v := by
  simp [fiber_cut_eval2d, cutOf]

theorem fiber_cut_eval2d_one [Zero R] (f : R → R → R) (v t : R) :
    fiber_cut_eval2d f (cutOf 1 v) t = f v t := by
  simp [fiber_cut_eval2d, cutOf]

/-- C25: let `pivx`, `pivy` hold `r` pivots with `r*r` representable; let the
combinator be exact on a family of functions with values `val` that
`generic_function_1d_eval` returns; let the approximation of every fiber cut be
in the family with the values of the cut (`X_i = f(., pivy_i)`,
`Y_i = f(pivx_i, .)`); and let the block `S` that `pinv` returns for the matrix
`C[i,j] = cmat[i*r + j] = f(pivx_j, pivy_i)` hold `r*r` numbers with `C S` the
identity.  Then `skeleton_decomp_init2d_from_pivots` returns a decomposition
of rank `r`, and `skeleton_decomp_eval` on it at `(pivx_a, pivy_b)` returns
`f(pivx_a, pivy_b)` for all `a, b < r`, in particular at every pivot. -/
theorem skeleton_decomp_interpolates [LinearOrderedField R]
    (B : Backends (OrthPolyExpansion R) L R) (A : ApproxBackends (OrthPolyExpansion R) L R)
    (pinv : Nat → Nat → Nat → List R → List R)
    (ev : OrthPolyExpansion R → R → R) (evL : L → R → R) (f : R → R → R)
    (lb0 ub0 lb1 ub1 : R) (fc0 fc1 : function_class) (st0 st1 : Int) (r : Nat)
    (pivx pivy : List R) (fam : GenericFunction (OrthPolyExpansion R) L → Prop)
    (val : GenericFunction (OrthPolyExpansion R) L → R → R)
    (hx : pivx.length = r) (hy : pivy.length = r) (hs : r * r < SIZE_MOD)
    (hval : ∀ g, fam g → ∀ t, generic_function_1d_eval ev evL g t = .ret (val g t))
    (hex : ∀ (a b : R) (x y : Option (GenericFunction (OrthPolyExpansion R) L)),
      (∀ u, x = some u → fam u) → (∀ u, y = some u → fam u) → (x.isSome ∨ y.isSome) →
      ∃ z, generic_function_daxpby B a x b y = .ret (some z) ∧ fam z ∧
        ∀ t, val z t = a * x.elim 0 (fun u => val u t) + b * y.elim 0 (fun u => val u t))
    (hX : ∀ cut : FiberCut R,
      fam (generic_function_approximate1d A (fiber_cut_eval2d f cut) fc0 st0 lb0 ub0) ∧
      ∀ t, val (generic_function_approximate1d A (fiber_cut_eval2d f cut) fc0 st0 lb0 ub0) t
        = fiber_cut_eval2d f cut t)
    (hY : ∀ cut : FiberCut R,
      fam (generic_function_approximate1d A (fiber_cut_eval2d f cut) fc1 st1 lb1 ub1) ∧
      ∀ t, val (generic_function_approximate1d A (fiber_cut_eval2d f cut) fc1 st1 lb1 ub1) t
        = fiber_cut_eval2d f cut t)
    (hS : ∀ cmat : List R, cmat.length = r * r →
      (∀ i j, i < r → j < r → cmat[i * r + j]? = some (f (pivx.getD j 0) (pivy.getD i 0))) →
      r * r ≤ (pinv r r r cmat).length ∧
      ∀ i j, i < r → j < r →
        ∑ k in Finset.range r,
          f (pivx.getD k 0) (pivy.getD i 0) * (pinv r r r cmat).getD (k * r + j) 0
          = if i = j then 1 else 0) :
    ∃ skd, skeleton_decomp_init2d_from_pivots A pinv f lb0 ub0 lb1 ub1 fc0 fc1 st0 st1 r
        pivx pivy = .ret skd ∧
      skd.r = r ∧
      ∀ a b, a < r → b < r →
        skeleton_decomp_eval B (generic_function_1d_eval ev evL) skd (pivx.getD a 0)
          (pivy.getD b 0) = .ret (f (pivx.getD a 0) (pivy.getD b 0)) := by
  obtain ⟨cmat, hcm, hcl, hcg, _⟩ := cmat_loop_eq (O := OrthPolyExpansion R) (L := L)
    (fun i j => f (pivx.getD j 0) (pivy.getD i 0)) r hs
    (fun ii jj =>
      (Outcome.ofOption pivx[jj]?).bind fun px =>
      (Outcome.ofOption pivy[ii]?).bind fun py => .ret (f px py))
    (fun i j hi hj => by
      simp only
      rw [getElem?_getD_of_lt pivx 0 j (by omega), getElem?_getD_of_lt pivy 0 i (by omega)]
      rfl)
    r 0 (List.replicate ((r * r) % SIZE_MOD) 0)
    (by rw [List.length_replicate, Nat.mod_eq_of_lt hs]) (by omega)
  obtain ⟨hSl, hSi⟩ := hS cmat hcl (fun i j hi hj => hcg i j (Nat.zero_le _) (by omega) hj)
  refine ⟨⟨r,
      ⟨r, (List.range' 0 r).map fun i => some (generic_function_approximate1d A
        (fiber_cut_eval2d f (cutOf 0 (pivy.getD i 0))) fc0 st0 lb0 ub0)⟩,
      ⟨r, (List.range' 0 r).map fun i => some (generic_function_approximate1d A
        (fiber_cut_eval2d f (cutOf 1 (pivx.getD i 0))) fc1 st1 lb1 ub1)⟩,
      pinv r r r cmat⟩, ?_, rfl, ?_⟩
  · unfold skeleton_decomp_init2d_from_pivots
    rw [fiber_cut_2darray_eq 0 r pivy (by omega), Outcome.ret_bind,
      quasimatrix_approx_from_fiber_cuts_eq, Outcome.ret_bind,
      fiber_cut_2darray_eq 1 r pivx (by omega), Outcome.ret_bind,
      quasimatrix_approx_from_fiber_cuts_eq, Outcome.ret_bind, hcm, Outcome.ret_bind]
  · intro a b ha hb
    have hlin : ∀ k, ∃ z : GenericFunction (OrthPolyExpansion R) L, k < r →
        generic_function_lin_comb B r
          ((List.range' 0 r).map fun i => some (generic_function_approximate1d A
            (fiber_cut_eval2d f (cutOf 0 (pivy.getD i 0))) fc0 st0 lb0 ub0))
          ((pinv r r r cmat).drop (k * r)) = .ret z ∧ fam z ∧
        val z (pivx.getD a 0) = ∑ i in Finset.range r,
          (pinv r r r cmat).getD (k * r + i) 0 * f (pivx.getD a 0) (pivy.getD i 0) := by
      intro k
      by_cases hk : k < r
      · obtain ⟨z, hz, hfz, hvz⟩ := generic_function_lin_comb_exact B
          ((List.range' 0 r).map fun i => some (generic_function_approximate1d A
            (fiber_cut_eval2d f (cutOf 0 (pivy.getD i 0))) fc0 st0 lb0 ub0))
          ((pinv r r r cmat).drop (k * r)) r (fun u => val u (pivx.getD a 0)) fam (by omega)
          (by
            rw [List.length_drop]
            have : (k + 1) * r ≤ r * r := Nat.mul_le_mul_right r hk
            have e : (k + 1) * r = k * r + r := by ring
            omega)
          (fun i hi => ⟨_, range'_map_getElem? _ r i hi, (hX _).1⟩)
          (fun a1 b1 x y h1 h2 h3 => by
            obtain ⟨z, hz, hfz, hvz⟩ := hex a1 b1 x y h1 h2 h3
            exact ⟨z, hz, hfz, hvz _⟩)
        refine ⟨z, fun _ => ⟨hz, hfz, ?_⟩⟩
        rw [hvz]
        apply Finset.sum_congr rfl
        intro i hi
        rw [getD_drop, getD_of_getElem? _ none _ i
          (range'_map_getElem? _ r i (Finset.mem_range.mp hi))]
        simp only [Option.elim]
        rw [(hX _).2, fiber_cut_eval2d_zero]
      · exact ⟨⟨0, .PIECEWISE, 0, .null⟩, fun h => absurd h hk⟩
    choose z hz using hlin
    unfold skeleton_decomp_eval
    simp only
    rw [qmm_eq B _ _ r z (fun k hk => (hz k hk).1), Outcome.ret_bind]
    simp only
    rw [skeleton_decomp_eval_loop_eq (generic_function_1d_eval ev evL) _ _ _ _ z
      (fun i => generic_function_approximate1d A
        (fiber_cut_eval2d f (cutOf 1 (pivx.getD i 0))) fc1 st1 lb1 ub1)
      (fun k => val (z k) (pivx.getD a 0))
      (fun k => f (pivx.getD k 0) (pivy.getD b 0)) r 0 0
      (fun ii _ hii => ⟨range'_map_getElem? _ r ii (by omega),
        hval _ (hz ii (by omega)).2.1 _,
        range'_map_getElem? _ r ii (by omega),
        by rw [hval _ (hY _).1, (hY _).2, fiber_cut_eval2d_one]⟩)]
    congr 1
    rw [zero_add]
    have hsum := skeleton_sum_pivot r a b hb (fun n => (pinv r r r cmat).getD n 0)
      (fun i k => f (pivx.getD k 0) (pivy.getD i 0)) hSi
    beta_reduce at hsum
    rw [← hsum]
    apply Finset.sum_congr rfl
    intro k hk
    rw [Nat.zero_add, (hz k (Finset.mem_range.mp hk)).2.2]

/-- The value at `t` of an expansion with coefficients `[c0, c1]`, read as
`c0 + c1*t`. -/
def affineEval (o : OrthPolyExpansion ℚ) (t : ℚ) : ℚ :=
  o.coeff.getD 0 0 + o.coeff.getD 1 0 * t

/-- Backend routines on affine functions over the rationals. -/
def affineBackends : Backends (OrthPolyExpansion ℚ) ℚ ℚ where
  orth_poly_expansion_copy := fun o => o
  orth_poly_expansion_scale := fun a o =>
    ⟨o.ptype, 2, o.lower_bound, o.upper_bound, [a * o.coeff.getD 0 0, a * o.coeff.getD 1 0]⟩
  orth_poly_expansion_ptype := fun o => o.ptype
  orth_poly_expansion_daxpby := fun a x b y =>
    ⟨0, 2, 0, 1,
      [a * x.elim 0 (fun o => o.coeff.getD 0 0) + b * y.elim 0 (fun o => o.coeff.getD 0 0),
        a * x.elim 0 (fun o => o.coeff.getD 1 0) + b * y.elim 0 (fun o => o.coeff.getD 1 0)]⟩
  orth_poly_expansion_prod := fun x _ => x
  lin_elem_exp_copy := fun l => l
  lin_elem_exp_scale := fun a l => a * l
  lin_elem_exp_axpy := fun a x y => (0, a * x + y)
  lin_elem_exp_prod := fun x y => x * y
  piecewise_poly_scale := fun _ p => p
  piecewise_poly_daxpby := fun _ x _ y => node ((x.toList) ++ (y.toList))
  piecewise_poly_prod := fun x y => node [x, y]

/-- Approximation routines that interpolate the function at 0 and 1, exact on
affine functions. -/
def affineApprox : ApproxBackends (OrthPolyExpansion ℚ) ℚ ℚ where
  piecewise_poly_approx1_adapt := fun h lb ub => leaf ⟨0, 2, lb, ub, [h 0, h 1 - h 0]⟩
  orth_poly_expansion_approx_adapt := fun h p lb ub => ⟨p, 2, lb, ub, [h 0, h 1 - h 0]⟩
  lin_elem_exp_approx := fun h _ _ => h 0

/-- The inverse of a 2 by 2 matrix stored in a block of four numbers. -/
def inverse2 (_m _n _lda : Nat) (A : List ℚ) : List ℚ :=
  [A.getD 3 0 / (A.getD 0 0 * A.getD 3 0 - A.getD 1 0 * A.getD 2 0),
    -(A.getD 1 0) / (A.getD 0 0 * A.getD 3 0 - A.getD 1 0 * A.getD 2 0),
    -(A.getD 2 0) / (A.getD 0 0 * A.getD 3 0 - A.getD 1 0 * A.getD 2 0),
    A.getD 0 0 / (A.getD 0 0 * A.getD 3 0 - A.getD 1 0 * A.getD 2 0)]

/-- The function `f(x, y) = x*y + 1`. -/
def timesPlusOne (x y : ℚ) : ℚ := x * y + 1

/-- The function is of class `POLYNOMIAL` and holds an expansion. -/
def isPoly (u : GenericFunction (OrthPolyExpansion ℚ) ℚ) : Prop :=
  u.fc = .POLYNOMIAL ∧ ∃ o, u.f = .ope o

/-- The value at `t` of a polynomial function of the affine backend. -/
def polyValue (u : GenericFunction (OrthPolyExpansion ℚ) ℚ) (t : ℚ) : ℚ :=
  match u.f with
  | .ope o => affineEval o t
  | _ => 0

theorem isPoly_eval (g : GenericFunction (OrthPolyExpansion ℚ) ℚ) (hg : isPoly g) (t : ℚ) :
    generic_function_1d_eval affineEval (fun (l : ℚ) _ => l) g t = .ret (polyValue g t) := by
  obtain ⟨d, fc, st, f⟩ := g
  obtain ⟨h1, o, h2⟩ := hg
  simp only at h1 h2
  subst h1 h2
  rfl

theorem affineBackends_exact (a b : ℚ)
    (x y : Option (GenericFunction (OrthPolyExpansion ℚ) ℚ))
    (hx : ∀ u, x = some u → isPoly u) (hy : ∀ u, y = some u → isPoly u)
    (hxy : x.isSome ∨ y.isSome) :
    ∃ z, generic_function_daxpby affineBackends a x b y = .ret (some z) ∧ isPoly z ∧
      ∀ t, polyValue z t
        = a * x.elim 0 (fun u => polyValue u t) + b * y.elim 0 (fun u => polyValue u t) := by
  cases x with
  | none =>
    cases y with
    | none => simp at hxy
    | some v =>
      obtain ⟨d, fc, st, f⟩ := v
      obtain ⟨h1, o, h2⟩ := hy _ rfl
      simp only at h1 h2
      subst h1 h2
      refine ⟨_, rfl, ⟨rfl, _, rfl⟩, fun t => ?_⟩
      simp [polyValue, affineEval, affineBackends, GenericFunction.setF, Option.elim]
      ring
  | some u =>
    obtain ⟨d, fc, st, f⟩ := u
    obtain ⟨h1, o, h2⟩ := hx _ rfl
    simp only at h1 h2
    subst h1 h2
    cases y with
    | none =>
      refine ⟨_, rfl, ⟨rfl, _, rfl⟩, fun t => ?_⟩
      simp [polyValue, affineEval, affineBackends, GenericFunction.setF, Option.elim]
      ring
    | some v =>
      obtain ⟨d1, fc1, st1, f1⟩ := v
      obtain ⟨h3, o1, h4⟩ := hy _ rfl
      simp only at h3 h4
      subst h3 h4
      refine ⟨_, rfl, ⟨rfl, _, rfl⟩, fun t => ?_⟩
      simp [polyValue, affineEval, affineBackends, GenericFunction.setF, Option.elim]
      ring

theorem affineApprox_exact (st : Int) (lb ub : ℚ) (cut : FiberCut ℚ) :
    isPoly (generic_function_approximate1d affineApprox (fiber_cut_eval2d timesPlusOne cut)
      .POLYNOMIAL st lb ub) ∧
    ∀ t, polyValue (generic_function_approximate1d affineApprox
        (fiber_cut_eval2d timesPlusOne cut) .POLYNOMIAL st lb ub) t
      = fiber_cut_eval2d timesPlusOne cut t := by
  refine ⟨⟨rfl, _, rfl⟩, fun t => ?_⟩
  by_cases hd : cut.dimcut = 0
  · simp [polyValue, affineEval, generic_function_approximate1d, affineApprox,
      GenericFunction.setF, fiber_cut_eval2d, timesPlusOne, hd]
    ring
  · simp [polyValue, affineEval, generic_function_approximate1d, affineApprox,
      GenericFunction.setF, fiber_cut_eval2d, timesPlusOne, hd]
    ring

theorem inverse2_exact (cmat : List ℚ) (_hlen : cmat.length = 2 * 2)
    (hc : ∀ i j, i < 2 → j < 2 →
      cmat[i * 2 + j]? = some (timesPlusOne ([(1 : ℚ), 2].getD j 0) ([(0 : ℚ), 1].getD i 0))) :
    2 * 2 ≤ (inverse2 2 2 2 cmat).length ∧
    ∀ i j, i < 2 → j < 2 →
      ∑ k in Finset.range 2,
        timesPlusOne ([(1 : ℚ), 2].getD k 0) ([(0 : ℚ), 1].getD i 0)
          * (inverse2 2 2 2 cmat).getD (k * 2 + j) 0
        = if i = j then 1 else 0 := by
  have e0 : cmat[0]? = some 1 := by
    have := hc 0 0 (by omega) (by omega)
    simpa [timesPlusOne] using this
  have e1 : cmat[1]? = some 1 := by
    have := hc 0 1 (by omega) (by omega)
    simpa [timesPlusOne] using this
  have e2 : cmat[2]? = some 2 := by
    have := hc 1 0 (by omega) (by omega)
    norm_num [timesPlusOne] at this
    exact this
  have e3 : cmat[3]? = some 3 := by
    have := hc 1 1 (by omega) (by omega)
    norm_num [timesPlusOne] at this
    exact this
  refine ⟨by simp [inverse2], ?_⟩
  intro i j hi hj
  interval_cases i <;> interval_cases j <;>
    simp [Finset.sum_range_succ, inverse2, e0, e1, e2, e3, timesPlusOne] <;> norm_num

theorem skeleton_decomp_interpolates_witness :
    [(1 : ℚ), 2].length = 2 ∧ [(0 : ℚ), 1].length = 2 ∧ 2 * 2 < SIZE_MOD ∧
    (∀ g, isPoly g → ∀ t,
      generic_function_1d_eval affineEval (fun (l : ℚ) _ => l) g t = .ret (polyValue g t)) ∧
    (∀ cut : FiberCut ℚ,
      isPoly (generic_function_approximate1d affineApprox (fiber_cut_eval2d timesPlusOne cut)
        .POLYNOMIAL 0 (-1) 3) ∧
      ∀ t, polyValue (generic_function_approximate1d affineApprox
          (fiber_cut_eval2d timesPlusOne cut) .POLYNOMIAL 0 (-1) 3) t
        = fiber_cut_eval2d timesPlusOne cut t) ∧
    ∃ skd, skeleton_decomp_init2d_from_pivots affineApprox inverse2 timesPlusOne (-1) 3 (-1) 3
        .POLYNOMIAL .POLYNOMIAL 0 0 2 [1, 2] [0, 1] = .ret skd ∧
      skd.r = 2 ∧
      ∀ a b, a < 2 → b < 2 →
        skeleton_decomp_eval affineBackends
          (generic_function_1d_eval affineEval (fun (l : ℚ) _ => l)) skd
          ([(1 : ℚ), 2].getD a 0) ([(0 : ℚ), 1].getD b 0)
          = .ret (timesPlusOne ([(1 : ℚ), 2].getD a 0) ([(0 : ℚ), 1].getD b 0)) :=
  ⟨rfl, rfl, by decide, isPoly_eval, affineApprox_exact 0 (-1) 3,
    skeleton_decomp_interpolates affineBackends affineApprox inverse2 affineEval
      (fun (l : ℚ) _ => l) timesPlusOne (-1) 3 (-1) 3 .POLYNOMIAL .POLYNOMIAL 0 0 2 [1, 2] [0, 1]
      isPoly polyValue rfl rfl (by decide) isPoly_eval affineBackends_exact
      (affineApprox_exact 0 (-1) 3) (affineApprox_exact 0 (-1) 3) inverse2_exact⟩

end SkeletonProofs

/-! ## The merged nodes of `piecewise_poly_match` (`piecewisepoly.c`) -/

section MatchNodes

variable {R : Type}

/-- The part of `piecewise_poly_match` that builds the merged node list: the
two boundary arrays, `lb = nodesa[0] < nodesb[0] ? nodesa[0] : nodesb[0]`,
`ub = nodesa[Na-1] > nodesb[Nb-1] ? nodesa[Na-1] : nodesb[Nb-1]`, the store
`nodes[0] = lb`, the two skip loops and the merge loop.  The result is the
array `nodes` with the number `N` of merged nodes. -/
def piecewise_poly_match_nodes [LinearOrderedRing R] (eps : R)
    (ain bin : PiecewisePoly (OrthPolyExpansion R)) : Outcome Unit (List R × Nat) :=
  (Outcome.ofOption (piecewise_poly_boundaries ain 0 none none)).bind fun ra =>
  (Outcome.ofOption (piecewise_poly_boundaries bin 0 none none)).bind fun rb =>
  (Outcome.ofOption ra.2[0]?).bind fun a0 =>
  (Outcome.ofOption rb.2[0]?).bind fun b0 =>
  (Outcome.ofOption ra.2[(ra.1 + SIZE_MOD - 1) % SIZE_MOD]?).bind fun aN =>
  (Outcome.ofOption rb.2[(rb.1 + SIZE_MOD - 1) % SIZE_MOD]?).bind fun bN =>
  let lb := if a0 < b0 then a0 else b0
  let ub := if aN > bN then aN else bN
  (Outcome.ofOption
    (storeNode (List.replicate ((ra.1 + rb.1) % SIZE_MOD) (0 : R)) 0 lb)).bind fun nodes =>
  (Outcome.ofOption (piecewise_poly_match_skip lb (ra.2.drop 1) 1)).bind fun inda =>
  (Outcome.ofOption (piecewise_poly_match_skip lb (rb.2.drop 1) 1)).bind fun indb =>
  piecewise_poly_match_merge eps ub ra.2 rb.2 nodes.length nodes inda indb 1

end MatchNodes

section MatchNodesProofs

variable {R : Type}

/-- The routine `piecewise_poly_match` is the node stage followed by the two
calls of `piecewise_poly_finer_grid` on the merged nodes. -/
theorem piecewise_poly_match_eq_nodes [LinearOrderedRing R]
    (copy : OrthPolyExpansion R → OrthPolyExpansion R) (eps : R)
    (ain bin : PiecewisePoly (OrthPolyExpansion R)) :
    piecewise_poly_match copy eps ain bin
      = (piecewise_poly_match_nodes eps ain bin).bind fun m =>
          (piecewise_poly_finer_grid copy ain m.2 (m.1.take m.2)).bind fun aout =>
          (piecewise_poly_finer_grid copy bin m.2 (m.1.take m.2)).bind fun bout =>
          .ret (aout, bout) := by
  unfold piecewise_poly_match piecewise_poly_match_nodes
  simp only [Outcome.bind_assoc]

/-- The merge loop stores at `nodes[cind]` only, so with `cind ≥ 1` the entry
`nodes[0]` is as it was when the loop returns. -/
theorem piecewise_poly_match_merge_head [LinearOrderedRing R] (eps ub : R)
    (nodesa nodesb : List R) :
    ∀ (room : Nat) (nodes : List R) (inda indb cind : Nat) (m : List R × Nat),
    1 ≤ cind →
    piecewise_poly_match_merge eps ub nodesa nodesb room nodes inda indb cind = .ret m →
    m.1[0]? = nodes[0]?
  | 0, _, _, _, _, _, _, h => by
      unfold piecewise_poly_match_merge at h
      cases h
  | room + 1, nodes, inda, indb, cind, m, hc, h => by
      have ih := piecewise_poly_match_merge_head eps ub nodesa nodesb room
      unfold piecewise_poly_match_merge at h
      cases hp : nodes[cind - 1]? with
      | none => rw [hp] at h; cases h
      | some prev =>
        rw [hp] at h
        simp only [Outcome.ofOption, Outcome.ret_bind] at h
        by_cases hlt : prev < ub
        · rw [if_pos hlt] at h
          cases ha : nodesa[inda]? with
          | none => rw [ha] at h; cases h
          | some va =>
            rw [ha] at h
            cases hb : nodesb[indb]? with
            | none => rw [hb] at h; cases h
            | some vb =>
              rw [hb] at h
              simp only [Outcome.ret_bind] at h
              have hstore : ∀ nodes1,
                  (if va ≤ vb then storeNode nodes cind va
                    else if vb < va then storeNode nodes cind vb else some nodes)
                    = some nodes1 → nodes1[0]? = nodes[0]? := by
                intro nodes1 hs
                have hset : ∀ v, storeNode nodes cind v = some nodes1 →
                    nodes1[0]? = nodes[0]? := by
                  intro v hv
                  unfold storeNode at hv
                  split_ifs at hv
                  cases hv
                  rw [List.getElem?_set_ne (by omega)]
                split_ifs at hs
                · exact hset _ hs
                · exact hset _ hs
                · cases hs; rfl
              cases hs : (if va ≤ vb then storeNode nodes cind va
                    else if vb < va then storeNode nodes cind vb else some nodes) with
              | none => rw [hs] at h; cases h
              | some nodes1 =>
                rw [hs] at h
                simp only [Outcome.ret_bind] at h
                rw [← hstore nodes1 hs]
                split_ifs at h <;> exact ih _ _ _ _ _ (by omega) h
        · rw [if_neg hlt] at h
          cases h
          rfl

/-- Whenever the node stage returns, the first merged node is the smaller of
the two first boundary nodes. -/
theorem piecewise_poly_match_nodes_first [LinearOrderedRing R] (eps : R)
    (ain bin : PiecewisePoly (OrthPolyExpansion R)) (ra rb : Nat × List R) (a0 b0 : R)
    (m : List R × Nat)
    (hra : piecewise_poly_boundaries ain 0 none none = some ra)
    (hrb : piecewise_poly_boundaries bin 0 none none = some rb)
    (ha0 : ra.2[0]? = some a0) (hb0 : rb.2[0]? = some b0)
    (h : piecewise_poly_match_nodes eps ain bin = .ret m) :
    m.1[0]? = some (min a0 b0) := by
  unfold piecewise_poly_match_nodes at h
  rw [hra, hrb] at h
  simp only [Outcome.ofOption, Outcome.ret_bind, ha0, hb0] at h
  cases haN : ra.2[(ra.1 + SIZE_MOD - 1) % SIZE_MOD]? with
  | none => rw [haN] at h; cases h
  | some aN =>
    rw [haN] at h
    cases hbN : rb.2[(rb.1 + SIZE_MOD - 1) % SIZE_MOD]? with
    | none => rw [hbN] at h; cases h
    | some bN =>
      rw [hbN] at h
      simp only [Outcome.ret_bind] at h
      cases hn : storeNode (List.replicate ((ra.1 + rb.1) % SIZE_MOD) (0 : R)) 0
          (if a0 < b0 then a0 else b0) with
      | none => rw [hn] at h; cases h
      | some nodes =>
        rw [hn] at h
        simp only [Outcome.ret_bind] at h
        cases hia : piecewise_poly_match_skip (if a0 < b0 then a0 else b0) (ra.2.drop 1) 1 with
        | none => rw [hia] at h; cases h
        | some inda =>
          rw [hia] at h
          cases hib : piecewise_poly_match_skip (if a0 < b0 then a0 else b0)
              (rb.2.drop 1) 1 with
          | none => rw [hib] at h; cases h
          | some indb =>
            rw [hib] at h
            simp only [Outcome.ret_bind] at h
            rw [piecewise_poly_match_merge_head eps _ _ _ _ _ _ _ _ m (le_refl 1) h]
            unfold storeNode at hn
            split_ifs at hn with hlen hlt
            · cases hn
              rw [List.getElem?_set_self (by simpa using hlen)]
              rw [min_eq_left (le_of_lt hlt)]
            · cases hn
              rw [List.getElem?_set_self (by simpa using hlen)]
              rw [min_eq_right (not_lt.mp hlt)]

end MatchNodesProofs

section MatchNodesClaims
/-- C31: the merged node list of `piecewise_poly_match` does not span the
intersection of the two domains.  For a leaf on `[0, 3]` and a leaf on
`[1, 3]` (bounds in units of 1/100) the merged nodes are `0, 3`: the first
node is the smaller of the two lower bounds, not the larger, and the two trees
returned keep their own lower bounds `0` and `1`.  With upper bounds `3` and
`2` the loop runs until the larger one and reads `nodesb[2]` past the end of
the two boundaries of the second tree, so no node list is produced. -/
theorem piecewise_poly_match_nodes_union :
    piecewise_poly_boundaries (constantLeaf 0 300 1) 0 none none = some (2, [0, 300]) ∧
    piecewise_poly_boundaries (constantLeaf 100 300 2) 0 none none = some (2, [100, 300]) ∧
    piecewise_poly_boundaries (constantLeaf 0 200 2) 0 none none = some (2, [0, 200]) ∧
    piecewise_poly_match_nodes 1 (constantLeaf 0 300 1) (constantLeaf 100 300 2)
      = .ret ([0, 300, 0, 0], 2) ∧
    piecewise_poly_match id 1 (constantLeaf 0 300 1) (constantLeaf 100 300 2)
      = .ret (constantLeaf 0 300 1, constantLeaf 100 300 2) ∧
    piecewise_poly_match_nodes 1 (constantLeaf 0 300 1) (constantLeaf 0 200 2) = .undefined ∧
    piecewise_poly_match id 1 (constantLeaf 0 300 1) (constantLeaf 0 200 2) = .undefined :=
  ⟨rfl, rfl, rfl, rfl, rfl, rfl, rfl⟩
end MatchNodesClaims

/-! ## Interpolating lines and parabolas (`piecewisepoly.c`) -/

section Solve

variable {R : Type}

/-- The C routine `solveLin(x, y, coeff)`; the result is the array `coeff`
(slope, offset).  A read outside `x` or `y` has no defined result. -/
def solveLin [Field R] (x y : List R) : Option (List R) :=
  x[0]?.bind fun x0 => x[1]?.bind fun x1 =>
  y[0]?.bind fun y0 => y[1]?.bind fun y1 =>
  let den := x0 - x1
  some [(y0 - y1) / den, (x0 * y1 - x1 * y0) / den]

/-- The C routine `solveQuad(x, y, coeff)`; the result is the array `coeff`,
high power to lower power. -/
def solveQuad [Field R] (x y : List R) : Option (List R) :=
  x[0]?.bind fun x0 => x[1]?.bind fun x1 => x[2]?.bind fun x2 =>
  y[0]?.bind fun y0 => y[1]?.bind fun y1 => y[2]?.bind fun y2 =>
  let den := x0 ^ 2 * (x1 - x2) - x1 ^ 2 * (x0 - x2) + x2 ^ 2 * (x0 - x1)
  some [(y0 * (x1 - x2) - y1 * (x0 - x2) + y2 * (x0 - x1)) / den,
    (x0 ^ 2 * (y1 - y2) - x1 ^ 2 * (y0 - y2) + x2 ^ 2 * (y0 - y1)) / den,
    (x0 ^ 2 * (x1 * y2 - x2 * y1) - x1 ^ 2 * (x0 * y2 - x2 * y0)
      + x2 ^ 2 * (x0 * y1 - x1 * y0)) / den]

/-- The C routine `pw_eval_lin_func(x, args)` with `args` the array `coeff`. -/
def pw_eval_lin_func [Field R] (x : R) (coeff : List R) : Option R :=
  coeff[0]?.bind fun c0 => coeff[1]?.bind fun c1 => some (c0 * x + c1)

/-- The C routine `pw_eval_quad_func(x, args)` with `args` the array `coeff`. -/
def pw_eval_quad_func [Field R] (x : R) (coeff : List R) : Option R :=
  coeff[0]?.bind fun c0 => coeff[1]?.bind fun c1 => coeff[2]?.bind fun c2 =>
    some (c0 * x ^ 2 + c1 * x + c2)

end Solve

section SolveClaims

variable {R : Type}

/-- C40: for pairwise distinct abscissae `x0, x1, x2` the coefficients
`solveQuad` computes satisfy `c0*x_k^2 + c1*x_k + c2 = y_k` for `k = 0, 1, 2`
(the value `pw_eval_quad_func` returns at `x_k` is `y_k`), and for distinct
`x0, x1` the coefficients of `solveLin` satisfy `slope*x_k + offset = y_k`
for `k = 0, 1`. -/
theorem solveQuad_solveLin_interpolate [Field R] (x0 x1 x2 y0 y1 y2 : R)
    (h01 : x0 ≠ x1) (h02 : x0 ≠ x2) (h12 : x1 ≠ x2) :
    (∃ c0 c1 c2, solveQuad [x0, x1, x2] [y0, y1, y2] = some [c0, c1, c2] ∧
      c0 * x0 ^ 2 + c1 * x0 + c2 = y0 ∧ c0 * x1 ^ 2 + c1 * x1 + c2 = y1 ∧
      c0 * x2 ^ 2 + c1 * x2 + c2 = y2 ∧
      pw_eval_quad_func x0 [c0, c1, c2] = some y0 ∧
      pw_eval_quad_func x1 [c0, c1, c2] = some y1 ∧
      pw_eval_quad_func x2 [c0, c1, c2] = some y2) ∧
    (∃ slope offset, solveLin [x0, x1] [y0, y1] = some [slope, offset] ∧
      slope * x0 + offset = y0 ∧ slope * x1 + offset = y1 ∧
      pw_eval_lin_func x0 [slope, offset] = some y0 ∧
      pw_eval_lin_func x1 [slope, offset] = some y1) := by
  have hden : x0 ^ 2 * (x1 - x2) - x1 ^ 2 * (x0 - x2) + x2 ^ 2 * (x0 - x1) ≠ 0 := by
    have : x0 ^ 2 * (x1 - x2) - x1 ^ 2 * (x0 - x2) + x2 ^ 2 * (x0 - x1)
        = (x0 - x1) * (x0 - x2) * (x1 - x2) := by ring
    rw [this]
    exact mul_ne_zero (mul_ne_zero (sub_ne_zero.mpr h01) (sub_ne_zero.mpr h02))
      (sub_ne_zero.mpr h12)
  have hlin : x0 - x1 ≠ 0 := sub_ne_zero.mpr h01
  have q0 : (y0 * (x1 - x2) - y1 * (x0 - x2) + y2 * (x0 - x1))
        / (x0 ^ 2 * (x1 - x2) - x1 ^ 2 * (x0 - x2) + x2 ^ 2 * (x0 - x1)) * x0 ^ 2
      + (x0 ^ 2 * (y1 - y2) - x1 ^ 2 * (y0 - y2) + x2 ^ 2 * (y0 - y1))
        / (x0 ^ 2 * (x1 - x2) - x1 ^ 2 * (x0 - x2) + x2 ^ 2 * (x0 - x1)) * x0
      + (x0 ^ 2 * (x1 * y2 - x2 * y1) - x1 ^ 2 * (x0 * y2 - x2 * y0)
          + x2 ^ 2 * (x0 * y1 - x1 * y0))
        / (x0 ^ 2 * (x1 - x2) - x1 ^ 2 * (x0 - x2) + x2 ^ 2 * (x0 - x1)) = y0 := by
    field_simp
    ring
  have q1 : (y0 * (x1 - x2) - y1 * (x0 - x2) + y2 * (x0 - x1))
        / (x0 ^ 2 * (x1 - x2) - x1 ^ 2 * (x0 - x2) + x2 ^ 2 * (x0 - x1)) * x1 ^ 2
      + (x0 ^ 2 * (y1 - y2) - x1 ^ 2 * (y0 - y2) + x2 ^ 2 * (y0 - y1))
        / (x0 ^ 2 * (x1 - x2) - x1 ^ 2 * (x0 - x2) + x2 ^ 2 * (x0 - x1)) * x1
      + (x0 ^ 2 * (x1 * y2 - x2 * y1) - x1 ^ 2 * (x0 * y2 - x2 * y0)
          + x2 ^ 2 * (x0 * y1 - x1 * y0))
        / (x0 ^ 2 * (x1 - x2) - x1 ^ 2 * (x0 - x2) + x2 ^ 2 * (x0 - x1)) = y1 := by
    field_simp
    ring
  have q2 : (y0 * (x1 - x2) - y1 * (x0 - x2) + y2 * (x0 - x1))
        / (x0 ^ 2 * (x1 - x2) - x1 ^ 2 * (x0 - x2) + x2 ^ 2 * (x0 - x1)) * x2 ^ 2
      + (x0 ^ 2 * (y1 - y2) - x1 ^ 2 * (y0 - y2) + x2 ^ 2 * (y0 - y1))
        / (x0 ^ 2 * (x1 - x2) - x1 ^ 2 * (x0 - x2) + x2 ^ 2 * (x0 - x1)) * x2
      + (x0 ^ 2 * (x1 * y2 - x2 * y1) - x1 ^ 2 * (x0 * y2 - x2 * y0)
          + x2 ^ 2 * (x0 * y1 - x1 * y0))
        / (x0 ^ 2 * (x1 - x2) - x1 ^ 2 * (x0 - x2) + x2 ^ 2 * (x0 - x1)) = y2 := by
    field_simp
    ring
  have l0 : (y0 - y1) / (x0 - x1) * x0 + (x0 * y1 - x1 * y0) / (x0 - x1) = y0 := by
    field_simp
    ring
  have l1 : (y0 - y1) / (x0 - x1) * x1 + (x0 * y1 - x1 * y0) / (x0 - x1) = y1 := by
    field_simp
    ring
  refine ⟨⟨_, _, _, rfl, q0, q1, q2, ?_, ?_, ?_⟩, ⟨_, _, rfl, l0, l1, ?_, ?_⟩⟩
  · exact congrArg some q0
  · exact congrArg some q1
  · exact congrArg some q2
  · exact congrArg some l0
  · exact congrArg some l1

/-- C40 at the points `(0, 1), (1, 3), (2, 11)`: the parabola `3x² - x + 1`
and the line through the first two points. -/
theorem solveQuad_solveLin_interpolate_witness :
    (0 : ℚ) ≠ 1 ∧ (0 : ℚ) ≠ 2 ∧ (1 : ℚ) ≠ 2 ∧
    (∃ c0 c1 c2 : ℚ, solveQuad [0, 1, 2] [1, 3, 11] = some [c0, c1, c2] ∧
      c0 * 0 ^ 2 + c1 * 0 + c2 = 1 ∧ c0 * 1 ^ 2 + c1 * 1 + c2 = 3 ∧
      c0 * 2 ^ 2 + c1 * 2 + c2 = 11 ∧
      pw_eval_quad_func 0 [c0, c1, c2] = some 1 ∧
      pw_eval_quad_func 1 [c0, c1, c2] = some 3 ∧
      pw_eval_quad_func 2 [c0, c1, c2] = some 11) ∧
    (∃ slope offset : ℚ, solveLin [0, 1] [1, 3] = some [slope, offset] ∧
      slope * 0 + offset = 1 ∧ slope * 1 + offset = 3 ∧
      pw_eval_lin_func 0 [slope, offset] = some 1 ∧
      pw_eval_lin_func 1 [slope, offset] = some 3) :=
  ⟨by norm_num, by norm_num, by norm_num,
    solveQuad_solveLin_interpolate (0 : ℚ) 1 2 1 3 11 (by norm_num) (by norm_num)
      (by norm_num)⟩

end SolveClaims

/-! ## Array operations of `functions.c`: `generic_function_array_axpy`,
`generic_function_1darray_eval2` and the `PIECEWISE` branch of
`generic_function_array_orth` -/

section ArrayOps

variable {O L R : Type}

/-- The loop of `generic_function_array_axpy` from index `ii` on, with `k`
iterations left; the state is `success` and the array `y`.  Each iteration
assigns `success = generic_function_axpy(a, x[ii], y[ii])` and leaves the loop
when `success == 1`. -/
def generic_function_array_axpy_loop (B : Backends O L R)
    (orth_poly_expansion_axpy : R → O → O → Int × O) (a : R)
    (x : List (Option (GenericFunction O L))) :
    Nat → Nat → Int → List (Option (GenericFunction O L)) →
      Outcome (Payload O L) (Int × List (Option (GenericFunction O L)))
  | 0, _, success, y => .ret (success, y)
  | k + 1, ii, _, y =>
      (Outcome.ofOption x[ii]?).bind fun xi =>
      (Outcome.ofOption y[ii]?).bind fun yi =>
      (generic_function_axpy B orth_poly_expansion_axpy a xi yi).bind fun r =>
        if r.1 = 1 then .ret (r.1, y.set ii (some r.2.2))
        else generic_function_array_axpy_loop B orth_poly_expansion_axpy a x k (ii + 1) r.1
          (y.set ii (some r.2.2))

/-- The C routine `generic_function_array_axpy(n, a, x, y)`: the status
returned and the array `y` after the call (`none` is a NULL array).  The
variable `success` starts at 1. -/
def generic_function_array_axpy (B : Backends O L R)
    (orth_poly_expansion_axpy : R → O → O → Int × O) (n : Nat) (a : R)
    (x y : Option (List (Option (GenericFunction O L)))) :
    Outcome (Payload O L) (Int × List (Option (GenericFunction O L))) :=
  match y with
  | none => .assertion
  | some y =>
      match x with
      | none => .assertion
      | some x => generic_function_array_axpy_loop B orth_poly_expansion_axpy a x n 0 1 y

/-- The first loop of `generic_function_1darray_eval2` from index `ii` on, with
`k` iterations left: it leaves with `allpoly = 0` at the first function that
is not `POLYNOMIAL` and stores the payload pointer `f[ii]->f` at `parr[ii]`
otherwise.  The result is `allpoly` with the array `parr`. -/
def generic_function_1darray_eval2_collect (f : List (Option (GenericFunction O L))) :
    Nat → Nat → List (Option (Payload O L)) →
      Outcome (Payload O L) (Bool × List (Option (Payload O L)))
  | 0, _, parr => .ret (true, parr)
  | k + 1, ii, parr =>
      (Outcome.ofOption f[ii]?).bind fun fi =>
      (Outcome.ofOption fi).bind fun g =>
        if g.fc ≠ .POLYNOMIAL then .ret (false, parr)
        else
          (Outcome.ofOption (storeNode parr ii (some g.f))).bind fun parr1 =>
            generic_function_1darray_eval2_collect f k (ii + 1) parr1

end ArrayOps

section ArrayEval

variable {L R : Type}

/-- The loop `for (ii = 0; ii < n; ii++) out[ii] = generic_function_1d_eval(f[ii], x)`
of `generic_function_1darray_eval2`. -/
def generic_function_1darray_eval2_each [LinearOrderedField R]
    (orth_poly_expansion_eval : OrthPolyExpansion R → R → R) (lin_elem_exp_eval : L → R → R)
    (n : Nat) (f : List (Option (GenericFunction (OrthPolyExpansion R) L))) (x : R)
    (out : List R) : Outcome (Payload (OrthPolyExpansion R) L) (List R) :=
  storeLoop
    (fun ii => (Outcome.ofOption f[ii]?).bind fun fi => (Outcome.ofOption fi).bind fun g =>
      generic_function_1d_eval orth_poly_expansion_eval lin_elem_exp_eval g x)
    (fun ii => ii) 0 n out

/-- The C routine `generic_function_1darray_eval2(n, f, x, out)`; the result
is the array `out` after the call.  `parr` is the local array of 1000 pointers,
`legendre_poly_expansion_arr_eval n parr x out` the routine of the polynomial
backend with the status it returns and the `out` it leaves. -/
def generic_function_1darray_eval2 [LinearOrderedField R]
    (orth_poly_expansion_eval : OrthPolyExpansion R → R → R) (lin_elem_exp_eval : L → R → R)
    (legendre_poly_expansion_arr_eval :
      Nat → List (Option (Payload (OrthPolyExpansion R) L)) → R → List R → Int × List R)
    (n : Nat) (f : List (Option (GenericFunction (OrthPolyExpansion R) L))) (x : R)
    (out : List R) : Outcome (Payload (OrthPolyExpansion R) L) (List R) :=
  (generic_function_1darray_eval2_collect f n 0 (List.replicate 1000 none)).bind fun r =>
    if r.1 = true ∧ n ≤ 1000 then
      if (legendre_poly_expansion_arr_eval n r.2 x out).1 = 1 then
        generic_function_1darray_eval2_each orth_poly_expansion_eval lin_elem_exp_eval n f x
          (legendre_poly_expansion_arr_eval n r.2 x out).2
      else .ret (legendre_poly_expansion_arr_eval n r.2 x out).2
    else
      generic_function_1darray_eval2_each orth_poly_expansion_eval lin_elem_exp_eval n f x out

end ArrayEval

section ArrayOrthPiecewise

variable {O L R : Type}

/-- The assignment `p->ope = o` on a tree: a leaf holds the new expansion; the
field `ope` of an interior node is not part of the tree as modelled. -/
def PiecewisePoly.storeOpe (o : O) : PiecewisePoly O → PiecewisePoly O
  | leaf _ => leaf o
  | node bs => node bs

/-- The assignment `((struct PiecewisePoly *) f)->ope = o` through the payload
pointer `f`, converted without a check: through a NULL payload, or one that is
not a tree, nothing is defined. -/
def piecewise_payload_store_ope (f : Payload O L) (o : O) :
    Outcome (Payload O L) (Payload O L) :=
  match f with
  | .pw p => .ret (.pw (p.storeOpe o))
  | _ => .undefined

/-- The loop of the `PIECEWISE` case of `generic_function_array_orth` from
index `ii` on, with `k` iterations left: `gfarray[ii]` is assigned the result
of `generic_function_alloc(1, fc, st)` and then the field `ope` of the tree
`gfarray[ii]->f` is assigned the basis polynomial of order `ii`. -/
def generic_function_array_orth_piecewise (F : FunctionFactories O L R) (st : Int)
    (lb ub : R) :
    Nat → Nat → List (Option (GenericFunction O L)) →
      Outcome (Payload O L) (List (Option (GenericFunction O L)))
  | 0, _, gfarray => .ret gfarray
  | k + 1, ii, gfarray =>
      (Outcome.ofOption (storeNode gfarray ii
        (some (generic_function_alloc 1 .PIECEWISE st)))).bind fun gfarray1 =>
      (piecewise_payload_store_ope
        (generic_function_alloc (O := O) (L := L) 1 .PIECEWISE st).f
        (F.orth_poly_expansion_genorder
          (generic_function_alloc (O := O) (L := L) 1 .PIECEWISE st).sub_type
          ii lb ub)).bind fun payload =>
      (Outcome.ofOption (storeNode gfarray1 ii
        (some ((generic_function_alloc 1 .PIECEWISE st).setF payload)))).bind fun gfarray2 =>
      generic_function_array_orth_piecewise F st lb ub k (ii + 1) gfarray2

end ArrayOrthPiecewise

section ArrayOpsProofs

variable {O L R : Type}

set_option linter.unusedTactic false
set_option linter.unreachableTactic false

/-- When every pair from `ii` on returns status 0 the loop of
`generic_function_array_axpy` runs to the end: it returns 0 (the incoming
`success` when there is no iteration) and touches `y` only at the indices it
has visited. -/
theorem generic_function_array_axpy_loop_ok (B : Backends O L R)
    (axpy : R → O → O → Int × O) (a : R) (x : List (Option (GenericFunction O L))) :
    ∀ (k ii : Nat) (s : Int) (y : List (Option (GenericFunction O L))),
    (∀ i, ii ≤ i → i < ii + k → ∃ xi yi r, x[i]? = some xi ∧ y[i]? = some yi ∧
      generic_function_axpy B axpy a xi yi = .ret r ∧ r.1 = 0) →
    ∃ y1, generic_function_array_axpy_loop B axpy a x k ii s y
        = .ret (if k = 0 then s else 0, y1) ∧
      y1.length = y.length ∧ ∀ i, (i < ii ∨ ii + k ≤ i) → y1[i]? = y[i]?
  | 0, ii, s, y, _ => ⟨y, rfl, rfl, fun _ _ => rfl⟩
  | k + 1, ii, s, y, h => by
      obtain ⟨xi, yi, r, hx, hy, hr, h0⟩ := h ii (le_refl _) (by omega)
      have hrest : ∀ i, ii + 1 ≤ i → i < ii + 1 + k → ∃ xi yi r1, x[i]? = some xi ∧
          (y.set ii (some r.2.2))[i]? = some yi ∧
          generic_function_axpy B axpy a xi yi = .ret r1 ∧ r1.1 = 0 := by
        intro i h1 h2
        obtain ⟨xi1, yi1, r1, hx1, hy1, hr1, h01⟩ := h i (by omega) (by omega)
        refine ⟨xi1, yi1, r1, hx1, ?_, hr1, h01⟩
        rw [List.getElem?_set_ne (by omega)]
        exact hy1
      obtain ⟨y1, hy1, hl1, hf1⟩ :=
        generic_function_array_axpy_loop_ok B axpy a x k (ii + 1) r.1
          (y.set ii (some r.2.2)) hrest
      refine ⟨y1, ?_, ?_, ?_⟩
      · unfold generic_function_array_axpy_loop
        rw [hx, hy]
        simp only [Outcome.ofOption, Outcome.ret_bind, hr]
        rw [if_neg (by omega), hy1]
        by_cases hk : k = 0
        · simp [hk, h0]
        · simp [hk]
      · rw [hl1, List.length_set]
      · intro i hi
        rw [hf1 i (by omega), List.getElem?_set_ne (by omega)]

/-- When the pairs before index `j` return status 0 and the pair at `j`
returns 1, the loop of `generic_function_array_axpy` returns 1 and the entries
of `y` after `j` are as they were. -/
theorem generic_function_array_axpy_loop_stop (B : Backends O L R)
    (axpy : R → O → O → Int × O) (a : R) (x : List (Option (GenericFunction O L))) :
    ∀ (k ii : Nat) (s : Int) (y : List (Option (GenericFunction O L))) (j : Nat),
    ii ≤ j → j < ii + k →
    (∀ i, ii ≤ i → i < j → ∃ xi yi r, x[i]? = some xi ∧ y[i]? = some yi ∧
      generic_function_axpy B axpy a xi yi = .ret r ∧ r.1 = 0) →
    (∃ xj yj r, x[j]? = some xj ∧ y[j]? = some yj ∧
      generic_function_axpy B axpy a xj yj = .ret r ∧ r.1 = 1) →
    ∃ y1, generic_function_array_axpy_loop B axpy a x k ii s y = .ret (1, y1) ∧
      ∀ i, j < i → y1[i]? = y[i]?
  | 0, ii, s, y, j, h1, h2, _, _ => by omega
  | k + 1, ii, s, y, j, h1, h2, hbefore, hj => by
      by_cases hij : ii = j
      · subst hij
        obtain ⟨xj, yj, r, hx, hy, hr, hr1⟩ := hj
        refine ⟨y.set ii (some r.2.2), ?_, ?_⟩
        · unfold generic_function_array_axpy_loop
          rw [hx, hy]
          simp only [Outcome.ofOption, Outcome.ret_bind, hr]
          rw [if_pos hr1, hr1]
        · intro i hi
          rw [List.getElem?_set_ne (by omega)]
      · obtain ⟨xi, yi, r, hx, hy, hr, h0⟩ := hbefore ii (le_refl _) (by omega)
        have hb1 : ∀ i, ii + 1 ≤ i → i < j → ∃ xi yi r1, x[i]? = some xi ∧
            (y.set ii (some r.2.2))[i]? = some yi ∧
            generic_function_axpy B axpy a xi yi = .ret r1 ∧ r1.1 = 0 := by
          intro i hi1 hi2
          obtain ⟨xi1, yi1, r1, hx1, hy1, hr1, h01⟩ := hbefore i (by omega) hi2
          refine ⟨xi1, yi1, r1, hx1, ?_, hr1, h01⟩
          rw [List.getElem?_set_ne (by omega)]
          exact hy1
        have hj1 : ∃ xj yj r1, x[j]? = some xj ∧ (y.set ii (some r.2.2))[j]? = some yj ∧
            generic_function_axpy B axpy a xj yj = .ret r1 ∧ r1.1 = 1 := by
          obtain ⟨xj, yj, r1, hxj, hyj, hrj, hr1⟩ := hj
          refine ⟨xj, yj, r1, hxj, ?_, hrj, hr1⟩
          rw [List.getElem?_set_ne (by omega)]
          exact hyj
        obtain ⟨y1, hy1, hf1⟩ :=
          generic_function_array_axpy_loop_stop B axpy a x k (ii + 1) r.1
            (y.set ii (some r.2.2)) j (by omega) (by omega) hb1 hj1
        refine ⟨y1, ?_, ?_⟩
        · unfold generic_function_array_axpy_loop
          rw [hx, hy]
          simp only [Outcome.ofOption, Outcome.ret_bind, hr]
          rw [if_neg (by omega), hy1]
        · intro i hi
          rw [hf1 i hi, List.getElem?_set_ne (by omega)]

/-- With every function `POLYNOMIAL` and more functions than the 1000 entries
of `parr`, the first loop of `generic_function_1darray_eval2` reaches the store
`parr[1000]`, which is outside the array. -/
theorem generic_function_1darray_eval2_collect_overflow
    (f : List (Option (GenericFunction O L))) :
    ∀ (k ii : Nat) (parr : List (Option (Payload O L))),
    parr.length = 1000 → ii ≤ 1000 → 1000 < ii + k →
    (∀ i, ii ≤ i → i < ii + k → ∃ g, f[i]? = some (some g) ∧ g.fc = .POLYNOMIAL) →
    generic_function_1darray_eval2_collect f k ii parr = .undefined
  | 0, ii, parr, _, h1, h2, _ => by omega
  | k + 1, ii, parr, hl, h1, h2, hf => by
      obtain ⟨g, hg, hfc⟩ := hf ii (le_refl _) (by omega)
      unfold generic_function_1darray_eval2_collect
      rw [hg]
      simp only [Outcome.ofOption, Outcome.ret_bind]
      rw [if_neg (by simp [hfc])]
      by_cases hii : ii = 1000
      · have hs : storeNode parr ii (some g.f) = none := by
          unfold storeNode
          rw [if_neg (by omega)]
        rw [hs]
        rfl
      · have hs : storeNode parr ii (some g.f) = some (parr.set ii (some g.f)) := by
          unfold storeNode
          rw [if_pos (by omega)]
        rw [hs]
        simp only [Outcome.ret_bind]
        exact generic_function_1darray_eval2_collect_overflow f k (ii + 1) _
          (by rw [List.length_set]; exact hl) (by omega) (by omega)
          (fun i hi1 hi2 => hf i (by omega) (by omega))

/-- With every function `POLYNOMIAL` and at most 1000 of them, the first loop
of `generic_function_1darray_eval2` stores inside `parr` and returns with
`allpoly = 1`. -/
theorem generic_function_1darray_eval2_collect_fits
    (f : List (Option (GenericFunction O L))) :
    ∀ (k ii : Nat) (parr : List (Option (Payload O L))),
    parr.length = 1000 → ii + k ≤ 1000 →
    (∀ i, ii ≤ i → i < ii + k → ∃ g, f[i]? = some (some g) ∧ g.fc = .POLYNOMIAL) →
    ∃ parr1, generic_function_1darray_eval2_collect f k ii parr = .ret (true, parr1) ∧
      parr1.length = 1000
  | 0, ii, parr, hl, _, _ => ⟨parr, rfl, hl⟩
  | k + 1, ii, parr, hl, h1, hf => by
      obtain ⟨g, hg, hfc⟩ := hf ii (le_refl _) (by omega)
      unfold generic_function_1darray_eval2_collect
      rw [hg]
      simp only [Outcome.ofOption, Outcome.ret_bind]
      rw [if_neg (by simp [hfc])]
      have hs : storeNode parr ii (some g.f) = some (parr.set ii (some g.f)) := by
        unfold storeNode
        rw [if_pos (by omega)]
      rw [hs]
      simp only [Outcome.ret_bind]
      exact generic_function_1darray_eval2_collect_fits f k (ii + 1) _
        (by rw [List.length_set]; exact hl) (by omega)
        (fun i hi1 hi2 => hf i (by omega) (by omega))

end ArrayOpsProofs

section ArrayOpsClaims

variable {O L R : Type}

/-- C37: for an empty array `generic_function_array_axpy` does not report
success: with `n = 0` the loop body never runs and the initial value 1 of
`success` is returned, whatever the arrays `x` and `y`, which are left as they
were.  With `n ≥ 1` the routine returns 0 when every pairwise
`generic_function_axpy(a, x[i], y[i])`, `i < n`, returns 0; and when the pairs
before `j` return 0 and the pair `j` returns 1 it returns 1 and leaves `y[i]`
as it was for every `i > j`. -/
theorem generic_function_array_axpy_status (B : Backends O L R)
    (axpy : R → O → O → Int × O) (a : R) (n : Nat)
    (x y : List (Option (GenericFunction O L))) :
    generic_function_array_axpy B axpy 0 a (some x) (some y) = .ret (1, y) ∧
    (1 ≤ n →
      (∀ i, i < n → ∃ xi yi r, x[i]? = some xi ∧ y[i]? = some yi ∧
        generic_function_axpy B axpy a xi yi = .ret r ∧ r.1 = 0) →
      ∃ y1, generic_function_array_axpy B axpy n a (some x) (some y) = .ret (0, y1)) ∧
    (∀ j, j < n →
      (∀ i, i < j → ∃ xi yi r, x[i]? = some xi ∧ y[i]? = some yi ∧
        generic_function_axpy B axpy a xi yi = .ret r ∧ r.1 = 0) →
      (∃ xj yj r, x[j]? = some xj ∧ y[j]? = some yj ∧
        generic_function_axpy B axpy a xj yj = .ret r ∧ r.1 = 1) →
      ∃ y1, generic_function_array_axpy B axpy n a (some x) (some y) = .ret (1, y1) ∧
        ∀ i, j < i → y1[i]? = y[i]?) := by
  refine ⟨rfl, ?_, ?_⟩
  · intro hn hall
    obtain ⟨y1, h1, _, _⟩ := generic_function_array_axpy_loop_ok B axpy a x n 0 1 y
      (fun i _ hi => hall i (by omega))
    refine ⟨y1, ?_⟩
    show generic_function_array_axpy_loop B axpy a x n 0 1 y = _
    rw [h1, if_neg (by omega)]
  · intro j hj hbefore hfail
    obtain ⟨y1, h1, h2⟩ := generic_function_array_axpy_loop_stop B axpy a x n 0 1 y j
      (Nat.zero_le _) (by omega) (fun i _ hi => hbefore i hi) hfail
    exact ⟨y1, h1, h2⟩

/-- C37 on two pairs, the first `POLYNOMIAL` with a backend that returns 0 and
the second `PIECEWISE`, for which `generic_function_axpy` returns 1: the
routine returns 1. -/
theorem generic_function_array_axpy_status_witness :
    generic_function_array_axpy boolBackends (fun _ ox oy => (0, ox || oy)) 2 0
        (some [some polySample, some pwSample]) (some [some polySample, some pwSample])
      = .ret (1, [some polySample, some pwSample]) ∧
    generic_function_array_axpy boolBackends (fun _ ox oy => (0, ox || oy)) 1 0
        (some [some polySample, some pwSample]) (some [some polySample, some pwSample])
      = .ret (0, [some polySample, some pwSample]) ∧
    (generic_function_array_axpy boolBackends (fun _ ox oy => (0, ox || oy)) 0 0
        (some [some polySample, some pwSample]) (some [some polySample, some pwSample])
      = .ret (1, [some polySample, some pwSample]) ∧
    (1 ≤ 2 →
      (∀ i, i < 2 → ∃ xi yi r, [some polySample, some pwSample][i]? = some xi ∧
        [some polySample, some pwSample][i]? = some yi ∧
        generic_function_axpy boolBackends (fun _ ox oy => (0, ox || oy)) 0 xi yi = .ret r ∧
        r.1 = 0) →
      ∃ y1, generic_function_array_axpy boolBackends (fun _ ox oy => (0, ox || oy)) 2 0
        (some [some polySample, some pwSample]) (some [some polySample, some pwSample])
        = .ret (0, y1)) ∧
    (∀ j, j < 2 →
      (∀ i, i < j → ∃ xi yi r, [some polySample, some pwSample][i]? = some xi ∧
        [some polySample, some pwSample][i]? = some yi ∧
        generic_function_axpy boolBackends (fun _ ox oy => (0, ox || oy)) 0 xi yi = .ret r ∧
        r.1 = 0) →
      (∃ xj yj r, [some polySample, some pwSample][j]? = some xj ∧
        [some polySample, some pwSample][j]? = some yj ∧
        generic_function_axpy boolBackends (fun _ ox oy => (0, ox || oy)) 0 xj yj = .ret r ∧
        r.1 = 1) →
      ∃ y1, generic_function_array_axpy boolBackends (fun _ ox oy => (0, ox || oy)) 2 0
          (some [some polySample, some pwSample]) (some [some polySample, some pwSample])
          = .ret (1, y1) ∧
        ∀ i, j < i → y1[i]? = [some polySample, some pwSample][i]?)) :=
  ⟨rfl, rfl,
    generic_function_array_axpy_status boolBackends (fun _ ox oy => (0, ox || oy)) 0 2
      [some polySample, some pwSample] [some polySample, some pwSample]⟩

/-- C38: for class `PIECEWISE` and `n ≥ 1` (written `n + 1`)
`generic_function_array_orth` does not fill the array: the payload of
`gfarray[0]` is NULL after `generic_function_alloc` and the first iteration
assigns to its field `ope`, so the loop, and with it the routine, has no
defined result, whatever `n`, the sub-type, the array and the interval. -/
theorem generic_function_array_orth_piecewise_null [Field R] (F : FunctionFactories O L R)
    (n : Nat) (st : Int) (gfarray : List (Option (GenericFunction O L))) (lb ub : R) :
    (generic_function_alloc (O := O) (L := L) 1 .PIECEWISE st).f = .null ∧
    (∀ o : O, piecewise_payload_store_ope
      (generic_function_alloc (O := O) (L := L) 1 .PIECEWISE st).f o = .undefined) ∧
    generic_function_array_orth_piecewise F st lb ub (n + 1) 0 gfarray = .undefined ∧
    generic_function_array_orth F (n + 1) .PIECEWISE st gfarray lb ub = .undefined := by
  refine ⟨rfl, fun _ => rfl, ?_, rfl⟩
  unfold generic_function_array_orth_piecewise
  cases storeNode gfarray 0 (some (generic_function_alloc 1 .PIECEWISE st)) <;> rfl

/-- C39: for `dim = 1` the two stores `funcs[0]` and `funcs[1]` that
`function_train_initsum` and `function_train_initsum2` make into the first
core are not both below `nrows*ncols = 1`: the core allocated is 1 by 1 with a
block of one entry, the store at index 0 is inside it and the store at index 1
is outside, so neither routine has a defined result. -/
theorem function_train_initsum_dim_one_store (LC : LeafConstructors O L R) [One R] [Zero R]
    (g0 g1 : Option (GenericFunction O L)) :
    (qmarray_alloc (O := O) (L := L) 1 1).nrows = 1 ∧
    (qmarray_alloc (O := O) (L := L) 1 1).ncols = 1 ∧
    (qmarray_alloc (O := O) (L := L) 1 1).funcs.length = 1 ∧
    qmarray_store (qmarray_alloc 1 1) 0 g0 = some ⟨1, 1, [g0]⟩ ∧
    qmarray_store (⟨1, 1, [g0]⟩ : Qmarray O L) 1 g1 = none ∧
    qmarray_store_seq (qmarray_alloc 1 1) 0 [g0, g1] = none ∧
    function_train_initsum LC 1 = none ∧
    function_train_initsum2 LC 1 = none :=
  ⟨rfl, rfl, rfl, rfl, rfl, rfl, rfl, rfl⟩

end ArrayOpsClaims

section ArrayEvalClaims

variable {L R : Type}

/-- C36: with more than 1000 functions, all of class `POLYNOMIAL`,
`generic_function_1darray_eval2` does not keep its stores into the
1000-entry array `parr` below index 1000: the first loop stores `parr[ii]` for
every `ii < n` before `n <= 1000` is tested, the store at `ii = 1000` is
outside the array, and the call has no defined result (no `out` is
produced). -/
theorem generic_function_1darray_eval2_scratch_overflow [LinearOrderedField R]
    (evO : OrthPolyExpansion R → R → R) (evL : L → R → R)
    (arr_eval : Nat → List (Option (Payload (OrthPolyExpansion R) L)) → R → List R →
      Int × List R)
    (n : Nat) (f : List (Option (GenericFunction (OrthPolyExpansion R) L))) (x : R)
    (out : List R) (hn : 1000 < n)
    (hf : ∀ i, i < n → ∃ g, f[i]? = some (some g) ∧ g.fc = .POLYNOMIAL) :
    generic_function_1darray_eval2_collect f n 0 (List.replicate 1000 none) = .undefined ∧
    generic_function_1darray_eval2 evO evL arr_eval n f x out = .undefined := by
  have h := generic_function_1darray_eval2_collect_overflow f n 0
    (List.replicate 1000 none) (List.length_replicate _ _) (by omega) (by omega)
    (fun i _ hi => hf i (by omega))
  refine ⟨h, ?_⟩
  unfold generic_function_1darray_eval2
  rw [h]
  rfl

/-- C36 on 1001 copies of a polynomial function. -/
theorem generic_function_1darray_eval2_scratch_overflow_witness :
    (1000 < 1001) ∧
    (∀ i, i < 1001 → ∃ g,
      (List.replicate 1001
        (some (⟨1, .POLYNOMIAL, 0, .ope ⟨0, 1, 0, 1, [1]⟩⟩ :
          GenericFunction (OrthPolyExpansion ℚ) Unit)))[i]? = some (some g) ∧
      g.fc = .POLYNOMIAL) ∧
    generic_function_1darray_eval2_collect
      (List.replicate 1001
        (some (⟨1, .POLYNOMIAL, 0, .ope ⟨0, 1, 0, 1, [1]⟩⟩ :
          GenericFunction (OrthPolyExpansion ℚ) Unit))) 1001 0
      (List.replicate 1000 none) = .undefined ∧
    generic_function_1darray_eval2 headCoeff (fun _ t => t) (fun _ _ _ o => (0, o)) 1001
      (List.replicate 1001
        (some (⟨1, .POLYNOMIAL, 0, .ope ⟨0, 1, 0, 1, [1]⟩⟩ :
          GenericFunction (OrthPolyExpansion ℚ) Unit))) (1 / 2)
      (List.replicate 1001 0) = .undefined :=
  have hf : ∀ i, i < 1001 → ∃ g,
      (List.replicate 1001
        (some (⟨1, .POLYNOMIAL, 0, .ope ⟨0, 1, 0, 1, [1]⟩⟩ :
          GenericFunction (OrthPolyExpansion ℚ) Unit)))[i]? = some (some g) ∧
      g.fc = .POLYNOMIAL := fun i hi =>
    ⟨_, by rw [List.getElem?_replicate, if_pos hi], rfl⟩
  ⟨by decide, hf,
    generic_function_1darray_eval2_scratch_overflow headCoeff (fun _ t => t)
      (fun _ _ _ o => (0, o)) 1001 _ (1 / 2) (List.replicate 1001 0) (by decide) hf⟩

end ArrayEvalClaims

/-! ## Jump detection by polynomial annihilation (`piecewisepoly.c`) -/

section Jumps

variable {R : Type}

/-- The table `static const size_t factorial[]` of `piecewisepoly.c`. -/
def factorial : List Nat := [1, 1, 2, 6, 24, 120, 720, 5040, 40320]

/-- The C routine `eval_coeff(l, stencil, nstencil)`: after
`assert((nstencil-1) <= 8)` the value `factorial[nstencil-1]` is divided by
`stencil[l] - stencil[ii]` for every `ii != l` in turn. -/
def eval_coeff [Field R] (l : Nat) (stencil : List R) (nstencil : Nat) : Outcome Unit R :=
  if (nstencil + SIZE_MOD - 1) % SIZE_MOD ≤ 8 then
    (Outcome.ofOption factorial[(nstencil + SIZE_MOD - 1) % SIZE_MOD]?).bind fun fct =>
      outcomeLoop
        (fun ii out =>
          if ii ≠ l then
            (Outcome.ofOption stencil[l]?).bind fun sl =>
            (Outcome.ofOption stencil[ii]?).bind fun si => .ret (out / (sl - si))
          else .ret out)
        0 nstencil (fct : R)
  else .assertion

/-- The C routine `eval_jump(x, stencil, vals, nstencil)`; the state of the
loop is the pair `(den, out)` and `eps` is the constant `DBL_EPSILON` of
`assert(fabs(den) >= DBL_EPSILON)`. -/
def eval_jump [LinearOrderedField R] (eps x : R) (stencil vals : List R) (nstencil : Nat) :
    Outcome Unit R :=
  (outcomeLoop
    (fun ii (s : R × R) =>
      (eval_coeff ii stencil nstencil).bind fun temp =>
      (Outcome.ofOption stencil[ii]?).bind fun si =>
      (Outcome.ofOption vals[ii]?).bind fun vi =>
        .ret (if si > x then s.1 + temp else s.1, s.2 + temp * vi))
    0 nstencil (0, 0)).bind fun s =>
  if |s.1| ≥ eps then .ret (s.2 / s.1) else .assertion

/-- The loop `while (total[ii] < x) ii++` of `get_stencil`, the list being the
part of the array from index `ii` on; reading past the end of the array has no
defined result. -/
def get_stencil_scan [LT R] [DecidableRel (fun (a b : R) => a < b)] (x : R) :
    List R → Nat → Option Nat
  | [], _ => none
  | v :: rest, ii => if v < x then get_stencil_scan x rest (ii + 1) else some ii

/-- The loop `while (ninc < nstencil)` of `get_stencil` with `k` iterations
left: the window `[f, b]` takes in the point after `b` when `f == 0`, the
point before `f` when `b == ntotal-1`, and otherwise the one of the two that
is nearer to `x`, the point before `f` on a tie.  The result is `f`. -/
def get_stencil_grow [LinearOrderedRing R] (x : R) (total : List R) (ntotal : Nat) :
    Nat → Nat → Nat → Outcome Unit Nat
  | 0, f, _ => .ret f
  | k + 1, f, b =>
      if f = 0 then get_stencil_grow x total ntotal k f (b + 1)
      else if b = (ntotal + SIZE_MOD - 1) % SIZE_MOD then
        get_stencil_grow x total ntotal k (f - 1) b
      else
        (Outcome.ofOption total[b + 1]?).bind fun tb =>
        (Outcome.ofOption total[f - 1]?).bind fun tf =>
          if tb - x < x - tf then get_stencil_grow x total ntotal k f (b + 1)
          else get_stencil_grow x total ntotal k (f - 1) b

/-- The C routine `get_stencil(x, nstencil, total, ntotal)`: the three
assertions, the scan for the first point not below `x`, the two shortcuts
`ii == 1` and `ii == ntotal-1`, and the loop that grows the window from
`[ii-1, ii]` by `nstencil - 2` points. -/
def get_stencil [LinearOrderedRing R] (x : R) (nstencil : Nat) (total : List R)
    (ntotal : Nat) : Outcome Unit Nat :=
  if ¬ nstencil ≤ ntotal then .assertion
  else
    (Outcome.ofOption total[0]?).bind fun t0 =>
    if ¬ x > t0 then .assertion
    else
      (Outcome.ofOption total[(ntotal + SIZE_MOD - 1) % SIZE_MOD]?).bind fun tN =>
      if ¬ x < tN then .assertion
      else
        (Outcome.ofOption (get_stencil_scan x total 0)).bind fun ii =>
        if ii = 1 then .ret 0
        else if ii = (ntotal + SIZE_MOD - 1) % SIZE_MOD then .ret (ntotal - nstencil)
        else get_stencil_grow x total ntotal (nstencil - 2) (ii - 1) ii

/-- The jump estimate of order `m` that `minmod_eval` computes: the stencil of
`m + 1` points from `get_stencil` and `eval_jump` on the parts of `total` and
`evals` that start there. -/
def jump_estimate [LinearOrderedField R] (eps x : R) (total evals : List R)
    (ntotal m : Nat) : Outcome Unit R :=
  (get_stencil x (m + 1) total ntotal).bind fun start =>
    eval_jump eps x (total.drop start) (evals.drop start) (m + 1)

/-- The loop `for (ii = minm+1; ii <= maxm; ii++)` of `minmod_eval` with `k`
iterations left; `sign` is the sign of the first estimate and `jump` the
estimate kept so far. -/
def minmod_eval_loop [LinearOrderedField R] (eps x : R) (total evals : List R)
    (ntotal : Nat) (sign : Int) : Nat → Nat → R → Outcome Unit R
  | 0, _, jump => .ret jump
  | k + 1, ii, jump =>
      (jump_estimate eps x total evals ntotal ii).bind fun newjump =>
        if (if newjump < 0 then (-1 : Int) else 1) ≠ sign then .ret 0
        else if sign > 0 then
          if newjump < jump then minmod_eval_loop eps x total evals ntotal sign k (ii + 1) newjump
          else minmod_eval_loop eps x total evals ntotal sign k (ii + 1) jump
        else
          if newjump > jump then minmod_eval_loop eps x total evals ntotal sign k (ii + 1) newjump
          else minmod_eval_loop eps x total evals ntotal sign k (ii + 1) jump

/-- The C routine `minmod_eval(x, total, evals, ntotal, minm, maxm)`. -/
def minmod_eval [LinearOrderedField R] (eps x : R) (total evals : List R)
    (ntotal minm maxm : Nat) : Outcome Unit R :=
  (jump_estimate eps x total evals ntotal minm).bind fun jump =>
    minmod_eval_loop eps x total evals ntotal (if jump < 0 then -1 else 1)
      (maxm - minm) (minm + 1) jump

/-- The C routine `minmod_disc_exists(x, total, evals, ntotal, minm, maxm)`;
`pow10_floor_log10 h` stands for `pow(10.0, floor(log10(h)))` of the C
library.  The loop leaves in `h` the smallest of the differences
`total[ii] - total[0]`. -/
def minmod_disc_exists [LinearOrderedField R] (eps : R) (pow10_floor_log10 : R → R) (x : R)
    (total evals : List R) (ntotal minm maxm : Nat) : Outcome Unit Int :=
  (minmod_eval eps x total evals ntotal minm maxm).bind fun jump =>
  (Outcome.ofOption total[1]?).bind fun t1 =>
  (Outcome.ofOption total[0]?).bind fun t0 =>
  (outcomeLoop
    (fun ii h =>
      (Outcome.ofOption total[ii]?).bind fun ti =>
        .ret (if ti - t0 < h then ti - t0 else h))
    2 (ntotal - 2) (t1 - t0)).bind fun h =>
  .ret (if |jump| ≤ pow10_floor_log10 h then 0 else 1)

/-- The second loop of `locate_jumps` with `k` iterations left: the midpoint
of `[pts[ii], pts[ii+1]]` is tested with `minmod_disc_exists` (orders 2 to 5)
and `recurse`, the recursive call, runs on the sub-interval when a
discontinuity is reported.  The state is the array of edges. -/
def locate_jumps_loop [LinearOrderedField R] (eps : R) (pow10_floor_log10 : R → R)
    (recurse : R → R → List R → Option (Outcome Unit (List R))) (pts vals : List R)
    (ntotal : Nat) : Nat → Nat → List R → Option (Outcome Unit (List R))
  | 0, _, edges => some (.ret edges)
  | k + 1, ii, edges =>
      budgetBind (some (Outcome.ofOption pts[ii]?)) fun p0 =>
      budgetBind (some (Outcome.ofOption pts[ii + 1]?)) fun p1 =>
      budgetBind (some (minmod_disc_exists eps pow10_floor_log10 ((p0 + p1) / 2) pts vals
        ntotal 2 5)) fun disc =>
      budgetBind (if disc = 1 then recurse p0 p1 edges else some (.ret edges)) fun edges1 =>
      locate_jumps_loop eps pow10_floor_log10 recurse pts vals ntotal k (ii + 1) edges1

/-- The C routine `locate_jumps(f, args, lb, ub, nsplit, tol, edges, nEdge)`;
the state is the array `*edges` (with `*nEdge` its length), and `f` is the
target function with its arguments.  The first argument bounds the depth of
the recursion: `none` is returned when the bound is used up. -/
def locate_jumps [LinearOrderedField R] (eps : R) (pow10_floor_log10 : R → R) (f : R → R)
    (nsplit : Nat) (tol : R) : Nat → R → R → List R → Option (Outcome Unit (List R))
  | 0, _, _, _ => none
  | depth + 1, lb, ub, edges =>
      if ub - lb < tol then some (.ret (edges ++ [(ub + lb) / 2]))
      else
        budgetBind
          (some (storeLoop
            (fun ii =>
              (Outcome.ofOption (linspace lb ub ((nsplit + 1) % SIZE_MOD))[ii]?).bind fun p =>
                .ret (f p))
            (fun ii => ii) 0 ((nsplit + 1) % SIZE_MOD)
            (List.replicate ((nsplit + 1) % SIZE_MOD) 0))) fun vals =>
        locate_jumps_loop eps pow10_floor_log10
          (locate_jumps eps pow10_floor_log10 f nsplit tol depth)
          (linspace lb ub ((nsplit + 1) % SIZE_MOD)) vals ((nsplit + 1) % SIZE_MOD)
          nsplit 0 edges

end Jumps

section StencilSpec

variable {R : Type}

/-- One growth step of a window `[f, b]` of grid indices around `x`, in the
words of the specification: the window takes in one more point, the outside
neighbour on the right (`b + 1`) or on the left (`f - 1`), and it is the one
that is at least as near to `x` as the other, or the one on the only side that
has a point left. -/
def StencilStep [LinearOrderedRing R] (x : R) (total : List R) (ntotal : Nat)
    (f b f1 b1 : Nat) : Prop :=
  (f1 = f ∧ b1 = b + 1 ∧ b + 1 < ntotal ∧
    (f = 0 ∨ total.getD (b + 1) 0 - x ≤ x - total.getD (f - 1) 0)) ∨
  (f1 + 1 = f ∧ b1 = b ∧
    (b + 1 = ntotal ∨ x - total.getD (f - 1) 0 ≤ total.getD (b + 1) 0 - x))

/-- The window `[f1, b1]` is reached from `[f, b]` in `k` growth steps. -/
def StencilGrown [LinearOrderedRing R] (x : R) (total : List R) (ntotal : Nat) :
    Nat → Nat → Nat → Nat → Nat → Prop
  | 0, f, b, f1, b1 => f1 = f ∧ b1 = b
  | k + 1, f, b, f1, b1 =>
      ∃ f2 b2, StencilStep x total ntotal f b f2 b2 ∧ StencilGrown x total ntotal k f2 b2 f1 b1

end StencilSpec

section StencilProofs

variable {R : Type}

set_option linter.unusedTactic false
set_option linter.unreachableTactic false

/-- The value of `n - 1` in `size_t` arithmetic for `1 ≤ n`. -/
theorem size_pred_mod (n : Nat) (h1 : 1 ≤ n) (h2 : n < SIZE_MOD) :
    (n + SIZE_MOD - 1) % SIZE_MOD = n - 1 := by
  have h : n + SIZE_MOD - 1 = (n - 1) + SIZE_MOD := by omega
  rw [h, Nat.add_mod_right, Nat.mod_eq_of_lt (by omega)]

/-- The scan of `get_stencil` stops at the first element that is not below
`x`, when there is one. -/
theorem get_stencil_scan_first [LinearOrder R] (x : R) :
    ∀ (l : List R) (k m : Nat) (v : R), l[m]? = some v → ¬ v < x →
    ∃ j w, get_stencil_scan x l k = some (k + j) ∧ j ≤ m ∧ l[j]? = some w ∧ ¬ w < x ∧
      ∀ i u, i < j → l[i]? = some u → u < x
  | [], k, m, v, h, _ => by simp at h
  | a :: rest, k, m, v, h, hv => by
      unfold get_stencil_scan
      by_cases ha : a < x
      · rw [if_pos ha]
        cases m with
        | zero =>
          simp at h
          subst h
          exact absurd ha hv
        | succ m =>
          have h1 : rest[m]? = some v := by simpa using h
          obtain ⟨j, w, hj, hjm, hw, hwx, hall⟩ :=
            get_stencil_scan_first x rest (k + 1) m v h1 hv
          refine ⟨j + 1, w, ?_, by omega, by simpa using hw, hwx, ?_⟩
          · rw [hj]
            congr 1
            omega
          · intro i u hi hu
            cases i with
            | zero =>
              simp at hu
              subst hu
              exact ha
            | succ i =>
              exact hall i u (by omega) (by simpa using hu)
      · rw [if_neg ha]
        exact ⟨0, a, rfl, Nat.zero_le _, by simp, ha, fun i u hi _ => by omega⟩

/-- A window at the left end of the grid grows to the right only. -/
theorem stencilGrown_right [LinearOrderedRing R] (x : R) (total : List R) (ntotal : Nat) :
    ∀ (k b : Nat), b + k < ntotal → StencilGrown x total ntotal k 0 b 0 (b + k)
  | 0, b, _ => ⟨rfl, rfl⟩
  | k + 1, b, h =>
      ⟨0, b + 1, Or.inl ⟨rfl, rfl, by omega, Or.inl rfl⟩, by
        have := stencilGrown_right x total ntotal k (b + 1) (by omega)
        rw [show b + (k + 1) = b + 1 + k by omega]
        exact this⟩

/-- A window at the right end of the grid grows to the left only. -/
theorem stencilGrown_left [LinearOrderedRing R] (x : R) (total : List R) (ntotal : Nat)
    (b : Nat) (hb : b + 1 = ntotal) :
    ∀ (k f : Nat), k ≤ f → StencilGrown x total ntotal k f b (f - k) b
  | 0, f, _ => ⟨rfl, rfl⟩
  | k + 1, f, h =>
      ⟨f - 1, b, Or.inr ⟨by omega, rfl, Or.inl hb⟩, by
        have := stencilGrown_left x total ntotal b hb k (f - 1) (by omega)
        rw [show f - (k + 1) = f - 1 - k by omega]
        exact this⟩

/-- The growing loop of `get_stencil` returns when the window and the points
still to be taken in fit in the grid; every iteration is a growth step, and
the final window has `k` more points and contains the initial one. -/
theorem get_stencil_grow_spec [LinearOrderedRing R] (x : R) (total : List R) (ntotal : Nat)
    (hlen : total.length = ntotal) (hsize : ntotal < SIZE_MOD) :
    ∀ (k f b : Nat), f ≤ b → b < ntotal → b - f + 1 + k ≤ ntotal →
    ∃ f1, get_stencil_grow x total ntotal k f b = .ret f1 ∧ f1 ≤ f ∧
      b ≤ f1 + (b - f) + k ∧ f1 + (b - f) + k < ntotal ∧
      StencilGrown x total ntotal k f b f1 (f1 + (b - f) + k)
  | 0, f, b, hfb, hb, _ => ⟨f, rfl, le_refl _, by omega, by omega, rfl, by omega⟩
  | k + 1, f, b, hfb, hb, hk => by
      have hpred : (ntotal + SIZE_MOD - 1) % SIZE_MOD = ntotal - 1 :=
        size_pred_mod ntotal (by omega) hsize
      unfold get_stencil_grow
      rw [hpred]
      by_cases hf : f = 0
      · rw [if_pos hf]
        obtain ⟨f1, h1, h2, h3, h4, h5⟩ :=
          get_stencil_grow_spec x total ntotal hlen hsize k f (b + 1) (by omega) (by omega)
            (by omega)
        refine ⟨f1, h1, h2, by omega, by omega, f, b + 1,
          Or.inl ⟨rfl, rfl, by omega, Or.inl hf⟩, ?_⟩
        rw [show f1 + (b - f) + (k + 1) = f1 + (b + 1 - f) + k by omega]
        exact h5
      · rw [if_neg hf]
        by_cases hbe : b = ntotal - 1
        · rw [if_pos hbe]
          obtain ⟨f1, h1, h2, h3, h4, h5⟩ :=
            get_stencil_grow_spec x total ntotal hlen hsize k (f - 1) b (by omega) (by omega)
              (by omega)
          refine ⟨f1, h1, by omega, by omega, by omega, f - 1, b,
            Or.inr ⟨by omega, rfl, Or.inl (by omega)⟩, ?_⟩
          rw [show f1 + (b - f) + (k + 1) = f1 + (b - (f - 1)) + k by omega]
          exact h5
        · rw [if_neg hbe]
          have hb1 : total[b + 1]? = some (total.getD (b + 1) 0) := by
            rw [List.getD_eq_getElem?_getD, List.getElem?_eq_getElem (by omega)]
            rfl
          have hf1 : total[f - 1]? = some (total.getD (f - 1) 0) := by
            rw [List.getD_eq_getElem?_getD, List.getElem?_eq_getElem (by omega)]
            rfl
          rw [hb1, hf1]
          simp only [Outcome.ofOption, Outcome.ret_bind]
          by_cases hcmp : total.getD (b + 1) 0 - x < x - total.getD (f - 1) 0
          · rw [if_pos hcmp]
            obtain ⟨f1, h1, h2, h3, h4, h5⟩ :=
              get_stencil_grow_spec x total ntotal hlen hsize k f (b + 1) (by omega) (by omega)
                (by omega)
            refine ⟨f1, h1, h2, by omega, by omega, f, b + 1,
              Or.inl ⟨rfl, rfl, by omega, Or.inr (le_of_lt hcmp)⟩, ?_⟩
            rw [show f1 + (b - f) + (k + 1) = f1 + (b + 1 - f) + k by omega]
            exact h5
          · rw [if_neg hcmp]
            obtain ⟨f1, h1, h2, h3, h4, h5⟩ :=
              get_stencil_grow_spec x total ntotal hlen hsize k (f - 1) b (by omega) (by omega)
                (by omega)
            refine ⟨f1, h1, by omega, by omega, by omega, f - 1, b,
              Or.inr ⟨by omega, rfl, Or.inr (not_lt.mp hcmp)⟩, ?_⟩
            rw [show f1 + (b - f) + (k + 1) = f1 + (b - (f - 1)) + k by omega]
            exact h5

/-- The result of `get_stencil` on a strictly increasing grid with `x`
strictly between the end points: the routine returns, the window fits in the
grid and brackets `x`, and it is grown from the two points adjacent to `x`. -/
theorem get_stencil_spec [LinearOrderedRing R] (x : R) (nstencil : Nat) (total : List R)
    (ntotal : Nat) (hlen : total.length = ntotal) (hsize : ntotal < SIZE_MOD)
    (hmono : ∀ i j, i < j → j < ntotal → total.getD i 0 < total.getD j 0)
    (h2 : 2 ≤ nstencil) (hn : nstencil ≤ ntotal)
    (hlo : total.getD 0 0 < x) (hhi : x < total.getD (ntotal - 1) 0) :
    ∃ start ii, get_stencil x nstencil total ntotal = .ret start ∧
      start + nstencil ≤ ntotal ∧
      total.getD start 0 < x ∧ x ≤ total.getD (start + nstencil - 1) 0 ∧
      1 ≤ ii ∧ ii < ntotal ∧ total.getD (ii - 1) 0 < x ∧ x ≤ total.getD ii 0 ∧
      start < ii ∧ ii < start + nstencil ∧
      StencilGrown x total ntotal (nstencil - 2) (ii - 1) ii start (start + nstencil - 1) := by
  have hpred : (ntotal + SIZE_MOD - 1) % SIZE_MOD = ntotal - 1 :=
    size_pred_mod ntotal (by omega) hsize
  have hget : ∀ i, i < ntotal → total[i]? = some (total.getD i 0) := by
    intro i hi
    rw [List.getD_eq_getElem?_getD, List.getElem?_eq_getElem (by omega)]
    rfl
  have hmono_le : ∀ i j, i ≤ j → j < ntotal → total.getD i 0 ≤ total.getD j 0 := by
    intro i j hij hj
    rcases Nat.lt_or_eq_of_le hij with h | h
    · exact le_of_lt (hmono i j h hj)
    · rw [h]
  obtain ⟨j, w, hscan, hjm, hw, hwx, hall⟩ :=
    get_stencil_scan_first x total 0 (ntotal - 1) _ (hget _ (by omega)) (not_lt.mpr (le_of_lt hhi))
  have hjn : j < ntotal := by omega
  have hw1 : w = total.getD j 0 := by
    have := hget j hjn
    rw [hw] at this
    exact Option.some.inj this
  have hj1 : 1 ≤ j := by
    rcases Nat.eq_zero_or_pos j with h0 | h0
    · subst h0
      rw [hw1] at hwx
      exact absurd hlo hwx
    · exact h0
  have hbelow : total.getD (j - 1) 0 < x := hall (j - 1) _ (by omega) (hget _ (by omega))
  have habove : x ≤ total.getD j 0 := by
    rw [← hw1]
    exact not_lt.mp hwx
  have hmain : get_stencil x nstencil total ntotal
      = if j = 1 then .ret 0
        else if j = ntotal - 1 then .ret (ntotal - nstencil)
        else get_stencil_grow x total ntotal (nstencil - 2) (j - 1) j := by
    unfold get_stencil
    rw [if_neg (by simpa using hn), hget 0 (by omega)]
    simp only [Outcome.ofOption, Outcome.ret_bind]
    rw [if_neg (by simpa using hlo), hpred, hget _ (by omega)]
    simp only [Outcome.ret_bind]
    rw [if_neg (by simpa using hhi), hscan]
    simp only [Outcome.ret_bind, Nat.zero_add]
  by_cases hja : j = 1
  · refine ⟨0, j, ?_, by omega, hlo, ?_, hj1, hjn, hbelow, habove, by omega, by omega, ?_⟩
    · rw [hmain, if_pos hja]
    · exact le_trans habove (hmono_le _ _ (by omega) (by omega))
    · subst hja
      have := stencilGrown_right x total ntotal (nstencil - 2) 1 (by omega)
      rw [show 0 + nstencil - 1 = 1 + (nstencil - 2) by omega]
      exact this
  · by_cases hjb : j = ntotal - 1
    · refine ⟨ntotal - nstencil, j, ?_, by omega, ?_, ?_, hj1, hjn, hbelow, habove, by omega,
        by omega, ?_⟩
      · rw [hmain, if_neg hja, if_pos hjb]
      · exact lt_of_le_of_lt (hmono_le _ _ (by omega) (by omega)) hbelow
      · exact le_trans habove (hmono_le _ _ (by omega) (by omega))
      · have := stencilGrown_left x total ntotal j (by omega) (nstencil - 2) (j - 1) (by omega)
        rw [show ntotal - nstencil + nstencil - 1 = j by omega,
          show ntotal - nstencil = j - 1 - (nstencil - 2) by omega]
        exact this
    · obtain ⟨f1, h1, h3, h4, h5, h6⟩ :=
        get_stencil_grow_spec x total ntotal hlen hsize (nstencil - 2) (j - 1) j (by omega) hjn
          (by omega)
      have hb : f1 + (j - (j - 1)) + (nstencil - 2) = f1 + nstencil - 1 := by omega
      rw [hb] at h4 h5 h6
      refine ⟨f1, j, ?_, by omega, ?_, ?_, hj1, hjn, hbelow, habove, by omega, by omega, h6⟩
      · rw [hmain, if_neg hja, if_neg hjb]
        exact h1
      · exact lt_of_le_of_lt (hmono_le _ _ (by omega) (by omega)) hbelow
      · exact le_trans habove (hmono_le _ _ (by omega) (by omega))

end StencilProofs

section StencilClaims

variable {R : Type}

/-- C34: for a strictly increasing grid `total` of `ntotal` points,
`2 ≤ nstencil ≤ ntotal` and `total[0] < x < total[ntotal-1]`, `get_stencil`
returns an index `start` with `start + nstencil ≤ ntotal` whose window brackets
`x`: `total[start] < x ≤ total[start+nstencil-1]`.  With `ii` the index of the
first point not below `x` (so `total[ii-1] < x ≤ total[ii]`), the window is
reached from `[ii-1, ii]` in `nstencil - 2` growth steps, each towards an
outside neighbour at least as near to `x` as the other one, or towards the
only side that has a point left. -/
theorem get_stencil_brackets [LinearOrderedRing R] (x : R) (nstencil : Nat) (total : List R)
    (ntotal : Nat) (hlen : total.length = ntotal) (hsize : ntotal < SIZE_MOD)
    (hmono : ∀ i j, i < j → j < ntotal → total.getD i 0 < total.getD j 0)
    (h2 : 2 ≤ nstencil) (hn : nstencil ≤ ntotal)
    (hlo : total.getD 0 0 < x) (hhi : x < total.getD (ntotal - 1) 0) :
    ∃ start ii, get_stencil x nstencil total ntotal = .ret start ∧
      start + nstencil ≤ ntotal ∧
      total.getD start 0 < x ∧ x ≤ total.getD (start + nstencil - 1) 0 ∧
      1 ≤ ii ∧ ii < ntotal ∧ total.getD (ii - 1) 0 < x ∧ x ≤ total.getD ii 0 ∧
      StencilGrown x total ntotal (nstencil - 2) (ii - 1) ii start (start + nstencil - 1) := by
  obtain ⟨start, ii, h1, h3, h4, h5, h6, h7, h8, h9, _, _, h10⟩ :=
    get_stencil_spec x nstencil total ntotal hlen hsize hmono h2 hn hlo hhi
  exact ⟨start, ii, h1, h3, h4, h5, h6, h7, h8, h9, h10⟩

/-- C34 on the grid `0, 10, 20, 30, 40` with `x = 14` and three points: the
window `[10, 20]` takes in the point 0, at distance 14, rather than the point
30, at distance 16. -/
theorem get_stencil_brackets_witness :
    ([0, 10, 20, 30, 40] : List Int).length = 5 ∧ 5 < SIZE_MOD ∧
    (∀ i j, i < j → j < 5 →
      ([0, 10, 20, 30, 40] : List Int).getD i 0 < ([0, 10, 20, 30, 40] : List Int).getD j 0) ∧
    2 ≤ 3 ∧ 3 ≤ 5 ∧
    ([0, 10, 20, 30, 40] : List Int).getD 0 0 < 14 ∧
    (14 : Int) < ([0, 10, 20, 30, 40] : List Int).getD (5 - 1) 0 ∧
    get_stencil (14 : Int) 3 [0, 10, 20, 30, 40] 5 = .ret 0 ∧
    ∃ start ii, get_stencil (14 : Int) 3 [0, 10, 20, 30, 40] 5 = .ret start ∧
      start + 3 ≤ 5 ∧
      ([0, 10, 20, 30, 40] : List Int).getD start 0 < 14 ∧
      14 ≤ ([0, 10, 20, 30, 40] : List Int).getD (start + 3 - 1) 0 ∧
      1 ≤ ii ∧ ii < 5 ∧ ([0, 10, 20, 30, 40] : List Int).getD (ii - 1) 0 < 14 ∧
      14 ≤ ([0, 10, 20, 30, 40] : List Int).getD ii 0 ∧
      StencilGrown (14 : Int) [0, 10, 20, 30, 40] 5 (3 - 2) (ii - 1) ii start
        (start + 3 - 1) :=
  have hmono : ∀ i j, i < j → j < 5 →
      ([0, 10, 20, 30, 40] : List Int).getD i 0 < ([0, 10, 20, 30, 40] : List Int).getD j 0 := by
    intro i j hij hj
    interval_cases j <;> interval_cases i <;> decide
  ⟨rfl, by decide, hmono, by decide, by decide, by decide, by decide, rfl,
    get_stencil_brackets (14 : Int) 3 [0, 10, 20, 30, 40] 5 rfl (by decide) hmono (by decide)
      (by decide) (by decide) (by decide)⟩

end StencilClaims

section AnnihilationSpec

variable {R : Type}

/-- The coefficient of the specification for the point `l` of a stencil of
`n` points: `(n-1)!` over the product of the differences
`stencil[l] - stencil[i]`, `i ≠ l`. -/
def stencilCoeff [Field R] (stencil : List R) (n l : Nat) : R :=
  ((n - 1).factorial : R) /
    ∏ i in (Finset.range n).erase l, (stencil.getD l 0 - stencil.getD i 0)

/-- The denominator of `eval_jump` in closed form: the sum of the
coefficients of the stencil points above `x`. -/
def stencilDen [LinearOrderedField R] (x : R) (stencil : List R) (n : Nat) : R :=
  ∑ l in (Finset.range n).filter (fun l => stencil.getD l 0 > x), stencilCoeff stencil n l

end AnnihilationSpec

section AnnihilationProofs

variable {R : Type}

set_option linter.unusedTactic false
set_option linter.unreachableTactic false

/-- A loop whose body returns at every index returns the fold of the body's
results. -/
theorem outcomeLoop_ret {P σ : Type} (body : Nat → σ → Outcome P σ) (g : Nat → σ → σ) :
    ∀ (n lo : Nat) (s : σ), (∀ i t, lo ≤ i → i < lo + n → body i t = .ret (g i t)) →
    outcomeLoop body lo n s = .ret ((List.range' lo n).foldl (fun t i => g i t) s)
  | 0, _, _, _ => rfl
  | n + 1, lo, s, h => by
      rw [outcomeLoop, h lo s (le_refl _) (by omega), Outcome.ret_bind,
        outcomeLoop_ret body g n (lo + 1) _ (fun i t h1 h2 => h i t (by omega) (by omega))]
      rfl

/-- The table `factorial` holds the factorials of 0 to 8. -/
theorem factorial_getElem? (m : Nat) (h : m ≤ 8) : factorial[m]? = some m.factorial := by
  interval_cases m <;> rfl

/-- Dividing in turn by the differences to the other points divides by their
product. -/
theorem eval_coeff_fold [Field R] (s : Nat → R) (l : Nat) (a : R) :
    ∀ n : Nat, (List.range n).foldl
        (fun out ii => if ii ≠ l then out / (s l - s ii) else out) a
      = a / ∏ i in (Finset.range n).filter (fun i => i ≠ l), (s l - s i)
  | 0 => by simp
  | n + 1 => by
      rw [List.range_succ, List.foldl_append, eval_coeff_fold s l a n, Finset.range_succ,
        Finset.filter_insert]
      by_cases h : n ≠ l
      · rw [if_pos h, Finset.prod_insert (by simp)]
        simp only [List.foldl_cons, List.foldl_nil, if_pos h]
        rw [div_div, mul_comm]
      · rw [if_neg h]
        simp only [List.foldl_cons, List.foldl_nil, if_neg h]

/-- The routine `eval_coeff` returns the coefficient of the specification for
stencils of 1 to 9 points. -/
theorem eval_coeff_eq [Field R] (l : Nat) (stencil : List R) (n : Nat) (h1 : 1 ≤ n)
    (h9 : n ≤ 9) (hlen : n ≤ stencil.length) (hl : l < n) :
    eval_coeff l stencil n = .ret (stencilCoeff stencil n l) := by
  have hpred : (n + SIZE_MOD - 1) % SIZE_MOD = n - 1 :=
    size_pred_mod n h1 (by simp only [SIZE_MOD]; omega)
  have hget : ∀ i, i < n → stencil[i]? = some (stencil.getD i 0) := by
    intro i hi
    rw [List.getD_eq_getElem?_getD, List.getElem?_eq_getElem (by omega)]
    rfl
  unfold eval_coeff
  rw [hpred, if_pos (by omega), factorial_getElem? _ (by omega)]
  simp only [Outcome.ofOption, Outcome.ret_bind]
  rw [outcomeLoop_ret _
    (fun ii out => if ii ≠ l then out / (stencil.getD l 0 - stencil.getD ii 0) else out)]
  · rw [← List.range_eq_range', eval_coeff_fold (fun i => stencil.getD i 0) l _ n,
      Finset.filter_ne']
    rfl
  · intro i t _ hi
    by_cases h : i ≠ l
    · rw [if_pos h, if_pos h, hget l hl, hget i (by omega)]
      rfl
    · rw [if_neg h, if_neg h]

/-- The state `(den, out)` of the loop of `eval_jump` in closed form. -/
theorem eval_jump_fold [LinearOrderedField R] (x : R) (s c v : Nat → R) :
    ∀ n : Nat, (List.range n).foldl
        (fun (t : R × R) ii => (if s ii > x then t.1 + c ii else t.1, t.2 + c ii * v ii)) (0, 0)
      = (∑ l in (Finset.range n).filter (fun l => s l > x), c l,
          ∑ l in Finset.range n, c l * v l)
  | 0 => by simp
  | n + 1 => by
      rw [List.range_succ, List.foldl_append, eval_jump_fold x s c v n, Finset.range_succ,
        Finset.filter_insert, Finset.sum_insert (by simp)]
      by_cases h : s n > x
      · rw [if_pos h, Finset.sum_insert (by simp)]
        simp only [List.foldl_cons, List.foldl_nil, if_pos h]
        rw [add_comm (c n), add_comm (c n * v n)]
      · rw [if_neg h]
        simp only [List.foldl_cons, List.foldl_nil, if_neg h]
        rw [add_comm (c n * v n)]

/-- The routine `eval_jump` in closed form for stencils of 1 to 9 points: the
weighted sum of the values over the sum of the coefficients of the points
above `x`, when that sum passes the assertion. -/
theorem eval_jump_eq [LinearOrderedField R] (eps x : R) (stencil vals : List R) (n : Nat)
    (h1 : 1 ≤ n) (h9 : n ≤ 9) (hlen : n ≤ stencil.length) (hvlen : n ≤ vals.length) :
    eval_jump eps x stencil vals n
      = if |stencilDen x stencil n| ≥ eps then
          .ret ((∑ l in Finset.range n, stencilCoeff stencil n l * vals.getD l 0)
            / stencilDen x stencil n)
        else .assertion := by
  unfold eval_jump
  rw [outcomeLoop_ret _
    (fun ii (t : R × R) =>
      (if stencil.getD ii 0 > x then t.1 + stencilCoeff stencil n ii else t.1,
        t.2 + stencilCoeff stencil n ii * vals.getD ii 0))]
  · rw [← List.range_eq_range',
      eval_jump_fold x (fun i => stencil.getD i 0) (fun i => stencilCoeff stencil n i)
        (fun i => vals.getD i 0) n]
    rfl
  · intro i t _ hi
    have hs : stencil[i]? = some (stencil.getD i 0) := by
      rw [List.getD_eq_getElem?_getD, List.getElem?_eq_getElem (by omega)]
      rfl
    have hv : vals[i]? = some (vals.getD i 0) := by
      rw [List.getD_eq_getElem?_getD, List.getElem?_eq_getElem (by omega)]
      rfl
    rw [eval_coeff_eq i stencil n h1 h9 hlen (by omega), hs, hv]
    rfl

/-- The coefficient of the highest power in a Lagrange basis polynomial. -/
theorem lagrange_basis_coeff_top {F : Type} [Field F] (s : Finset ℕ) (v : ℕ → F)
    (hvs : Set.InjOn v s) (i : ℕ) (hi : i ∈ s) :
    (Lagrange.basis s v i).coeff (s.card - 1) = ∏ j in s.erase i, (v i - v j)⁻¹ := by
  have hdeg : (Lagrange.basis s v i).natDegree = s.card - 1 := Lagrange.natDegree_basis hvs hi
  rw [← hdeg]
  show (Lagrange.basis s v i).leadingCoeff = _
  unfold Lagrange.basis
  rw [Polynomial.leadingCoeff_prod]
  refine Finset.prod_congr rfl (fun j _ => ?_)
  unfold Lagrange.basisDivisor
  rw [Polynomial.leadingCoeff_mul, Polynomial.leadingCoeff_C, Polynomial.leadingCoeff_X_sub_C,
    mul_one]

/-- The divided difference on `card s` distinct points of a polynomial of
degree below `card s - 1` is zero. -/
theorem divided_difference_zero {F : Type} [Field F] (s : Finset ℕ) (v : ℕ → F)
    (hvs : Set.InjOn v s) (p : Polynomial F) (hp : p.natDegree + 1 < s.card) :
    ∑ i in s, p.eval (v i) * ∏ j in s.erase i, (v i - v j)⁻¹ = 0 := by
  have hdeg : p.degree < s.card := by
    refine lt_of_le_of_lt Polynomial.degree_le_natDegree ?_
    exact_mod_cast (by omega : p.natDegree < s.card)
  have h := Lagrange.eq_interpolate hvs hdeg
  have hc : p.coeff (s.card - 1) = 0 := Polynomial.coeff_eq_zero_of_natDegree_lt (by omega)
  rw [h, Lagrange.interpolate_apply, Polynomial.finset_sum_coeff] at hc
  rw [← hc]
  refine Finset.sum_congr rfl (fun i hi => ?_)
  rw [Polynomial.coeff_C_mul, lagrange_basis_coeff_top s v hvs i hi]

/-- The coefficients of a stencil of distinct points annihilate the samples of
every polynomial of degree below `n - 1`. -/
theorem stencilCoeff_annihilates [Field R] (stencil : List R) (n : Nat)
    (hdist : ∀ i j, i < j → j < n → stencil.getD i 0 ≠ stencil.getD j 0)
    (p : Polynomial R) (hdeg : p.natDegree + 1 < n) :
    ∑ l in Finset.range n, stencilCoeff stencil n l * p.eval (stencil.getD l 0) = 0 := by
  have hinj : Set.InjOn (fun i => stencil.getD i 0) (Finset.range n : Finset ℕ) := by
    intro i hi j hj hij
    have hi1 : i < n := Finset.mem_range.mp hi
    have hj1 : j < n := Finset.mem_range.mp hj
    by_contra hne
    rcases Nat.lt_or_gt_of_ne hne with h | h
    · exact hdist i j h hj1 hij
    · exact hdist j i h hi1 hij.symm
  have h := divided_difference_zero (Finset.range n) (fun i => stencil.getD i 0) hinj p
    (by rw [Finset.card_range]; exact hdeg)
  have hterm : ∀ l, stencilCoeff stencil n l * p.eval (stencil.getD l 0)
      = ((n - 1).factorial : R) * (p.eval (stencil.getD l 0) *
          ∏ j in (Finset.range n).erase l, (stencil.getD l 0 - stencil.getD j 0)⁻¹) := by
    intro l
    unfold stencilCoeff
    rw [Finset.prod_inv_distrib, div_eq_mul_inv]
    ring
  simp only [hterm]
  rw [← Finset.mul_sum, h, mul_zero]

end AnnihilationProofs

section AnnihilationClaims

variable {R : Type}

set_option linter.unusedTactic false
set_option linter.unreachableTactic false

/-- C35 (as stated, refuted): with a non-zero denominator `eval_jump` need not
return 0 on the samples of a polynomial of degree below `n - 1`.  On the
stencil `0, 1e8, 2e8` with `x = 1.5e8` and the samples `1, 1, 1` of the
constant polynomial the denominator is `1e-16`, not zero but below
`DBL_EPSILON = 2^-52`, and the call ends in the failed
`assert(fabs(den) >= DBL_EPSILON)`. -/
theorem eval_jump_small_denominator_counterexample :
    stencilDen (150000000 : ℚ) [0, 100000000, 200000000] 3 = 1 / 10000000000000000 ∧
    stencilDen (150000000 : ℚ) [0, 100000000, 200000000] 3 ≠ 0 ∧
    (∀ i, i < 3 → ([1, 1, 1] : List ℚ).getD i 0
      = (Polynomial.C (1 : ℚ)).eval (([0, 100000000, 200000000] : List ℚ).getD i 0)) ∧
    (Polynomial.C (1 : ℚ)).natDegree + 1 < 3 ∧
    eval_jump (1 / 4503599627370496) (150000000 : ℚ) [0, 100000000, 200000000] [1, 1, 1] 3
      = .assertion := by
  have hden : stencilDen (150000000 : ℚ) [0, 100000000, 200000000] 3
      = 1 / 10000000000000000 := by
    simp [stencilDen, stencilCoeff, Finset.sum_filter, Finset.sum_range_succ,
      Finset.prod_range_succ, Finset.range_succ, Finset.prod_erase, Nat.factorial]
    norm_num
  refine ⟨hden, ?_, ?_, ?_, ?_⟩
  · rw [hden]
    norm_num
  · intro i hi
    interval_cases i <;> simp
  · simp
  · rw [eval_jump_eq _ _ _ _ 3 (by decide) (by decide) (by simp) (by simp), hden, if_neg]
    rw [abs_of_pos (by norm_num)]
    norm_num

/-- C35 (amended): in exact arithmetic (scalars in an ordered field), for a
stencil of `n` distinct points, `2 ≤ n ≤ 9`, `eval_coeff(l)` returns `(n-1)!`
over the product of the differences `stencil[l] - stencil[i]`, `i ≠ l`; for
every polynomial `p` of degree below `n - 1` the sum over `l` of
`eval_coeff(l) * p(stencil[l])` is zero; and on the samples of such a
polynomial `eval_jump` returns 0 whenever its denominator passes the assertion
`fabs(den) >= DBL_EPSILON`, and ends in the failed assertion otherwise. -/
theorem eval_coeff_annihilates [LinearOrderedField R] (eps x : R) (stencil vals : List R)
    (n : Nat) (p : Polynomial R) (h2 : 2 ≤ n) (h9 : n ≤ 9) (hlen : stencil.length = n)
    (hvlen : vals.length = n)
    (hdist : ∀ i j, i < j → j < n → stencil.getD i 0 ≠ stencil.getD j 0)
    (hdeg : p.natDegree + 1 < n)
    (hvals : ∀ i, i < n → vals.getD i 0 = p.eval (stencil.getD i 0)) :
    (∀ l, l < n → eval_coeff l stencil n
      = .ret (((n - 1).factorial : R) /
          ∏ i in (Finset.range n).erase l, (stencil.getD l 0 - stencil.getD i 0))) ∧
    ∑ l in Finset.range n, stencilCoeff stencil n l * p.eval (stencil.getD l 0) = 0 ∧
    eval_jump eps x stencil vals n
      = if |stencilDen x stencil n| ≥ eps then .ret 0 else .assertion := by
  have hann := stencilCoeff_annihilates stencil n hdist p hdeg
  refine ⟨fun l hl => eval_coeff_eq l stencil n (by omega) h9 (by omega) hl, hann, ?_⟩
  rw [eval_jump_eq eps x stencil vals n (by omega) h9 (by omega) (by omega)]
  have hsum : ∑ l in Finset.range n, stencilCoeff stencil n l * vals.getD l 0 = 0 := by
    refine Eq.trans (Finset.sum_congr rfl (fun l hl => ?_)) hann
    rw [hvals l (Finset.mem_range.mp hl)]
  rw [hsum, zero_div]

/-- C35 on the stencil `0, 1, 2` with the samples `1, 2, 3` of the polynomial
`X + 1`, at `x = 3/2`. -/
theorem eval_coeff_annihilates_witness :
    2 ≤ 3 ∧ 3 ≤ 9 ∧ ([0, 1, 2] : List ℚ).length = 3 ∧ ([1, 2, 3] : List ℚ).length = 3 ∧
    (∀ i j, i < j → j < 3 → ([0, 1, 2] : List ℚ).getD i 0 ≠ ([0, 1, 2] : List ℚ).getD j 0) ∧
    (Polynomial.X + Polynomial.C (1 : ℚ)).natDegree + 1 < 3 ∧
    (∀ i, i < 3 → ([1, 2, 3] : List ℚ).getD i 0
      = (Polynomial.X + Polynomial.C (1 : ℚ)).eval (([0, 1, 2] : List ℚ).getD i 0)) ∧
    ((∀ l, l < 3 → eval_coeff l ([0, 1, 2] : List ℚ) 3
      = .ret (((3 - 1).factorial : ℚ) /
          ∏ i in (Finset.range 3).erase l,
            (([0, 1, 2] : List ℚ).getD l 0 - ([0, 1, 2] : List ℚ).getD i 0))) ∧
    ∑ l in Finset.range 3, stencilCoeff ([0, 1, 2] : List ℚ) 3 l
      * (Polynomial.X + Polynomial.C (1 : ℚ)).eval (([0, 1, 2] : List ℚ).getD l 0) = 0 ∧
    eval_jump (1 / 4503599627370496) (3 / 2 : ℚ) [0, 1, 2] [1, 2, 3] 3
      = if |stencilDen (3 / 2 : ℚ) [0, 1, 2] 3| ≥ 1 / 4503599627370496 then .ret 0
        else .assertion) :=
  have hdist : ∀ i j, i < j → j < 3 →
      ([0, 1, 2] : List ℚ).getD i 0 ≠ ([0, 1, 2] : List ℚ).getD j 0 := by
    intro i j hij hj
    interval_cases j <;> interval_cases i <;> simp
  have hdeg : (Polynomial.X + Polynomial.C (1 : ℚ)).natDegree + 1 < 3 := by
    rw [Polynomial.natDegree_X_add_C]
    decide
  have hvals : ∀ i, i < 3 → ([1, 2, 3] : List ℚ).getD i 0
      = (Polynomial.X + Polynomial.C (1 : ℚ)).eval (([0, 1, 2] : List ℚ).getD i 0) := by
    intro i hi
    interval_cases i <;> simp <;> norm_num
  ⟨by decide, by decide, rfl, rfl, hdist, hdeg, hvals,
    eval_coeff_annihilates (1 / 4503599627370496) (3 / 2 : ℚ) [0, 1, 2] [1, 2, 3] 3
      (Polynomial.X + Polynomial.C (1 : ℚ)) (by decide) (by decide) rfl rfl hdist hdeg hvals⟩

end AnnihilationClaims

section MinmodSpec

variable {R : Type}

/-- The sign `minmod_eval` gives an estimate: `-1` when it is negative and `1`
otherwise. -/
def jumpSign [LinearOrderedField R] (r : R) : Int := if r < 0 then -1 else 1

end MinmodSpec

section OutcomeChecks

/-- The call returns the value `v`. -/
def Outcome.retIs {α : Type} [DecidableEq α] (o : Outcome Unit α) (v : α) : Bool :=
  match o with
  | .ret w => decide (w = v)
  | _ => false

theorem Outcome.eq_ret_of_retIs {α : Type} [DecidableEq α] (o : Outcome Unit α) (v : α)
    (h : o.retIs v = true) : o = .ret v := by
  cases o with
  | ret w =>
    have hw : w = v := of_decide_eq_true h
    rw [hw]
  | exit st => cases h
  | assertion => cases h
  | handed r a => cases h
  | undefined => cases h

end OutcomeChecks

section MinmodProofs

variable {R : Type}

set_option linter.unusedTactic false
set_option linter.unreachableTactic false

/-- The loop of `minmod_eval` when every estimate it asks for is returned:
it returns 0 when one of them has another sign than `sign`, and otherwise the
value kept is `jump` or one of the estimates, the least of them for a positive
`sign` and the greatest otherwise. -/
theorem minmod_eval_loop_spec [LinearOrderedField R] (eps x : R) (total evals : List R)
    (ntotal : Nat) (sign : Int) (J : Nat → R) :
    ∀ (k ii : Nat) (jump : R),
    (∀ m, ii ≤ m → m < ii + k → jump_estimate eps x total evals ntotal m = .ret (J m)) →
    ∃ v, minmod_eval_loop eps x total evals ntotal sign k ii jump = .ret v ∧
      ((∃ m, ii ≤ m ∧ m < ii + k ∧ jumpSign (J m) ≠ sign) → v = 0) ∧
      ((∀ m, ii ≤ m → m < ii + k → jumpSign (J m) = sign) →
        (v = jump ∨ ∃ m, ii ≤ m ∧ m < ii + k ∧ v = J m) ∧
        (0 < sign → v ≤ jump ∧ ∀ m, ii ≤ m → m < ii + k → v ≤ J m) ∧
        (¬ 0 < sign → jump ≤ v ∧ ∀ m, ii ≤ m → m < ii + k → J m ≤ v))
  | 0, ii, jump, _ => by
      refine ⟨jump, rfl, ?_, ?_⟩
      · rintro ⟨m, h1, h2, _⟩
        omega
      · intro _
        exact ⟨Or.inl rfl, fun _ => ⟨le_refl _, fun m h1 h2 => by omega⟩,
          fun _ => ⟨le_refl _, fun m h1 h2 => by omega⟩⟩
  | k + 1, ii, jump, hJ => by
      have hrec := fun j => minmod_eval_loop_spec eps x total evals ntotal sign J k (ii + 1) j
        (fun m h1 h2 => hJ m (by omega) (by omega))
      unfold minmod_eval_loop
      rw [hJ ii (le_refl _) (by omega), Outcome.ret_bind]
      have hfold : (if J ii < 0 then (-1 : Int) else 1) = jumpSign (J ii) := rfl
      rw [hfold]
      by_cases hs : jumpSign (J ii) ≠ sign
      · rw [if_pos hs]
        refine ⟨0, rfl, fun _ => rfl, ?_⟩
        intro hall
        exact absurd (hall ii (le_refl _) (by omega)) hs
      · rw [if_neg hs]
        have hs1 : jumpSign (J ii) = sign := not_not.mp hs
        have hfirst : ∀ v : R, ((∃ m, ii + 1 ≤ m ∧ m < ii + 1 + k ∧ jumpSign (J m) ≠ sign) → v = 0) →
            (∃ m, ii ≤ m ∧ m < ii + (k + 1) ∧ jumpSign (J m) ≠ sign) → v = 0 := by
          rintro v h ⟨m, h1, h2, h3⟩
          refine h ⟨m, ?_, by omega, h3⟩
          rcases Nat.eq_or_lt_of_le h1 with h4 | h4
          · rw [← h4] at h3
            exact absurd hs1 h3
          · exact h4
        by_cases hpos : 0 < sign
        · rw [if_pos hpos]
          by_cases hlt : J ii < jump
          · rw [if_pos hlt]
            obtain ⟨v, hv, h1, h2⟩ := hrec (J ii)
            refine ⟨v, hv, hfirst v h1, ?_⟩
            intro hall
            obtain ⟨ha, hb, _⟩ := h2 (fun m h3 h4 => hall m (by omega) (by omega))
            obtain ⟨hb1, hb2⟩ := hb hpos
            refine ⟨?_, fun _ => ⟨le_trans hb1 (le_of_lt hlt), ?_⟩, fun h => absurd hpos h⟩
            · rcases ha with ha | ⟨m, h3, h4, h5⟩
              · exact Or.inr ⟨ii, le_refl _, by omega, ha⟩
              · exact Or.inr ⟨m, by omega, by omega, h5⟩
            · intro m h3 h4
              rcases Nat.eq_or_lt_of_le h3 with h5 | h5
              · rw [← h5]
                exact hb1
              · exact hb2 m h5 (by omega)
          · rw [if_neg hlt]
            obtain ⟨v, hv, h1, h2⟩ := hrec jump
            refine ⟨v, hv, hfirst v h1, ?_⟩
            intro hall
            obtain ⟨ha, hb, _⟩ := h2 (fun m h3 h4 => hall m (by omega) (by omega))
            obtain ⟨hb1, hb2⟩ := hb hpos
            refine ⟨?_, fun _ => ⟨hb1, ?_⟩, fun h => absurd hpos h⟩
            · rcases ha with ha | ⟨m, h3, h4, h5⟩
              · exact Or.inl ha
              · exact Or.inr ⟨m, by omega, by omega, h5⟩
            · intro m h3 h4
              rcases Nat.eq_or_lt_of_le h3 with h5 | h5
              · rw [← h5]
                exact le_trans hb1 (not_lt.mp hlt)
              · exact hb2 m h5 (by omega)
        · rw [if_neg hpos]
          by_cases hgt : J ii > jump
          · rw [if_pos hgt]
            obtain ⟨v, hv, h1, h2⟩ := hrec (J ii)
            refine ⟨v, hv, hfirst v h1, ?_⟩
            intro hall
            obtain ⟨ha, _, hc⟩ := h2 (fun m h3 h4 => hall m (by omega) (by omega))
            obtain ⟨hc1, hc2⟩ := hc hpos
            refine ⟨?_, fun h => absurd h hpos, fun _ => ⟨le_trans (le_of_lt hgt) hc1, ?_⟩⟩
            · rcases ha with ha | ⟨m, h3, h4, h5⟩
              · exact Or.inr ⟨ii, le_refl _, by omega, ha⟩
              · exact Or.inr ⟨m, by omega, by omega, h5⟩
            · intro m h3 h4
              rcases Nat.eq_or_lt_of_le h3 with h5 | h5
              · rw [← h5]
                exact hc1
              · exact hc2 m h5 (by omega)
          · rw [if_neg hgt]
            obtain ⟨v, hv, h1, h2⟩ := hrec jump
            refine ⟨v, hv, hfirst v h1, ?_⟩
            intro hall
            obtain ⟨ha, _, hc⟩ := h2 (fun m h3 h4 => hall m (by omega) (by omega))
            obtain ⟨hc1, hc2⟩ := hc hpos
            refine ⟨?_, fun h => absurd h hpos, fun _ => ⟨hc1, ?_⟩⟩
            · rcases ha with ha | ⟨m, h3, h4, h5⟩
              · exact Or.inl ha
              · exact Or.inr ⟨m, by omega, by omega, h5⟩
            · intro m h3 h4
              rcases Nat.eq_or_lt_of_le h3 with h5 | h5
              · rw [← h5]
                exact le_trans (not_lt.mp hgt) hc1
              · exact hc2 m h5 (by omega)

/-- The result of `minmod_eval` when the estimates `J minm, .., J maxm` are
returned: 0 when they do not all have the sign of the first, and otherwise one
of them, the least for a non-negative first estimate and the greatest for a
negative one. -/
theorem minmod_eval_spec [LinearOrderedField R] (eps x : R) (total evals : List R)
    (ntotal minm maxm : Nat) (J : Nat → R) (hm : minm ≤ maxm)
    (hJ : ∀ m, minm ≤ m → m ≤ maxm → jump_estimate eps x total evals ntotal m = .ret (J m)) :
    ∃ v, minmod_eval eps x total evals ntotal minm maxm = .ret v ∧
      ((∃ m, minm ≤ m ∧ m ≤ maxm ∧ jumpSign (J m) ≠ jumpSign (J minm)) → v = 0) ∧
      ((∀ m, minm ≤ m → m ≤ maxm → jumpSign (J m) = jumpSign (J minm)) →
        (∃ m, minm ≤ m ∧ m ≤ maxm ∧ v = J m) ∧
        ∀ m, minm ≤ m → m ≤ maxm → |v| ≤ |J m|) := by
  obtain ⟨v, hv, h1, h2⟩ := minmod_eval_loop_spec eps x total evals ntotal
    (jumpSign (J minm)) J (maxm - minm) (minm + 1) (J minm)
    (fun m h3 h4 => hJ m (by omega) (by omega))
  refine ⟨v, ?_, ?_, ?_⟩
  · unfold minmod_eval
    rw [hJ minm (le_refl _) hm, Outcome.ret_bind]
    have hfold : (if J minm < 0 then (-1 : Int) else 1) = jumpSign (J minm) := rfl
    rw [hfold]
    exact hv
  · rintro ⟨m, h3, h4, h5⟩
    refine h1 ⟨m, ?_, by omega, h5⟩
    rcases Nat.eq_or_lt_of_le h3 with h6 | h6
    · rw [← h6] at h5
      exact absurd rfl h5
    · exact h6
  · intro hall
    obtain ⟨ha, hb, hc⟩ := h2 (fun m h3 h4 => hall m (by omega) (by omega))
    have hmem : ∃ m, minm ≤ m ∧ m ≤ maxm ∧ v = J m := by
      rcases ha with ha | ⟨m, h3, h4, h5⟩
      · exact ⟨minm, le_refl _, hm, ha⟩
      · exact ⟨m, by omega, by omega, h5⟩
    refine ⟨hmem, ?_⟩
    intro m h3 h4
    by_cases hneg : J minm < 0
    · have hsign : jumpSign (J minm) = -1 := by
        unfold jumpSign
        rw [if_pos hneg]
      have hallneg : ∀ m, minm ≤ m → m ≤ maxm → J m < 0 := by
        intro m h5 h6
        have := hall m h5 h6
        rw [hsign] at this
        unfold jumpSign at this
        by_contra hcon
        rw [if_neg hcon] at this
        omega
      obtain ⟨hc1, hc2⟩ := hc (by rw [hsign]; decide)
      have hge : J m ≤ v := by
        rcases Nat.eq_or_lt_of_le h3 with h5 | h5
        · rw [← h5]
          exact hc1
        · exact hc2 m h5 (by omega)
      obtain ⟨m0, h5, h6, h7⟩ := hmem
      have hvneg : v < 0 := by
        rw [h7]
        exact hallneg m0 h5 h6
      rw [abs_of_neg hvneg, abs_of_neg (hallneg m h3 h4)]
      exact neg_le_neg hge
    · have hsign : jumpSign (J minm) = 1 := by
        unfold jumpSign
        rw [if_neg hneg]
      have hallpos : ∀ m, minm ≤ m → m ≤ maxm → 0 ≤ J m := by
        intro m h5 h6
        have := hall m h5 h6
        rw [hsign] at this
        unfold jumpSign at this
        by_contra hcon
        rw [if_pos (not_le.mp hcon)] at this
        omega
      obtain ⟨hb1, hb2⟩ := hb (by rw [hsign]; decide)
      have hle : v ≤ J m := by
        rcases Nat.eq_or_lt_of_le h3 with h5 | h5
        · rw [← h5]
          exact hb1
        · exact hb2 m h5 (by omega)
      obtain ⟨m0, h5, h6, h7⟩ := hmem
      have hvpos : 0 ≤ v := by
        rw [h7]
        exact hallpos m0 h5 h6
      rw [abs_of_nonneg hvpos, abs_of_nonneg (hallpos m h3 h4)]
      exact hle

end MinmodProofs

section MinmodClaims

variable {R : Type}

set_option linter.unusedTactic false
set_option linter.unreachableTactic false

/-- C32: for `minm ≤ maxm`, when the jump estimates `J minm, .., J maxm` of
the orders `minm` to `maxm` are returned (each from the stencil of
`get_stencil` and `eval_jump` on it), `minmod_eval` returns 0 whenever they do
not all have the same sign (one is negative and one is not), and otherwise it
returns an estimate of smallest absolute value among them; in every case the
magnitude of the result does not exceed the magnitude of any single order's
estimate. -/
theorem minmod_eval_minmod [LinearOrderedField R] (eps x : R) (total evals : List R)
    (ntotal minm maxm : Nat) (J : Nat → R) (hm : minm ≤ maxm)
    (hJ : ∀ m, minm ≤ m → m ≤ maxm → jump_estimate eps x total evals ntotal m = .ret (J m)) :
    ∃ v, minmod_eval eps x total evals ntotal minm maxm = .ret v ∧
      ((∃ m m1, minm ≤ m ∧ m ≤ maxm ∧ minm ≤ m1 ∧ m1 ≤ maxm ∧ J m < 0 ∧ 0 ≤ J m1) → v = 0) ∧
      (((∀ m, minm ≤ m → m ≤ maxm → J m < 0) ∨ (∀ m, minm ≤ m → m ≤ maxm → 0 ≤ J m)) →
        ∃ m, minm ≤ m ∧ m ≤ maxm ∧ v = J m ∧
          ∀ m1, minm ≤ m1 → m1 ≤ maxm → |J m| ≤ |J m1|) ∧
      (∀ m, minm ≤ m → m ≤ maxm → |v| ≤ |J m|) := by
  obtain ⟨v, hv, h1, h2⟩ := minmod_eval_spec eps x total evals ntotal minm maxm J hm hJ
  have hneg : ∀ r : R, r < 0 → jumpSign r = -1 := by
    intro r hr
    unfold jumpSign
    rw [if_pos hr]
  have hpos : ∀ r : R, 0 ≤ r → jumpSign r = 1 := by
    intro r hr
    unfold jumpSign
    rw [if_neg (not_lt.mpr hr)]
  refine ⟨v, hv, ?_, ?_, ?_⟩
  · rintro ⟨m, m1, h3, h4, h5, h6, h7, h8⟩
    by_cases hfirst : J minm < 0
    · refine h1 ⟨m1, h5, h6, ?_⟩
      rw [hpos _ h8, hneg _ hfirst]
      decide
    · refine h1 ⟨m, h3, h4, ?_⟩
      rw [hneg _ h7, hpos _ (not_lt.mp hfirst)]
      decide
  · intro hsame
    have hall : ∀ m, minm ≤ m → m ≤ maxm → jumpSign (J m) = jumpSign (J minm) := by
      intro m h3 h4
      rcases hsame with hs | hs
      · rw [hneg _ (hs m h3 h4), hneg _ (hs minm (le_refl _) hm)]
      · rw [hpos _ (hs m h3 h4), hpos _ (hs minm (le_refl _) hm)]
    obtain ⟨⟨m, h3, h4, h5⟩, h6⟩ := h2 hall
    refine ⟨m, h3, h4, h5, ?_⟩
    intro m1 h7 h8
    rw [← h5]
    exact h6 m1 h7 h8
  · intro m h3 h4
    by_cases hall : ∀ m, minm ≤ m → m ≤ maxm → jumpSign (J m) = jumpSign (J minm)
    · exact (h2 hall).2 m h3 h4
    · have hex : ∃ m, minm ≤ m ∧ m ≤ maxm ∧ jumpSign (J m) ≠ jumpSign (J minm) := by
        by_contra hcon
        apply hall
        intro m1 h5 h6
        by_contra h7
        exact hcon ⟨m1, h5, h6, h7⟩
      rw [h1 hex, abs_zero]
      exact abs_nonneg _

/-- The jump estimates of orders 2 to 5 at `x = 7/10` for the values
`0, 0, 0, 1, 1, 1` of a unit step on the grid `0, 1/5, .., 1`. -/
def stepEstimates (m : Nat) : ℚ :=
  if m = 2 then -1 else if m = 3 then -1 / 2 else if m = 4 then -1 else -3 / 2

/-- C32 on the grid `0, 1/5, .., 1` with the values `0, 0, 0, 1, 1, 1` of a
unit step, at `x = 7/10` for the orders 2 to 5: the estimates are
`-1, -1/2, -1, -3/2`, all negative, and the result is `-1/2`. -/
theorem minmod_eval_minmod_witness :
    2 ≤ 5 ∧
    (∀ m, 2 ≤ m → m ≤ 5 →
      jump_estimate (1 / 4503599627370496) (7 / 10 : ℚ) [0, 1 / 5, 2 / 5, 3 / 5, 4 / 5, 1]
        [0, 0, 0, 1, 1, 1] 6 m = .ret (stepEstimates m)) ∧
    minmod_eval (1 / 4503599627370496) (7 / 10 : ℚ) [0, 1 / 5, 2 / 5, 3 / 5, 4 / 5, 1]
      [0, 0, 0, 1, 1, 1] 6 2 5 = .ret (-1 / 2) ∧
    ∃ v, minmod_eval (1 / 4503599627370496) (7 / 10 : ℚ) [0, 1 / 5, 2 / 5, 3 / 5, 4 / 5, 1]
        [0, 0, 0, 1, 1, 1] 6 2 5 = .ret v ∧
      ((∃ m m1, 2 ≤ m ∧ m ≤ 5 ∧ 2 ≤ m1 ∧ m1 ≤ 5 ∧ stepEstimates m < 0 ∧
        0 ≤ stepEstimates m1) → v = 0) ∧
      (((∀ m, 2 ≤ m → m ≤ 5 → stepEstimates m < 0) ∨
          (∀ m, 2 ≤ m → m ≤ 5 → 0 ≤ stepEstimates m)) →
        ∃ m, 2 ≤ m ∧ m ≤ 5 ∧ v = stepEstimates m ∧
          ∀ m1, 2 ≤ m1 → m1 ≤ 5 → |stepEstimates m| ≤ |stepEstimates m1|) ∧
      (∀ m, 2 ≤ m → m ≤ 5 → |v| ≤ |stepEstimates m|) :=
  have hJ : ∀ m, 2 ≤ m → m ≤ 5 →
      jump_estimate (1 / 4503599627370496) (7 / 10 : ℚ) [0, 1 / 5, 2 / 5, 3 / 5, 4 / 5, 1]
        [0, 0, 0, 1, 1, 1] 6 m = .ret (stepEstimates m) := by
    intro m h1 h2
    interval_cases m <;> exact Outcome.eq_ret_of_retIs _ _ (by decide!)
  ⟨by decide, hJ, Outcome.eq_ret_of_retIs _ _ (by decide!),
    minmod_eval_minmod (1 / 4503599627370496) (7 / 10 : ℚ) [0, 1 / 5, 2 / 5, 3 / 5, 4 / 5, 1]
      [0, 0, 0, 1, 1, 1] 6 2 5 stepEstimates (by decide) hJ⟩

end MinmodClaims

section LocateSpec

variable {R : Type}

/-- The sub-intervals of `[lb, ub]` obtained by repeated `nsplit`-way
splitting, in the words of the specification: `[lb, ub]` itself, and each of
the `nsplit` equal parts of such a sub-interval. -/
inductive SplitInterval [Field R] (nsplit : Nat) (lb ub : R) : R → R → Prop
  | root : SplitInterval nsplit lb ub lb ub
  | child (lo hi : R) (i : Nat) : SplitInterval nsplit lb ub lo hi → i < nsplit →
      SplitInterval nsplit lb ub (lo + (i : R) * ((hi - lo) / (nsplit : R)))
        (lo + ((i : R) + 1) * ((hi - lo) / (nsplit : R)))

/-- The call ends by returning or in a failed assertion: no read or store
outside a block is made. -/
def Outcome.settled {α : Type} (o : Outcome Unit α) : Prop :=
  (∃ v, o = .ret v) ∨ o = .assertion

/-- What a call of `locate_jumps` on `[lo, hi]` leaves, unless it ends in a
failed assertion: the edges it was given followed by the new ones, which
ascend, lie inside `(lo, hi)` and are each the midpoint of a sub-interval of
width below `tol` obtained from `[lo, hi]` by repeated splitting. -/
def EdgesRecorded [LinearOrderedField R] (nsplit : Nat) (tol lo hi : R) (edges : List R)
    (o : Outcome Unit (List R)) : Prop :=
  o = .assertion ∨
  ∃ new, o = .ret (edges ++ new) ∧ new.Pairwise (fun a b => a < b) ∧
    ∀ e, e ∈ new → lo < e ∧ e < hi ∧
      ∃ a b, SplitInterval nsplit lo hi a b ∧ b - a < tol ∧ e = (b + a) / 2

end LocateSpec

section LocateProofs

variable {R : Type}

set_option linter.unusedTactic false
set_option linter.unreachableTactic false

theorem Outcome.settled_bind {α β : Type} (x : Outcome Unit α) (k : α → Outcome Unit β)
    (hx : x.settled) (hk : ∀ v, (k v).settled) : (x.bind k).settled := by
  rcases hx with ⟨v, rfl⟩ | rfl
  · exact hk v
  · exact Or.inr rfl

/-- A sub-interval of a part of `[lb, ub]` is a sub-interval of `[lb, ub]`. -/
theorem SplitInterval.of_child [Field R] (nsplit : Nat) (lb ub : R) (i : Nat) (hi : i < nsplit)
    (a b : R)
    (h : SplitInterval nsplit (lb + (i : R) * ((ub - lb) / (nsplit : R)))
      (lb + ((i : R) + 1) * ((ub - lb) / (nsplit : R))) a b) :
    SplitInterval nsplit lb ub a b := by
  induction h with
  | root => exact SplitInterval.child lb ub i SplitInterval.root hi
  | child lo hi1 j _ hj ih => exact SplitInterval.child lo hi1 j ih hj

/-- On a strictly increasing grid with `x` strictly inside, every jump
estimate of an order from 1 to 8 whose stencil fits in the grid is returned or
stopped by the assertion of `eval_jump`. -/
theorem jump_estimate_settled [LinearOrderedField R] (eps x : R) (total evals : List R)
    (ntotal m : Nat) (hlen : total.length = ntotal) (hvlen : evals.length = ntotal)
    (hsize : ntotal < SIZE_MOD)
    (hmono : ∀ i j, i < j → j < ntotal → total.getD i 0 < total.getD j 0)
    (h1 : 1 ≤ m) (h8 : m ≤ 8) (hfit : m + 1 ≤ ntotal)
    (hlo : total.getD 0 0 < x) (hhi : x < total.getD (ntotal - 1) 0) :
    (jump_estimate eps x total evals ntotal m).settled := by
  obtain ⟨start, ii, hs, hfits, _⟩ :=
    get_stencil_spec x (m + 1) total ntotal hlen hsize hmono (by omega) hfit hlo hhi
  unfold jump_estimate
  rw [hs, Outcome.ret_bind,
    eval_jump_eq eps x _ _ (m + 1) (by omega) (by omega)
      (by rw [List.length_drop]; omega) (by rw [List.length_drop]; omega)]
  split_ifs
  · exact Or.inl ⟨_, rfl⟩
  · exact Or.inr rfl

theorem minmod_eval_loop_settled [LinearOrderedField R] (eps x : R) (total evals : List R)
    (ntotal : Nat) (sign : Int) :
    ∀ (k ii : Nat) (jump : R),
    (∀ m, ii ≤ m → m < ii + k → (jump_estimate eps x total evals ntotal m).settled) →
    (minmod_eval_loop eps x total evals ntotal sign k ii jump).settled
  | 0, _, jump, _ => Or.inl ⟨jump, rfl⟩
  | k + 1, ii, jump, h => by
      have ih := fun j => minmod_eval_loop_settled eps x total evals ntotal sign k (ii + 1) j
        (fun m h1 h2 => h m (by omega) (by omega))
      unfold minmod_eval_loop
      refine Outcome.settled_bind _ _ (h ii (le_refl _) (by omega)) (fun newjump => ?_)
      split_ifs <;> first | exact ih _ | exact Or.inl ⟨_, rfl⟩

theorem minmod_eval_settled [LinearOrderedField R] (eps x : R) (total evals : List R)
    (ntotal minm maxm : Nat)
    (h : ∀ m, minm ≤ m → m ≤ maxm → (jump_estimate eps x total evals ntotal m).settled)
    (hm : minm ≤ maxm) :
    (minmod_eval eps x total evals ntotal minm maxm).settled := by
  unfold minmod_eval
  refine Outcome.settled_bind _ _ (h minm (le_refl _) hm) (fun jump => ?_)
  exact minmod_eval_loop_settled eps x total evals ntotal _ _ _ _
    (fun m h1 h2 => h m (by omega) (by omega))

/-- The routine `minmod_disc_exists` reads inside the grid. -/
theorem minmod_disc_exists_settled [LinearOrderedField R] (eps : R) (thresh : R → R) (x : R)
    (total evals : List R) (ntotal minm maxm : Nat) (hlen : total.length = ntotal)
    (h2 : 2 ≤ ntotal)
    (h : (minmod_eval eps x total evals ntotal minm maxm).settled) :
    (minmod_disc_exists eps thresh x total evals ntotal minm maxm).settled := by
  have hget : ∀ i, i < ntotal → total[i]? = some (total.getD i 0) := by
    intro i hi
    rw [List.getD_eq_getElem?_getD, List.getElem?_eq_getElem (by omega)]
    rfl
  unfold minmod_disc_exists
  refine Outcome.settled_bind _ _ h (fun jump => ?_)
  rw [hget 1 (by omega), hget 0 (by omega)]
  simp only [Outcome.ofOption, Outcome.ret_bind]
  rw [outcomeLoop_ret _
    (fun ii h => if total.getD ii 0 - total.getD 0 0 < h then total.getD ii 0 - total.getD 0 0
      else h)]
  · exact Or.inl ⟨_, rfl⟩
  · intro i t h3 h4
    rw [hget i (by omega)]
    rfl

theorem budgetBind_ret {α β : Type} (v : α) (k : α → Option (Outcome Unit β)) :
    budgetBind (some (.ret v)) k = k v := rfl

/-- The points of `linspace(lb, ub, nsplit+1)`. -/
theorem linspace_split_getD [LinearOrderedField R] (lb ub : R) (nsplit i : Nat)
    (hi : i < nsplit + 1) :
    (linspace lb ub (nsplit + 1)).getD i 0 = lb + (i : R) * ((ub - lb) / (nsplit : R)) := by
  rw [List.getD_eq_getElem?_getD, linspace_getElem? lb ub (nsplit + 1) i hi]
  simp

theorem linspace_split_getElem? [LinearOrderedField R] (lb ub : R) (nsplit i : Nat)
    (hi : i < nsplit + 1) :
    (linspace lb ub (nsplit + 1))[i]? = some (lb + (i : R) * ((ub - lb) / (nsplit : R))) := by
  rw [linspace_getElem? lb ub (nsplit + 1) i hi]
  simp

/-- The points of the split ascend. -/
theorem split_point_lt [LinearOrderedField R] (lb ub : R) (nsplit : Nat) (hlt : lb < ub)
    (hn : 0 < nsplit) (i j : Nat) (hij : i < j) :
    lb + (i : R) * ((ub - lb) / (nsplit : R)) < lb + (j : R) * ((ub - lb) / (nsplit : R)) := by
  have hpos : 0 < (ub - lb) / (nsplit : R) :=
    div_pos (sub_pos.mpr hlt) (by exact_mod_cast hn)
  have hc : (i : R) < (j : R) := by exact_mod_cast hij
  have := mul_lt_mul_of_pos_right hc hpos
  linarith

theorem split_point_le [LinearOrderedField R] (lb ub : R) (nsplit : Nat) (hlt : lb < ub)
    (hn : 0 < nsplit) (i j : Nat) (hij : i ≤ j) :
    lb + (i : R) * ((ub - lb) / (nsplit : R)) ≤ lb + (j : R) * ((ub - lb) / (nsplit : R)) := by
  rcases Nat.lt_or_eq_of_le hij with h | h
  · exact le_of_lt (split_point_lt lb ub nsplit hlt hn i j h)
  · rw [h]

/-- The second loop of `locate_jumps` from part `ii` on: unless an assertion
fails, the edges recorded by the recursive calls on the parts `ii, ii+1, ..`
are appended in ascending order. -/
theorem locate_jumps_loop_spec [LinearOrderedField R] (eps : R) (thresh : R → R)
    (recurse : R → R → List R → Option (Outcome Unit (List R))) (nsplit : Nat)
    (tol lb ub : R) (vals : List R) (hlt : lb < ub) (hn : 5 ≤ nsplit)
    (hs : nsplit + 1 < SIZE_MOD) (hvlen : vals.length = nsplit + 1)
    (hrec : ∀ i, i < nsplit → ∀ es, ∃ o,
      recurse (lb + (i : R) * ((ub - lb) / (nsplit : R)))
        (lb + ((i : R) + 1) * ((ub - lb) / (nsplit : R))) es = some o ∧
      EdgesRecorded nsplit tol (lb + (i : R) * ((ub - lb) / (nsplit : R)))
        (lb + ((i : R) + 1) * ((ub - lb) / (nsplit : R))) es o) :
    ∀ (k ii : Nat) (edges : List R), ii + k ≤ nsplit →
    ∃ o, locate_jumps_loop eps thresh recurse (linspace lb ub (nsplit + 1)) vals (nsplit + 1)
        k ii edges = some o ∧
      (o = .assertion ∨
        ∃ new, o = .ret (edges ++ new) ∧ new.Pairwise (fun a b => a < b) ∧
          ∀ e, e ∈ new → lb + (ii : R) * ((ub - lb) / (nsplit : R)) < e ∧
            e < lb + ((ii + k : Nat) : R) * ((ub - lb) / (nsplit : R)) ∧
            ∃ a b, SplitInterval nsplit lb ub a b ∧ b - a < tol ∧ e = (b + a) / 2)
  | 0, ii, edges, _ =>
      ⟨.ret edges, rfl, Or.inr ⟨[], by rw [List.append_nil], List.Pairwise.nil,
        fun e he => by cases he⟩⟩
  | k + 1, ii, edges, hk => by
      have hn0 : 0 < nsplit := by omega
      have hp0 := linspace_split_getElem? lb ub nsplit ii (by omega)
      have hp1 := linspace_split_getElem? lb ub nsplit (ii + 1) (by omega)
      have hcast : (((ii + 1 : Nat) : R)) = (ii : R) + 1 := by push_cast; ring
      rw [hcast] at hp1
      have hstep := split_point_lt lb ub nsplit hlt hn0 ii (ii + 1) (by omega)
      rw [hcast] at hstep
      unfold locate_jumps_loop
      rw [hp0, hp1]
      simp only [Outcome.ofOption, budgetBind_ret]
      -- the test at the midpoint
      have hdisc : (minmod_disc_exists eps thresh
          ((lb + (ii : R) * ((ub - lb) / (nsplit : R))
            + (lb + ((ii : R) + 1) * ((ub - lb) / (nsplit : R)))) / 2)
          (linspace lb ub (nsplit + 1)) vals (nsplit + 1) 2 5).settled := by
        refine minmod_disc_exists_settled eps thresh _ _ _ _ _ _ (linspace_length _ _ _)
          (by omega) ?_
        refine minmod_eval_settled eps _ _ _ _ _ _ (fun m h1 h2 => ?_) (by decide)
        refine jump_estimate_settled eps _ _ _ _ m (linspace_length _ _ _) hvlen hs ?_
          (by omega) (by omega) (by omega) ?_ ?_
        · intro i j hij hj
          rw [linspace_split_getD lb ub nsplit i (by omega),
            linspace_split_getD lb ub nsplit j hj]
          exact split_point_lt lb ub nsplit hlt hn0 i j hij
        · rw [linspace_split_getD lb ub nsplit 0 (by omega)]
          have := split_point_le lb ub nsplit hlt hn0 0 ii (by omega)
          linarith
        · rw [linspace_split_getD lb ub nsplit (nsplit + 1 - 1) (by omega)]
          have := split_point_le lb ub nsplit hlt hn0 (ii + 1) (nsplit + 1 - 1) (by omega)
          rw [hcast] at this
          linarith
      rcases hdisc with ⟨disc, hd⟩ | hd
      · rw [hd, budgetBind_ret]
        -- the recursive call, when made
        have hcall : ∃ o1,
            (if disc = 1 then
              recurse (lb + (ii : R) * ((ub - lb) / (nsplit : R)))
                (lb + ((ii : R) + 1) * ((ub - lb) / (nsplit : R))) edges
            else some (.ret edges)) = some o1 ∧
            (o1 = .assertion ∨
              ∃ new, o1 = .ret (edges ++ new) ∧ new.Pairwise (fun a b => a < b) ∧
                ∀ e, e ∈ new → lb + (ii : R) * ((ub - lb) / (nsplit : R)) < e ∧
                  e < lb + ((ii : R) + 1) * ((ub - lb) / (nsplit : R)) ∧
                  ∃ a b, SplitInterval nsplit lb ub a b ∧ b - a < tol ∧ e = (b + a) / 2) := by
          by_cases h1 : disc = 1
          · rw [if_pos h1]
            obtain ⟨o1, ho1, hrec1⟩ := hrec ii (by omega) edges
            refine ⟨o1, ho1, ?_⟩
            rcases hrec1 with ha | ⟨new, hnew, hpw, hin⟩
            · exact Or.inl ha
            · refine Or.inr ⟨new, hnew, hpw, fun e he => ?_⟩
              obtain ⟨h2, h3, a, b, h4, h5, h6⟩ := hin e he
              exact ⟨h2, h3, a, b, SplitInterval.of_child nsplit lb ub ii (by omega) a b h4,
                h5, h6⟩
          · rw [if_neg h1]
            exact ⟨.ret edges, rfl, Or.inr ⟨[], by rw [List.append_nil], List.Pairwise.nil,
              fun e he => by cases he⟩⟩
        obtain ⟨o1, ho1, hres1⟩ := hcall
        rw [ho1]
        rcases hres1 with ha | ⟨new1, hnew1, hpw1, hin1⟩
        · rw [ha]
          exact ⟨.assertion, rfl, Or.inl rfl⟩
        · rw [hnew1, budgetBind_ret]
          obtain ⟨o2, ho2, hres2⟩ :=
            locate_jumps_loop_spec eps thresh recurse nsplit tol lb ub vals hlt hn hs hvlen hrec
              k (ii + 1) (edges ++ new1) (by omega)
          refine ⟨o2, ho2, ?_⟩
          rcases hres2 with ha | ⟨new2, hnew2, hpw2, hin2⟩
          · exact Or.inl ha
          · refine Or.inr ⟨new1 ++ new2, by rw [hnew2, List.append_assoc], ?_, ?_⟩
            · rw [List.pairwise_append]
              refine ⟨hpw1, hpw2, fun a ha b hb => ?_⟩
              have h1 := (hin1 a ha).2.1
              have h2 := (hin2 b hb).1
              rw [hcast] at h2
              exact lt_trans h1 h2
            · intro e he
              rcases List.mem_append.mp he with he1 | he2
              · obtain ⟨h2, h3, hx⟩ := hin1 e he1
                refine ⟨h2, ?_, hx⟩
                have := split_point_le lb ub nsplit hlt hn0 (ii + 1) (ii + (k + 1)) (by omega)
                rw [hcast] at this
                exact lt_of_lt_of_le h3 this
              · obtain ⟨h2, h3, hx⟩ := hin2 e he2
                rw [hcast] at h2
                refine ⟨lt_trans hstep h2, ?_, hx⟩
                rw [show ii + (k + 1) = ii + 1 + k by omega]
                exact h3
      · rw [hd]
        exact ⟨.assertion, rfl, Or.inl rfl⟩

/-- The routine `locate_jumps` on an interval of width below `tol * nsplit^k`
ends within `k + 1` nested calls, for every target function: in a failed
assertion or with the recorded edges appended in ascending order. -/
theorem locate_jumps_spec [LinearOrderedField R] (eps : R) (thresh : R → R) (f : R → R)
    (nsplit : Nat) (tol : R) (hn : 5 ≤ nsplit) (hs : nsplit + 1 < SIZE_MOD) :
    ∀ (k depth : Nat) (lb ub : R) (edges : List R), lb < ub →
    ub - lb < tol * (nsplit : R) ^ k → k < depth →
    ∃ o, locate_jumps eps thresh f nsplit tol depth lb ub edges = some o ∧
      EdgesRecorded nsplit tol lb ub edges o := by
  intro k
  induction k with
  | zero =>
    intro depth lb ub edges hlt hw hd
    obtain ⟨d, rfl⟩ : ∃ d, depth = d + 1 := ⟨depth - 1, by omega⟩
    rw [pow_zero, mul_one] at hw
    unfold locate_jumps
    rw [if_pos hw]
    refine ⟨_, rfl, Or.inr ⟨[(ub + lb) / 2], rfl, List.pairwise_singleton _ _, ?_⟩⟩
    intro e he
    rw [List.mem_singleton] at he
    subst he
    exact ⟨by linarith, by linarith, lb, ub, SplitInterval.root, hw, rfl⟩
  | succ k ih =>
    intro depth lb ub edges hlt hw hd
    obtain ⟨d, rfl⟩ : ∃ d, depth = d + 1 := ⟨depth - 1, by omega⟩
    have hn0 : 0 < nsplit := by omega
    have hnR : (0 : R) < (nsplit : R) := by exact_mod_cast hn0
    unfold locate_jumps
    by_cases hbase : ub - lb < tol
    · rw [if_pos hbase]
      refine ⟨_, rfl, Or.inr ⟨[(ub + lb) / 2], rfl, List.pairwise_singleton _ _, ?_⟩⟩
      intro e he
      rw [List.mem_singleton] at he
      subst he
      exact ⟨by linarith, by linarith, lb, ub, SplitInterval.root, hbase, rfl⟩
    · rw [if_neg hbase, Nat.mod_eq_of_lt hs]
      rw [storeLoop_fill _
        (fun i => f (lb + (i : R) * ((ub - lb) / (nsplit : R)))) (nsplit + 1) _
        (List.length_replicate _ _)
        (fun ii hii => by rw [linspace_split_getElem? lb ub nsplit ii hii]; rfl)]
      rw [budgetBind_ret]
      have hrec : ∀ i, i < nsplit → ∀ es, ∃ o,
          locate_jumps eps thresh f nsplit tol d
            (lb + (i : R) * ((ub - lb) / (nsplit : R)))
            (lb + ((i : R) + 1) * ((ub - lb) / (nsplit : R))) es = some o ∧
          EdgesRecorded nsplit tol (lb + (i : R) * ((ub - lb) / (nsplit : R)))
            (lb + ((i : R) + 1) * ((ub - lb) / (nsplit : R))) es o := by
        intro i hi es
        have hpos : 0 < (ub - lb) / (nsplit : R) := div_pos (sub_pos.mpr hlt) hnR
        refine ih d _ _ es (by linarith) ?_ (by omega)
        have hwidth : lb + ((i : R) + 1) * ((ub - lb) / (nsplit : R))
            - (lb + (i : R) * ((ub - lb) / (nsplit : R))) = (ub - lb) / (nsplit : R) := by ring
        rw [hwidth, div_lt_iff₀ hnR]
        rw [pow_succ, ← mul_assoc] at hw
        exact hw
      have hvlen : ((List.range' 0 (nsplit + 1)).map
          (fun (i : Nat) => f (lb + (i : R) * ((ub - lb) / (nsplit : R))))).length
            = nsplit + 1 := by simp
      obtain ⟨o, ho, hres⟩ :=
        locate_jumps_loop_spec eps thresh (locate_jumps eps thresh f nsplit tol d) nsplit tol lb ub
          _ hlt hn hs hvlen hrec nsplit 0 edges (by omega)
      refine ⟨o, ho, ?_⟩
      rcases hres with ha | ⟨new, hnew, hpw, hin⟩
      · exact Or.inl ha
      · refine Or.inr ⟨new, hnew, hpw, fun e he => ?_⟩
        obtain ⟨h1, h2, hx⟩ := hin e he
        have hne : (nsplit : R) ≠ 0 := ne_of_gt hnR
        have hlast : lb + ((0 + nsplit : Nat) : R) * ((ub - lb) / (nsplit : R)) = ub := by
          rw [Nat.zero_add]
          field_simp
        have hfirst : lb + ((0 : Nat) : R) * ((ub - lb) / (nsplit : R)) = lb := by
          simp
        rw [hfirst] at h1
        rw [hlast] at h2
        obtain ⟨a, b, h3, h4, h5⟩ := hx
        exact ⟨h1, h2, a, b, h3, h4, h5⟩

end LocateProofs

section LocateClaims

variable {R : Type}

set_option linter.unusedTactic false
set_option linter.unreachableTactic false

/-- C33: for `lb < ub`, `tol > 0` and `nsplit ≥ 5` (with `nsplit + 1` a
`size_t` value) `locate_jumps` ends for every target function `f`, within
`⌈(ub - lb) / tol⌉ + 1` nested calls: either in a failed assertion or by
returning with new edges appended to the ones it was given.  The new edges are in ascending order, lie inside
`(lb, ub)`, and each is the midpoint of a sub-interval of `[lb, ub]` of width
below `tol` obtained by repeated `nsplit`-way splitting. -/
theorem locate_jumps_terminates [LinearOrderedField R] [FloorSemiring R] (eps : R)
    (thresh : R → R) (f : R → R) (nsplit : Nat) (tol lb ub : R) (edges : List R)
    (hlt : lb < ub) (htol : 0 < tol) (hn : 5 ≤ nsplit) (hs : nsplit + 1 < SIZE_MOD) :
    ∀ depth, ⌈(ub - lb) / tol⌉₊ < depth →
    ∃ o, locate_jumps eps thresh f nsplit tol depth lb ub edges = some o ∧
      (o = .assertion ∨
        ∃ new, o = .ret (edges ++ new) ∧ new.Pairwise (fun a b => a < b) ∧
          ∀ e, e ∈ new → lb < e ∧ e < ub ∧
            ∃ a b, SplitInterval nsplit lb ub a b ∧ b - a < tol ∧ e = (b + a) / 2) := by
  intro depth hd
  have hw : ub - lb < tol * (nsplit : R) ^ ⌈(ub - lb) / tol⌉₊ := by
    have h1 : (ub - lb) / tol ≤ (⌈(ub - lb) / tol⌉₊ : R) := Nat.le_ceil _
    have h2 : ((⌈(ub - lb) / tol⌉₊ : Nat) : R) < (nsplit : R) ^ ⌈(ub - lb) / tol⌉₊ := by
      have h3 : ⌈(ub - lb) / tol⌉₊ < nsplit ^ ⌈(ub - lb) / tol⌉₊ :=
        Nat.lt_pow_self (by omega) _
      exact_mod_cast h3
    have h4 := lt_of_le_of_lt h1 h2
    rw [div_lt_iff₀ htol] at h4
    rw [mul_comm]
    exact h4
  exact locate_jumps_spec eps thresh f nsplit tol hn hs _ depth lb ub edges hlt hw hd

/-- The unit step at `9/20`. -/
def unitStep (t : ℚ) : ℚ := if t < 9 / 20 then 0 else 1

/-- C33 for the unit step at `9/20` on `[0, 1]` with five parts and
`tol = 1/2`. -/
theorem locate_jumps_terminates_witness :
    (0 : ℚ) < 1 ∧ (0 : ℚ) < 1 / 2 ∧ 5 ≤ 5 ∧ 5 + 1 < SIZE_MOD ∧
    ∀ depth, ⌈((1 : ℚ) - 0) / (1 / 2)⌉₊ < depth →
    ∃ o, locate_jumps (1 / 4503599627370496) (fun _ => 1 / 10) unitStep 5 (1 / 2) depth 0 1 []
        = some o ∧
      (o = .assertion ∨
        ∃ new, o = .ret ([] ++ new) ∧ new.Pairwise (fun a b => a < b) ∧
          ∀ e, e ∈ new → 0 < e ∧ e < 1 ∧
            ∃ a b, SplitInterval 5 (0 : ℚ) 1 a b ∧ b - a < 1 / 2 ∧ e = (b + a) / 2) :=
  ⟨by norm_num, by norm_num, by decide, by decide,
    locate_jumps_terminates (1 / 4503599627370496) (fun _ => 1 / 10) unitStep 5 (1 / 2) 0 1 []
      (by norm_num) (by norm_num) (by decide) (by decide)⟩

/-- The call returns the value `v` within the depth allowed. -/
def budgetRetIs {α : Type} [DecidableEq α] (o : Option (Outcome Unit α)) (v : α) : Bool :=
  match o with
  | some (.ret w) => decide (w = v)
  | _ => false

/-- The call ends in a failed assertion within the depth allowed. -/
def budgetAsserts {α : Type} (o : Option (Outcome Unit α)) : Bool :=
  match o with
  | some .assertion => true
  | _ => false

theorem eq_ret_of_budgetRetIs {α : Type} [DecidableEq α] (o : Option (Outcome Unit α)) (v : α)
    (h : budgetRetIs o v = true) : o = some (.ret v) := by
  cases o with
  | none => cases h
  | some r =>
    cases r with
    | ret w =>
      have hw : w = v := of_decide_eq_true h
      rw [hw]
    | exit st => cases h
    | assertion => cases h
    | handed r a => cases h
    | undefined => cases h

theorem eq_assertion_of_budgetAsserts {α : Type} (o : Option (Outcome Unit α))
    (h : budgetAsserts o = true) : o = some .assertion := by
  cases o with
  | none => cases h
  | some r =>
    cases r with
    | ret w => cases h
    | exit st => cases h
    | assertion => rfl
    | handed r a => cases h
    | undefined => cases h

/-- Two runs of `locate_jumps` on the unit step at `9/20` with five parts and
`DBL_EPSILON = 2^-52`.  On `[0, 1]` with `tol = 1/100` the edges recorded are
`111/250, 113/250, 23/50`, the midpoints of three parts of width `1/125`.  On
`[0, 10000]` the call ends in a failed assertion: the stencils have spacing
2000 and a denominator of `eval_jump` is below `DBL_EPSILON`. -/
theorem locate_jumps_unitStep_runs :
    locate_jumps (1 / 4503599627370496) (fun _ => 1 / 10) unitStep 5 (1 / 100) 5 0 1 []
      = some (.ret [111 / 250, 113 / 250, 23 / 50]) ∧
    locate_jumps (1 / 4503599627370496) (fun _ => 1 / 10) unitStep 5 (1 / 100) 5 0 10000 []
      = some .assertion :=
  ⟨eq_ret_of_budgetRetIs _ _ (by decide!), eq_assertion_of_budgetAsserts _ (by decide!)⟩

end LocateClaims

section JumpEstimateProofs

variable {R : Type}

set_option linter.unusedTactic false
set_option linter.unreachableTactic false

/-- On a strictly increasing grid with `x` strictly inside, the jump estimate
of an order `m` from 1 to 8 whose stencil fits in the grid is the weighted sum
of the values on the stencil over the denominator of `eval_jump`, and it is
returned exactly when that denominator passes the assertion. -/
theorem jump_estimate_eq [LinearOrderedField R] (eps x : R) (total evals : List R)
    (ntotal m : Nat) (hlen : total.length = ntotal) (hvlen : evals.length = ntotal)
    (hsize : ntotal < SIZE_MOD)
    (hmono : ∀ i j, i < j → j < ntotal → total.getD i 0 < total.getD j 0)
    (h1 : 1 ≤ m) (h8 : m ≤ 8) (hfit : m + 1 ≤ ntotal)
    (hlo : total.getD 0 0 < x) (hhi : x < total.getD (ntotal - 1) 0) :
    ∃ start, get_stencil x (m + 1) total ntotal = .ret start ∧ start + (m + 1) ≤ ntotal ∧
      jump_estimate eps x total evals ntotal m
        = if |stencilDen x (total.drop start) (m + 1)| ≥ eps then
            .ret ((∑ l in Finset.range (m + 1),
                stencilCoeff (total.drop start) (m + 1) l * (evals.drop start).getD l 0)
              / stencilDen x (total.drop start) (m + 1))
          else .assertion := by
  obtain ⟨start, ii, hs, hfits, _⟩ :=
    get_stencil_spec x (m + 1) total ntotal hlen hsize hmono (by omega) hfit hlo hhi
  refine ⟨start, hs, hfits, ?_⟩
  unfold jump_estimate
  rw [hs, Outcome.ret_bind,
    eval_jump_eq eps x _ _ (m + 1) (by omega) (by omega)
      (by rw [List.length_drop]; omega) (by rw [List.length_drop]; omega)]

end JumpEstimateProofs

/-! ## Round trip of a generic function built through the allocator -/

section GenericRoundTrip

variable {O L : Type}

/-- A linear-element function as `generic_function_alloc` makes it, with
sub-type 0. -/
def linelmAllocated : GenericFunction Bool Bool := ⟨1, .LINELM, 0, .lexp true⟩

/-- C5: for a generic function `g` of class `POLYNOMIAL`, `PIECEWISE` or
`LINELM` as the routines of the sources build it (payload of the announced
type, sub-type the one `generic_function_alloc` stores for the class, `dim`
and the `nbranches` of a piecewise payload `size_t` values), with backends
that round-trip: write mode appends `dim` (`size_t`), the class (`int`), the
sub-type (`int`) and the backend payload, in that order;
`deserialize_generic_function` on those bytes rebuilds a function with equal
`dim`, class, sub-type and payload, and returns the read pointer just past
them; and the size reported in size-query mode is
`sizeof(size_t) + 2*sizeof(int)` plus the payload size, the number of bytes
written. -/
theorem serialize_generic_function_roundtrip_allocated (codO : BackendCodec O)
    (codL : BackendCodec L) (hO : codO.RoundTrip) (hL : codL.RoundTrip)
    (hOs : codO.SizeExact) (hLs : codL.SizeExact)
    (g : GenericFunction O L) (hg : g.canonical = true) (ser rest : List Byte) :
    serialize_generic_function codO codL ser g
      = some (ser ++ (serialize_size_t [] g.dim ++ (serialize_int [] g.fc.toInt ++
          (serialize_int [] g.sub_type ++ payloadBytes codO codL g.f)))) ∧
    (∃ g1 : GenericFunction O L,
      deserialize_generic_function codO codL (genericBytes codO codL g ++ rest)
        = some (some g1, rest) ∧
      g1.dim = g.dim ∧ g1.fc = g.fc ∧ g1.sub_type = g.sub_type ∧ g1.f = g.f) ∧
    deserialize_generic_function codO codL (genericBytes codO codL g ++ rest)
      = some (some g, rest) ∧
    ((genericBytes codO codL g).length < SIZE_MOD →
      serialize_generic_function_size codO codL g
        = some (some (genericBytes codO codL g).length)) ∧
    (genericBytes codO codL g).length
      = sizeof_size_t + 2 * sizeof_int + (payloadBytes codO codL g.f).length := by
  have hs := canonical_storable g hg
  have hd : deserialize_generic_function codO codL (genericBytes codO codL g ++ rest)
      = some (some g, rest) := by
    rw [deserialize_generic_function_roundtrip codO codL hO hL g hs rest, canonical_realloc g hg]
  exact ⟨serialize_generic_function_eq codO codL ser g hs, ⟨g, hd, rfl, rfl, rfl, rfl⟩, hd,
    fun hlen => serialize_generic_function_size_eq codO codL hOs hLs g hs hlen,
    genericBytes_length codO codL g⟩

/-- C5 on a linear-element function with the sub-type 0 of the allocator. -/
theorem serialize_generic_function_roundtrip_allocated_witness :
    boolCodec.RoundTrip ∧ boolCodec.SizeExact ∧ linelmAllocated.canonical = true ∧
    (serialize_generic_function boolCodec boolCodec [9] linelmAllocated
        = some ([9] ++ (serialize_size_t [] linelmAllocated.dim ++
            (serialize_int [] linelmAllocated.fc.toInt ++
            (serialize_int [] linelmAllocated.sub_type ++
              payloadBytes boolCodec boolCodec linelmAllocated.f)))) ∧
      (∃ g1 : GenericFunction Bool Bool,
        deserialize_generic_function boolCodec boolCodec
            (genericBytes boolCodec boolCodec linelmAllocated ++ [7]) = some (some g1, [7]) ∧
        g1.dim = linelmAllocated.dim ∧ g1.fc = linelmAllocated.fc ∧
        g1.sub_type = linelmAllocated.sub_type ∧ g1.f = linelmAllocated.f) ∧
      deserialize_generic_function boolCodec boolCodec
          (genericBytes boolCodec boolCodec linelmAllocated ++ [7])
        = some (some linelmAllocated, [7]) ∧
      ((genericBytes boolCodec boolCodec linelmAllocated).length < SIZE_MOD →
        serialize_generic_function_size boolCodec boolCodec linelmAllocated
          = some (some (genericBytes boolCodec boolCodec linelmAllocated).length)) ∧
      (genericBytes boolCodec boolCodec linelmAllocated).length
        = sizeof_size_t + 2 * sizeof_int
            + (payloadBytes boolCodec boolCodec linelmAllocated.f).length) :=
  ⟨boolCodec_roundTrip, boolCodec_sizeExact, by decide,
    serialize_generic_function_roundtrip_allocated boolCodec boolCodec boolCodec_roundTrip
      boolCodec_roundTrip boolCodec_sizeExact boolCodec_sizeExact linelmAllocated (by decide)
      [9] [7]⟩

end GenericRoundTrip

/-! ## The adaptive approximation on a grid that is not exact -/

section AdaptGrid

variable {R : Type}

/-- The body of `piecewise_poly_approx1` with the routine `linspace` as the
parameter `grid`: as `piecewise_poly_approx1_body`, the break points being
`grid lb ub (nregions+1)` when `aopts->pts` is NULL. -/
def piecewise_poly_approx1_body_on (grid : R → R → Nat → List R)
    (fit : Int → Nat → R → R → OrthPolyExpansion R)
    (lb ub : R) (ptype : Int) (maxorder nregions : Nat) (pts : Option (List R)) :
    Outcome Unit (PiecewisePoly (OrthPolyExpansion R)) :=
  if nregions = 1 then .ret (leaf (fit ptype ((maxorder + 1) % SIZE_MOD) lb ub))
  else
    (piecewise_poly_approx1_loop fit ptype ((maxorder + 1) % SIZE_MOD)
      (match pts with
        | none => grid lb ub ((nregions + 1) % SIZE_MOD)
        | some p => p) 0 nregions).bind fun bs => .ret (node bs)

/-- The C routine `piecewise_poly_approx1` with the routine `linspace` as the
parameter `grid`. -/
def piecewise_poly_approx1_on (grid : R → R → Nat → List R)
    (fit : Int → Nat → R → R → OrthPolyExpansion R)
    (LEGENDRE : Int) (lb ub : R) (aoptsin : Option (PwPolyAdaptOpts R)) :
    Outcome Unit (PiecewisePoly (OrthPolyExpansion R)) :=
  match aoptsin with
  | some aopts =>
      piecewise_poly_approx1_body_on grid fit lb ub aopts.ptype aopts.maxorder aopts.nregions
        aopts.pts
  | none => piecewise_poly_approx1_body_on grid fit lb ub LEGENDRE 7 5 none

/-- The C routine `piecewise_poly_approx1_adapt` with resolved options and
with the routine `linspace` as the parameter `grid`; the first argument bounds
the depth of the recursion, as in `piecewise_poly_approx1_adapt_body`. -/
def piecewise_poly_approx1_adapt_body_on [LinearOrderedField R]
    (grid : R → R → Nat → List R) (fit : Int → Nat → R → R → OrthPolyExpansion R)
    (LEGENDRE : Int) (aopts : PwPolyAdaptOpts R) :
    Nat → R → R → Option (Outcome Unit (PiecewisePoly (OrthPolyExpansion R)))
  | 0, _, _ => none
  | depth + 1, lb, ub =>
      budgetBind (some (piecewise_poly_approx1_on grid fit LEGENDRE lb ub (some aopts)))
        fun poly =>
      match poly with
      | leaf o => some (.ret (leaf o))
      | node bs =>
          budgetBind
            (piecewise_poly_approx1_adapt_loop aopts
              (piecewise_poly_approx1_adapt_body_on grid fit LEGENDRE aopts depth) bs)
            fun bs1 => some (.ret (node bs1))

/-- The C routine `piecewise_poly_approx1_adapt` with the routine `linspace`
as the parameter `grid`. -/
def piecewise_poly_approx1_adapt_on [LinearOrderedField R]
    (grid : R → R → Nat → List R) (fit : Int → Nat → R → R → OrthPolyExpansion R)
    (LEGENDRE : Int) (depth : Nat) (lb ub : R) (aoptsin : Option (PwPolyAdaptOpts R)) :
    Option (Outcome Unit (PiecewisePoly (OrthPolyExpansion R))) :=
  match aoptsin with
  | some aopts => piecewise_poly_approx1_adapt_body_on grid fit LEGENDRE aopts depth lb ub
  | none =>
      piecewise_poly_approx1_adapt_body_on grid fit LEGENDRE
        ⟨LEGENDRE, 7, 1 / 100000, 2, 1 / 100000000, 5, none⟩ depth lb ub

/-- The integer nearest to `q`, the even one of the two when `q` lies half way
between two integers. -/
def roundHalfEven (q : ℚ) : Int :=
  if q - (⌊q⌋ : ℚ) < 1 / 2 then ⌊q⌋
  else if q - (⌊q⌋ : ℚ) > 1 / 2 then ⌊q⌋ + 1
  else if ⌊q⌋ % 2 = 0 then ⌊q⌋ else ⌊q⌋ + 1

/-- The double nearest to `q` for `2^53 ≤ q ≤ 2^54`, where the doubles are the
even integers: rounding to nearest, ties to the even significand. -/
def roundBinade53 (q : ℚ) : ℚ := 2 * (roundHalfEven (q / 2) : ℚ)

/-- Modelled from the spec: `linspace(lb, ub, N)` in double arithmetic for
points between `2^53` and `2^54`: every point `lb + i*(ub - lb)/(N - 1)` is
rounded to the nearest double.  (For `lb = 1e16`, `ub = 1e16 + 2`, `N = 3` the
step 1 and its multiples 0, 1, 2 are doubles, so the sum is the only operation
that rounds.) -/
def linspace_binade53 (lb ub : ℚ) (N : Nat) : List ℚ :=
  (linspace lb ub N).map roundBinade53

/-- Options with two regions and the default `minsize = 1e-5`,
`epsilon = 1e-8`, `coeff_check = 2`. -/
def twoRegionOpts : PwPolyAdaptOpts ℚ :=
  ⟨0, 7, 1 / 100000, 2, 1 / 100000000, 2, none⟩

end AdaptGrid

section AdaptGridProofs

variable {R : Type}

set_option linter.unusedTactic false
set_option linter.unreachableTactic false

/-- On the exact grid the routine is `piecewise_poly_approx1`. -/
theorem piecewise_poly_approx1_on_linspace [LinearOrderedField R]
    (fit : Int → Nat → R → R → OrthPolyExpansion R) (LEGENDRE : Int) (lb ub : R)
    (aoptsin : Option (PwPolyAdaptOpts R)) :
    piecewise_poly_approx1_on linspace fit LEGENDRE lb ub aoptsin
      = piecewise_poly_approx1 fit LEGENDRE lb ub aoptsin := by
  cases aoptsin <;> rfl

/-- On the exact grid the routine is `piecewise_poly_approx1_adapt_body`. -/
theorem piecewise_poly_approx1_adapt_body_on_linspace [LinearOrderedField R]
    (fit : Int → Nat → R → R → OrthPolyExpansion R) (LEGENDRE : Int)
    (aopts : PwPolyAdaptOpts R) :
    ∀ (depth : Nat) (lb ub : R),
    piecewise_poly_approx1_adapt_body_on linspace fit LEGENDRE aopts depth lb ub
      = piecewise_poly_approx1_adapt_body fit LEGENDRE aopts depth lb ub
  | 0, _, _ => rfl
  | depth + 1, lb, ub => by
      have ih : piecewise_poly_approx1_adapt_body_on linspace fit LEGENDRE aopts depth
          = piecewise_poly_approx1_adapt_body fit LEGENDRE aopts depth := by
        funext l u
        exact piecewise_poly_approx1_adapt_body_on_linspace fit LEGENDRE aopts depth l u
      rw [piecewise_poly_approx1_adapt_body_on, piecewise_poly_approx1_adapt_body,
        piecewise_poly_approx1_on_linspace, ih]
      all_goals congr 1

/-- On the exact grid the routine is `piecewise_poly_approx1_adapt`. -/
theorem piecewise_poly_approx1_adapt_on_linspace [LinearOrderedField R]
    (fit : Int → Nat → R → R → OrthPolyExpansion R) (LEGENDRE : Int) (depth : Nat)
    (lb ub : R) (aoptsin : Option (PwPolyAdaptOpts R)) :
    piecewise_poly_approx1_adapt_on linspace fit LEGENDRE depth lb ub aoptsin
      = piecewise_poly_approx1_adapt fit LEGENDRE depth lb ub aoptsin := by
  cases aoptsin with
  | none => exact piecewise_poly_approx1_adapt_body_on_linspace fit LEGENDRE _ depth lb ub
  | some aopts => exact piecewise_poly_approx1_adapt_body_on_linspace fit LEGENDRE aopts depth lb ub

/-- The three points of `linspace(1e16, 1e16 + 2, 3)` in doubles: the middle
point `1e16 + 1` is not a double and rounds to `1e16`. -/
theorem linspace_binade53_three :
    linspace_binade53 10000000000000000 10000000000000002 3
      = [10000000000000000, 10000000000000000, 10000000000000002] := by
  decide!

end AdaptGridProofs

section AdaptGridClaims

set_option linter.unusedTactic false
set_option linter.unreachableTactic false

/-- C18 (as stated, refuted): with `minsize = 1e-5 > 0`, `nregions = 2`,
`lb = 1e16 < ub = 1e16 + 2` and no caller-supplied points, the recursion of
`piecewise_poly_approx1_adapt` in double arithmetic does not end for a target
whose fit keeps coefficients above `epsilon`.  The points of
`linspace(1e16, 1e16 + 2, 3)` are `1e16, 1e16, 1e16 + 2`, so the second child
is the parent interval again: its width 2 is not below `minsize`, it is
refined by a call with the same bounds, and no number of nested calls
suffices. -/
theorem piecewise_poly_approx1_adapt_rounded_counterexample :
    0 < twoRegionOpts.minsize ∧ 2 ≤ twoRegionOpts.nregions ∧
    (10000000000000000 : ℚ) < 10000000000000002 ∧ twoRegionOpts.pts = none ∧
    FitOnInterval steepFit ∧
    linspace_binade53 10000000000000000 10000000000000002 3
      = [10000000000000000, 10000000000000000, 10000000000000002] ∧
    piecewise_poly_approx1_on linspace_binade53 steepFit 0 10000000000000000
        10000000000000002 (some twoRegionOpts)
      = .ret (node [leaf (steepFit 0 8 10000000000000000 10000000000000000),
          leaf (steepFit 0 8 10000000000000000 10000000000000002)]) ∧
    piecewise_poly_approx1_adapt_refine twoRegionOpts
        (steepFit 0 8 10000000000000000 10000000000000002) = .ret true ∧
    ∀ depth, piecewise_poly_approx1_adapt_on linspace_binade53 steepFit 0 depth
      10000000000000000 10000000000000002 (some twoRegionOpts) = none := by
  have hgrid := linspace_binade53_three
  have happrox : piecewise_poly_approx1_on linspace_binade53 steepFit 0 10000000000000000
        10000000000000002 (some twoRegionOpts)
      = .ret (node [leaf (steepFit 0 8 10000000000000000 10000000000000000),
          leaf (steepFit 0 8 10000000000000000 10000000000000002)]) := by
    show piecewise_poly_approx1_body_on linspace_binade53 steepFit 10000000000000000
      10000000000000002 0 7 2 none = _
    unfold piecewise_poly_approx1_body_on
    rw [if_neg (by decide)]
    have h3 : (2 + 1) % SIZE_MOD = 3 := by decide
    have h8 : (7 + 1) % SIZE_MOD = 8 := by decide
    simp only [h3, h8, hgrid]
    rfl
  have hfirst : piecewise_poly_approx1_adapt_refine twoRegionOpts
      (steepFit 0 8 10000000000000000 10000000000000000) = .ret false :=
    Outcome.eq_ret_of_retIs _ _ (by decide!)
  have hsecond : piecewise_poly_approx1_adapt_refine twoRegionOpts
      (steepFit 0 8 10000000000000000 10000000000000002) = .ret true :=
    Outcome.eq_ret_of_retIs _ _ (by decide!)
  refine ⟨by norm_num [twoRegionOpts], by decide, by norm_num, rfl,
    fun _ _ _ _ => ⟨rfl, rfl, Nat.le_refl _⟩, hgrid, happrox, hsecond, ?_⟩
  intro depth
  show piecewise_poly_approx1_adapt_body_on linspace_binade53 steepFit 0 twoRegionOpts depth
    10000000000000000 10000000000000002 = none
  induction depth with
  | zero => rfl
  | succ depth ih =>
    rw [piecewise_poly_approx1_adapt_body_on, happrox]
    simp only [budgetBind, piecewise_poly_approx1_adapt_loop, hfirst, hsecond]
    simp only [twoRegionOpts, steepFit, Option.isSome_none, Bool.false_eq_true, if_false,
      if_true]
    rw [show piecewise_poly_approx1_adapt_body_on linspace_binade53 steepFit 0
        ⟨0, 7, 1 / 100000, 2, 1 / 100000000, 2, none⟩ depth 10000000000000000
        10000000000000002 = none from ih]

end AdaptGridClaims

/-! ## `generic_function_daxpby` with the refit of `piecewisepoly.c` -/

section DaxpbyRefit

variable {L R : Type}

/-- Sequencing of a call that ends with what follows it, which may run out of
recursion budget (`none`). -/
def Outcome.thenBudget {P α β : Type} (x : Outcome P α) (k : α → Option (Outcome P β)) :
    Option (Outcome P β) :=
  match x with
  | .ret v => k v
  | .exit status => some (.exit status)
  | .assertion => some .assertion
  | .handed routine arg => some (.handed routine arg)
  | .undefined => some .undefined

/-- The statements `pw = piecewise_poly_daxpby(a, x, b, y);
out = generic_function_alloc(dim, PIECEWISE, &st); out->f = pw` of
`generic_function_daxpby`, the call being the routine of `piecewisepoly.c`
run with the backend fit `approx` and at most `depth` nested calls of the
adaptive routine. -/
def generic_function_daxpby_piecewise [LinearOrderedField R]
    (approx : (R → Outcome Unit R) → Int → Nat → R → R → OrthPolyExpansion R)
    (orth_poly_expansion_eval : OrthPolyExpansion R → R → R) (LEGENDRE : Int) (depth : Nat)
    (dim : Nat) (st : Int) (a : R) (x : Option (PiecewisePoly (OrthPolyExpansion R))) (b : R)
    (y : Option (PiecewisePoly (OrthPolyExpansion R))) :
    Option (Outcome (Payload (OrthPolyExpansion R) L)
      (Option (GenericFunction (OrthPolyExpansion R) L))) :=
  (piecewise_poly_daxpby approx orth_poly_expansion_eval LEGENDRE depth a x b y).map fun r =>
    r.weaken.bind fun pw =>
      .ret (some ((generic_function_alloc dim .PIECEWISE st).setF (.pw pw)))

/-- The C routine `generic_function_daxpby(a, x, b, y)` with its calls of
`piecewise_poly_daxpby` made on the routine of `piecewisepoly.c` (the adaptive
refit of `pw_eval_sum`), which need not return; the branches that do not reach
that call are those of `generic_function_daxpby`.  `none` is returned when the
refit needs more than `depth` nested calls. -/
def generic_function_daxpby_refit [LinearOrderedField R]
    (B : Backends (OrthPolyExpansion R) L R)
    (approx : (R → Outcome Unit R) → Int → Nat → R → R → OrthPolyExpansion R)
    (orth_poly_expansion_eval : OrthPolyExpansion R → R → R) (LEGENDRE : Int) (depth : Nat)
    (a : R) (x : Option (GenericFunction (OrthPolyExpansion R) L)) (b : R)
    (y : Option (GenericFunction (OrthPolyExpansion R) L)) :
    Option (Outcome (Payload (OrthPolyExpansion R) L)
      (Option (GenericFunction (OrthPolyExpansion R) L))) :=
  match x, y with
  | none, none => some .assertion
  | none, some y =>
      match y.fc with
      | .PIECEWISE =>
          (asPiecewise .piecewise_poly_daxpby y.f).thenBudget fun pwtemp =>
            generic_function_daxpby_piecewise approx orth_poly_expansion_eval LEGENDRE depth
              y.dim y.sub_type a none b (some pwtemp)
      | _ => some (generic_function_daxpby_single B a b false y)
  | some x, none =>
      match x.fc with
      | .PIECEWISE =>
          (asPiecewise .piecewise_poly_daxpby x.f).thenBudget fun pwtemp =>
            generic_function_daxpby_piecewise approx orth_poly_expansion_eval LEGENDRE depth
              x.dim x.sub_type a (some pwtemp) b none
      | _ => some (generic_function_daxpby_single B a b true x)
  | some x, some y =>
      if x.fc = y.fc then
        match x.fc with
        | .PIECEWISE =>
            (asPiecewise .piecewise_poly_daxpby x.f).thenBudget fun px =>
            (asPiecewise .piecewise_poly_daxpby y.f).thenBudget fun py =>
              generic_function_daxpby_piecewise approx orth_poly_expansion_eval LEGENDRE depth
                x.dim x.sub_type a (some px) b (some py)
        | _ => some (generic_function_daxpby B a (some x) b (some y))
      else if x.fc = .LINELM ∨ y.fc = .LINELM then
        some (.exit 1)
      else
        (asPiecewise .piecewise_poly_daxpby (promote x)).thenBudget fun ap =>
        (asPiecewise .piecewise_poly_daxpby (promote y)).thenBudget fun bp =>
          generic_function_daxpby_piecewise approx orth_poly_expansion_eval LEGENDRE depth
            x.dim x.sub_type a (some ap) b (some bp)

end DaxpbyRefit

section DaxpbyRefitLoopProofs

variable {R : Type}

theorem Outcome.bind_ne_exit {P α β : Type} (x : Outcome P α) (k : α → Outcome P β) (s : Nat)
    (hx : x ≠ .exit s) (hk : ∀ v, k v ≠ .exit s) : x.bind k ≠ .exit s := by
  cases x with
  | ret v => exact hk v
  | exit st =>
    intro h
    apply hx
    simpa [Outcome.bind] using h
  | assertion => intro h; cases h
  | handed r a => intro h; cases h
  | undefined => intro h; cases h

theorem Outcome.ofOption_ne_exit {P α : Type} (x : Option α) (s : Nat) :
    (Outcome.ofOption x : Outcome P α) ≠ .exit s := by
  cases x <;> intro h <;> cases h

theorem piecewise_poly_approx1_loop_ne_exit (fit : Int → Nat → R → R → OrthPolyExpansion R)
    (ptype : Int) (N : Nat) (pts : List R) (s : Nat) :
    ∀ (n ii : Nat), piecewise_poly_approx1_loop fit ptype N pts ii n ≠ .exit s
  | 0, _ => by
      intro h
      cases h
  | n + 1, ii => by
      rw [piecewise_poly_approx1_loop]
      refine Outcome.bind_ne_exit _ _ s (Outcome.ofOption_ne_exit _ s) (fun clb => ?_)
      refine Outcome.bind_ne_exit _ _ s (Outcome.ofOption_ne_exit _ s) (fun cub => ?_)
      refine Outcome.bind_ne_exit _ _ s
        (piecewise_poly_approx1_loop_ne_exit fit ptype N pts s n (ii + 1)) (fun rest => ?_)
      intro h
      cases h

end DaxpbyRefitLoopProofs

section DaxpbyRefitProofs

variable {L R : Type} [LinearOrderedField R]

set_option linter.unusedTactic false
set_option linter.unreachableTactic false

theorem budgetBind_ne_exit {α β : Type} (x : Option (Outcome Unit α))
    (k : α → Option (Outcome Unit β)) (s : Nat) (hx : x ≠ some (.exit s))
    (hk : ∀ v, k v ≠ some (.exit s)) : budgetBind x k ≠ some (.exit s) := by
  cases x with
  | none => intro h; cases h
  | some o =>
    cases o with
    | ret v => exact hk v
    | exit st =>
      intro h
      apply hx
      simpa [budgetBind] using h
    | assertion => intro h; cases h
    | handed r a => intro h; cases h
    | undefined => intro h; cases h

theorem piecewise_poly_approx1_ne_exit (fit : Int → Nat → R → R → OrthPolyExpansion R)
    (LEGENDRE : Int) (lb ub : R) (aoptsin : Option (PwPolyAdaptOpts R)) (s : Nat) :
    piecewise_poly_approx1 fit LEGENDRE lb ub aoptsin ≠ .exit s := by
  have hbody : ∀ ptype maxorder nregions pts,
      piecewise_poly_approx1_body fit lb ub ptype maxorder nregions pts ≠ .exit s := by
    intro ptype maxorder nregions pts
    unfold piecewise_poly_approx1_body
    split_ifs
    · intro h
      cases h
    · refine Outcome.bind_ne_exit _ _ s (piecewise_poly_approx1_loop_ne_exit _ _ _ _ s _ _)
        (fun bs => ?_)
      intro h
      cases h
  cases aoptsin with
  | none => exact hbody LEGENDRE 7 5 none
  | some aopts => exact hbody aopts.ptype aopts.maxorder aopts.nregions aopts.pts

theorem piecewise_poly_approx1_adapt_loop_ne_exit (aopts : PwPolyAdaptOpts R)
    (adapt : R → R → Option (Outcome Unit (PiecewisePoly (OrthPolyExpansion R)))) (s : Nat)
    (hadapt : ∀ lo hi, adapt lo hi ≠ some (.exit s)) :
    ∀ bs : List (PiecewisePoly (OrthPolyExpansion R)),
    piecewise_poly_approx1_adapt_loop aopts adapt bs ≠ some (.exit s)
  | [] => by
      intro h
      cases h
  | node _ :: _ => by
      intro h
      cases h
  | leaf o :: rest => by
      rw [piecewise_poly_approx1_adapt_loop]
      refine budgetBind_ne_exit _ _ s ?_ (fun refine => ?_)
      · unfold piecewise_poly_approx1_adapt_refine
        split_ifs <;> intro h <;> cases h
      · refine budgetBind_ne_exit _ _ s ?_ (fun b => ?_)
        · split_ifs
          · intro h
            cases h
          · exact hadapt _ _
          · intro h
            cases h
        · refine budgetBind_ne_exit _ _ s
            (piecewise_poly_approx1_adapt_loop_ne_exit aopts adapt s hadapt rest) (fun bs => ?_)
          intro h
          cases h

theorem piecewise_poly_approx1_adapt_body_ne_exit
    (fit : Int → Nat → R → R → OrthPolyExpansion R) (LEGENDRE : Int)
    (aopts : PwPolyAdaptOpts R) (s : Nat) :
    ∀ (depth : Nat) (lb ub : R),
    piecewise_poly_approx1_adapt_body fit LEGENDRE aopts depth lb ub ≠ some (.exit s)
  | 0, _, _ => by
      intro h
      cases h
  | depth + 1, lb, ub => by
      rw [piecewise_poly_approx1_adapt_body]
      refine budgetBind_ne_exit _ _ s ?_ (fun poly => ?_)
      · intro h
        exact piecewise_poly_approx1_ne_exit fit LEGENDRE lb ub (some aopts) s
          (Option.some.inj h)
      · cases poly with
        | leaf o =>
          intro h
          cases h
        | node bs =>
          refine budgetBind_ne_exit _ _ s
            (piecewise_poly_approx1_adapt_loop_ne_exit aopts _ s
              (fun lo hi => piecewise_poly_approx1_adapt_body_ne_exit fit LEGENDRE aopts s
                depth lo hi) bs) (fun bs1 => ?_)
          intro h
          cases h

/-- The routine `piecewise_poly_daxpby` does not end the process (allocation
taken to succeed). -/
theorem piecewise_poly_daxpby_ne_exit
    (approx : (R → Outcome Unit R) → Int → Nat → R → R → OrthPolyExpansion R)
    (ev : OrthPolyExpansion R → R → R) (LEGENDRE : Int) (depth : Nat) (a b : R)
    (x y : Option (PiecewisePoly (OrthPolyExpansion R))) (s : Nat) :
    piecewise_poly_daxpby approx ev LEGENDRE depth a x b y ≠ some (.exit s) := by
  unfold piecewise_poly_daxpby
  cases x with
  | none =>
    intro h
    cases h
  | some px =>
    refine budgetBind_ne_exit _ _ s ?_ (fun lb => ?_)
    · intro h
      exact Outcome.ofOption_ne_exit _ s (Option.some.inj h)
    · refine budgetBind_ne_exit _ _ s ?_ (fun ub => ?_)
      · intro h
        exact Outcome.ofOption_ne_exit _ s (Option.some.inj h)
      · exact piecewise_poly_approx1_adapt_body_ne_exit _ LEGENDRE _ s depth lb ub

/-- The wrapped call returns exactly when `piecewise_poly_daxpby` returns a
tree, and then the function returned is non-NULL, of class `PIECEWISE`, and
holds that tree; it never ends the process. -/
theorem generic_function_daxpby_piecewise_spec
    (approx : (R → Outcome Unit R) → Int → Nat → R → R → OrthPolyExpansion R)
    (ev : OrthPolyExpansion R → R → R) (LEGENDRE : Int) (depth dim : Nat) (st : Int) (a b : R)
    (x y : Option (PiecewisePoly (OrthPolyExpansion R))) :
    (∀ t, piecewise_poly_daxpby approx ev LEGENDRE depth a x b y = some (.ret t) →
      generic_function_daxpby_piecewise (L := L) approx ev LEGENDRE depth dim st a x b y
        = some (.ret (some ((generic_function_alloc dim .PIECEWISE st).setF (.pw t))))) ∧
    ((∃ g, generic_function_daxpby_piecewise (L := L) approx ev LEGENDRE depth dim st a x b y
        = some (.ret g)) →
      ∃ t, piecewise_poly_daxpby approx ev LEGENDRE depth a x b y = some (.ret t)) ∧
    (∀ s, generic_function_daxpby_piecewise (L := L) approx ev LEGENDRE depth dim st a x b y
      ≠ some (.exit s)) := by
  have hne := piecewise_poly_daxpby_ne_exit approx ev LEGENDRE depth a b x y
  unfold generic_function_daxpby_piecewise
  cases hsrc : piecewise_poly_daxpby approx ev LEGENDRE depth a x b y with
  | none =>
    refine ⟨fun t h => (by cases h), ?_, fun s h => (by cases h)⟩
    rintro ⟨g, h⟩
    cases h
  | some r =>
    rw [hsrc] at hne
    cases r with
    | ret t =>
      refine ⟨fun t1 h => ?_, fun _ => ⟨t, rfl⟩, fun s h => (by cases h)⟩
      cases h
      rfl
    | exit st1 => exact absurd rfl (hne st1)
    | assertion =>
      refine ⟨fun t h => (by cases h), ?_, fun s h => (by cases h)⟩
      rintro ⟨g, h⟩
      cases h
    | handed r1 a1 =>
      refine ⟨fun t h => (by cases h), ?_, fun s h => (by cases h)⟩
      rintro ⟨g, h⟩
      cases h
    | undefined =>
      refine ⟨fun t h => (by cases h), ?_, fun s h => (by cases h)⟩
      rintro ⟨g, h⟩
      cases h

end DaxpbyRefitProofs

section DaxpbyRefitClaims

variable {L R : Type} [LinearOrderedField R]

set_option linter.unusedTactic false
set_option linter.unreachableTactic false

end DaxpbyRefitClaims

section SelfCancelProofs

variable {L R : Type} [LinearOrderedField R]

set_option linter.unusedTactic false
set_option linter.unreachableTactic false

/-- A fit all of whose coefficients are zero is not refined. -/
theorem piecewise_poly_approx1_adapt_refine_zero (aopts : PwPolyAdaptOpts R)
    (o : OrthPolyExpansion R) (heps : 0 ≤ aopts.epsilon) (hlen : o.num_poly ≤ o.coeff.length)
    (hz : ∀ c, c ∈ o.coeff → c = 0) :
    piecewise_poly_approx1_adapt_refine aopts o = .ret false := by
  have hany : ∀ n : Nat, ((List.range n).any fun jj =>
      decide (|o.coeff.getD (o.num_poly - 1 - jj) 0| > aopts.epsilon * 1)) = false := by
    intro n
    rw [List.any_eq_false]
    intro jj _
    have h0 : o.coeff.getD (o.num_poly - 1 - jj) 0 = 0 := by
      rw [List.getD_eq_getElem?_getD]
      cases hc : o.coeff[o.num_poly - 1 - jj]? with
      | none => rfl
      | some c => exact hz c (List.getElem?_mem hc)
    rw [h0, abs_zero]
    simp only [decide_eq_true_eq, gt_iff_lt, not_lt, mul_one]
    exact heps
  unfold piecewise_poly_approx1_adapt_refine
  rw [if_neg (by omega)]
  congr 1
  by_cases hw : o.upper_bound - o.lower_bound < aopts.minsize
  · rw [if_pos hw]
  · rw [if_neg hw, hany]

/-- The loop of `piecewise_poly_approx1_adapt` over leaves none of which is
refined returns them as they are, whatever the recursion budget. -/
theorem piecewise_poly_approx1_adapt_loop_keep (aopts : PwPolyAdaptOpts R)
    (adapt : R → R → Option (Outcome Unit (PiecewisePoly (OrthPolyExpansion R)))) :
    ∀ os : List (OrthPolyExpansion R),
    (∀ o, o ∈ os → piecewise_poly_approx1_adapt_refine aopts o = .ret false) →
    piecewise_poly_approx1_adapt_loop aopts adapt (os.map leaf) = some (.ret (os.map leaf))
  | [], _ => rfl
  | o :: rest, h => by
      rw [List.map_cons, piecewise_poly_approx1_adapt_loop, h o (List.mem_cons_self _ _)]
      simp only [budgetBind, Bool.false_eq_true, if_false]
      rw [piecewise_poly_approx1_adapt_loop_keep aopts adapt rest
        (fun c hc => h c (List.mem_cons_of_mem _ hc))]

/-- When every fit has only zero coefficients the adaptive routine returns
with one nested call. -/
theorem piecewise_poly_approx1_adapt_body_zero_ret
    (fit : Int → Nat → R → R → OrthPolyExpansion R)
    (hub : ∀ p N lo hi, (fit p N lo hi).upper_bound = hi)
    (hlen : ∀ p N lo hi, (fit p N lo hi).num_poly ≤ (fit p N lo hi).coeff.length)
    (hzc : ∀ p N lo hi c, c ∈ (fit p N lo hi).coeff → c = 0)
    (LEGENDRE : Int) (aopts : PwPolyAdaptOpts R) (heps : 0 ≤ aopts.epsilon)
    (hpts : aopts.pts = none) (hn : 1 ≤ aopts.nregions) (hs : aopts.nregions + 1 < SIZE_MOD)
    (depth : Nat) (lo hi : R) :
    ∃ tr, piecewise_poly_approx1_adapt_body fit LEGENDRE aopts (depth + 1) lo hi
      = some (.ret tr) := by
  rw [piecewise_poly_approx1_adapt_body]
  rcases piecewise_poly_approx1_uniform fit hub LEGENDRE aopts lo hi hpts hn hs with
    ⟨p, N, l, hp⟩ | ⟨os, hos, hfit, _⟩
  · rw [hp]
    exact ⟨_, rfl⟩
  · rw [hos]
    simp only [budgetBind]
    rw [piecewise_poly_approx1_adapt_loop_keep aopts _ os (fun o ho => by
      obtain ⟨p, N, l, u, rfl⟩ := hfit o ho
      exact piecewise_poly_approx1_adapt_refine_zero aopts _ heps (hlen p N l u)
        (hzc p N l u))]
    exact ⟨_, rfl⟩

/-- The routine `piecewise_poly_daxpby(1, p, -1, p)` returns with one nested
call of the adaptive routine when the fit of a function that is 0 everywhere
has only zero coefficients. -/
theorem piecewise_poly_daxpby_cancel_ret
    (approx : (R → Outcome Unit R) → Int → Nat → R → R → OrthPolyExpansion R)
    (ev : OrthPolyExpansion R → R → R)
    (hub : ∀ h p N lo hi, (approx h p N lo hi).upper_bound = hi)
    (hzc : ∀ h p N lo hi, (∀ t, h t = .ret 0) →
      (approx h p N lo hi).num_poly ≤ (approx h p N lo hi).coeff.length ∧
      ∀ c, c ∈ (approx h p N lo hi).coeff → c = 0)
    (LEGENDRE : Int) (depth : Nat) (p : PiecewisePoly (OrthPolyExpansion R))
    (hne : nonemptyInterior p = true) :
    ∃ tr, piecewise_poly_daxpby approx ev LEGENDRE (depth + 1) 1 (some p) (-1) (some p)
      = some (.ret tr) := by
  obtain ⟨ub, hubp⟩ := piecewise_poly_ub_isSome p hne
  obtain ⟨lb, hlbp⟩ := piecewise_poly_lb_isSome p hne
  rw [piecewise_poly_daxpby, hlbp, hubp]
  simp only [Outcome.ofOption, budgetBind, piecewise_poly_approx1_adapt]
  exact piecewise_poly_approx1_adapt_body_zero_ret
    (approx (pw_eval_sum ev 1 (-1) (some p) (some p)))
    (fun q N lo hi => hub _ q N lo hi)
    (fun q N lo hi => (hzc _ q N lo hi (pw_eval_sum_cancel ev p hne)).1)
    (fun q N lo hi => (hzc _ q N lo hi (pw_eval_sum_cancel ev p hne)).2)
    LEGENDRE _ (by norm_num) rfl (by norm_num) (by norm_num [SIZE_MOD]) depth lb ub

end SelfCancelProofs

section SelfCancelClaims

variable {L R : Type} [LinearOrderedField R]

set_option linter.unusedTactic false
set_option linter.unreachableTactic false

/-- C24: let the backends be exact: `orth_poly_expansion_daxpby(a, x, b, y)`
has the values `a*x(t) + b*y(t)`; `lin_elem_exp_copy` keeps the values,
`lin_elem_exp_scale` multiplies them and `lin_elem_exp_axpy` leaves in `y` the
values `a*x(t) + y(t)`; the polynomial fit of a function that is 0 everywhere
has only zero coefficients, at least `num_poly` of them, is 0 everywhere and
has the upper bound it is given.  Then for `g` of class `POLYNOMIAL` or
`LINELM` the function returned by `generic_function_daxpby(1, g, -1, g)`
evaluates to 0 at every point.  For `g` of class `PIECEWISE` holding a tree
`p` whose interior nodes have a child, the function `pw_eval_sum` handed to
the adaptive fitter by `piecewise_poly_daxpby(1, p, -1, p)` is 0 at every
point, no branch of the fit is refined, so that the routine returns with one
nested call of the adaptive routine, and the function returned evaluates to 0
at every point up to the upper bound of `p`. -/
theorem generic_function_daxpby_refit_self_cancel (B : Backends (OrthPolyExpansion R) L R)
    (ev : OrthPolyExpansion R → R → R) (evL : L → R → R)
    (approx : (R → Outcome Unit R) → Int → Nat → R → R → OrthPolyExpansion R)
    (LEGENDRE : Int) (depth : Nat) (p : PiecewisePoly (OrthPolyExpansion R))
    (hO : ∀ a b x y t,
      ev (B.orth_poly_expansion_daxpby a (some x) b (some y)) t = a * ev x t + b * ev y t)
    (hLc : ∀ l t, evL (B.lin_elem_exp_copy l) t = evL l t)
    (hLs : ∀ a l t, evL (B.lin_elem_exp_scale a l) t = a * evL l t)
    (hLa : ∀ a x y t, evL (B.lin_elem_exp_axpy a x y).2 t = a * evL x t + evL y t)
    (hz : ∀ h q N lo hi, (∀ t, h t = .ret 0) → ∀ t, ev (approx h q N lo hi) t = 0)
    (hub : ∀ h q N lo hi, (approx h q N lo hi).upper_bound = hi)
    (hzc : ∀ h q N lo hi, (∀ t, h t = .ret 0) →
      (approx h q N lo hi).num_poly ≤ (approx h q N lo hi).coeff.length ∧
      ∀ c, c ∈ (approx h q N lo hi).coeff → c = 0)
    (hne : nonemptyInterior p = true) :
    (∀ (d : Nat) (st : Int) (o : OrthPolyExpansion R) (t : R),
      ∃ z, generic_function_daxpby_refit B approx ev LEGENDRE depth 1
          (some ⟨d, .POLYNOMIAL, st, .ope o⟩) (-1) (some ⟨d, .POLYNOMIAL, st, .ope o⟩)
          = some (.ret (some z)) ∧
        generic_function_1d_eval ev evL z t = .ret 0) ∧
    (∀ (d : Nat) (st : Int) (l : L) (t : R),
      ∃ z, generic_function_daxpby_refit B approx ev LEGENDRE depth 1
          (some ⟨d, .LINELM, st, .lexp l⟩) (-1) (some ⟨d, .LINELM, st, .lexp l⟩)
          = some (.ret (some z)) ∧
        generic_function_1d_eval ev evL z t = .ret 0) ∧
    (∀ t, pw_eval_sum ev 1 (-1) (some p) (some p) t = .ret 0) ∧
    ∀ (d : Nat) (st : Int),
      ∃ z ub, generic_function_daxpby_refit B approx ev LEGENDRE (depth + 1) 1
          (some ⟨d, .PIECEWISE, st, .pw p⟩) (-1) (some ⟨d, .PIECEWISE, st, .pw p⟩)
          = some (.ret (some z)) ∧
        piecewise_poly_ub p = some ub ∧
        ∀ t, t ≤ ub → generic_function_1d_eval ev evL z t = .ret 0 := by
  refine ⟨?_, ?_, pw_eval_sum_cancel ev p hne, ?_⟩
  · intro d st o t
    refine ⟨_, rfl, ?_⟩
    simp only [generic_function_1d_eval, generic_function_alloc, GenericFunction.setF,
      asPolynomial, Outcome.ret_bind, hO]
    congr 1
    ring
  · intro d st l t
    refine ⟨_, rfl, ?_⟩
    simp only [generic_function_1d_eval, generic_function_alloc, GenericFunction.setF,
      asLinElem, Outcome.ret_bind, hLa, hLs, hLc]
    congr 1
    ring
  · intro d st
    obtain ⟨tr, htr⟩ := piecewise_poly_daxpby_cancel_ret approx ev hub hzc LEGENDRE depth p hne
    obtain ⟨ub, hubp, hzero⟩ := piecewise_poly_daxpby_cancel approx ev hz hub LEGENDRE
      (depth + 1) p tr hne htr
    refine ⟨(generic_function_alloc d .PIECEWISE st).setF (.pw tr), ub, ?_, hubp, ?_⟩
    · exact (generic_function_daxpby_piecewise_spec approx ev LEGENDRE (depth + 1) d st 1 (-1)
        (some p) (some p)).1 tr htr
    · intro t ht
      simp only [generic_function_1d_eval, generic_function_alloc, GenericFunction.setF,
        asPiecewise, Outcome.ret_bind, hzero.2 t ht]
      rfl

/-- C24 on constant functions over the rationals, with the constant fit, for
the leaf with the constant 7 on `[0, 1]`. -/
theorem generic_function_daxpby_refit_self_cancel_witness :
    (∀ (a b : ℚ) (x y : OrthPolyExpansion ℚ) (t : ℚ),
      headCoeff (headBackends.orth_poly_expansion_daxpby a (some x) b (some y)) t
        = a * headCoeff x t + b * headCoeff y t) ∧
    (∀ (h : ℚ → Outcome Unit ℚ) (q : Int) (N : Nat) (lo hi : ℚ),
      (∀ t, h t = .ret 0) → ∀ t, headCoeff (startFit h q N lo hi) t = 0) ∧
    (∀ (h : ℚ → Outcome Unit ℚ) (q : Int) (N : Nat) (lo hi : ℚ),
      (∀ t, h t = .ret 0) →
      (startFit h q N lo hi).num_poly ≤ (startFit h q N lo hi).coeff.length ∧
      ∀ c, c ∈ (startFit h q N lo hi).coeff → c = 0) ∧
    nonemptyInterior (leaf (⟨0, 1, 0, 1, [7]⟩ : OrthPolyExpansion ℚ)) = true ∧
    ((∀ (d : Nat) (st : Int) (o : OrthPolyExpansion ℚ) (t : ℚ),
      ∃ z, generic_function_daxpby_refit headBackends startFit headCoeff 0 0 1
          (some ⟨d, .POLYNOMIAL, st, .ope o⟩) (-1) (some ⟨d, .POLYNOMIAL, st, .ope o⟩)
          = some (.ret (some z)) ∧
        generic_function_1d_eval headCoeff (fun (l : ℚ) _ => l) z t = .ret 0) ∧
    (∀ (d : Nat) (st : Int) (l : ℚ) (t : ℚ),
      ∃ z, generic_function_daxpby_refit headBackends startFit headCoeff 0 0 1
          (some ⟨d, .LINELM, st, .lexp l⟩) (-1) (some ⟨d, .LINELM, st, .lexp l⟩)
          = some (.ret (some z)) ∧
        generic_function_1d_eval headCoeff (fun (l : ℚ) _ => l) z t = .ret 0) ∧
    (∀ t, pw_eval_sum headCoeff 1 (-1) (some (leaf ⟨0, 1, 0, 1, [7]⟩))
      (some (leaf ⟨0, 1, 0, 1, [7]⟩)) t = .ret 0) ∧
    ∀ (d : Nat) (st : Int),
      ∃ z ub, generic_function_daxpby_refit headBackends startFit headCoeff 0 (0 + 1) 1
          (some ⟨d, .PIECEWISE, st, .pw (leaf ⟨0, 1, 0, 1, [7]⟩)⟩) (-1)
          (some ⟨d, .PIECEWISE, st, .pw (leaf ⟨0, 1, 0, 1, [7]⟩)⟩) = some (.ret (some z)) ∧
        piecewise_poly_ub (leaf (⟨0, 1, 0, 1, [7]⟩ : OrthPolyExpansion ℚ)) = some ub ∧
        ∀ t, t ≤ ub → generic_function_1d_eval headCoeff (fun (l : ℚ) _ => l) z t = .ret 0) :=
  have hzc : ∀ (h : ℚ → Outcome Unit ℚ) (q : Int) (N : Nat) (lo hi : ℚ),
      (∀ t, h t = .ret 0) →
      (startFit h q N lo hi).num_poly ≤ (startFit h q N lo hi).coeff.length ∧
      ∀ c, c ∈ (startFit h q N lo hi).coeff → c = 0 := by
    intro h q N lo hi hh
    refine ⟨Nat.le_refl _, ?_⟩
    intro c hc
    simp only [startFit, hh lo, List.mem_singleton] at hc
    exact hc
  ⟨headBackends_daxpby, startFit_zero, hzc, rfl,
    generic_function_daxpby_refit_self_cancel headBackends headCoeff (fun (l : ℚ) _ => l)
      startFit 0 0 (leaf ⟨0, 1, 0, 1, [7]⟩) headBackends_daxpby (fun _ _ => rfl)
      (fun _ _ _ => rfl) (fun _ _ _ _ => rfl) startFit_zero (fun _ _ _ _ _ => rfl) hzc rfl⟩

end SelfCancelClaims

end C3
